import Mathlib

/-!
# A FAT file system on a virtual disk

Shallow embedding of `src/src/fs.c` (the cleaned-up file system; `src/fs.c` is an
older draft of the same functions, the places where the two differ are modelled
by a parameter or a second definition).

* C `int` values are `Int`; the `size_t` byte counts are `Nat` reduced modulo `2^64`
  where the source mixes them with `int`, and converted to `int` modulo `2^32`.
* The global arrays `FAT`, `DIR`, `fildes_array` and the disk are functions on `Int`;
  every array access of the source is guarded by a bounds test in the model, and an
  access outside the array makes the operation return `none` (undefined behaviour).
* An operation that returns to its caller yields `some (value, state)`.
* The freeing loop of `fs_truncate` ends with a store outside the FAT whenever it frees
  a block, and the loop of `fs_delete` works on one word outside the FAT when the head
  of the slot is no block of the disk. `fs_truncate` and `fs_delete` model these as
  `none`; `fs_truncate_lax` and `fs_delete_lax` model them as changing no entry of the
  FAT, so that a sequence of calls goes on after them (`step_lax`, `run_lax`).
-/

namespace VFS

/-! ## Constants (`src/src/fs.c:9-18`) -/

abbrev MAX_FILES_ALLOWED : Int := 64
abbrev MAX_F_NAME : Nat := 15
abbrev MAX_FILDES : Int := 32
/-- STORAGE of `src/src/fs.c:12`. -/
abbrev STORAGE : Int := 4096 * 4096
/-- STORAGE of the draft `src/fs.c:12`. -/
abbrev STORAGE_draft : Int := 4096 * 4096 * 2
abbrev DISK_BLOCKS : Int := 8192
abbrev BLOCK_SIZE : Int := 4096
abbrev FREE : Int := -1
abbrev END_MARKER : Int := -2

/-! ## Data model (`src/src/fs.c:20-55`) -/

structure super_block where
  fat_idx : Int
  fat_len : Int
  dir_idx : Int
  dir_len : Int
  data_idx : Int

/-- Directory entry; `name` is the C string held in the 16-byte field. -/
structure dir_entry where
  used : Int
  name : String
  size : Int
  head : Int
  ref_cnt : Int

structure file_descriptor where
  used : Int
  file : Int
  offset : Int

/-- One disk block or a `char[BLOCK_SIZE]` buffer: byte `i` for `0 ≤ i < BLOCK_SIZE`. -/
abbrev Block := Int → UInt8

/-- The globals of `fs.c` together with the content of the disk image. -/
structure State where
  fs : super_block
  fildes_array : Int → file_descriptor
  FAT : Int → Int
  DIR : Int → dir_entry
  file_counter : Int
  mounted : Int
  validfs : Int
  disk : Int → Block

/-- Array store `a[i] = v`. -/
def upd {α : Type} (a : Int → α) (i : Int) (v : α) : Int → α :=
  fun j => if j = i then v else a j

/-- Upward search `for (i = lo; i < lo + n; i++) if (p i) break;`: the first index
that satisfies `p`, or `none` when the loop runs to its bound. -/
def scan (p : Int → Bool) : Nat → Int → Option Int
  | 0, _ => none
  | n + 1, i => if p i then some i else scan p n (i + 1)

/-- Number of FREE entries among `FAT[j], ..., FAT[j + n - 1]`. -/
def freeCount (FAT : Int → Int) : Nat → Int → Nat
  | 0, _ => 0
  | n + 1, j => (if FAT j = FREE then 1 else 0) + freeCount FAT n (j + 1)

/-- Index test of an access `FAT[b]` or of a disk block number. -/
def inDisk (b : Int) : Prop := 0 ≤ b ∧ b < DISK_BLOCKS

instance (b : Int) : Decidable (inDisk b) := by
  unfold inDisk; exact inferInstance

/-- Conversion of an `int` to `size_t` (64 bits). -/
def toSizeT (x : Int) : Nat := (x % 2 ^ 64).toNat

/-- Conversion of a `size_t` to `int` (32 bits, two's complement). -/
def toInt32 (n : Nat) : Int := ((n : Int) + 2 ^ 31) % 2 ^ 32 - 2 ^ 31

/-! ## Disk adapter -/

/-- Modelled from the spec: `block_read(i, buf)` of the disk adapter (`disk.h`, not in
the repository sources) transfers exactly `BLOCK_SIZE` bytes for an index in
`[0, DISK_BLOCKS)`; `none` stands for its return value `-1`, which leaves `buf` as it is. -/
def block_read (disk : Int → Block) (i : Int) : Option Block :=
  if inDisk i then some (disk i) else none

/-- Modelled from the spec: `block_write(i, buf)` of the disk adapter (`disk.h`, not in
the repository sources); `none` stands for its return value `-1`. -/
def block_write (disk : Int → Block) (i : Int) (buf : Block) : Option (Int → Block) :=
  if inDisk i then some (upd disk i buf) else none

/-! ## Format and mount (`src/src/fs.c:58-148`) -/

/-- Directory entry as `calloc` leaves it. -/
def zero_entry : dir_entry := { used := 0, name := "", size := 0, head := 0, ref_cnt := 0 }

/-- In-memory effect of `make_fs` (`src/src/fs.c:58-102`) when the disk adapter succeeds:
superblock constants, every FAT entry FREE, zeroed directory. `image` is the content
of the disk image once the metadata blocks are written; `file_counter` is not reset. -/
def make_fs (s : State) (image : Int → Block) : Int × State :=
  let fat_idx : Int := 1
  let fat_len : Int := 4
  let dir_idx : Int := fat_len + fat_idx
  let dir_len : Int := 1
  (0, { s with
        fs := { fat_idx := fat_idx, fat_len := fat_len, dir_idx := dir_idx,
                dir_len := dir_len, data_idx := dir_len + dir_idx }
        FAT := fun _ => FREE
        DIR := fun _ => zero_entry
        validfs := 1
        mounted := 0
        disk := image })

/-- In-memory effect of `mount_fs` (`src/src/fs.c:105-148`) when the disk adapter
succeeds and the metadata blocks hold what the in-memory superblock, FAT and directory
hold. The code reads the three tables back from blocks 0, `fat_idx ..` and `dir_idx`
(lines 117-132); the model keeps the tables in memory and resets the reference counts
and the descriptors. The two agree when no call has changed the tables since the
`make_fs` or `umount_fs` that wrote the blocks, and only then: `exact_at` keeps a
sequence of calls to that case, it has no file operation on an unmounted volume. -/
def mount_fs (s : State) : Int × State :=
  if s.mounted ≠ 0 ∨ s.validfs = 0 then (-1, s)
  else
    (0, { s with
          DIR := fun i =>
            if 0 ≤ i ∧ i < MAX_FILES_ALLOWED then { s.DIR i with ref_cnt := 0 } else s.DIR i
          fildes_array := fun i =>
            if 0 ≤ i ∧ i < MAX_FILDES then { used := 0, file := FREE, offset := 0 }
            else s.fildes_array i
          mounted := 1 })

/-! ## Descriptor table (`src/src/fs.c:194-248`) -/

/-- Model of `fs_open` (`src/src/fs.c:194-226`). -/
def fs_open (s : State) (name : String) : Option (Int × State) :=
  if s.file_counter = 0 then some (-1, s)
  else
    match scan (fun i => decide ((s.DIR i).name = name)) 64 0 with
    | none => some (-1, s)
    | some i =>
      match scan (fun j => decide ((s.fildes_array j).used = 0)) 32 0 with
      | none => some (-1, s)
      | some j =>
        some (j, { s with
                   fildes_array :=
                     upd s.fildes_array j { used := 1, file := (s.DIR i).head, offset := 0 }
                   DIR := upd s.DIR i { s.DIR i with ref_cnt := (s.DIR i).ref_cnt + 1 } })

/-- Model of `fs_close` (`src/src/fs.c:229-248`). -/
def fs_close (s : State) (fildes : Int) : Option (Int × State) :=
  if fildes ≥ MAX_FILDES ∨ fildes < 0 then some (-1, s)
  else
    match scan (fun i => decide ((s.DIR i).head = (s.fildes_array fildes).file
                                  ∧ (s.fildes_array fildes).used ≠ 0)) 64 0 with
    | none => some (-1, s)
    | some i =>
      some (0, { s with
                 DIR := upd s.DIR i { s.DIR i with ref_cnt := (s.DIR i).ref_cnt - 1 }
                 fildes_array := upd s.fildes_array fildes { used := 0, file := FREE, offset := 0 } })

/-! ## Directory table (`src/src/fs.c:251-339`) -/

/-- Model of `fs_create` (`src/src/fs.c:251-300`). The FAT search leaves `i` at the
first FREE index, or at the loop bound when there is none (the test at line 278 is
never true inside the loop). -/
def fs_create (s : State) (name : String) : Option (Int × State) :=
  if s.file_counter ≥ MAX_FILES_ALLOWED then some (-1, s)
  else if name.length > MAX_F_NAME then some (-1, s)
  else if (scan (fun i => decide ((s.DIR i).used ≠ 0 ∧ (s.DIR i).name = name)) 64 0).isSome then
    some (-1, s)
  else if s.fs.data_idx < 0 then none
  else
    let n := (DISK_BLOCKS - s.fs.data_idx).toNat
    let found := scan (fun j => decide (s.FAT j = FREE)) n s.fs.data_idx
    let i : Int := found.getD (s.fs.data_idx + n)
    let FAT1 := if found.isSome then upd s.FAT i END_MARKER else s.FAT
    match scan (fun j => decide ((s.DIR j).used = 0)) 64 0 with
    | none => some (-1, { s with FAT := FAT1 })
    | some j =>
      some (0, { s with
                 FAT := FAT1
                 file_counter := s.file_counter + 1
                 DIR := upd s.DIR j { used := 1, name := name, size := 0, head := i, ref_cnt := 0 }
                 fs := { s.fs with dir_len := s.fs.dir_len + 1 } })

/-- The `while` loop of `fs_delete` (`src/src/fs.c:316-323`): the test reads
`FAT[head]` on every pass while `block` moves along the chain. `none` is an access
outside the FAT. -/
def deleteLoop (head : Int) : Nat → (Int → Int) → Int → Option (Int → Int)
  | 0, FAT, _ => if FAT head ≠ FREE then none else some FAT
  | n + 1, FAT, block =>
    if FAT head ≠ FREE then
      if inDisk block then
        let next := FAT block
        let FAT1 := upd FAT block FREE
        if next = END_MARKER then some FAT1 else deleteLoop head n FAT1 next
      else none
    else some FAT

/-- Model of `fs_delete` (`src/src/fs.c:303-339`). The loop has fuel for every block
of the disk. -/
def fs_delete (s : State) (name : String) : Option (Int × State) :=
  if name.length > MAX_F_NAME then some (-1, s)
  else
    match scan (fun i => decide ((s.DIR i).name = name ∧ (s.DIR i).ref_cnt = 0)) 64 0 with
    | none => some (-1, s)
    | some i =>
      let head := (s.DIR i).head
      if inDisk head then
        match deleteLoop head 8192 s.FAT head with
        | none => none
        | some FAT1 =>
          some (0, { s with
                     FAT := FAT1
                     DIR := upd s.DIR i { s.DIR i with used := 0, size := 0, head := FREE, name := "" }
                     fs := { s.fs with dir_len := s.fs.dir_len - 1 }
                     file_counter := s.file_counter - 1 })
      else none

/-! ## Byte I/O (`src/src/fs.c:342-518`) -/

/-- The positioning loop `while (offset >= BLOCK_SIZE) { offset -= BLOCK_SIZE; prev = block;
block = FAT[block]; }` (`src/src/fs.c:380-383`, `457-461`); it is run with fuel
`offset / BLOCK_SIZE`, the number of passes it makes. Result: `(offset, prev, block)`. -/
def walk (FAT : Int → Int) : Nat → Int → Int → Int → Option (Int × Int × Int)
  | 0, offset, prev, block => some (offset, prev, block)
  | n + 1, offset, prev, block =>
    if offset ≥ BLOCK_SIZE then
      if inDisk block then walk FAT n (offset - BLOCK_SIZE) block (FAT block) else none
    else some (offset, prev, block)

/-- The copy loop of `fs_read` (`src/src/fs.c:391-399`), for at most `n` indices from `i`.
Result: `(buffer, reading, remaining)`. -/
def readBytes (blocks : Block) : Nat → Int → (Int → UInt8) → Int → Int → (Int → UInt8) × Int × Int
  | 0, _, buffer, reading, remaining => (buffer, reading, remaining)
  | n + 1, i, buffer, reading, remaining =>
    let buffer1 := upd buffer reading (blocks i)
    if remaining - 1 = 0 then (buffer1, reading + 1, remaining - 1)
    else readBytes blocks n (i + 1) buffer1 (reading + 1) (remaining - 1)

/-- The block loop of `fs_read` (`src/src/fs.c:387-405`); the result of `block_read` is
not tested there, a failed read leaves `blocks` as it was. The fuel is the number of
bytes left, every pass copies at least one. `none` is an access outside an array. -/
def readLoop (FAT : Int → Int) (disk : Int → Block) :
    Nat → Int → Int → Block → (Int → UInt8) → Int → Int → Option (Int → UInt8)
  | 0, _, _, _, buffer, _, remaining => if remaining > 0 then none else some buffer
  | n + 1, block, offset, blocks, buffer, reading, remaining =>
    if remaining > 0 then
      if offset < 0 then none
      else
        let blocks1 := (block_read disk block).getD blocks
        let r := readBytes blocks1 (BLOCK_SIZE - offset).toNat offset buffer reading remaining
        if r.2.2 ≠ 0 then
          if inDisk block then readLoop FAT disk n (FAT block) 0 blocks1 r.1 r.2.1 r.2.2
          else none
        else some r.1
    else some buffer

/-- Model of `fs_read` (`src/src/fs.c:342-412`); `nbyte` is the `size_t` argument
(below `2^64`). The result holds the returned `int`, the caller's buffer after the
`memcpy` of line 408, and the globals. `calloc` cannot serve a request above
`2^63 - 1` bytes and yields `NULL`, which the `memset` of line 375 dereferences. -/
def fs_read (s : State) (fildes : Int) (buf : Int → UInt8) (nbyte : Nat) :
    Option (Int × (Int → UInt8) × State) :=
  if fildes > MAX_FILDES ∨ fildes < 0 then some (-1, buf, s)
  else if ¬ fildes < MAX_FILDES then none
  else if (s.fildes_array fildes).used = 0 then some (-1, buf, s)
  else if nbyte = 0 then some (0, buf, s)
  else
    match scan (fun e => decide ((s.fildes_array fildes).file = (s.DIR e).head)) 64 0 with
    | none => some (-1, buf, s)
    | some entry =>
      let fd := s.fildes_array fildes
      let nbyte1 : Nat :=
        if (nbyte + toSizeT fd.offset) % 2 ^ 64 > toSizeT (s.DIR entry).size then
          toSizeT ((s.DIR entry).size - fd.offset)
        else nbyte
      if nbyte1 ≥ 2 ^ 63 then none
      else
        match walk s.FAT (fd.offset / BLOCK_SIZE).toNat fd.offset 0 fd.file with
        | none => none
        | some (offset, _, block) =>
          match readLoop s.FAT s.disk (toInt32 nbyte1).toNat block offset (fun _ => 255)
                  (fun _ => 0) 0 (toInt32 nbyte1) with
          | none => none
          | some buffer =>
            some (toInt32 nbyte1, (fun i => if 0 ≤ i ∧ i < (nbyte1 : Int) then buffer i else buf i), s)

/-- The copy loop of `fs_write` (`src/src/fs.c:483-494`), for at most `n` indices from `i`.
Result: `(blocks, bytes_written, descriptor offset, remaining, returned)`, where
`returned` tells that the `return bytes_written` of line 492 was taken. -/
def writeBytes (storage : Int) (buf : Int → UInt8) (offset : Int) :
    Nat → Int → Block → Int → Int → Int → Block × Int × Int × Int × Bool
  | 0, _, blocks, bw, fo, remaining => (blocks, bw, fo, remaining, false)
  | n + 1, i, blocks, bw, fo, remaining =>
    let blocks1 := upd blocks i (buf bw)
    if remaining - 1 = 0 then (blocks1, bw + 1, fo + 1, remaining - 1, false)
    else if i + offset > storage then (blocks1, bw + 1, fo + 1, remaining - 1, true)
    else writeBytes storage buf offset n (i + 1) blocks1 (bw + 1) (fo + 1) (remaining - 1)

/-- Variables of the block loop of `fs_write`; `fdoffset` is `fildes_array[fildes].offset`. -/
structure WLoop where
  FAT : Int → Int
  disk : Int → Block
  blocks : Block
  block : Int
  prev : Int
  offset : Int
  remaining : Int
  bytes_written : Int
  fdoffset : Int

/-- The chain extension of `fs_write` (`src/src/fs.c:465-475`): when `block` is END_MARKER
the first FREE entry from `data_idx` is marked END_MARKER and linked behind `prev`;
when there is none, nothing changes. -/
def extend (data_idx : Int) (w : WLoop) : Option WLoop :=
  if w.block = END_MARKER then
    if data_idx < 0 then none
    else
      match scan (fun j => decide (w.FAT j = FREE)) (DISK_BLOCKS - data_idx).toNat data_idx with
      | none => some w
      | some j =>
        if inDisk w.prev then
          let FAT2 := upd (upd w.FAT j END_MARKER) w.prev j
          some { w with FAT := FAT2, block := FAT2 w.prev }
        else none
  else some w

/-- The block loop of `fs_write` (`src/src/fs.c:463-504`). The first component of the
result is `some v` when a `return v` inside the loop was taken. The fuel is the number
of bytes left, every pass copies at least one. `none` is an access outside an array. -/
def writeLoop (storage data_idx : Int) (buf : Int → UInt8) :
    Nat → WLoop → Option (Option Int × WLoop)
  | 0, w => if w.remaining > 0 then none else some (none, w)
  | n + 1, w =>
    if w.remaining > 0 then
      match extend data_idx w with
      | none => none
      | some w1 =>
        match block_read w1.disk w1.block with
        | none => some (some (-1), w1)
        | some blocks1 =>
          if w1.offset < 0 then none
          else
            let r := writeBytes storage buf w1.offset (BLOCK_SIZE - w1.offset).toNat w1.offset
                       blocks1 w1.bytes_written w1.fdoffset w1.remaining
            let w2 : WLoop := { w1 with blocks := r.1, bytes_written := r.2.1, fdoffset := r.2.2.1,
                                        remaining := r.2.2.2.1 }
            if r.2.2.2.2 then some (some w2.bytes_written, w2)
            else if w2.remaining ≠ 0 then
              match block_write w2.disk w2.block w2.blocks with
              | none => some (some (-1), w2)
              | some disk1 =>
                writeLoop storage data_idx buf n
                  { w2 with disk := disk1, prev := w2.block, block := w2.FAT w2.block, offset := 0 }
            else some (none, w2)
    else some (none, w)

/-- The end of `fs_write` once its block loop is over (`src/src/fs.c:506-517`), or the
`return` that the loop has taken: `r` is the result of `writeLoop`. -/
def write_finish (s : State) (fildes entry : Int) :
    Option (Option Int × WLoop) → Option (Int × State)
  | none => none
  | some (some v, w) =>
    some (v, { s with FAT := w.FAT, disk := w.disk,
                      fildes_array := upd s.fildes_array fildes
                        { s.fildes_array fildes with offset := w.fdoffset } })
  | some (none, w) =>
    match block_write w.disk w.block w.blocks with
    | none =>
      some (-1, { s with FAT := w.FAT, disk := w.disk,
                         fildes_array := upd s.fildes_array fildes
                           { s.fildes_array fildes with offset := w.fdoffset } })
    | some disk1 =>
      some (w.bytes_written,
            { s with FAT := w.FAT, disk := disk1,
                     fildes_array := upd s.fildes_array fildes
                       { s.fildes_array fildes with offset := w.fdoffset },
                     DIR := if (s.DIR entry).size < w.fdoffset then
                              upd s.DIR entry { s.DIR entry with size := w.fdoffset }
                            else s.DIR })

/-- Model of `fs_write` with the value of the `STORAGE` constant as a parameter;
`nbyte` is the `size_t` argument (below `2^64`), `buf` the caller's bytes. -/
def fs_write_with (storage : Int) (s : State) (fildes : Int) (buf : Int → UInt8) (nbyte : Nat) :
    Option (Int × State) :=
  if fildes > MAX_FILDES ∨ fildes < 0 then some (-1, s)
  else if ¬ fildes < MAX_FILDES then none
  else if (s.fildes_array fildes).used = 0 then some (-1, s)
  else if nbyte = 0 then some (0, s)
  else
    match scan (fun e => decide ((s.fildes_array fildes).file = (s.DIR e).head)) 64 0 with
    | none => some (-1, s)
    | some entry =>
      let fd := s.fildes_array fildes
      let nbyte1 : Nat :=
        if (nbyte + toSizeT fd.offset) % 2 ^ 64 > toSizeT storage then toSizeT (storage - fd.offset)
        else nbyte
      let remaining := toInt32 nbyte1
      match walk s.FAT (fd.offset / BLOCK_SIZE).toNat fd.offset 0 fd.file with
      | none => none
      | some (offset, prev, block) =>
        write_finish s fildes entry
          (writeLoop storage s.fs.data_idx buf remaining.toNat
            { FAT := s.FAT, disk := s.disk, blocks := fun _ => 255, block := block, prev := prev,
              offset := offset, remaining := remaining, bytes_written := 0,
              fdoffset := fd.offset })

/-- Model of `fs_write` of `src/src/fs.c:415-518`. -/
def fs_write (s : State) (fildes : Int) (buf : Int → UInt8) (nbyte : Nat) : Option (Int × State) :=
  fs_write_with STORAGE s fildes buf nbyte

/-- Model of `fs_write` of the draft `src/fs.c:397-489`, the same text with the draft's
`STORAGE`. -/
def fs_write_draft (s : State) (fildes : Int) (buf : Int → UInt8) (nbyte : Nat) : Option (Int × State) :=
  fs_write_with STORAGE_draft s fildes buf nbyte

/-- Model of `fs_get_filesize` (`src/src/fs.c:521-538`). -/
def fs_get_filesize (s : State) (fildes : Int) : Int :=
  if fildes ≥ MAX_FILDES ∨ fildes < 0 then -1
  else
    match scan (fun i => decide ((s.DIR i).head = (s.fildes_array fildes).file)) 64 0 with
    | none => -1
    | some i => if (s.fildes_array fildes).used = 0 then -1 else (s.DIR i).size

/-- Model of `fs_lseek` (`src/src/fs.c:565-587`). -/
def fs_lseek (s : State) (fildes : Int) (offset : Int) : Option (Int × State) :=
  let file_size := fs_get_filesize s fildes
  if offset > file_size ∨ offset < 0 then some (-1, s)
  else if fildes > MAX_FILDES ∨ fildes < 0 then some (-1, s)
  else if ¬ fildes < MAX_FILDES then none
  else if (s.fildes_array fildes).used = 0 then some (-1, s)
  else
    some (0, { s with fildes_array :=
                        upd s.fildes_array fildes { s.fildes_array fildes with offset := offset } })

/-! ## The file behind a descriptor -/

/-- Block number `k` of the chain that starts at `head`: `k` links followed in the FAT. -/
def nthBlock (FAT : Int → Int) (head : Int) : Nat → Int
  | 0 => head
  | k + 1 => nthBlock FAT (FAT head) k

/-- Byte `q`, counted from the start of block `b`, along the chain from `b`. -/
def chainByte (FAT : Int → Int) (disk : Int → Block) (b : Int) (q : Int) : UInt8 :=
  disk (nthBlock FAT b (q / BLOCK_SIZE).toNat) (q % BLOCK_SIZE)

/-- Byte `p` of the file whose chain starts at `head`, as laid out along the chain. -/
def fileByte (s : State) (head : Int) (p : Int) : UInt8 :=
  chainByte s.FAT s.disk head p

/-- The chain from `b` has exactly `len` blocks, all of them disk blocks, and ends
with END_MARKER. -/
def validChain (FAT : Int → Int) (b : Int) : Nat → Prop
  | 0 => b = END_MARKER
  | len + 1 => inDisk b ∧ validChain FAT (FAT b) len

/-- Descriptor `fd` is in use on the file of directory slot `e`, the first slot whose
`head` is the descriptor's `file`: that file has a chain of `L` blocks that covers
its size, and the descriptor's offset lies inside the file. -/
structure OpenOn (s : State) (fd e : Int) (L : Nat) : Prop where
  fd_lo : 0 ≤ fd
  fd_hi : fd < MAX_FILDES
  used : (s.fildes_array fd).used ≠ 0
  e_lo : 0 ≤ e
  e_hi : e < MAX_FILES_ALLOWED
  head : (s.DIR e).head = (s.fildes_array fd).file
  first : ∀ j, 0 ≤ j → j < e → (s.DIR j).head ≠ (s.fildes_array fd).file
  chain : validChain s.FAT (s.fildes_array fd).file L
  size_le : (s.DIR e).size ≤ BLOCK_SIZE * L
  size_int : (s.DIR e).size < 2 ^ 31
  off_lo : 0 ≤ (s.fildes_array fd).offset
  off_le : (s.fildes_array fd).offset ≤ (s.DIR e).size

/-- Number of FREE entries of the data region `data_idx .. DISK_BLOCKS - 1`. -/
def freeData (FAT : Int → Int) (data_idx : Int) : Nat :=
  freeCount FAT (DISK_BLOCKS - data_idx).toNat data_idx

/-- Number of blocks that a transfer of `r > 0` bytes reaches when it starts `off`
bytes into a block. -/
def touched (off r : Int) : Nat := ((off + r + (BLOCK_SIZE - 1)) / BLOCK_SIZE).toNat

/-- State of the block loop of `fs_write` at its normal exit `w1`, against its entry
`w` with a chain of `L` blocks ahead of the position: the chain is extended by blocks
that were FREE, the other FAT entries and disk blocks are kept, and the blocks reached
hold the caller's bytes (the last of them once `blocks` is written to `block`). -/
structure WritePost (data_idx : Int) (buf : Int → UInt8) (w : WLoop) (L : Nat) (w1 : WLoop) :
    Prop where
  bw : w1.bytes_written = w.bytes_written + w.remaining
  fo : w1.fdoffset = w.fdoffset + w.remaining
  last_in : inDisk w1.block
  last_eq : w1.block
    = nthBlock w1.FAT (if L = 0 then w1.FAT w.prev else w.block) (touched w.offset w.remaining - 1)
  chain : validChain w1.FAT (if L = 0 then w1.FAT w.prev else w.block)
    (max L (touched w.offset w.remaining))
  old : ∀ t, t < L →
    nthBlock w1.FAT (if L = 0 then w1.FAT w.prev else w.block) t = nthBlock w.FAT w.block t
  fresh : ∀ t, L ≤ t → t < touched w.offset w.remaining →
    w.FAT (nthBlock w1.FAT (if L = 0 then w1.FAT w.prev else w.block) t) = FREE ∧
    data_idx ≤ nthBlock w1.FAT (if L = 0 then w1.FAT w.prev else w.block) t
  frame : ∀ c, w.FAT c ≠ FREE → ¬ (L = 0 ∧ c = w.prev) →
    ¬ (0 < L ∧ L < touched w.offset w.remaining ∧ c = nthBlock w.FAT w.block (L - 1)) →
    w1.FAT c = w.FAT c
  disk_other : ∀ c,
    (∀ t, t < touched w.offset w.remaining →
      c ≠ nthBlock w1.FAT (if L = 0 then w1.FAT w.prev else w.block) t) →
    upd w1.disk w1.block w1.blocks c = w.disk c
  disk_data : ∀ t, t < touched w.offset w.remaining → ∀ q,
    upd w1.disk w1.block w1.blocks
        (nthBlock w1.FAT (if L = 0 then w1.FAT w.prev else w.block) t) q
      = if 0 ≤ q ∧ q < BLOCK_SIZE ∧ w.offset ≤ BLOCK_SIZE * t + q
            ∧ BLOCK_SIZE * t + q < w.offset + w.remaining then
          buf (w.bytes_written + (BLOCK_SIZE * t + q - w.offset))
        else w.disk (nthBlock w1.FAT (if L = 0 then w1.FAT w.prev else w.block) t) q

/-- The block loop of `fs_write` returns: it ends normally when the data region has
enough FREE entries, its only other exit is `return -1`, and a normal exit satisfies
`WritePost`. -/
def WriteLoopOK (storage data_idx : Int) (buf : Int → UInt8) (fuel : Nat) (w : WLoop) (L : Nat) :
    Prop :=
  ∃ res, writeLoop storage data_idx buf fuel w = some res ∧
    (touched w.offset w.remaining - L ≤ freeData w.FAT data_idx → res.1 = none) ∧
    (res.1 = none ∨ res.1 = some (-1)) ∧
    (res.1 = none → WritePost data_idx buf w L res.2)

/-! ## Truncation (`src/src/fs.c:590-646`) -/

/-- The loop `for (j = 0; j < length / BLOCK_SIZE; j++) block = FAT[block];`
(`src/src/fs.c:623-625`), `n` passes from `block`. `none` is an access outside the FAT. -/
def boundary (FAT : Int → Int) : Nat → Int → Option Int
  | 0, block => some block
  | n + 1, block => if inDisk block then boundary FAT n (FAT block) else none

/-- The loop `while (traverse > 0) { traverse = FAT[traverse]; FAT[traverse] = FREE; }`
(`src/src/fs.c:630-633`): the entry that is set to FREE is the one of the block the
pass has just moved to. `none` is an access outside the FAT; a pass that stays inside
it leaves FREE in `FAT[traverse]`, so that the loop ends or leaves the FAT within
three passes and the fuel is never used up. -/
def freeTail : Nat → (Int → Int) → Int → Option (Int → Int)
  | 0, FAT, traverse => if traverse > 0 then none else some FAT
  | n + 1, FAT, traverse =>
    if traverse > 0 then
      if inDisk traverse then
        if inDisk (FAT traverse) then freeTail n (upd FAT (FAT traverse) FREE) (FAT traverse)
        else none
      else none
    else some FAT

/-- Model of `fs_truncate` (`src/src/fs.c:590-646`); `length` is the `off_t` argument. -/
def fs_truncate (s : State) (fildes : Int) (length : Int) : Option (Int × State) :=
  if fildes ≥ MAX_FILDES ∨ fildes < 0 ∨ length > STORAGE ∨ length < 0 then some (-1, s)
  else if (s.fildes_array fildes).used = 0 then some (-1, s)
  else
    match scan (fun i => decide ((s.DIR i).head = (s.fildes_array fildes).file)) 64 0 with
    | none => some (-1, s)
    | some i =>
      if (s.DIR i).size < length then some (-1, s)
      else if (s.DIR i).size = length then some (0, s)
      else
        let fd := s.fildes_array fildes
        let fds1 :=
          if fd.offset > length then upd s.fildes_array fildes { fd with offset := length }
          else s.fildes_array
        match boundary s.FAT (length / BLOCK_SIZE).toNat (s.DIR i).head with
        | none => none
        | some last =>
          if inDisk last then
            match freeTail 8192 s.FAT (s.FAT last) with
            | none => none
            | some FAT1 =>
              some (0, { s with
                         fildes_array := fds1
                         FAT := upd FAT1 last END_MARKER
                         DIR := upd s.DIR i { s.DIR i with size := length } })
          else none

/-! ## The FAT blocks written by `umount_fs` (`src/src/fs.c:162-168`) -/

/-- The `int` that `block_write(i + fs->fat_idx, (char *) (FAT + i * BLOCK_SIZE))`
(`src/src/fs.c:165`) stores as entry `k`, `0 ≤ k < 1024`, of disk block `i + fat_idx`:
`FAT` is an `int *`, so the source of the transfer starts at entry `i * BLOCK_SIZE` of
the array. `none` when that entry lies outside the `DISK_BLOCKS` entries of the array. -/
def umount_fat_entry (FAT : Int → Int) (i k : Int) : Option Int :=
  if 0 ≤ i * BLOCK_SIZE + k ∧ i * BLOCK_SIZE + k < DISK_BLOCKS then some (FAT (i * BLOCK_SIZE + k))
  else none

/-- Entry number `b` of the `fat_len` saved blocks, read as consecutive 4-byte
integers: entry `b mod 1024` of block `fat_idx + b / 1024`. -/
def saved_fat_entry (FAT : Int → Int) (b : Int) : Option Int :=
  umount_fat_entry FAT (b / 1024) (b % 1024)

/-! ## Sequences of calls and concrete volumes -/

/-- Closes the descriptors of a list one after the other; `none` as soon as a call
does not return 0. -/
def closeAll (s : State) : List Int → Option State
  | [] => some s
  | fd :: fds =>
    match fs_close s fd with
    | some (r, s1) => if r = 0 then closeAll s1 fds else none
    | none => none

/-- Creates the files of a list one after the other; `none` as soon as a call does
not return 0. -/
def createAll (s : State) : List String → Option State
  | [] => some s
  | name :: names =>
    match fs_create s name with
    | some (r, s1) => if r = 0 then createAll s1 names else none
    | none => none

/-- The globals when the program starts (`src/src/fs.c:48-55`); the arrays are
allocated by `make_fs`. -/
def boot : State :=
  { fs := ⟨0, 0, 0, 0, 0⟩, fildes_array := fun _ => ⟨0, 0, 0⟩, FAT := fun _ => 0,
    DIR := fun _ => zero_entry, file_counter := 0, mounted := 0, validfs := 0,
    disk := fun _ _ => 0 }

/-- A freshly formatted and mounted volume: `make_fs` then `mount_fs` from the start
of the program, as in `src/test.c:14-15`. -/
def fresh (image : Int → Block) : State := (mount_fs (make_fs boot image).2).2

/-- The volume after `fs_create("f")`, `fs_open("f")`, an `fs_write` of 5000 bytes and
`fs_close`, from `fresh`: a closed file of two blocks. -/
def twoBlockFile : State :=
  { fresh (fun _ _ => 0) with
    FAT := upd (upd (fun _ => FREE) 6 7) 7 END_MARKER
    DIR := upd (fun _ => zero_entry) 0 { used := 1, name := "f", size := 5000, head := 6, ref_cnt := 0 }
    file_counter := 1
    fs := { fat_idx := 1, fat_len := 4, dir_idx := 5, dir_len := 2, data_idx := 6 }
    disk := upd (upd (fun _ _ => 0) 6 (fun i => if 0 ≤ i ∧ i < 4096 then 205 else 0)) 7
              (fun i => if 0 ≤ i ∧ i < 904 then 205 else 0) }

/-- The volume of `twoBlockFile` before the `fs_close`: descriptor 0 is open on the
file, at offset 5000. -/
def twoBlockOpen : State :=
  { twoBlockFile with
    DIR := upd (fun _ => zero_entry) 0 { used := 1, name := "f", size := 5000, head := 6, ref_cnt := 1 }
    fildes_array := upd twoBlockFile.fildes_array 0 { used := 1, file := 6, offset := 5000 } }

/-- A volume whose data region is full: a file of 4096 blocks (blocks 6 to 4101) and a
file of 4090 blocks (blocks 4102 to 8191), both closed. -/
def fullVolume : State :=
  { fresh (fun _ _ => 0) with
    FAT := fun b => if b = 4101 ∨ b = 8191 then END_MARKER
                    else if 6 ≤ b ∧ b < 8192 then b + 1 else FREE
    DIR := upd (upd (fun _ => zero_entry) 0
                 { used := 1, name := "a", size := 4096 * 4096, head := 6, ref_cnt := 0 }) 1
                 { used := 1, name := "b", size := 4090 * 4096, head := 4102, ref_cnt := 0 }
    file_counter := 2
    fs := { fat_idx := 1, fat_len := 4, dir_idx := 5, dir_len := 3, data_idx := 6 } }

/-- What the data model asks of the names in the directory: an unused slot holds the
empty name (as `calloc` and `fs_delete` leave it) and no two used entries share a
name (P6). -/
structure DirNames (s : State) : Prop where
  unused_empty : ∀ j, 0 ≤ j → j < MAX_FILES_ALLOWED → (s.DIR j).used = 0 → (s.DIR j).name = ""
  unique : ∀ i j, 0 ≤ i → i < MAX_FILES_ALLOWED → 0 ≤ j → j < MAX_FILES_ALLOWED →
    (s.DIR i).used ≠ 0 → (s.DIR j).used ≠ 0 → (s.DIR i).name = (s.DIR j).name → i = j

/-- The FAT of a volume that holds one file of 1019 blocks, blocks 6 to 1024 (a fresh
volume after `fs_create`, `fs_open` and an `fs_write` of 1019 * 4096 bytes). -/
def bigFileFAT : Int → Int :=
  fun b => if 6 ≤ b ∧ b < 1024 then b + 1 else if b = 1024 then END_MARKER else FREE

/-- Content of an all-zero disk image. -/
def blank : Int → Block := fun _ _ => 0

/-- The volume after `fs_create("x")` and `fs_open("x")` on a fresh volume: one empty
file whose head is block 6, with descriptor 0 open on it. -/
def oneOpenFile : State :=
  { fresh blank with
    FAT := upd (fun _ => FREE) 6 END_MARKER
    DIR := upd (fun _ => zero_entry) 0 { used := 1, name := "x", size := 0, head := 6, ref_cnt := 1 }
    fildes_array := upd (fun _ => { used := 0, file := FREE, offset := 0 }) 0
                      { used := 1, file := 6, offset := 0 }
    file_counter := 1
    fs := { fat_idx := 1, fat_len := 4, dir_idx := 5, dir_len := 2, data_idx := 6 } }

/-- Number of blocks that hold the first `p` bytes of a file. -/
def blocksFor (p : Int) : Nat := ((p + (BLOCK_SIZE - 1)) / BLOCK_SIZE).toNat

/-- The state `s1` after an `fs_write` that transferred `r` bytes of `buf` through the
descriptor `fd`, open on the file of slot `e` whose chain had `L` blocks in `s`: offset
and size are updated, the chain is extended by blocks that were FREE, the FAT entries
that were not FREE are kept except the one of the old last block, and the blocks hold
the old bytes except at the positions written. -/
structure WriteResult (s : State) (fd e : Int) (L : Nat) (buf : Int → UInt8) (r : Int)
    (s1 : State) : Prop where
  fds : s1.fildes_array
    = upd s.fildes_array fd { s.fildes_array fd with offset := (s.fildes_array fd).offset + r }
  dir : s1.DIR
    = if (s.DIR e).size < (s.fildes_array fd).offset + r then
        upd s.DIR e { s.DIR e with size := (s.fildes_array fd).offset + r }
      else s.DIR
  rest : s1.fs = s.fs ∧ s1.file_counter = s.file_counter ∧ s1.mounted = s.mounted
    ∧ s1.validfs = s.validfs
  chain : validChain s1.FAT (s.fildes_array fd).file
    (max L (blocksFor ((s.fildes_array fd).offset + r)))
  old : ∀ t, t < L →
    nthBlock s1.FAT (s.fildes_array fd).file t = nthBlock s.FAT (s.fildes_array fd).file t
  fresh : ∀ t, L ≤ t → t < blocksFor ((s.fildes_array fd).offset + r) →
    s.FAT (nthBlock s1.FAT (s.fildes_array fd).file t) = FREE ∧
    s.fs.data_idx ≤ nthBlock s1.FAT (s.fildes_array fd).file t
  frame : ∀ c, s.FAT c ≠ FREE → c ≠ nthBlock s.FAT (s.fildes_array fd).file (L - 1) →
    s1.FAT c = s.FAT c
  disk_other : ∀ c,
    (∀ t, t < blocksFor ((s.fildes_array fd).offset + r) →
      c ≠ nthBlock s1.FAT (s.fildes_array fd).file t) →
    s1.disk c = s.disk c
  data : ∀ t, t < blocksFor ((s.fildes_array fd).offset + r) → ∀ q,
    s1.disk (nthBlock s1.FAT (s.fildes_array fd).file t) q
      = if 0 ≤ q ∧ q < BLOCK_SIZE ∧ (s.fildes_array fd).offset ≤ BLOCK_SIZE * t + q
            ∧ BLOCK_SIZE * t + q < (s.fildes_array fd).offset + r then
          buf (BLOCK_SIZE * t + q - (s.fildes_array fd).offset)
        else s.disk (nthBlock s1.FAT (s.fildes_array fd).file t) q

/-- The volume after `fs_create(name)` on a fresh volume with image content `image`:
slot 0 holds the new empty file, whose head is block 6. -/
def created (image : Int → Block) (name : String) : State :=
  { fs := { fat_idx := 1, fat_len := 4, dir_idx := 5, dir_len := 2, data_idx := 6 }
    fildes_array := (fresh image).fildes_array
    FAT := upd (fun _ => FREE) 6 END_MARKER
    DIR := upd (fresh image).DIR 0 { used := 1, name := name, size := 0, head := 6, ref_cnt := 0 }
    file_counter := 1
    mounted := 1
    validfs := 1
    disk := image }

/-- The volume after `fs_open(name)` on `created image name`: descriptor 0 is open on
the file, at offset 0. -/
def opened (image : Int → Block) (name : String) : State :=
  { created image name with
    fildes_array := upd (fresh image).fildes_array 0 { used := 1, file := 6, offset := 0 }
    DIR := upd (created image name).DIR 0
             { used := 1, name := name, size := 0, head := 6, ref_cnt := 1 } }

/-- The volume after `a` was filled to 16 MiB (blocks 6 to 4101), `c` to 4089 blocks
(blocks 4102 to 8190) and `b` to one block (block 8191): no data block is FREE.
Descriptor 0 is open on `b`, at its end. -/
def fullOpen : State :=
  { fresh (fun _ _ => 0) with
    FAT := fun b => if b = 4101 ∨ b = 8190 ∨ b = 8191 then END_MARKER
                    else if 6 ≤ b ∧ b < 8192 then b + 1 else FREE
    DIR := upd (upd (upd (fun _ => zero_entry) 0
                 { used := 1, name := "a", size := 4096 * 4096, head := 6, ref_cnt := 0 }) 1
                 { used := 1, name := "c", size := 4089 * 4096, head := 4102, ref_cnt := 0 }) 2
                 { used := 1, name := "b", size := 4096, head := 8191, ref_cnt := 1 }
    fildes_array := upd (fun _ => { used := 0, file := FREE, offset := 0 }) 0
                      { used := 1, file := 8191, offset := 4096 }
    file_counter := 3
    fs := { fat_idx := 1, fat_len := 4, dir_idx := 5, dir_len := 4, data_idx := 6 } }

/-- The volume after the files of `done` were created, in that order, on a fresh
volume: file number `i` sits in slot `i`, closed and empty, with head `6 + i`; the other
slots are unused and the other data blocks FREE. -/
structure Filled (s : State) (done : List String) : Prop where
  data : s.fs.data_idx = 6
  count : s.file_counter = done.length
  used : ∀ (i : Nat) (x : String), done[i]? = some x →
    s.DIR i = { used := 1, name := x, size := 0, head := 6 + i, ref_cnt := 0 }
  unused : ∀ i : Int, (done.length : Int) ≤ i → (s.DIR i).used = 0
  fat_used : ∀ b : Int, 6 ≤ b → b < 6 + done.length → s.FAT b = END_MARKER
  fat_free : ∀ b : Int, 6 + (done.length : Int) ≤ b → s.FAT b = FREE

/-- Sixty-four names of one character each, from `a` on. -/
def names64 : List String := (List.range 64).map (fun i => String.mk [Char.ofNat (97 + i)])

/-! ## The public API as a transition system -/

/-- In-memory effect of `umount_fs` (`src/src/fs.c:151-191`) when the disk adapter
succeeds: the descriptors are reset and the volume is no longer mounted. `image` is the
content of the metadata blocks (block 0, the `fat_len` blocks from `fat_idx`, block
`dir_idx`) once they are written; the other blocks keep theirs. -/
def umount_fs (s : State) (image : Int → Block) : Int × State :=
  if s.mounted = 0 then (-1, s)
  else
    (0, { s with
          fildes_array := fun i =>
            if 0 ≤ i ∧ i < MAX_FILDES then { used := 0, file := FREE, offset := 0 }
            else s.fildes_array i
          mounted := 0
          disk := fun b =>
            if b = 0 ∨ (s.fs.fat_idx ≤ b ∧ b < s.fs.fat_idx + s.fs.fat_len) ∨ b = s.fs.dir_idx
            then image b else s.disk b })

/-- One call of the public API (`src/fs.h`), with its arguments. -/
inductive Call where
  | make_fs (image : Int → Block)
  | mount_fs
  | umount_fs (image : Int → Block)
  | fs_create (name : String)
  | fs_delete (name : String)
  | fs_open (name : String)
  | fs_close (fildes : Int)
  | fs_read (fildes : Int) (buf : Int → UInt8) (nbyte : Nat)
  | fs_write (fildes : Int) (buf : Int → UInt8) (nbyte : Nat)
  | fs_lseek (fildes : Int) (offset : Int)
  | fs_truncate (fildes : Int) (length : Int)

/-- The value returned by a call and the globals after it; `none` when the call makes
an access outside an array. -/
def step (s : State) : Call → Option (Int × State)
  | .make_fs image => some (make_fs s image)
  | .mount_fs => some (mount_fs s)
  | .umount_fs image => some (umount_fs s image)
  | .fs_create name => fs_create s name
  | .fs_delete name => fs_delete s name
  | .fs_open name => fs_open s name
  | .fs_close fildes => fs_close s fildes
  | .fs_read fildes buf nbyte => (fs_read s fildes buf nbyte).map (fun r => (r.1, r.2.2))
  | .fs_write fildes buf nbyte => fs_write s fildes buf nbyte
  | .fs_lseek fildes offset => fs_lseek s fildes offset
  | .fs_truncate fildes length => fs_truncate s fildes length

/-- The globals after a sequence of calls, whatever they return. -/
def run (s : State) : List Call → Option State
  | [] => some s
  | c :: cs =>
    match step s c with
    | none => none
    | some r => run r.2 cs

/-- Number of used entries of the directory. -/
def usedCount (s : State) : Nat :=
  ((List.range 64).filter (fun i => decide ((s.DIR (i : Int)).used ≠ 0))).length

/-! ## Chain extension as the specification words it -/

/-- Specification of "Allocate one block" and "Extend" (spec 4.2, 4.5 step 4): the
first FREE entry `n` of `data_idx .. DISK_BLOCKS - 1` becomes the successor of `last`,
`FAT[last] = n` and `FAT[n] = END`; `none` when no entry is FREE. The result holds the
new FAT and `n`. -/
def spec_extend (data_idx : Int) (FAT : Int → Int) (last : Int) : Option ((Int → Int) × Int) :=
  match scan (fun j => decide (FAT j = FREE)) (DISK_BLOCKS - data_idx).toNat data_idx with
  | none => none
  | some n => some (upd (upd FAT n END_MARKER) last n, n)

/-- Specification of `m` extensions in a row behind the block `last`, each one behind
the block that the one before has allocated. -/
def spec_extend_chain (data_idx : Int) : Nat → (Int → Int) → Int → Option (Int → Int)
  | 0, FAT, _ => some FAT
  | m + 1, FAT, last =>
    match spec_extend data_idx FAT last with
    | none => none
    | some r => spec_extend_chain data_idx m r.1 r.2

/-- The volume of `fullOpen` when `b` holds 4090 bytes only: no data block is FREE,
descriptor 0 is open on `b`, at its end, six bytes before the end of its block. -/
def fullShort : State :=
  { fullOpen with
    DIR := upd fullOpen.DIR 2 { used := 1, name := "b", size := 4090, head := 8191, ref_cnt := 1 }
    fildes_array := upd (fun _ => { used := 0, file := FREE, offset := 0 }) 0
                      { used := 1, file := 8191, offset := 4090 } }

/-- The volume after `fs_create("c")` on `fullVolume`: the search for a FREE block has
run to its bound, and slot 2 holds the new file with head `DISK_BLOCKS`. -/
def fullVolumeC : State :=
  { fullVolume with
    file_counter := 3
    DIR := upd fullVolume.DIR 2 { used := 1, name := "c", size := 0, head := 8192, ref_cnt := 0 }
    fs := { fat_idx := 1, fat_len := 4, dir_idx := 5, dir_len := 4, data_idx := 6 } }

/-- The volume after `fs_create("e")` on `fullVolumeC`. -/
def fullVolumeCE : State :=
  { fullVolumeC with
    file_counter := 4
    DIR := upd fullVolumeC.DIR 3 { used := 1, name := "e", size := 0, head := 8192, ref_cnt := 0 }
    fs := { fat_idx := 1, fat_len := 4, dir_idx := 5, dir_len := 5, data_idx := 6 } }

/-! ## Filling the data region through the API -/

/-- The values that a sequence of calls returns, in order; `none` when a call makes an
access outside an array. -/
def returns (s : State) : List Call → Option (List Int)
  | [] => some []
  | c :: cs =>
    match step s c with
    | none => none
    | some r => (returns r.2 cs).map (fun l => r.1 :: l)

/-- The calls that fill the data region of a fresh volume: file `a` is written up to
the 16 MiB of `STORAGE` (4096 blocks), file `b` takes the 4090 blocks that are left. -/
def fillCalls (buf : Int → UInt8) : List Call :=
  [.fs_create "a", .fs_open "a", .fs_write 0 buf 16777216, .fs_close 0,
   .fs_create "b", .fs_open "b", .fs_write 0 buf 16752640, .fs_close 0]

/-- The volume after `fs_write` of 16 MiB through descriptor 0 on `opened blank "a"`:
the chain of `a` is 6, 7, ..., 4101; `d` is the content of the disk. -/
def writtenA (d : Int → Block) : State :=
  { opened blank "a" with
    FAT := fun b =>
      if 6 ≤ b ∧ b < 6 + 4095 then b + 1
      else if b = 6 + 4095 then END_MARKER else (opened blank "a").FAT b
    DIR := upd (opened blank "a").DIR 0 { (opened blank "a").DIR 0 with size := 16777216 }
    fildes_array := upd (opened blank "a").fildes_array 0
                      { (opened blank "a").fildes_array 0 with offset := 16777216 }
    disk := d }

/-- The volume after `fs_close(0)` on `writtenA d`. -/
def closedA (d : Int → Block) : State :=
  { writtenA d with
    DIR := upd (writtenA d).DIR 0
             { (writtenA d).DIR 0 with ref_cnt := ((writtenA d).DIR 0).ref_cnt - 1 }
    fildes_array := upd (writtenA d).fildes_array 0 { used := 0, file := FREE, offset := 0 } }

/-- The volume after `fs_create("b")` on `closedA d`: the head of `b` is block 4102. -/
def createdB (d : Int → Block) : State :=
  { closedA d with
    FAT := upd (closedA d).FAT 4102 END_MARKER
    file_counter := (closedA d).file_counter + 1
    DIR := upd (closedA d).DIR 1 { used := 1, name := "b", size := 0, head := 4102, ref_cnt := 0 }
    fs := { (closedA d).fs with dir_len := (closedA d).fs.dir_len + 1 } }

/-- The volume after `fs_open("b")` on `createdB d`: descriptor 0 is open on `b`. -/
def openedB (d : Int → Block) : State :=
  { createdB d with
    fildes_array := upd (createdB d).fildes_array 0
                      { used := 1, file := ((createdB d).DIR 1).head, offset := 0 }
    DIR := upd (createdB d).DIR 1
             { (createdB d).DIR 1 with ref_cnt := ((createdB d).DIR 1).ref_cnt + 1 } }

/-- The volume after `fs_write` of 4090 blocks through descriptor 0 on `openedB`: the
chain of `b` is 4102, ..., 8191; `d` is the content of the disk. -/
def writtenB (d : Int → Block) : State :=
  { openedB d with
    FAT := fun b =>
      if 4102 ≤ b ∧ b < 4102 + 4089 then b + 1
      else if b = 4102 + 4089 then END_MARKER else (openedB d).FAT b
    DIR := upd (openedB d).DIR 1 { (openedB d).DIR 1 with size := 16752640 }
    fildes_array := upd (openedB d).fildes_array 0
                      { (openedB d).fildes_array 0 with offset := 16752640 }
    disk := d }

/-! ## Runs on a mounted volume -/

/-- The loop of `freeTail` (`src/src/fs.c:630-633`) when a store `FAT[traverse] = FREE`
through an index outside the array is taken to leave the `DISK_BLOCKS` entries of the
FAT and the other globals as they are: the pass goes on with the loop test. `none` is a
read outside the FAT. -/
def freeTail_lax : Nat → (Int → Int) → Int → Option (Int → Int)
  | 0, FAT, traverse => if traverse > 0 then none else some FAT
  | n + 1, FAT, traverse =>
    if traverse > 0 then
      if inDisk traverse then
        freeTail_lax n (if inDisk (FAT traverse) then upd FAT (FAT traverse) FREE else FAT)
          (FAT traverse)
      else none
    else some FAT

/-- Model of `fs_truncate` (`src/src/fs.c:590-646`) with the freeing loop `freeTail_lax`:
the text of `fs_truncate`, which it agrees with wherever that one is not `none`. -/
def fs_truncate_lax (s : State) (fildes : Int) (length : Int) : Option (Int × State) :=
  if fildes ≥ MAX_FILDES ∨ fildes < 0 ∨ length > STORAGE ∨ length < 0 then some (-1, s)
  else if (s.fildes_array fildes).used = 0 then some (-1, s)
  else
    match scan (fun i => decide ((s.DIR i).head = (s.fildes_array fildes).file)) 64 0 with
    | none => some (-1, s)
    | some i =>
      if (s.DIR i).size < length then some (-1, s)
      else if (s.DIR i).size = length then some (0, s)
      else
        let fd := s.fildes_array fildes
        let fds1 :=
          if fd.offset > length then upd s.fildes_array fildes { fd with offset := length }
          else s.fildes_array
        match boundary s.FAT (length / BLOCK_SIZE).toNat (s.DIR i).head with
        | none => none
        | some last =>
          if inDisk last then
            match freeTail_lax 8192 s.FAT (s.FAT last) with
            | none => none
            | some FAT1 =>
              some (0, { s with
                         fildes_array := fds1
                         FAT := upd FAT1 last END_MARKER
                         DIR := upd s.DIR i { s.DIR i with size := length } })
          else none

/-- Model of `fs_delete` (`src/src/fs.c:303-339`) for every head: the text of `fs_delete`,
which it agrees with wherever that one is not `none`. When the head of the slot is no
block of the disk, `FAT[DIR[i].head]` is one word outside the FAT: whatever it holds,
the first pass of the loop stores FREE into it (`block` is the head) and the loop test,
which reads the same word, ends the loop, so that no entry of the FAT changes. -/
def fs_delete_lax (s : State) (name : String) : Option (Int × State) :=
  if name.length > MAX_F_NAME then some (-1, s)
  else
    match scan (fun i => decide ((s.DIR i).name = name ∧ (s.DIR i).ref_cnt = 0)) 64 0 with
    | none => some (-1, s)
    | some i =>
      let head := (s.DIR i).head
      match (if inDisk head then deleteLoop head 8192 s.FAT head else some s.FAT) with
      | none => none
      | some FAT1 =>
        some (0, { s with
                   FAT := FAT1
                   DIR := upd s.DIR i { s.DIR i with used := 0, size := 0, head := FREE, name := "" }
                   fs := { s.fs with dir_len := s.fs.dir_len - 1 }
                   file_counter := s.file_counter - 1 })

/-- The value returned by a call and the globals after it, with `fs_truncate_lax` for
`fs_truncate` and `fs_delete_lax` for `fs_delete`; `none` when the call reads or stores
outside an array at any other place. -/
def step_lax (s : State) : Call → Option (Int × State)
  | .fs_truncate fildes length => fs_truncate_lax s fildes length
  | .fs_delete name => fs_delete_lax s name
  | c => step s c

/-- The globals after a sequence of calls, by `step_lax`. -/
def run_lax (s : State) : List Call → Option State
  | [] => some s
  | c :: cs =>
    match step_lax s c with
    | none => none
    | some r => run_lax r.2 cs

/-- The values that a sequence of calls returns, by `step_lax`. -/
def returns_lax (s : State) : List Call → Option (List Int)
  | [] => some []
  | c :: cs =>
    match step_lax s c with
    | none => none
    | some r => (returns_lax r.2 cs).map (fun l => r.1 :: l)

/-- The calls on which the model is the code. The file operations are modelled with the
disk open, and `mount_fs` as reading back what `make_fs` or `umount_fs` has written from
the tables in memory: a file operation is taken on a mounted volume, `make_fs` on an
unmounted one (the disk is closed), and a byte count is a `size_t`. -/
def exact_at (s : State) : Call → Bool
  | .make_fs _ => decide (s.mounted = 0)
  | .mount_fs => true
  | .umount_fs _ => true
  | .fs_read _ _ nbyte => decide (s.mounted ≠ 0 ∧ nbyte < 2 ^ 64)
  | .fs_write _ _ nbyte => decide (s.mounted ≠ 0 ∧ nbyte < 2 ^ 64)
  | _ => decide (s.mounted ≠ 0)

/-- Every call of the sequence returns and is made where the model is the code. -/
def exact_run (s : State) : List Call → Bool
  | [] => true
  | c :: cs =>
    match step_lax s c with
    | none => false
    | some r => exact_at s c && exact_run r.2 cs

/-- The calls after which descriptor safety is claimed; `r` is the value returned.
Left out are the three ways in which the code breaks it: an `fs_open` that claims a
descriptor for a directory slot that is not in use, an `fs_write` that returns -1
through a descriptor in use, and an `fs_truncate` that returns 0 while another
descriptor of the same file has its offset beyond the new length. -/
def admitted (s : State) (c : Call) (r : Int) : Bool :=
  match c with
  | .fs_open name =>
    decide (r = -1) ||
      match scan (fun i => decide ((s.DIR i).name = name)) 64 0 with
      | none => false
      | some i => decide ((s.DIR i).used ≠ 0)
  | .fs_write fildes _ _ =>
    decide (r ≠ -1 ∨ fildes < 0 ∨ fildes ≥ MAX_FILDES ∨ (s.fildes_array fildes).used = 0)
  | .fs_truncate fildes length =>
    decide (r ≠ 0) ||
      (List.range 32).all fun j =>
        decide ((j : Int) = fildes ∨ (s.fildes_array j).used = 0
          ∨ (s.fildes_array j).file ≠ (s.fildes_array fildes).file
          ∨ (s.fildes_array j).offset ≤ length)
  | _ => true

/-- Every call of the sequence returns, is made where the model is the code, and is
`admitted` with the value it returns. -/
def admitted_run (s : State) : List Call → Bool
  | [] => true
  | c :: cs =>
    match step_lax s c with
    | none => false
    | some r => exact_at s c && admitted s c r.1 && admitted_run r.2 cs

/-- Number of descriptors among `0 .. n - 1` that are in use with `file = h`. -/
def openCount (fds : Int → file_descriptor) (h : Int) : Nat → Int
  | 0 => 0
  | n + 1 => openCount fds h n + (if (fds n).used ≠ 0 ∧ (fds n).file = h then 1 else 0)

/-- Sum of the `ref_cnt` of the used slots among `0 .. n - 1` whose head is `h`. -/
def refSum (DIR : Int → dir_entry) (h : Int) : Nat → Int
  | 0 => 0
  | n + 1 => refSum DIR h n + (if (DIR n).used ≠ 0 ∧ (DIR n).head = h then (DIR n).ref_cnt else 0)

/-- Well-formedness of the volume that the admitted calls keep, with `len e` the number
of blocks of the chain of directory slot `e`. A used slot either has a chain of
`len e > 0` data blocks that covers its size, apart from the chains of the other slots,
or (`len e = 0`) it was created when no block was FREE: its head is `DISK_BLOCKS` and
it is empty. Every descriptor in use is on a used slot, inside the file, and on a
mounted volume `ref_cnt` counts the descriptors of the file; the slots created on a
full volume share their head, and their `ref_cnt` add up to the number of descriptors
with that head. -/
structure Sound (s : State) (len : Int → Nat) : Prop where
  data_idx : s.fs.data_idx = 6
  unused : ∀ e, 0 ≤ e → e < MAX_FILES_ALLOWED → (s.DIR e).used = 0 →
    (s.DIR e).head = 0 ∨ (s.DIR e).head = FREE
  ghost : ∀ e, 0 ≤ e → e < MAX_FILES_ALLOWED → (s.DIR e).used ≠ 0 → len e = 0 →
    (s.DIR e).head = DISK_BLOCKS
  chain : ∀ e, 0 ≤ e → e < MAX_FILES_ALLOWED → (s.DIR e).used ≠ 0 → 0 < len e →
    validChain s.FAT (s.DIR e).head (len e)
  blocks : ∀ e, 0 ≤ e → e < MAX_FILES_ALLOWED → (s.DIR e).used ≠ 0 → ∀ k, k < len e →
    6 ≤ nthBlock s.FAT (s.DIR e).head k
  size_lo : ∀ e, 0 ≤ e → e < MAX_FILES_ALLOWED → (s.DIR e).used ≠ 0 → 0 ≤ (s.DIR e).size
  size_hi : ∀ e, 0 ≤ e → e < MAX_FILES_ALLOWED → (s.DIR e).used ≠ 0 →
    (s.DIR e).size ≤ BLOCK_SIZE * len e ∧ (s.DIR e).size ≤ STORAGE
  apart : ∀ e e2, 0 ≤ e → e < MAX_FILES_ALLOWED → 0 ≤ e2 → e2 < MAX_FILES_ALLOWED →
    (s.DIR e).used ≠ 0 → (s.DIR e2).used ≠ 0 → e ≠ e2 → ∀ k k2, k < len e → k2 < len e2 →
    nthBlock s.FAT (s.DIR e).head k ≠ nthBlock s.FAT (s.DIR e2).head k2
  descr : ∀ fd, 0 ≤ fd → fd < MAX_FILDES → (s.fildes_array fd).used ≠ 0 →
    ∃ e, 0 ≤ e ∧ e < MAX_FILES_ALLOWED ∧ (s.DIR e).used ≠ 0 ∧
      (s.DIR e).head = (s.fildes_array fd).file ∧
      0 ≤ (s.fildes_array fd).offset ∧ (s.fildes_array fd).offset ≤ (s.DIR e).size
  refs : s.mounted ≠ 0 → ∀ e, 0 ≤ e → e < MAX_FILES_ALLOWED → (s.DIR e).used ≠ 0 → 0 < len e →
    (s.DIR e).ref_cnt = openCount s.fildes_array (s.DIR e).head 32
  ghosts : s.mounted ≠ 0 → refSum s.DIR DISK_BLOCKS 64 = openCount s.fildes_array DISK_BLOCKS 32
  closed : s.mounted = 0 → ∀ fd, 0 ≤ fd → fd < MAX_FILDES → (s.fildes_array fd).used = 0

/-! ## Arrays and searches -/

theorem upd_same {α : Type} (a : Int → α) (i : Int) (v : α) : upd a i v i = v := by
  simp [upd]

theorem upd_other {α : Type} (a : Int → α) {i j : Int} (v : α) (h : j ≠ i) :
    upd a i v j = a j := by
  simp [upd, h]

theorem scan_some {p : Int → Bool} {n : Nat} {i j : Int} (h : scan p n i = some j) :
    i ≤ j ∧ j < i + n ∧ p j = true ∧ ∀ k, i ≤ k → k < j → p k = false := by
  induction n generalizing i with
  | zero => simp [scan] at h
  | succ n ih =>
    unfold scan at h
    by_cases hp : p i = true
    · simp [hp] at h
      subst h
      refine ⟨le_refl _, by push_cast; omega, hp, ?_⟩
      intro k h1 h2
      omega
    · simp [hp] at h
      obtain ⟨h1, h2, h3, h4⟩ := ih h
      refine ⟨by omega, by push_cast; omega, h3, ?_⟩
      intro k hk1 hk2
      by_cases hki : k = i
      · subst hki
        simpa using hp
      · exact h4 k (by omega) hk2

theorem scan_none {p : Int → Bool} {n : Nat} {i : Int} (h : scan p n i = none) :
    ∀ k, i ≤ k → k < i + n → p k = false := by
  induction n generalizing i with
  | zero =>
    intro k h1 h2
    simp at h2
    omega
  | succ n ih =>
    unfold scan at h
    by_cases hp : p i = true
    · simp [hp] at h
    · simp [hp] at h
      intro k h1 h2
      by_cases hki : k = i
      · subst hki
        simpa using hp
      · exact ih h k (by omega) (by push_cast at h2; omega)

theorem scan_eq_some_of {p : Int → Bool} {n : Nat} {i j : Int} (h1 : i ≤ j) (h2 : j < i + n)
    (hp : p j = true) (hlt : ∀ k, i ≤ k → k < j → p k = false) : scan p n i = some j := by
  cases h : scan p n i with
  | none =>
    have := scan_none h j h1 h2
    rw [hp] at this
    cases this
  | some m =>
    obtain ⟨a, b, c, d⟩ := scan_some h
    have h3 : ¬ m < j := fun hm => by
      have := hlt m a hm
      rw [c] at this
      cases this
    have h4 : ¬ j < m := fun hm => by
      have := d j h1 hm
      rw [hp] at this
      cases this
    have : m = j := by omega
    rw [this]

theorem scan_eq_none_of {p : Int → Bool} {n : Nat} {i : Int}
    (h : ∀ k, i ≤ k → k < i + n → p k = false) : scan p n i = none := by
  cases hs : scan p n i with
  | none => rfl
  | some m =>
    obtain ⟨a, b, c, _⟩ := scan_some hs
    have := h m a b
    rw [c] at this
    cases this

/-! ## Free entries of the FAT -/

theorem freeCount_eq_zero_of_scan_none {FAT : Int → Int} {n : Nat} {i : Int}
    (h : scan (fun j => decide (FAT j = FREE)) n i = none) : freeCount FAT n i = 0 := by
  induction n generalizing i with
  | zero => rfl
  | succ n ih =>
    unfold scan at h
    by_cases hp : FAT i = FREE
    · simp [hp] at h
    · simp [hp] at h
      simp [freeCount, hp, ih h]

theorem freeCount_pos_of_free {FAT : Int → Int} {n : Nat} {i j : Int} (h1 : i ≤ j)
    (h2 : j < i + n) (hj : FAT j = FREE) : 0 < freeCount FAT n i := by
  induction n generalizing i with
  | zero => simp at h2; omega
  | succ n ih =>
    unfold freeCount
    by_cases hji : j = i
    · subst hji
      simp [hj]
    · have := ih (i := i + 1) (by omega) (by push_cast at h2; omega)
      omega

theorem freeCount_upd_free {FAT : Int → Int} {n : Nat} {i j : Int} (v : Int) (h1 : i ≤ j)
    (h2 : j < i + n) (hj : FAT j = FREE) (hv : v ≠ FREE) :
    freeCount (upd FAT j v) n i + 1 = freeCount FAT n i := by
  induction n generalizing i with
  | zero => simp at h2; omega
  | succ n ih =>
    unfold freeCount
    by_cases hji : j = i
    · subst hji
      have hrest : ∀ (m : Nat) (k : Int), j < k →
          freeCount (upd FAT j v) m k = freeCount FAT m k := by
        intro m
        induction m with
        | zero => intro k _; rfl
        | succ m ihm =>
          intro k hk
          unfold freeCount
          rw [upd_other _ _ (by omega : k ≠ j), ihm (k + 1) (by omega)]
      rw [upd_same, hrest n (j + 1) (by omega)]
      simp [hj, hv]
      omega
    · have := ih (i := i + 1) (by omega) (by push_cast at h2; omega)
      rw [upd_other _ _ (by omega : i ≠ j)]
      omega

theorem freeCount_upd_used {FAT : Int → Int} (n : Nat) (i : Int) {c : Int} (v : Int)
    (hc : FAT c ≠ FREE) (hv : v ≠ FREE) : freeCount (upd FAT c v) n i = freeCount FAT n i := by
  induction n generalizing i with
  | zero => rfl
  | succ n ih =>
    unfold freeCount
    rw [ih]
    by_cases hic : i = c
    · subst hic
      rw [upd_same]
      simp [hc, hv]
    · rw [upd_other _ _ hic]

theorem freeCount_const_free (n : Nat) (i : Int) : freeCount (fun _ => FREE) n i = n := by
  induction n generalizing i with
  | zero => rfl
  | succ n ih =>
    unfold freeCount
    rw [ih]
    simp
    omega

/-! ## Integer conversions -/

theorem toSizeT_of_nonneg {x : Int} (h0 : 0 ≤ x) (h1 : x < 2 ^ 64) : (toSizeT x : Int) = x := by
  unfold toSizeT
  omega

theorem toInt32_of_lt {n : Nat} (h : (n : Int) < 2 ^ 31) : toInt32 n = n := by
  unfold toInt32
  omega

/-! ## Chains -/

theorem nthBlock_succ (FAT : Int → Int) (b : Int) (k : Nat) :
    nthBlock FAT b (k + 1) = FAT (nthBlock FAT b k) := by
  induction k generalizing b with
  | zero => rfl
  | succ k ih =>
    show nthBlock FAT (FAT b) (k + 1) = FAT (nthBlock FAT (FAT b) k)
    exact ih (FAT b)

theorem nthBlock_add (FAT : Int → Int) (b : Int) (m k : Nat) :
    nthBlock FAT (nthBlock FAT b m) k = nthBlock FAT b (m + k) := by
  induction m generalizing b with
  | zero => simp [nthBlock]
  | succ m ih =>
    show nthBlock FAT (nthBlock FAT (FAT b) m) k = nthBlock FAT b (m + 1 + k)
    rw [ih (FAT b), show m + 1 + k = (m + k) + 1 by omega]
    rfl

theorem validChain_inDisk {FAT : Int → Int} {b : Int} {L : Nat} (h : validChain FAT b L) :
    ∀ t, t < L → inDisk (nthBlock FAT b t) := by
  induction L generalizing b with
  | zero => intro t ht; omega
  | succ L ih =>
    intro t ht
    obtain ⟨h1, h2⟩ := h
    cases t with
    | zero => exact h1
    | succ t => exact ih h2 t (by omega)

theorem validChain_end {FAT : Int → Int} {b : Int} {L : Nat} (h : validChain FAT b L) :
    nthBlock FAT b L = END_MARKER := by
  induction L generalizing b with
  | zero => exact h
  | succ L ih => exact ih h.2

theorem validChain_of {FAT : Int → Int} {b : Int} {L : Nat}
    (h1 : ∀ t, t < L → inDisk (nthBlock FAT b t)) (h2 : nthBlock FAT b L = END_MARKER) :
    validChain FAT b L := by
  induction L generalizing b with
  | zero => exact h2
  | succ L ih =>
    refine ⟨h1 0 (by omega), ih (fun t ht => h1 (t + 1) (by omega)) h2⟩

theorem not_inDisk_END : ¬ inDisk END_MARKER := by
  unfold inDisk END_MARKER DISK_BLOCKS
  omega

/-- The blocks of a chain are pairwise different. -/
theorem validChain_distinct {FAT : Int → Int} {b : Int} {L : Nat} (h : validChain FAT b L)
    {i j : Nat} (hij : i < j) (hj : j < L) : nthBlock FAT b i ≠ nthBlock FAT b j := by
  intro heq
  have hshift : ∀ t : Nat, nthBlock FAT b (i + t) = nthBlock FAT b (j + t) := by
    intro t
    rw [← nthBlock_add, ← nthBlock_add, heq]
  have h1 := hshift (L - j)
  have h2 : nthBlock FAT b (j + (L - j)) = END_MARKER := by
    rw [show j + (L - j) = L by omega]
    exact validChain_end h
  have h3 := validChain_inDisk h (i + (L - j)) (by omega)
  rw [h1, h2] at h3
  exact not_inDisk_END h3

/-- A chain only depends on the FAT entries of its own blocks. -/
theorem nthBlock_congr {FAT FAT2 : Int → Int} {b : Int} {m : Nat}
    (h : ∀ t, t < m → FAT2 (nthBlock FAT b t) = FAT (nthBlock FAT b t)) :
    ∀ t, t ≤ m → nthBlock FAT2 b t = nthBlock FAT b t := by
  intro t
  induction t with
  | zero => intro _; rfl
  | succ t ih =>
    intro ht
    rw [nthBlock_succ, nthBlock_succ, ih (by omega), h t (by omega)]

/-! ## Reading -/

theorem chainByte_lt (FAT : Int → Int) (disk : Int → Block) (b : Int) {q : Int} (h0 : 0 ≤ q)
    (h1 : q < BLOCK_SIZE) : chainByte FAT disk b q = disk b q := by
  unfold chainByte
  simp only [BLOCK_SIZE] at *
  have e1 : (q / 4096).toNat = 0 := by omega
  have e2 : q % 4096 = q := by omega
  rw [e1, e2]
  rfl

theorem chainByte_step (FAT : Int → Int) (disk : Int → Block) (b : Int) {q : Int}
    (h : BLOCK_SIZE ≤ q) : chainByte FAT disk b q = chainByte FAT disk (FAT b) (q - BLOCK_SIZE) := by
  unfold chainByte
  simp only [BLOCK_SIZE] at *
  have e1 : (q / 4096).toNat = ((q - 4096) / 4096).toNat + 1 := by omega
  have e2 : q % 4096 = (q - 4096) % 4096 := by omega
  rw [e1, e2]
  rfl

theorem chainByte_shift (FAT : Int → Int) (disk : Int → Block) (b : Int) (m : Nat) {q : Int}
    (h : 0 ≤ q) :
    chainByte FAT disk (nthBlock FAT b m) q = chainByte FAT disk b (q + BLOCK_SIZE * m) := by
  unfold chainByte
  simp only [BLOCK_SIZE] at *
  have e1 : ((q + 4096 * (m : Int)) / 4096).toNat = m + (q / 4096).toNat := by omega
  have e2 : (q + 4096 * (m : Int)) % 4096 = q % 4096 := by omega
  rw [e1, e2, nthBlock_add]

theorem readBytes_spec (blocks : Block) (n : Nat) (i : Int) (buffer : Int → UInt8)
    (reading remaining : Int) (hr : 0 < remaining) :
    (readBytes blocks n i buffer reading remaining).2.1 = reading + min (n : Int) remaining ∧
    (readBytes blocks n i buffer reading remaining).2.2 = remaining - min (n : Int) remaining ∧
    ∀ j, (readBytes blocks n i buffer reading remaining).1 j =
      if reading ≤ j ∧ j < reading + min (n : Int) remaining then blocks (i + (j - reading))
      else buffer j := by
  induction n generalizing i buffer reading remaining with
  | zero =>
    have hm : min ((0 : Nat) : Int) remaining = 0 := by omega
    simp only [readBytes, hm]
    refine ⟨by omega, by omega, ?_⟩
    intro j
    rw [if_neg (by omega)]
  | succ n ih =>
    unfold readBytes
    by_cases h1 : remaining - 1 = 0
    · have hm : min ((n + 1 : Nat) : Int) remaining = 1 := by omega
      rw [if_pos h1, hm]
      refine ⟨rfl, ?_, ?_⟩
      · show remaining - 1 = remaining - 1
        rfl
      · intro j
        show upd buffer reading (blocks i) j = _
        by_cases hj : j = reading
        · subst hj
          rw [upd_same, if_pos (by omega)]
          congr 1
          omega
        · rw [upd_other _ _ hj, if_neg (by omega)]
    · have hm : min ((n + 1 : Nat) : Int) remaining = min (n : Int) (remaining - 1) + 1 := by omega
      rw [if_neg h1, hm]
      obtain ⟨a, b, c⟩ := ih (i + 1) (upd buffer reading (blocks i)) (reading + 1) (remaining - 1)
        (by omega)
      refine ⟨by rw [a]; omega, by rw [b]; omega, ?_⟩
      intro j
      rw [c j]
      by_cases hj : j = reading
      · subst hj
        rw [if_neg (by omega), upd_same, if_pos (by omega)]
        congr 1
        omega
      · rw [upd_other _ _ hj]
        by_cases hin : reading + 1 ≤ j ∧ j < reading + 1 + min (n : Int) (remaining - 1)
        · rw [if_pos hin, if_pos (by omega)]
          congr 1
          omega
        · rw [if_neg hin, if_neg (by omega)]

theorem readLoop_spec (FAT : Int → Int) (disk : Int → Block) :
    ∀ (fuel : Nat) (block offset : Int) (blocks : Block) (buffer : Int → UInt8)
      (reading remaining : Int),
      0 ≤ offset → offset < BLOCK_SIZE → 0 ≤ remaining → remaining ≤ fuel →
      (∀ t : Nat, (t : Int) * BLOCK_SIZE < offset + remaining → inDisk (nthBlock FAT block t)) →
      ∃ out, readLoop FAT disk fuel block offset blocks buffer reading remaining = some out ∧
        ∀ j, out j = if reading ≤ j ∧ j < reading + remaining then
                       chainByte FAT disk block (offset + (j - reading))
                     else buffer j := by
  intro fuel
  induction fuel with
  | zero =>
    intro block offset blocks buffer reading remaining _ _ h0 hf _
    have : remaining = 0 := by simp at hf; omega
    subst this
    refine ⟨buffer, by simp [readLoop], ?_⟩
    intro j
    rw [if_neg (by omega)]
  | succ n ih =>
    intro block offset blocks buffer reading remaining ho1 ho2 h0 hf hch
    simp only [BLOCK_SIZE] at ho2 hch
    unfold readLoop
    by_cases hpos : remaining > 0
    · have hb : inDisk block := hch 0 (by simp; omega)
      have hrd : (block_read disk block).getD blocks = disk block := by
        simp [block_read, hb]
      obtain ⟨a, b, c⟩ := readBytes_spec (disk block) (BLOCK_SIZE - offset).toNat offset buffer
        reading remaining hpos
      have hn : (((BLOCK_SIZE - offset).toNat : Nat) : Int) = 4096 - offset := by
        simp only [BLOCK_SIZE]; omega
      rw [hn] at a b c
      simp only [hpos, if_true, hrd, if_neg (not_lt.mpr ho1)]
      by_cases hrem : (readBytes (disk block) (BLOCK_SIZE - offset).toNat offset buffer reading
          remaining).2.2 ≠ 0
      · rw [if_pos hrem, if_pos hb]
        rw [b] at hrem
        have hmin : min (4096 - offset) remaining = 4096 - offset := by omega
        rw [hmin] at a b c
        rw [a, b]
        obtain ⟨out, e1, e2⟩ := ih (FAT block) 0 (disk block)
          (readBytes (disk block) (BLOCK_SIZE - offset).toNat offset buffer reading remaining).1
          (reading + (4096 - offset)) (remaining - (4096 - offset)) (le_refl _)
          (by simp only [BLOCK_SIZE]; omega) (by omega) (by push_cast at hf; omega)
          (by
            intro t ht
            have := hch (t + 1) (by simp only [BLOCK_SIZE] at ht; push_cast; omega)
            exact this)
        refine ⟨out, e1, ?_⟩
        intro j
        rw [e2 j]
        by_cases hj2 : reading + (4096 - offset) ≤ j ∧
            j < reading + (4096 - offset) + (remaining - (4096 - offset))
        · rw [if_pos hj2, if_pos (by omega)]
          rw [chainByte_step FAT disk block (by simp only [BLOCK_SIZE]; omega)]
          congr 1
          simp only [BLOCK_SIZE]
          omega
        · rw [if_neg hj2, c j]
          by_cases hj1 : reading ≤ j ∧ j < reading + (4096 - offset)
          · rw [if_pos hj1, if_pos (by omega),
              chainByte_lt FAT disk block (by omega) (by simp only [BLOCK_SIZE]; omega)]
          · rw [if_neg hj1, if_neg (by omega)]
      · rw [if_neg hrem]
        have hrem0 : remaining - min (4096 - offset) remaining = 0 := by
          rw [b] at hrem
          exact not_not.mp hrem
        have hmin : min (4096 - offset) remaining = remaining := by omega
        rw [hmin] at c
        refine ⟨_, rfl, ?_⟩
        intro j
        rw [c j]
        by_cases hj1 : reading ≤ j ∧ j < reading + remaining
        · rw [if_pos hj1, if_pos hj1,
            chainByte_lt FAT disk block (by omega) (by simp only [BLOCK_SIZE]; omega)]
        · rw [if_neg hj1, if_neg hj1]
    · have : remaining = 0 := by omega
      subst this
      refine ⟨buffer, by simp, ?_⟩
      intro j
      rw [if_neg (by omega)]

theorem walk_spec (FAT : Int → Int) :
    ∀ (n : Nat) (offset prev block : Int), (n : Int) * BLOCK_SIZE ≤ offset →
      (∀ t, t < n → inDisk (nthBlock FAT block t)) →
      walk FAT n offset prev block =
        some (offset - n * BLOCK_SIZE, (if n = 0 then prev else nthBlock FAT block (n - 1)),
              nthBlock FAT block n) := by
  intro n
  induction n with
  | zero =>
    intro offset prev block _ _
    simp [walk, nthBlock]
  | succ n ih =>
    intro offset prev block h1 h2
    unfold walk
    simp only [BLOCK_SIZE] at h1 ⊢
    push_cast at h1
    have hb : inDisk block := h2 0 (by omega)
    rw [if_pos (by omega), if_pos hb]
    rw [ih (offset - 4096) block (FAT block) (by simp only [BLOCK_SIZE]; omega)
      (fun t ht => h2 (t + 1) (by omega))]
    simp only [BLOCK_SIZE]
    congr 1
    refine Prod.ext ?_ (Prod.ext ?_ ?_)
    · push_cast; omega
    · simp only [Nat.add_sub_cancel, Nat.succ_ne_zero, if_false]
      cases n with
      | zero => simp [nthBlock]
      | succ m => simp [nthBlock]
    · rfl

theorem OpenOn.scan_entry {s : State} {fd e : Int} {L : Nat} (h : OpenOn s fd e L) :
    scan (fun j => decide ((s.fildes_array fd).file = (s.DIR j).head)) 64 0 = some e := by
  have h2 := h.e_hi
  simp only [MAX_FILES_ALLOWED] at h2
  apply scan_eq_some_of h.e_lo (by push_cast; omega)
  · simp [h.head]
  · intro k hk1 hk2
    have := h.first k hk1 hk2
    simp only [decide_eq_false_iff_not]
    exact fun heq => this heq.symm

theorem read_clamp (n : Nat) (o size : Int) (h0 : 0 ≤ o) (h1 : o ≤ size) (h2 : size < 2 ^ 31)
    (hn : (n : Int) + o < 2 ^ 64) :
    (((if (n + toSizeT o) % 2 ^ 64 > toSizeT size then toSizeT (size - o) else n : Nat)) : Int)
      = min (n : Int) (size - o) := by
  have hts1 : toSizeT o = o.toNat := by unfold toSizeT; omega
  have hts2 : toSizeT size = size.toNat := by unfold toSizeT; omega
  have hts3 : toSizeT (size - o) = (size - o).toNat := by unfold toSizeT; omega
  rw [hts1, hts2, hts3]
  split <;> omega

/-- What `fs_read` returns on a well-formed open file when the byte count added to
the offset stays below `2^64`. -/
theorem fs_read_spec {s : State} {fd e : Int} {L : Nat} (h : OpenOn s fd e L)
    (buf : Int → UInt8) (n : Nat) (hn : (n : Int) + (s.fildes_array fd).offset < 2 ^ 64) :
    ∃ out, fs_read s fd buf n
        = some (min (n : Int) ((s.DIR e).size - (s.fildes_array fd).offset), out, s) ∧
      (∀ i, 0 ≤ i → i < min (n : Int) ((s.DIR e).size - (s.fildes_array fd).offset) →
        out i = fileByte s (s.fildes_array fd).file ((s.fildes_array fd).offset + i)) ∧
      (∀ i, ¬ (0 ≤ i ∧ i < min (n : Int) ((s.DIR e).size - (s.fildes_array fd).offset)) →
        out i = buf i) := by
  have hscan := h.scan_entry
  obtain ⟨hf0, hf1, hused, he0, he1, hhead, hfirst, hchain, hsz, hszi, ho0, ho1⟩ := h
  simp only [MAX_FILDES, BLOCK_SIZE] at hf1 hsz
  unfold fs_read
  rw [if_neg (by simp only [MAX_FILDES]; omega), if_neg (by simp only [MAX_FILDES]; omega),
    if_neg hused]
  by_cases hn0 : n = 0
  · subst hn0
    rw [if_pos rfl]
    have hm : min ((0 : Nat) : Int) ((s.DIR e).size - (s.fildes_array fd).offset) = 0 := by omega
    rw [hm]
    exact ⟨buf, rfl, fun i h1 h2 => by omega, fun _ _ => rfl⟩
  · rw [if_neg hn0]
    simp only [hscan]
    generalize hsize : (s.DIR e).size = size at *
    generalize hoff : (s.fildes_array fd).offset = o at *
    generalize hfile : (s.fildes_array fd).file = file at *
    have hnb := read_clamp n o size ho0 ho1 hszi hn
    generalize (if (n + toSizeT o) % 2 ^ 64 > toSizeT size then toSizeT (size - o) else n) = nb at *
    have hr0 : 0 ≤ min (n : Int) (size - o) := le_min (by omega) (by omega)
    have hr2 : min (n : Int) (size - o) ≤ size - o := min_le_right _ _
    clear hn hn0
    generalize min (n : Int) (size - o) = r at *
    have hlt : ¬ nb ≥ 2 ^ 63 := by omega
    have hti : toInt32 nb = r := by
      rw [← hnb]; exact toInt32_of_lt (by omega)
    rw [if_neg hlt, hti]
    clear hti hszi hlt
    have hk : ((o / BLOCK_SIZE).toNat : Int) * BLOCK_SIZE ≤ o := by
      simp only [BLOCK_SIZE]; omega
    have hkL : (o / BLOCK_SIZE).toNat ≤ L := by
      simp only [BLOCK_SIZE]; omega
    rw [walk_spec s.FAT (o / BLOCK_SIZE).toNat o 0 file hk
      (fun t ht => validChain_inDisk hchain t (by omega))]
    simp only []
    have hq0 : 0 ≤ o - ((o / BLOCK_SIZE).toNat : Int) * BLOCK_SIZE := by
      simp only [BLOCK_SIZE]; omega
    have hq1 : o - ((o / BLOCK_SIZE).toNat : Int) * BLOCK_SIZE < BLOCK_SIZE := by
      simp only [BLOCK_SIZE]; omega
    have hfuel : r ≤ ((r.toNat : Nat) : Int) := by omega
    obtain ⟨out, e1, e2⟩ := readLoop_spec s.FAT s.disk r.toNat
      (nthBlock s.FAT file (o / BLOCK_SIZE).toNat) (o - ((o / BLOCK_SIZE).toNat : Int) * BLOCK_SIZE)
      (fun _ => 255) (fun _ => 0) 0 r hq0 hq1 hr0 hfuel
      (by
        intro t ht
        rw [nthBlock_add]
        apply validChain_inDisk hchain
        simp only [BLOCK_SIZE] at ht hk hsz ⊢
        omega)
    rw [e1]
    refine ⟨_, rfl, ?_, ?_⟩
    · intro i hi0 hi1
      show (if 0 ≤ i ∧ i < (nb : Int) then out i else buf i) = _
      rw [if_pos (by omega), e2 i, if_pos (by omega)]
      unfold fileByte
      rw [chainByte_shift _ _ _ _ (by omega)]
      congr 1
      simp only [BLOCK_SIZE]
      omega
    · intro i hi
      show (if 0 ≤ i ∧ i < (nb : Int) then out i else buf i) = _
      rw [if_neg (by omega)]

/-! ## Writing -/

theorem writeBytes_spec (storage : Int) (buf : Int → UInt8) (offset : Int) (n : Nat) (i : Int)
    (blocks : Block) (bw fo remaining : Int) (hr : 0 < remaining)
    (hst : i + n + offset ≤ storage + 1) :
    (writeBytes storage buf offset n i blocks bw fo remaining).2.1 = bw + min (n : Int) remaining ∧
    (writeBytes storage buf offset n i blocks bw fo remaining).2.2.1
      = fo + min (n : Int) remaining ∧
    (writeBytes storage buf offset n i blocks bw fo remaining).2.2.2.1
      = remaining - min (n : Int) remaining ∧
    (writeBytes storage buf offset n i blocks bw fo remaining).2.2.2.2 = false ∧
    ∀ q, (writeBytes storage buf offset n i blocks bw fo remaining).1 q =
      if i ≤ q ∧ q < i + min (n : Int) remaining then buf (bw + (q - i)) else blocks q := by
  induction n generalizing i blocks bw fo remaining with
  | zero =>
    have hm : min ((0 : Nat) : Int) remaining = 0 := by omega
    simp only [writeBytes, hm]
    refine ⟨by omega, by omega, by omega, trivial, ?_⟩
    intro q
    rw [if_neg (by omega)]
  | succ n ih =>
    unfold writeBytes
    by_cases h1 : remaining - 1 = 0
    · have hm : min ((n + 1 : Nat) : Int) remaining = 1 := by omega
      rw [if_pos h1, hm]
      refine ⟨rfl, rfl, ?_, rfl, ?_⟩
      · show remaining - 1 = remaining - 1
        rfl
      · intro q
        show upd blocks i (buf bw) q = _
        by_cases hq : q = i
        · subst hq
          rw [upd_same, if_pos (by omega)]
          congr 1
          omega
        · rw [upd_other _ _ hq, if_neg (by omega)]
    · have hm : min ((n + 1 : Nat) : Int) remaining = min (n : Int) (remaining - 1) + 1 := by omega
      have hni : ¬ i + offset > storage := by push_cast at hst; omega
      rw [if_neg h1, if_neg hni, hm]
      obtain ⟨a, b, c, d, e⟩ := ih (i + 1) (upd blocks i (buf bw)) (bw + 1) (fo + 1) (remaining - 1)
        (by omega) (by push_cast at hst; omega)
      refine ⟨by rw [a]; omega, by rw [b]; omega, by rw [c]; omega, d, ?_⟩
      intro q
      rw [e q]
      by_cases hq : q = i
      · subst hq
        rw [if_neg (by omega), upd_same, if_pos (by omega)]
        congr 1
        omega
      · rw [upd_other _ _ hq]
        by_cases hin : i + 1 ≤ q ∧ q < i + 1 + min (n : Int) (remaining - 1)
        · rw [if_pos hin, if_pos (by omega)]
          congr 1
          omega
        · rw [if_neg hin, if_neg (by omega)]

theorem extend_of_ne {data_idx : Int} {w : WLoop} (h : w.block ≠ END_MARKER) :
    extend data_idx w = some w := by
  unfold extend
  rw [if_neg h]

theorem writeLoop_extend (storage data_idx : Int) (buf : Int → UInt8) (n : Nat) {w w1 : WLoop}
    (he : extend data_idx w = some w1) (hb : w1.block ≠ END_MARKER)
    (hr : w1.remaining = w.remaining) (hpos : 0 < w.remaining) :
    writeLoop storage data_idx buf (n + 1) w = writeLoop storage data_idx buf (n + 1) w1 := by
  unfold writeLoop
  rw [he, extend_of_ne hb, hr, if_pos hpos, if_pos hpos]

theorem touched_pos {off r : Int} (h0 : 0 ≤ off) (hr : 0 < r) : 0 < touched off r := by
  unfold touched
  simp only [BLOCK_SIZE]
  omega

theorem touched_one {off r : Int} (h0 : 0 ≤ off) (hr : 0 < r) (h : off + r ≤ BLOCK_SIZE) :
    touched off r = 1 := by
  unfold touched
  simp only [BLOCK_SIZE] at *
  omega

theorem touched_succ {off r : Int} (h : BLOCK_SIZE < off + r) :
    touched off r = touched 0 (r - (BLOCK_SIZE - off)) + 1 := by
  unfold touched
  simp only [BLOCK_SIZE] at *
  omega

theorem writeLoop_step (storage data_idx : Int) (buf : Int → UInt8)
    (hst : 2 * BLOCK_SIZE ≤ storage) (n : Nat)
    (ih : ∀ (w : WLoop) (L : Nat), 0 ≤ w.offset → w.offset < BLOCK_SIZE → 0 < w.remaining →
      w.remaining ≤ n → validChain w.FAT w.block L →
      (L = 0 → inDisk w.prev ∧ w.FAT w.prev = END_MARKER) →
      WriteLoopOK storage data_idx buf n w L)
    (w : WLoop) (L : Nat) (ho0 : 0 ≤ w.offset) (ho1 : w.offset < BLOCK_SIZE)
    (hr0 : 0 < w.remaining) (hr1 : w.remaining ≤ (n + 1 : Nat))
    (hch : validChain w.FAT w.block (L + 1)) :
    WriteLoopOK storage data_idx buf (n + 1) w (L + 1) := by
  have ⟨hb, hch2⟩ : inDisk w.block ∧ validChain w.FAT (w.FAT w.block) L := hch
  have hne : w.block ≠ END_MARKER := fun h => not_inDisk_END (h ▸ hb)
  simp only [BLOCK_SIZE] at ho1 hst
  obtain ⟨a, b, c, d, e⟩ := writeBytes_spec storage buf w.offset (BLOCK_SIZE - w.offset).toNat
    w.offset (w.disk w.block) w.bytes_written w.fdoffset w.remaining hr0
    (by simp only [BLOCK_SIZE]; omega)
  have hn : (((BLOCK_SIZE - w.offset).toNat : Nat) : Int) = 4096 - w.offset := by
    simp only [BLOCK_SIZE]; omega
  rw [hn] at a b c e
  unfold WriteLoopOK
  unfold writeLoop
  rw [if_pos hr0, extend_of_ne hne]
  simp only [block_read, if_pos hb]
  rw [if_neg (not_lt.mpr ho0)]
  generalize hR : writeBytes storage buf w.offset (BLOCK_SIZE - w.offset).toNat w.offset
    (w.disk w.block) w.bytes_written w.fdoffset w.remaining = R at a b c d e ⊢
  simp only [d, Bool.false_eq_true, if_false]
  obtain ⟨blocks2, bw2, fo2, rem2, flag⟩ := R
  simp only at a b c d e ⊢
  clear hR hn d flag
  by_cases hrem : rem2 = 0
  · rw [if_neg (not_not.mpr hrem)]
    have hmin : min (4096 - w.offset) w.remaining = w.remaining := by omega
    rw [hmin] at a b e
    have hT : touched w.offset w.remaining = 1 :=
      touched_one ho0 hr0 (by simp only [BLOCK_SIZE]; omega)
    have hle : w.offset + w.remaining ≤ 4096 := by omega
    clear hmin c hrem ih hr1 hst
    refine ⟨_, rfl, fun _ => rfl, Or.inl rfl, fun _ => ?_⟩
    refine ⟨a, b, hb, ?_, ?_, ?_, ?_, ?_, ?_, ?_⟩
    · simp only [hT, Nat.add_one_ne_zero, if_false]
      rfl
    · simp only [hT, Nat.add_one_ne_zero, if_false]
      rw [show max (L + 1) 1 = L + 1 by omega]
      exact hch
    · intro t _
      simp only [Nat.add_one_ne_zero, if_false]
    · intro t h1 h2
      rw [hT] at h2
      omega
    · intro c _ _ _
      rfl
    · intro c hc
      rw [hT] at hc
      have := hc 0 (by omega)
      simp only [Nat.add_one_ne_zero, if_false] at this
      exact upd_other _ _ this
    · intro t ht q
      rw [hT] at ht
      have ht0 : t = 0 := by omega
      subst ht0
      simp only [Nat.add_one_ne_zero, if_false]
      show upd w.disk w.block blocks2 w.block q = _
      rw [upd_same, e q]
      show _ = if _ then _ else w.disk w.block q
      by_cases hq : w.offset ≤ q ∧ q < w.offset + w.remaining
      · rw [if_pos hq, if_pos (by simp only [BLOCK_SIZE]; omega)]
        congr 1
        simp only [BLOCK_SIZE]
        omega
      · rw [if_neg hq, if_neg (by simp only [BLOCK_SIZE]; omega)]
  · rw [if_pos hrem]
    simp only [block_write, if_pos hb]
    have hmin : min (4096 - w.offset) w.remaining = 4096 - w.offset := by omega
    have hrem_pos : 0 < rem2 := by omega
    rw [hmin] at a b c e
    clear hmin
    have hT : touched w.offset w.remaining = touched 0 rem2 + 1 := by
      rw [c]; exact touched_succ (by simp only [BLOCK_SIZE]; omega)
    have hT3 : 0 < touched 0 rem2 := touched_pos (le_refl 0) hrem_pos
    obtain ⟨res, h1, h2, h3, h4⟩ := ih
      ⟨w.FAT, upd w.disk w.block blocks2, blocks2, w.FAT w.block, w.block, 0, rem2, bw2, fo2⟩ L
      (le_refl (0 : Int)) (by show (0 : Int) < BLOCK_SIZE; simp only [BLOCK_SIZE]; omega) hrem_pos
      (by show rem2 ≤ (n : Int); push_cast at hr1; omega) hch2
      (fun hL => ⟨hb, by subst hL; exact hch2⟩)
    clear ih hr1 hst hrem
    obtain ⟨ret, w1⟩ := res
    simp only at h1 h2 h3 h4 ⊢
    refine ⟨(ret, w1), h1, ?_, h3, ?_⟩
    · intro hfree
      apply h2
      rw [hT] at hfree
      omega
    · intro hnone
      obtain ⟨p_bw, p_fo, p_li, p_le, p_ch, p_old, p_fresh, p_frame, p_do, p_dd⟩ := h4 hnone
      simp only at p_bw p_fo p_li p_le p_ch p_old p_fresh p_frame p_do p_dd
      clear h1 h2 h3 h4 hnone
      have hstart : (if L = 0 then w1.FAT w.block else w.FAT w.block) = w1.FAT w.block := by
        by_cases hL : L = 0
        · rw [if_pos hL]
        · rw [if_neg hL]
          symm
          apply p_frame
          · obtain ⟨m, rfl⟩ : ∃ m, L = m + 1 := ⟨L - 1, by omega⟩
            have hin : inDisk (w.FAT w.block) := hch2.1
            unfold inDisk at hin
            simp only [FREE]
            omega
          · exact fun h => hL h.1
          · intro h
            have hd := validChain_distinct hch (i := 0) (j := L) (by omega) (by omega)
            apply hd
            obtain ⟨m, rfl⟩ : ∃ m, L = m + 1 := ⟨L - 1, by omega⟩
            exact h.2.2
      rw [hstart] at p_le p_ch p_old p_fresh p_do p_dd
      clear hstart
      have hfin : validChain w1.FAT w.block (max L (touched 0 rem2) + 1) := ⟨hb, p_ch⟩
      refine ⟨by rw [p_bw, a, c]; omega, by rw [p_fo, b, c]; omega, p_li, ?_, ?_, ?_, ?_, ?_, ?_, ?_⟩
      · simp only [hT, Nat.add_one_ne_zero, if_false]
        rw [p_le, show touched 0 rem2 + 1 - 1 = (touched 0 rem2 - 1) + 1 by omega]
        rfl
      · simp only [hT, Nat.add_one_ne_zero, if_false]
        rw [show max (L + 1) (touched 0 rem2 + 1) = max L (touched 0 rem2) + 1 by omega]
        exact hfin
      · intro t ht
        simp only [Nat.add_one_ne_zero, if_false]
        cases t with
        | zero => rfl
        | succ t => exact p_old t (by omega)
      · intro t ht1 ht2
        simp only [Nat.add_one_ne_zero, if_false]
        rw [hT] at ht2
        cases t with
        | zero => omega
        | succ t => exact p_fresh t (by omega) (by omega)
      · intro x hx1 _ hx3
        apply p_frame x hx1
        · rintro ⟨hL, hxb⟩
          apply hx3
          subst hL
          subst hxb
          exact ⟨by omega, by omega, rfl⟩
        · rintro ⟨hL1, hL2, hxb⟩
          apply hx3
          refine ⟨by omega, by omega, ?_⟩
          rw [hxb]
          obtain ⟨m, rfl⟩ : ∃ m, L = m + 1 := ⟨L - 1, by omega⟩
          rfl
      · intro x hx
        simp only [Nat.add_one_ne_zero, if_false] at hx
        rw [p_do x (fun t ht => hx (t + 1) (by omega))]
        exact upd_other _ _ (hx 0 (by omega))
      · intro t ht q
        simp only [Nat.add_one_ne_zero, if_false]
        rw [hT] at ht
        cases t with
        | zero =>
          have hnot : ∀ t, t < touched 0 rem2 → w.block ≠ nthBlock w1.FAT (w1.FAT w.block) t := by
            intro t ht
            exact validChain_distinct hfin (i := 0) (j := t + 1) (by omega) (by omega)
          show upd w1.disk w1.block w1.blocks w.block q = _
          rw [p_do w.block hnot, upd_same, e q]
          show _ = if _ then _ else w.disk w.block q
          by_cases hq : w.offset ≤ q ∧ q < w.offset + (4096 - w.offset)
          · rw [if_pos hq, if_pos (by simp only [BLOCK_SIZE]; omega)]
            congr 1
            simp only [BLOCK_SIZE]
            omega
          · rw [if_neg hq, if_neg (by simp only [BLOCK_SIZE]; omega)]
        | succ t =>
          show upd w1.disk w1.block w1.blocks (nthBlock w1.FAT (w1.FAT w.block) t) q = _
          rw [p_dd t (by omega) q]
          have hne2 : nthBlock w1.FAT (w1.FAT w.block) t ≠ w.block := by
            have := validChain_distinct hfin (i := 0) (j := t + 1) (by omega) (by omega)
            exact fun h => this h.symm
          rw [upd_other _ _ hne2]
          show _ = if _ then _ else w.disk (nthBlock w1.FAT (w1.FAT w.block) t) q
          by_cases hq : 0 ≤ q ∧ q < BLOCK_SIZE ∧ 0 ≤ BLOCK_SIZE * (t : Int) + q
              ∧ BLOCK_SIZE * (t : Int) + q < 0 + rem2
          · rw [if_pos hq, if_pos (by simp only [BLOCK_SIZE] at hq ⊢; push_cast; omega)]
            congr 1
            simp only [BLOCK_SIZE]
            push_cast
            omega
          · rw [if_neg hq, if_neg (by simp only [BLOCK_SIZE] at hq ⊢; push_cast; omega)]

theorem freeData_extend {FAT : Int → Int} {data_idx j prev : Int} (hd : 0 ≤ data_idx)
    (j0 : data_idx ≤ j) (j1 : j < DISK_BLOCKS) (hj : FAT j = FREE) (hp : FAT prev = END_MARKER) :
    freeData (upd (upd FAT j END_MARKER) prev j) data_idx + 1 = freeData FAT data_idx := by
  unfold freeData
  have hpj : prev ≠ j := by
    intro h
    rw [h, hj] at hp
    exact absurd hp (by decide)
  rw [freeCount_upd_used _ _ j (by rw [upd_other _ _ hpj, hp]; decide) (by simp only [FREE]; omega)]
  exact freeCount_upd_free END_MARKER j0 (by simp only [DISK_BLOCKS] at j1 ⊢; omega) hj (by decide)

theorem writeLoop_spec (storage data_idx : Int) (buf : Int → UInt8) (hd : 0 ≤ data_idx)
    (hst : 2 * BLOCK_SIZE ≤ storage) :
    ∀ (fuel : Nat) (w : WLoop) (L : Nat), 0 ≤ w.offset → w.offset < BLOCK_SIZE →
      0 < w.remaining → w.remaining ≤ fuel → validChain w.FAT w.block L →
      (L = 0 → inDisk w.prev ∧ w.FAT w.prev = END_MARKER) →
      WriteLoopOK storage data_idx buf fuel w L := by
  intro fuel
  induction fuel with
  | zero =>
    intro w L _ _ hr0 hr1 _ _
    simp at hr1
    omega
  | succ n ih =>
    intro w L ho0 ho1 hr0 hr1 hch hprev
    cases L with
    | succ L => exact writeLoop_step storage data_idx buf hst n ih w L ho0 ho1 hr0 hr1 hch
    | zero =>
      have hblock : w.block = END_MARKER := hch
      obtain ⟨hp1, hp2⟩ := hprev rfl
      have hT := touched_pos ho0 hr0
      cases hs : scan (fun j => decide (w.FAT j = FREE)) (DISK_BLOCKS - data_idx).toNat data_idx with
      | none =>
        have hext : extend data_idx w = some w := by
          unfold extend
          rw [if_pos hblock, if_neg (not_lt.mpr hd)]
          simp only [hs]
        unfold WriteLoopOK
        unfold writeLoop
        rw [if_pos hr0, hext]
        simp only [block_read, hblock, if_neg not_inDisk_END]
        refine ⟨_, rfl, ?_, Or.inr rfl, fun h => by cases h⟩
        intro hfree
        have h0 : freeData w.FAT data_idx = 0 := freeCount_eq_zero_of_scan_none hs
        omega
      | some j =>
        obtain ⟨j0, j1, j2, _⟩ := scan_some hs
        have hj : w.FAT j = FREE := by simpa using j2
        have hjd : j < DISK_BLOCKS := by simp only [DISK_BLOCKS] at j1 ⊢; omega
        have hjin : inDisk j := ⟨by omega, hjd⟩
        have hpj : w.prev ≠ j := by
          intro h
          rw [h, hj] at hp2
          exact absurd hp2 (by decide)
        have hjE : j ≠ END_MARKER := fun h => not_inDisk_END (h ▸ hjin)
        have hext : extend data_idx w
            = some { w with FAT := upd (upd w.FAT j END_MARKER) w.prev j, block := j } := by
          unfold extend
          rw [if_pos hblock, if_neg (not_lt.mpr hd)]
          simp only [hs, if_pos hp1, upd_same]
        have hFj : upd (upd w.FAT j END_MARKER) w.prev j j = END_MARKER := by
          rw [upd_other _ _ hpj.symm, upd_same]
        obtain ⟨res, r1, r2, r3, r4⟩ := writeLoop_step storage data_idx buf hst n ih
          { w with FAT := upd (upd w.FAT j END_MARKER) w.prev j, block := j } 0 ho0 ho1 hr0 hr1
          ⟨hjin, hFj⟩
        have hfd := freeData_extend hd j0 hjd hj hp2
        obtain ⟨ret, w1⟩ := res
        simp only at r1 r2 r3 r4
        refine ⟨(ret, w1), ?_, ?_, r3, ?_⟩
        · rw [writeLoop_extend storage data_idx buf n hext hjE rfl hr0]
          exact r1
        · intro hfree
          apply r2
          omega
        · intro hnone
          obtain ⟨p_bw, p_fo, p_li, p_le, p_ch, p_old, p_fresh, p_frame, p_do, p_dd⟩ := r4 hnone
          simp only [Nat.add_one_ne_zero, if_false, Nat.zero_add] at p_le p_ch p_old p_fresh p_do p_dd
          simp only at p_bw p_fo p_frame
          have hprevj : w1.FAT w.prev = j := by
            rw [p_frame w.prev (by rw [upd_same]; simp only [FREE]; omega) (by omega)
              (by
                rintro ⟨_, _, h⟩
                exact hpj h)]
            exact upd_same _ _ _
          have hmax1 : max 1 (touched w.offset w.remaining) = touched w.offset w.remaining := by
            omega
          refine ⟨p_bw, p_fo, p_li, ?_, ?_, ?_, ?_, ?_, ?_, ?_⟩
          · simp only [if_true, hprevj]
            exact p_le
          · simp only [if_true, hprevj]
            rw [show max 0 (touched w.offset w.remaining) = touched w.offset w.remaining by omega,
              ← hmax1]
            exact p_ch
          · intro t ht
            omega
          · intro t _ ht
            simp only [if_true, hprevj]
            cases t with
            | zero => exact ⟨hj, j0⟩
            | succ t =>
              obtain ⟨f1, f2⟩ := p_fresh (t + 1) (by omega) ht
              refine ⟨?_, f2⟩
              have hne1 : nthBlock w1.FAT j (t + 1) ≠ w.prev := by
                intro h
                rw [h, upd_same] at f1
                simp only [FREE] at f1
                omega
              have hne2 : nthBlock w1.FAT j (t + 1) ≠ j := by
                intro h
                rw [h, hFj] at f1
                exact absurd f1 (by decide)
              rw [upd_other _ _ hne1, upd_other _ _ hne2] at f1
              exact f1
          · intro c hc1 hc2 _
            have hcp : c ≠ w.prev := fun h => hc2 ⟨rfl, h⟩
            have hcj : c ≠ j := fun h => hc1 (h ▸ hj)
            rw [p_frame c (by rw [upd_other _ _ hcp, upd_other _ _ hcj]; exact hc1) (by omega)
              (by
                rintro ⟨_, _, h⟩
                exact hcj h)]
            rw [upd_other _ _ hcp, upd_other _ _ hcj]
          · intro c hc
            simp only [if_true, hprevj] at hc
            exact p_do c hc
          · intro t ht q
            simp only [if_true, hprevj]
            exact p_dd t ht q

/-! ## `fs_write` on a well-formed open file -/

theorem validChain_drop {FAT : Int → Int} {b : Int} {L : Nat} (h : validChain FAT b L) (k : Nat)
    (hk : k ≤ L) : validChain FAT (nthBlock FAT b k) (L - k) := by
  apply validChain_of
  · intro t ht
    rw [nthBlock_add]
    exact validChain_inDisk h _ (by omega)
  · rw [nthBlock_add, show k + (L - k) = L by omega]
    exact validChain_end h

theorem validChain_append {FAT : Int → Int} {b : Int} {k m : Nat}
    (h1 : ∀ t, t < k → inDisk (nthBlock FAT b t)) (h2 : validChain FAT (nthBlock FAT b k) m) :
    validChain FAT b (k + m) := by
  apply validChain_of
  · intro t ht
    by_cases htk : t < k
    · exact h1 t htk
    · have := validChain_inDisk h2 (t - k) (by omega)
      rw [nthBlock_add, show k + (t - k) = t by omega] at this
      exact this
  · rw [← nthBlock_add]
    exact validChain_end h2

theorem validChain_not_free {FAT : Int → Int} {b : Int} {L : Nat} (h : validChain FAT b L)
    {t : Nat} (ht : t < L) : FAT (nthBlock FAT b t) ≠ FREE := by
  rw [← nthBlock_succ FAT b t]
  by_cases hl : t + 1 < L
  · have := validChain_inDisk h (t + 1) hl
    unfold inDisk at this
    simp only [FREE]
    omega
  · have hl2 : t + 1 = L := by omega
    rw [hl2, validChain_end h]
    decide

theorem write_clamp (storage : Int) (n : Nat) (o : Int) (h0 : 0 ≤ o) (h1 : o ≤ storage)
    (h2 : storage < 2 ^ 31) (hn : (n : Int) + o < 2 ^ 64) :
    (((if (n + toSizeT o) % 2 ^ 64 > toSizeT storage then toSizeT (storage - o) else n : Nat)) : Int)
      = min (n : Int) (storage - o) := by
  have hts1 : toSizeT o = o.toNat := by unfold toSizeT; omega
  have hts2 : toSizeT storage = storage.toNat := by unfold toSizeT; omega
  have hts3 : toSizeT (storage - o) = (storage - o).toNat := by unfold toSizeT; omega
  rw [hts1, hts2, hts3]
  split <;> omega

theorem blocksFor_split {o r : Int} (ho : 0 ≤ o) (hr : 0 < r) :
    blocksFor (o + r)
      = (o / BLOCK_SIZE).toNat + touched (o - ((o / BLOCK_SIZE).toNat : Int) * BLOCK_SIZE) r := by
  unfold blocksFor touched
  simp only [BLOCK_SIZE]
  omega

theorem fs_write_spec (storage : Int) (hst : 2 * BLOCK_SIZE ≤ storage) (hst2 : storage < 2 ^ 31)
    {s : State} {fd e : Int} {L : Nat} (h : OpenOn s fd e L) (hL : 0 < L)
    (hd : 0 ≤ s.fs.data_idx) (buf : Int → UInt8) (n : Nat)
    (hn : (n : Int) + (s.fildes_array fd).offset < 2 ^ 64)
    (hpos : 0 < min (n : Int) (storage - (s.fildes_array fd).offset)) :
    ∃ res, fs_write_with storage s fd buf n = some res ∧
      (blocksFor ((s.fildes_array fd).offset + min (n : Int) (storage - (s.fildes_array fd).offset))
          - L ≤ freeData s.FAT s.fs.data_idx →
        res.1 = min (n : Int) (storage - (s.fildes_array fd).offset)) ∧
      (res.1 = min (n : Int) (storage - (s.fildes_array fd).offset)
        ∨ (res.1 = -1 ∧ res.2.DIR = s.DIR)) ∧
      (res.1 = min (n : Int) (storage - (s.fildes_array fd).offset) →
        WriteResult s fd e L buf (min (n : Int) (storage - (s.fildes_array fd).offset)) res.2) := by
  have hscan := h.scan_entry
  obtain ⟨hf0, hf1, hused, he0, he1, hhead, hfirst, hchain, hsz, hszi, ho0, ho1⟩ := h
  simp only [MAX_FILDES, BLOCK_SIZE] at hf1 hsz
  have hn0 : n ≠ 0 := by
    intro h0
    subst h0
    have := min_le_left ((0 : Nat) : Int) (storage - (s.fildes_array fd).offset)
    simp at this
    omega
  have hos : (s.fildes_array fd).offset ≤ storage := by
    have := min_le_right (n : Int) (storage - (s.fildes_array fd).offset)
    omega
  have hnb := write_clamp storage n _ ho0 hos hst2 hn
  have hr1 := min_le_right (n : Int) (storage - (s.fildes_array fd).offset)
  unfold fs_write_with
  rw [if_neg (by simp only [MAX_FILDES]; omega), if_neg (by simp only [MAX_FILDES]; omega),
    if_neg hused, if_neg hn0]
  simp only [hscan]
  generalize (if (n + toSizeT (s.fildes_array fd).offset) % 2 ^ 64 > toSizeT storage then
    toSizeT (storage - (s.fildes_array fd).offset) else n) = nb at *
  clear hn hn0
  generalize min (n : Int) (storage - (s.fildes_array fd).offset) = r at *
  have hti : toInt32 nb = r := by
    rw [← hnb]; exact toInt32_of_lt (by omega)
  rw [hti]
  clear hti hnb nb
  generalize hoff : (s.fildes_array fd).offset = o at *
  generalize hfile : (s.fildes_array fd).file = file at *
  generalize hsize : (s.DIR e).size = size at *
  generalize hk : (o / BLOCK_SIZE).toNat = k at *
  have hk1 : (k : Int) * BLOCK_SIZE ≤ o := by
    rw [← hk]; simp only [BLOCK_SIZE]; omega
  have hk2 : o - (k : Int) * BLOCK_SIZE < BLOCK_SIZE := by
    rw [← hk]; simp only [BLOCK_SIZE]; omega
  have hkL : k ≤ L := by
    simp only [BLOCK_SIZE] at hk1; omega
  have hsplit : blocksFor (o + r) = k + touched (o - (k : Int) * BLOCK_SIZE) r := by
    rw [← hk]; exact blocksFor_split ho0 hpos
  clear hk hszi hos hr1 hst2 hscan hhead hfirst he0 he1 hf0 hf1 hused ho1 hsz
  rw [walk_spec s.FAT k o 0 file hk1 (fun t ht => validChain_inDisk hchain t (by omega))]
  simp only []
  have hprev : L - k = 0 →
      inDisk (if k = 0 then 0 else nthBlock s.FAT file (k - 1)) ∧
      s.FAT (if k = 0 then 0 else nthBlock s.FAT file (k - 1)) = END_MARKER := by
    intro h0
    have hkk : k = L := by omega
    rw [if_neg (by omega)]
    refine ⟨validChain_inDisk hchain _ (by omega), ?_⟩
    rw [← nthBlock_succ s.FAT file (k - 1), show k - 1 + 1 = L by omega]
    exact validChain_end hchain
  obtain ⟨res, l1, l2, l3, l4⟩ := writeLoop_spec storage s.fs.data_idx buf hd hst r.toNat
    ⟨s.FAT, s.disk, fun _ => 255, nthBlock s.FAT file k,
      (if k = 0 then 0 else nthBlock s.FAT file (k - 1)), o - (k : Int) * BLOCK_SIZE, r, 0, o⟩
    (L - k) (by show 0 ≤ o - (k : Int) * BLOCK_SIZE; omega) hk2 hpos
    (by show r ≤ ((r.toNat : Nat) : Int); omega) (validChain_drop hchain k hkL) hprev
  obtain ⟨ret, w1⟩ := res
  simp only at l1 l2 l3 l4
  rw [l1]
  rcases l3 with hnone | hfail
  · subst hnone
    obtain ⟨p_bw, p_fo, p_li, p_le, p_ch, p_old, p_fresh, p_frame, p_do, p_dd⟩ := l4 rfl
    simp only at p_bw p_fo p_li p_le p_ch p_old p_fresh p_frame p_do p_dd
    simp only [write_finish, block_write, if_pos p_li]
    have hbw : w1.bytes_written = r := by rw [p_bw]; omega
    refine ⟨_, rfl, fun _ => hbw, Or.inl hbw, fun _ => ?_⟩
    clear l1 l2 l4 hbw p_bw
    generalize hT : touched (o - (k : Int) * BLOCK_SIZE) r = T at *
    have hTpos : 0 < T := by
      rw [← hT]; exact touched_pos (by omega) hpos
    have hfr : ∀ t, t < k → (L = k → t < k - 1) →
        w1.FAT (nthBlock s.FAT file t) = s.FAT (nthBlock s.FAT file t) := by
      intro t ht hlast
      apply p_frame
      · exact validChain_not_free hchain (by omega)
      · rintro ⟨h0, hc⟩
        have hkk : L = k := by omega
        rw [if_neg (by omega)] at hc
        exact validChain_distinct hchain (i := t) (j := k - 1) (hlast hkk) (by omega) hc
      · rintro ⟨h1, _, hc⟩
        rw [nthBlock_add] at hc
        exact validChain_distinct hchain (i := t) (j := k + (L - k - 1)) (by omega) (by omega) hc
    have hpreN : ∀ t, t < k → nthBlock w1.FAT file t = nthBlock s.FAT file t := by
      intro t ht
      apply nthBlock_congr (m := t) ?_ t (le_refl _)
      intro u hu
      exact hfr u (by omega) (by omega)
    have hstart : nthBlock w1.FAT file k
        = (if L - k = 0 then w1.FAT (if k = 0 then 0 else nthBlock s.FAT file (k - 1))
           else nthBlock s.FAT file k) := by
      by_cases h0 : L - k = 0
      · rw [if_pos h0, if_neg (by omega)]
        obtain ⟨k1, rfl⟩ : ∃ k1, k = k1 + 1 := ⟨k - 1, by omega⟩
        rw [nthBlock_succ, hpreN k1 (by omega)]
        rfl
      · rw [if_neg h0]
        apply nthBlock_congr (m := k) ?_ k (le_refl _)
        intro u hu
        exact hfr u hu (by omega)
    rw [← hstart] at p_le p_ch p_old p_fresh p_do p_dd
    clear hstart hfr hprev
    simp only [nthBlock_add] at p_le p_old p_fresh p_do p_dd
    have hfin : validChain w1.FAT file (max L (k + T)) := by
      have := validChain_append (b := file) (k := k) (m := max (L - k) T)
        (fun t ht => by rw [hpreN t ht]; exact validChain_inDisk hchain t (by omega)) p_ch
      rw [show k + max (L - k) T = max L (k + T) by omega] at this
      exact this
    refine ⟨?_, ?_, ⟨rfl, rfl, rfl, rfl⟩, ?_, ?_, ?_, ?_, ?_, ?_⟩
    · simp only [hoff, hfile, p_fo]
    · simp only [hoff, hsize, p_fo]
    · simp only [hoff, hfile, hsplit]
      exact hfin
    · intro t ht
      simp only [hfile]
      by_cases htk : t < k
      · exact hpreN t htk
      · have := p_old (t - k) (by omega)
        rw [show k + (t - k) = t by omega] at this
        exact this
    · intro t ht1 ht2
      simp only [hoff, hfile, hsplit] at ht2 ⊢
      have := p_fresh (t - k) (by omega) (by omega)
      rw [show k + (t - k) = t by omega] at this
      exact this
    · intro c hc1 hc2
      simp only [hfile] at hc2
      apply p_frame c hc1
      · rintro ⟨h0, hc⟩
        apply hc2
        rw [hc, if_neg (by omega), show L - 1 = k - 1 by omega]
      · rintro ⟨h1, _, hc⟩
        apply hc2
        rw [hc, nthBlock_add, show k + (L - k - 1) = L - 1 by omega]
    · intro c hc
      simp only [hoff, hfile, hsplit] at hc
      exact p_do c (fun t ht => hc (k + t) (by omega))
    · intro t ht q
      simp only [hoff, hfile, hsplit] at ht ⊢
      by_cases htk : t < k
      · have hnot : ∀ u, u < T → nthBlock w1.FAT file t ≠ nthBlock w1.FAT file (k + u) := by
          intro u hu
          exact validChain_distinct hfin (by omega) (by omega)
        rw [p_do _ hnot, if_neg (by simp only [BLOCK_SIZE] at hk1 ⊢; omega)]
      · have := p_dd (t - k) (by omega) q
        rw [show k + (t - k) = t by omega] at this
        rw [this]
        by_cases hq : 0 ≤ q ∧ q < BLOCK_SIZE ∧ o ≤ BLOCK_SIZE * (t : Int) + q
            ∧ BLOCK_SIZE * (t : Int) + q < o + r
        · rw [if_pos hq, if_pos (by simp only [BLOCK_SIZE] at hq ⊢; omega)]
          congr 1
          simp only [BLOCK_SIZE]
          omega
        · rw [if_neg hq, if_neg (by simp only [BLOCK_SIZE] at hq ⊢; omega)]
  · subst hfail
    simp only [write_finish]
    refine ⟨_, rfl, ?_, Or.inr ⟨rfl, rfl⟩, ?_⟩
    · intro hfree
      have := l2 (by rw [hsplit] at hfree; omega)
      cases this
    · intro hr
      simp only at hr
      omega

/-! ## Write, seek back, read -/

theorem fs_lseek_ok (s : State) (fd e : Int) (offset : Int) (h0 : 0 ≤ fd) (h1 : fd < MAX_FILDES)
    (hused : (s.fildes_array fd).used ≠ 0) (he0 : 0 ≤ e) (he1 : e < MAX_FILES_ALLOWED)
    (hhead : (s.DIR e).head = (s.fildes_array fd).file)
    (hfirst : ∀ j, 0 ≤ j → j < e → (s.DIR j).head ≠ (s.fildes_array fd).file)
    (hin : 0 ≤ offset ∧ offset ≤ (s.DIR e).size) :
    fs_lseek s fd offset
      = some (0, { s with
                   fildes_array :=
                     upd s.fildes_array fd { s.fildes_array fd with offset := offset } }) := by
  have hscan : scan (fun i => decide ((s.DIR i).head = (s.fildes_array fd).file)) 64 0 = some e := by
    apply scan_eq_some_of he0 (by simp only [MAX_FILES_ALLOWED] at he1; push_cast; omega)
    · simp [hhead]
    · intro k hk0 hk1
      simpa using hfirst k hk0 hk1
  have hsize : fs_get_filesize s fd = (s.DIR e).size := by
    unfold fs_get_filesize
    rw [if_neg (by omega)]
    simp only [hscan, if_neg hused]
  unfold fs_lseek
  simp only [hsize]
  rw [if_neg (by omega), if_neg (by omega), if_neg (by omega), if_neg hused]

theorem blocksFor_covers (p : Int) : p ≤ BLOCK_SIZE * (blocksFor p : Int) := by
  unfold blocksFor
  simp only [BLOCK_SIZE]
  omega

theorem blocksFor_index {p q : Int} (hq : 0 ≤ q) (hqp : q < p) :
    (q / BLOCK_SIZE).toNat < blocksFor p := by
  unfold blocksFor
  simp only [BLOCK_SIZE]
  omega

/-- On a well-formed open file, `fs_write` of `n` bytes followed by `fs_lseek` back to
the old offset and `fs_read` of `n` bytes returns the bytes written. -/
theorem write_seek_read {s : State} {fd e : Int} {L : Nat} (h : OpenOn s fd e L) (hL : 0 < L)
    (hd : 0 ≤ s.fs.data_idx) (buf out0 : Int → UInt8) (n : Nat) (hn : 0 < n)
    (hmax : (s.fildes_array fd).offset + n ≤ STORAGE)
    (hfree : blocksFor ((s.fildes_array fd).offset + n) - L ≤ freeData s.FAT s.fs.data_idx) :
    ∃ s3 s4 s5 out, fs_write s fd buf n = some ((n : Int), s3) ∧
      fs_lseek s3 fd (s.fildes_array fd).offset = some (0, s4) ∧
      fs_read s4 fd out0 n = some ((n : Int), out, s5) ∧
      ∀ i : Int, 0 ≤ i → i < (n : Int) → out i = buf i := by
  have ho0 := h.off_lo
  have ho1 := h.off_le
  have hszi := h.size_int
  have hsz := h.size_le
  have hmin : min (n : Int) (STORAGE - (s.fildes_array fd).offset) = n := by
    apply min_eq_left
    omega
  obtain ⟨res, w1, w2, _, w4⟩ := fs_write_spec STORAGE (by decide) (by decide) h hL hd buf n
    (by simp only [STORAGE] at hmax; omega) (by rw [hmin]; omega)
  rw [hmin] at w2 w4
  obtain ⟨r, s3⟩ := res
  have hr : r = n := w2 hfree
  subst hr
  obtain ⟨p_fds, p_dir, _, p_chain, _, _, _, _, p_data⟩ := w4 rfl
  have hfd3 : s3.fildes_array fd
      = { s.fildes_array fd with offset := (s.fildes_array fd).offset + n } := by
    rw [p_fds, upd_same]
  have hdir_head : ∀ j, (s3.DIR j).head = (s.DIR j).head := by
    intro j
    rw [p_dir]
    split
    · by_cases hj : j = e
      · subst hj
        rw [upd_same]
      · rw [upd_other _ _ hj]
    · rfl
  have hdir_size : (s3.DIR e).size = max (s.DIR e).size ((s.fildes_array fd).offset + n) := by
    rw [p_dir]
    by_cases hlt : (s.DIR e).size < (s.fildes_array fd).offset + n
    · rw [if_pos hlt, upd_same]
      exact (max_eq_right (le_of_lt hlt)).symm
    · rw [if_neg hlt]
      exact (max_eq_left (not_lt.mp hlt)).symm
  have hfile3 : (s3.fildes_array fd).file = (s.fildes_array fd).file := by rw [hfd3]
  have hused3 : (s3.fildes_array fd).used ≠ 0 := by rw [hfd3]; exact h.used
  have hseek := fs_lseek_ok s3 fd e (s.fildes_array fd).offset h.fd_lo h.fd_hi hused3 h.e_lo h.e_hi
    (by rw [hdir_head, hfile3]; exact h.head)
    (by
      intro j hj0 hj1
      rw [hdir_head, hfile3]
      exact h.first j hj0 hj1)
    ⟨ho0, by rw [hdir_size]; exact le_trans ho1 (le_max_left _ _)⟩
  have hfd4 : upd s3.fildes_array fd
      { s3.fildes_array fd with offset := (s.fildes_array fd).offset } fd = s.fildes_array fd := by
    rw [upd_same, hfd3]
  have hopen : OpenOn
      { s3 with
        fildes_array :=
          upd s3.fildes_array fd { s3.fildes_array fd with offset := (s.fildes_array fd).offset } }
      fd e (max L (blocksFor ((s.fildes_array fd).offset + n))) := by
    refine ⟨h.fd_lo, h.fd_hi, ?_, h.e_lo, h.e_hi, ?_, ?_, ?_, ?_, ?_, ?_, ?_⟩
    · show (upd s3.fildes_array fd _ fd).used ≠ 0
      rw [hfd4]
      exact h.used
    · show (s3.DIR e).head = (upd s3.fildes_array fd _ fd).file
      rw [hfd4, hdir_head]
      exact h.head
    · intro j hj0 hj1
      show (s3.DIR j).head ≠ (upd s3.fildes_array fd _ fd).file
      rw [hfd4, hdir_head]
      exact h.first j hj0 hj1
    · show validChain s3.FAT (upd s3.fildes_array fd _ fd).file _
      rw [hfd4]
      exact p_chain
    · show (s3.DIR e).size ≤ _
      rw [hdir_size]
      have hc := blocksFor_covers ((s.fildes_array fd).offset + n)
      simp only [BLOCK_SIZE] at hsz hc ⊢
      push_cast
      omega
    · show (s3.DIR e).size < _
      rw [hdir_size]
      simp only [STORAGE] at hmax
      omega
    · show 0 ≤ (upd s3.fildes_array fd _ fd).offset
      rw [hfd4]
      exact ho0
    · show (upd s3.fildes_array fd _ fd).offset ≤ (s3.DIR e).size
      rw [hfd4, hdir_size]
      exact le_trans ho1 (le_max_left _ _)
  obtain ⟨out, e1, e2, _⟩ := fs_read_spec hopen out0 n
    (by
      show (n : Int) + (upd s3.fildes_array fd _ fd).offset < 2 ^ 64
      rw [hfd4]
      simp only [STORAGE] at hmax
      omega)
  have hrd : min (n : Int)
      ((s3.DIR e).size - (upd s3.fildes_array fd
        { s3.fildes_array fd with offset := (s.fildes_array fd).offset } fd).offset) = n := by
    rw [hfd4, hdir_size]
    omega
  simp only [] at e1 e2
  rw [hrd] at e1 e2
  refine ⟨s3, _, _, out, w1, hseek, e1, ?_⟩
  intro i hi0 hi1
  rw [e2 i hi0 hi1, hfd4]
  show chainByte s3.FAT s3.disk (s.fildes_array fd).file ((s.fildes_array fd).offset + i) = buf i
  unfold chainByte
  rw [p_data _ (blocksFor_index (by omega) (by omega)), if_pos]
  · congr 1
    simp only [BLOCK_SIZE]
    omega
  · simp only [BLOCK_SIZE]
    omega

/-! ## Directory and descriptor operations -/

theorem scan_exists {p : Int → Bool} {n : Nat} {lo : Int}
    (h : ∃ j, lo ≤ j ∧ j < lo + n ∧ p j = true) : ∃ j, scan p n lo = some j := by
  cases hs : scan p n lo with
  | some j => exact ⟨j, rfl⟩
  | none =>
    obtain ⟨j, h1, h2, h3⟩ := h
    have := scan_none hs j h1 h2
    rw [h3] at this
    cases this

theorem fs_create_long (s : State) (name : String) (h : name.length > MAX_F_NAME) :
    fs_create s name = some (-1, s) := by
  unfold fs_create
  by_cases hc : s.file_counter ≥ MAX_FILES_ALLOWED
  · rw [if_pos hc]
  · rw [if_neg hc, if_pos h]

theorem fs_create_ok (s : State) (name : String) (h j : Int)
    (hcnt : s.file_counter < MAX_FILES_ALLOWED) (hlen : name.length ≤ MAX_F_NAME)
    (hdup : ∀ i, 0 ≤ i → i < 64 → (s.DIR i).used ≠ 0 → (s.DIR i).name ≠ name)
    (hd : 0 ≤ s.fs.data_idx)
    (hh : scan (fun b => decide (s.FAT b = FREE)) (DISK_BLOCKS - s.fs.data_idx).toNat
            s.fs.data_idx = some h)
    (hj : scan (fun i => decide ((s.DIR i).used = 0)) 64 0 = some j) :
    fs_create s name
      = some (0, { s with
                   FAT := upd s.FAT h END_MARKER
                   file_counter := s.file_counter + 1
                   DIR := upd s.DIR j { used := 1, name := name, size := 0, head := h, ref_cnt := 0 }
                   fs := { s.fs with dir_len := s.fs.dir_len + 1 } }) := by
  have hnodup : scan (fun i => decide ((s.DIR i).used ≠ 0 ∧ (s.DIR i).name = name)) 64 0 = none := by
    apply scan_eq_none_of
    intro k hk1 hk2
    simp only [decide_eq_false_iff_not, not_and]
    intro hu
    exact hdup k hk1 (by push_cast at hk2; omega) hu
  unfold fs_create
  rw [if_neg (not_le.mpr hcnt), if_neg (not_lt.mpr hlen), hnodup]
  simp only [Option.isSome_none, Bool.false_eq_true, if_false, if_neg (not_lt.mpr hd), hh, hj,
    Option.getD_some, Option.isSome_some, if_true]

/-- With no FREE entry in the data region the search of `fs_create` runs to its bound
and the new entry gets that bound as its head. -/
theorem fs_create_no_space (s : State) (name : String) (j : Int)
    (hcnt : s.file_counter < MAX_FILES_ALLOWED) (hlen : name.length ≤ MAX_F_NAME)
    (hdup : ∀ i, 0 ≤ i → i < 64 → (s.DIR i).used ≠ 0 → (s.DIR i).name ≠ name)
    (hd : 0 ≤ s.fs.data_idx)
    (hh : ∀ b, s.fs.data_idx ≤ b → b < DISK_BLOCKS → s.FAT b ≠ FREE)
    (hj : scan (fun i => decide ((s.DIR i).used = 0)) 64 0 = some j) :
    fs_create s name
      = some (0, { s with
                   file_counter := s.file_counter + 1
                   DIR := upd s.DIR j { used := 1, name := name, size := 0,
                                        head := s.fs.data_idx + (DISK_BLOCKS - s.fs.data_idx).toNat,
                                        ref_cnt := 0 }
                   fs := { s.fs with dir_len := s.fs.dir_len + 1 } }) := by
  have hnodup : scan (fun i => decide ((s.DIR i).used ≠ 0 ∧ (s.DIR i).name = name)) 64 0 = none := by
    apply scan_eq_none_of
    intro k hk1 hk2
    simp only [decide_eq_false_iff_not, not_and]
    intro hu
    exact hdup k hk1 (by push_cast at hk2; omega) hu
  have hnone : scan (fun b => decide (s.FAT b = FREE)) (DISK_BLOCKS - s.fs.data_idx).toNat
      s.fs.data_idx = none := by
    apply scan_eq_none_of
    intro k hk1 hk2
    simp only [decide_eq_false_iff_not]
    exact hh k hk1 (by simp only [DISK_BLOCKS] at hk2 ⊢; omega)
  unfold fs_create
  rw [if_neg (not_le.mpr hcnt), if_neg (not_lt.mpr hlen), hnodup]
  simp only [Option.isSome_none, Bool.false_eq_true, if_false, if_neg (not_lt.mpr hd), hnone, hj,
    Option.getD_none]

theorem fs_open_ok (s : State) (name : String) (e j : Int) (hcnt : s.file_counter ≠ 0)
    (he : scan (fun i => decide ((s.DIR i).name = name)) 64 0 = some e)
    (hj : scan (fun j => decide ((s.fildes_array j).used = 0)) 32 0 = some j) :
    fs_open s name
      = some (j, { s with
                   fildes_array :=
                     upd s.fildes_array j { used := 1, file := (s.DIR e).head, offset := 0 }
                   DIR := upd s.DIR e { s.DIR e with ref_cnt := (s.DIR e).ref_cnt + 1 } }) := by
  unfold fs_open
  rw [if_neg hcnt]
  simp only [he, hj]

theorem fs_open_full (s : State) (name : String)
    (hj : scan (fun j => decide ((s.fildes_array j).used = 0)) 32 0 = none) :
    fs_open s name = some (-1, s) := by
  unfold fs_open
  by_cases hcnt : s.file_counter = 0
  · rw [if_pos hcnt]
  · rw [if_neg hcnt]
    cases he : scan (fun i => decide ((s.DIR i).name = name)) 64 0 with
    | none => rfl
    | some e => simp only [hj]

theorem fs_close_ok (s : State) (fd e : Int) (h0 : 0 ≤ fd) (h1 : fd < MAX_FILDES)
    (he : scan (fun i => decide ((s.DIR i).head = (s.fildes_array fd).file
                                  ∧ (s.fildes_array fd).used ≠ 0)) 64 0 = some e) :
    fs_close s fd
      = some (0, { s with
                   DIR := upd s.DIR e { s.DIR e with ref_cnt := (s.DIR e).ref_cnt - 1 }
                   fildes_array := upd s.fildes_array fd { used := 0, file := FREE, offset := 0 } }) := by
  unfold fs_close
  rw [if_neg (by omega)]
  simp only [he]

/-- The loop of `fs_delete` frees the block it starts from and then stops: its test
reads `FAT[head]`, which the first pass has set to FREE. -/
theorem deleteLoop_eq (head : Int) (n : Nat) (FAT : Int → Int) (h : inDisk head) :
    deleteLoop head (n + 1) FAT head
      = some (if FAT head = FREE then FAT else upd FAT head FREE) := by
  unfold deleteLoop
  by_cases hf : FAT head = FREE
  · rw [if_neg (not_not.mpr hf), if_pos hf]
  · rw [if_pos hf, if_pos h, if_neg hf]
    by_cases hn : FAT head = END_MARKER
    · simp only [hn, if_true]
    · simp only [hn, if_false]
      cases n with
      | zero => simp [deleteLoop, upd_same]
      | succ m =>
        unfold deleteLoop
        simp [upd_same]

theorem fs_delete_ok (s : State) (name : String) (e : Int) (hlen : name.length ≤ MAX_F_NAME)
    (he : scan (fun i => decide ((s.DIR i).name = name ∧ (s.DIR i).ref_cnt = 0)) 64 0 = some e)
    (hh : inDisk (s.DIR e).head) :
    fs_delete s name
      = some (0, { s with
                   FAT := if s.FAT (s.DIR e).head = FREE then s.FAT
                          else upd s.FAT (s.DIR e).head FREE
                   DIR := upd s.DIR e { s.DIR e with used := 0, size := 0, head := FREE, name := "" }
                   fs := { s.fs with dir_len := s.fs.dir_len - 1 }
                   file_counter := s.file_counter - 1 }) := by
  unfold fs_delete
  rw [if_neg (not_lt.mpr hlen)]
  simp only [he, if_pos hh, deleteLoop_eq _ _ _ hh]

theorem fs_delete_no_match (s : State) (name : String)
    (he : scan (fun i => decide ((s.DIR i).name = name ∧ (s.DIR i).ref_cnt = 0)) 64 0 = none) :
    fs_delete s name = some (-1, s) := by
  unfold fs_delete
  by_cases hlen : name.length > MAX_F_NAME
  · rw [if_pos hlen]
  · rw [if_neg hlen]
    simp only [he]

/-! ## A new file on a fresh volume -/

theorem fresh_unused (image : Int → Block) (i : Int) : ((fresh image).DIR i).used = 0 := by
  show (if 0 ≤ i ∧ i < MAX_FILES_ALLOWED then ({ zero_entry with ref_cnt := 0 } : dir_entry)
    else zero_entry).used = 0
  split <;> rfl

theorem fresh_descriptor_unused (image : Int → Block) (j : Int) (h0 : 0 ≤ j) (h1 : j < MAX_FILDES) :
    ((fresh image).fildes_array j).used = 0 := by
  show (if 0 ≤ j ∧ j < MAX_FILDES then ({ used := 0, file := FREE, offset := 0 } : file_descriptor)
    else boot.fildes_array j).used = 0
  rw [if_pos ⟨h0, h1⟩]

theorem freeData_one_block : freeData (upd (fun _ => FREE) 6 END_MARKER) 6 = 8185 := by
  have h := @freeCount_upd_free (fun _ => FREE) 8186 6 6 END_MARKER
    (le_refl _) (by decide) rfl (by decide)
  rw [freeCount_const_free] at h
  unfold freeData
  have hn : (DISK_BLOCKS - 6).toNat = 8186 := by decide
  rw [hn]
  omega

theorem fs_create_fresh (image : Int → Block) (name : String)
    (hname : name.length ≤ MAX_F_NAME) :
    fs_create (fresh image) name = some (0, created image name) :=
  fs_create_ok (fresh image) name 6 0 (by show (0 : Int) < 64; decide) hname
    (fun i _ _ hu => absurd (fresh_unused image i) hu) (by show (0 : Int) ≤ 6; decide)
    (scan_eq_some_of (le_refl _) (by show (6 : Int) < 6 + ((8192 - 6 : Int).toNat : Int); decide)
      (by show decide ((-1 : Int) = -1) = true; decide)
      (fun k h1 h2 => absurd (show (6 : Int) ≤ k from h1) (not_le.mpr h2)))
    (scan_eq_some_of (le_refl _) (by decide)
      (by
        show decide (((fresh image).DIR 0).used = 0) = true
        rw [fresh_unused]
        rfl)
      (fun k h1 h2 => by omega))

theorem fs_open_created (image : Int → Block) (name : String) :
    fs_open (created image name) name = some (0, opened image name) :=
  fs_open_ok (created image name) name 0 0 (by show (1 : Int) ≠ 0; decide)
    (scan_eq_some_of (le_refl _) (by decide)
      (by
        have hn : ((created image name).DIR 0).name = name := by
          simp [created, upd]
        simp [hn])
      (fun k h1 h2 => by omega))
    (scan_eq_some_of (le_refl _) (by decide)
      (by
        show decide (((fresh image).fildes_array 0).used = 0) = true
        rw [fresh_descriptor_unused image 0 (by decide) (by decide)]
        rfl)
      (fun k h1 h2 => by omega))

/-- In `opened image name` descriptor 0 is open at offset 0 on the empty file of slot
0, whose chain is the single block 6. -/
theorem openOn_opened (image : Int → Block) (name : String) : OpenOn (opened image name) 0 0 1 :=
  { fd_lo := le_refl _
    fd_hi := by decide
    used := by show (1 : Int) ≠ 0; decide
    e_lo := le_refl _
    e_hi := by decide
    head := rfl
    first := fun j h1 h2 => by omega
    chain := ⟨by show inDisk 6; decide, rfl⟩
    size_le := by show (0 : Int) ≤ BLOCK_SIZE * (1 : Nat); decide
    size_int := by show (0 : Int) < 2 ^ 31; decide
    off_lo := by show (0 : Int) ≤ 0; decide
    off_le := by show (0 : Int) ≤ 0; decide }

/-! # Claims about byte I/O -/

/-- C4: on a well-formed open file (descriptor `fd` in use on slot `e`, chain of `L > 0`
blocks, offset `o ≤ size`), for `n > 0` with `o + n ≤ MAX_FILE_SIZE` and enough FREE
data blocks to extend the chain to the blocks that `o + n` bytes need, `fs_write`
returns `n`, moves the descriptor's offset to `o + n`, sets the file's size to
`max size (o + n)`, and leaves every other directory entry and every other descriptor
as it was. -/
theorem fs_write_post {s : State} {fd e : Int} {L : Nat} (h : OpenOn s fd e L) (hL : 0 < L)
    (hd : 0 ≤ s.fs.data_idx) (buf : Int → UInt8) (n : Nat) (hn : 0 < n)
    (hmax : (s.fildes_array fd).offset + n ≤ STORAGE)
    (hfree : blocksFor ((s.fildes_array fd).offset + n) - L ≤ freeData s.FAT s.fs.data_idx) :
    ∃ s1, fs_write s fd buf n = some ((n : Int), s1) ∧
      (s1.fildes_array fd).offset = (s.fildes_array fd).offset + n ∧
      (s1.DIR e).size = max (s.DIR e).size ((s.fildes_array fd).offset + n) ∧
      (∀ i, i ≠ e → s1.DIR i = s.DIR i) ∧
      (∀ j, j ≠ fd → s1.fildes_array j = s.fildes_array j) := by
  have ho0 := h.off_lo
  have hmin : min (n : Int) (STORAGE - (s.fildes_array fd).offset) = n := by
    apply min_eq_left
    omega
  obtain ⟨res, w1, w2, _, w4⟩ := fs_write_spec STORAGE (by decide) (by decide) h hL hd buf n
    (by simp only [STORAGE] at hmax; omega) (by rw [hmin]; omega)
  rw [hmin] at w2 w4
  obtain ⟨r, s1⟩ := res
  have hr : r = n := w2 hfree
  subst hr
  obtain ⟨p_fds, p_dir, _⟩ := w4 rfl
  refine ⟨s1, w1, ?_, ?_, ?_, ?_⟩
  · rw [p_fds, upd_same]
  · rw [p_dir]
    by_cases hlt : (s.DIR e).size < (s.fildes_array fd).offset + n
    · rw [if_pos hlt, upd_same]
      exact (max_eq_right (le_of_lt hlt)).symm
    · rw [if_neg hlt]
      exact (max_eq_left (not_lt.mp hlt)).symm
  · intro i hi
    rw [p_dir]
    by_cases hlt : (s.DIR e).size < (s.fildes_array fd).offset + n
    · rw [if_pos hlt]
      exact upd_other _ _ hi
    · rw [if_neg hlt]
  · intro j hj
    rw [p_fds]
    exact upd_other _ _ hj

theorem blocksFor_le_of_le {p : Int} (hp : p ≤ STORAGE) : blocksFor p ≤ 4096 := by
  unfold blocksFor
  simp only [BLOCK_SIZE, STORAGE] at *
  omega

/-- C1: on a freshly formatted and mounted volume, for a name of at most 15 characters
and every buffer of `k` bytes with `0 < k ≤ MAX_FILE_SIZE`, the sequence `fs_create`,
`fs_open`, `fs_write` of `k` bytes, `fs_lseek` to 0, `fs_read` of `k` bytes returns 0,
descriptor 0, `k`, 0 and `k`, and the bytes read are the bytes written. -/
theorem write_read_round_trip (image : Int → Block) (name : String)
    (hname : name.length ≤ MAX_F_NAME) (buf out0 : Int → UInt8) (k : Nat) (hk0 : 0 < k)
    (hk : (k : Int) ≤ STORAGE) :
    ∃ s1 s2 s3 s4 s5 out,
      fs_create (fresh image) name = some (0, s1) ∧ fs_open s1 name = some (0, s2) ∧
      fs_write s2 0 buf k = some ((k : Int), s3) ∧ fs_lseek s3 0 0 = some (0, s4) ∧
      fs_read s4 0 out0 k = some ((k : Int), out, s5) ∧
      ∀ i : Int, 0 ≤ i → i < (k : Int) → out i = buf i := by
  have hfree : blocksFor (((opened image name).fildes_array 0).offset + k) - 1
      ≤ freeData (opened image name).FAT (opened image name).fs.data_idx := by
    show blocksFor (0 + (k : Int)) - 1 ≤ freeData (upd (fun _ => FREE) 6 END_MARKER) 6
    rw [freeData_one_block]
    have := blocksFor_le_of_le (p := 0 + (k : Int)) (by omega)
    omega
  obtain ⟨s3, s4, s5, out, w1, w2, w3, w4⟩ := write_seek_read (openOn_opened image name)
    (by decide) (by show (0 : Int) ≤ 6; decide) buf out0 k hk0
    (by show (0 : Int) + k ≤ STORAGE; omega) hfree
  exact ⟨_, _, s3, s4, s5, out, fs_create_fresh image name hname, fs_open_created image name,
    w1, w2, w3, w4⟩

/-! ## What `fs_write` leaves as it was -/

theorem write_clamp_nonpos (storage : Int) (n : Nat) (o : Int) (h0 : 0 ≤ o) (h1 : o < 2 ^ 31)
    (hs0 : 0 ≤ storage) (h2 : storage < 2 ^ 31) (hn64 : n < 2 ^ 64)
    (hnot : ¬ ((n : Int) + o < 2 ^ 64 ∧ 0 < min (n : Int) (storage - o))) :
    toInt32 (if (n + toSizeT o) % 2 ^ 64 > toSizeT storage then toSizeT (storage - o) else n)
      ≤ 0 := by
  have hmin : (n : Int) + o < 2 ^ 64 → ¬ (0 < (n : Int) ∧ 0 < storage - o) := by
    intro ha hb
    exact hnot ⟨ha, lt_min hb.1 hb.2⟩
  clear hnot
  unfold toInt32 toSizeT
  split <;> omega

theorem writeLoop_nonpos (storage data_idx : Int) (buf : Int → UInt8) (fuel : Nat)
    (FAT : Int → Int) (disk : Int → Block) (blocks : Block) (block prev offset r bw fo : Int)
    (h : r ≤ 0) :
    writeLoop storage data_idx buf fuel ⟨FAT, disk, blocks, block, prev, offset, r, bw, fo⟩
      = some (none, ⟨FAT, disk, blocks, block, prev, offset, r, bw, fo⟩) := by
  cases fuel with
  | zero =>
    unfold writeLoop
    rw [if_neg (not_lt.mpr h)]
  | succ m =>
    unfold writeLoop
    rw [if_neg (not_lt.mpr h)]

theorem fs_write_with_nonpos (storage : Int) (s : State) (fd : Int) (buf : Int → UInt8) (n : Nat)
    (hrem : toInt32 (if (n + toSizeT (s.fildes_array fd).offset) % 2 ^ 64 > toSizeT storage then
      toSizeT (storage - (s.fildes_array fd).offset) else n) ≤ 0) :
    fs_write_with storage s fd buf n = none ∨
      ∃ res, fs_write_with storage s fd buf n = some res ∧ res.1 ≤ 0 := by
  unfold fs_write_with
  by_cases h1 : fd > MAX_FILDES ∨ fd < 0
  · rw [if_pos h1]
    exact Or.inr ⟨_, rfl, by show (-1 : Int) ≤ 0; decide⟩
  rw [if_neg h1]
  by_cases h2 : ¬ fd < MAX_FILDES
  · rw [if_pos h2]
    exact Or.inl rfl
  rw [if_neg h2]
  by_cases h3 : (s.fildes_array fd).used = 0
  · rw [if_pos h3]
    exact Or.inr ⟨_, rfl, by show (-1 : Int) ≤ 0; decide⟩
  rw [if_neg h3]
  by_cases h4 : n = 0
  · rw [if_pos h4]
    exact Or.inr ⟨_, rfl, le_refl _⟩
  rw [if_neg h4]
  cases hscan : scan (fun e => decide ((s.fildes_array fd).file = (s.DIR e).head)) 64 0 with
  | none => exact Or.inr ⟨_, rfl, by show (-1 : Int) ≤ 0; decide⟩
  | some entry =>
    simp only []
    generalize toInt32 (if (n + toSizeT (s.fildes_array fd).offset) % 2 ^ 64 > toSizeT storage then
      toSizeT (storage - (s.fildes_array fd).offset) else n) = r at hrem
    simp only [fun FAT disk blocks block prev offset bw fo =>
      writeLoop_nonpos storage s.fs.data_idx buf r.toNat FAT disk blocks block prev offset r bw fo hrem]
    cases hwalk : walk s.FAT ((s.fildes_array fd).offset / BLOCK_SIZE).toNat
        (s.fildes_array fd).offset 0 (s.fildes_array fd).file with
    | none => exact Or.inl rfl
    | some t =>
      obtain ⟨offset, prev, block⟩ := t
      simp only [write_finish]
      cases hb : block_write s.disk block (fun _ => 255) with
      | none => exact Or.inr ⟨_, rfl, by show (-1 : Int) ≤ 0; decide⟩
      | some disk1 => exact Or.inr ⟨_, rfl, le_refl _⟩

theorem writeResult_bytes {s s1 : State} {fd e : Int} {L : Nat} {buf : Int → UInt8} {r : Int}
    (h : OpenOn s fd e L) (R : WriteResult s fd e L buf r s1) (p : Int) (hp0 : 0 ≤ p)
    (hp1 : p < (s.DIR e).size)
    (hout : ¬ ((s.fildes_array fd).offset ≤ p ∧ p < (s.fildes_array fd).offset + r)) :
    fileByte s1 (s.fildes_array fd).file p = fileByte s (s.fildes_array fd).file p := by
  unfold fileByte chainByte
  have hsz := h.size_le
  have hpq : BLOCK_SIZE * (((p / BLOCK_SIZE).toNat : Nat) : Int) + p % BLOCK_SIZE = p := by
    simp only [BLOCK_SIZE]
    omega
  have hq0 : 0 ≤ p % BLOCK_SIZE := by
    simp only [BLOCK_SIZE]
    omega
  have hq1 : p % BLOCK_SIZE < BLOCK_SIZE := by
    simp only [BLOCK_SIZE]
    omega
  have htL : (p / BLOCK_SIZE).toNat < L := by
    simp only [BLOCK_SIZE] at hsz ⊢
    omega
  generalize (p / BLOCK_SIZE).toNat = t at hpq htL ⊢
  generalize p % BLOCK_SIZE = q at hpq hq0 hq1 ⊢
  by_cases hb : t < blocksFor ((s.fildes_array fd).offset + r)
  · rw [R.data t hb q, if_neg (by rw [hpq]; exact fun hc => hout ⟨hc.2.2.1, hc.2.2.2⟩),
      R.old t htL]
  · have hne : ∀ u, u < blocksFor ((s.fildes_array fd).offset + r) →
        nthBlock s1.FAT (s.fildes_array fd).file t ≠ nthBlock s1.FAT (s.fildes_array fd).file u :=
      fun u hu => Ne.symm (validChain_distinct R.chain (i := u) (j := t) (by omega)
        (lt_of_lt_of_le htL (le_max_left _ _)))
    rw [R.disk_other _ hne, R.old t htL]

theorem writeResult_other {s s1 : State} {fd e : Int} {L : Nat} {buf : Int → UInt8} {r : Int}
    (hL : 0 < L) (R : WriteResult s fd e L buf r s1) (b : Int) (M : Nat)
    (hc : validChain s.FAT b M)
    (hdis : ∀ t u, t < M → u < L →
      nthBlock s.FAT b t ≠ nthBlock s.FAT (s.fildes_array fd).file u) :
    validChain s1.FAT b M ∧
      ∀ t, t < M → nthBlock s1.FAT b t = nthBlock s.FAT b t ∧
        s1.disk (nthBlock s.FAT b t) = s.disk (nthBlock s.FAT b t) := by
  have hfat : ∀ t, t < M → s1.FAT (nthBlock s.FAT b t) = s.FAT (nthBlock s.FAT b t) :=
    fun t ht => R.frame _ (validChain_not_free hc ht) (hdis t (L - 1) ht (by omega))
  have hnth := nthBlock_congr hfat
  refine ⟨?_, fun t ht => ⟨hnth t (le_of_lt ht), ?_⟩⟩
  · apply validChain_of
    · intro t ht
      rw [hnth t (le_of_lt ht)]
      exact validChain_inDisk hc t ht
    · rw [hnth M (le_refl _)]
      exact validChain_end hc
  · apply R.disk_other
    intro u hu
    by_cases huL : u < L
    · rw [R.old u huL]
      exact hdis t u ht huL
    · intro heq
      have hfree := (R.fresh u (by omega) hu).1
      rw [← heq] at hfree
      exact validChain_not_free hc ht hfree

/-- What a transfer keeps: on a well-formed open file (descriptor `fd` in use on slot `e`,
chain of `L > 0` blocks, offset `o ≤ size`), when `fs_write` returns `k > 0`, every byte
of the file at a
position below the old size and outside `[o, o + k)` is the byte that was there, and
every chain of the old FAT that shares no block with the file's chain (the chain of
any other file) is still a chain of the same blocks, whose content is unchanged. -/
theorem fs_write_preserves {s : State} {fd e : Int} {L : Nat} (h : OpenOn s fd e L) (hL : 0 < L)
    (hd : 0 ≤ s.fs.data_idx) (buf : Int → UInt8) (n : Nat) (hn64 : n < 2 ^ 64) (k : Int)
    (s1 : State) (hk : 0 < k) (hw : fs_write s fd buf n = some (k, s1)) :
    (∀ p, 0 ≤ p → p < (s.DIR e).size →
        ¬ ((s.fildes_array fd).offset ≤ p ∧ p < (s.fildes_array fd).offset + k) →
        fileByte s1 (s.fildes_array fd).file p = fileByte s (s.fildes_array fd).file p) ∧
    (∀ b M, validChain s.FAT b M →
        (∀ t u, t < M → u < L →
          nthBlock s.FAT b t ≠ nthBlock s.FAT (s.fildes_array fd).file u) →
        validChain s1.FAT b M ∧
        ∀ t, t < M → nthBlock s1.FAT b t = nthBlock s.FAT b t ∧
          s1.disk (nthBlock s.FAT b t) = s.disk (nthBlock s.FAT b t)) := by
  have hw2 : fs_write_with STORAGE s fd buf n = some (k, s1) := hw
  have R : WriteResult s fd e L buf k s1 := by
    by_cases hc : (n : Int) + (s.fildes_array fd).offset < 2 ^ 64
        ∧ 0 < min (n : Int) (STORAGE - (s.fildes_array fd).offset)
    · obtain ⟨res, w1, _, w3, w4⟩ := fs_write_spec STORAGE (by decide) (by decide) h hL hd buf n
        hc.1 hc.2
      rw [w1] at hw2
      have hres : res = (k, s1) := Option.some.inj hw2
      subst hres
      rcases w3 with h3 | h3
      · have h5 := w4 h3
        rw [← h3] at h5
        exact h5
      · have h6 : k = -1 := h3.1
        rw [h6] at hk
        exact absurd hk (by decide)
    · have ho31 : (s.fildes_array fd).offset < 2 ^ 31 := lt_of_le_of_lt h.off_le h.size_int
      rcases fs_write_with_nonpos STORAGE s fd buf n
        (write_clamp_nonpos STORAGE n _ h.off_lo ho31 (by decide) (by decide) hn64 hc)
        with hnone | ⟨res, hsome, hle⟩
      · rw [hnone] at hw2
        cases hw2
      · rw [hsome] at hw2
        have hres : res = (k, s1) := Option.some.inj hw2
        subst hres
        exact absurd (lt_of_lt_of_le hk hle) (lt_irrefl _)
  exact ⟨fun p hp0 hp1 hout => writeResult_bytes h R p hp0 hp1 hout,
    fun b M hc hdis => writeResult_other hL R b M hc hdis⟩

/-! ## The shape of `fs_write` -/

theorem fs_write_with_eq (storage : Int) (s : State) (fd : Int) (buf : Int → UInt8) (n : Nat)
    (e off prev block : Int)
    (h1 : ¬ (fd > MAX_FILDES ∨ fd < 0)) (h2 : fd < MAX_FILDES)
    (h3 : (s.fildes_array fd).used ≠ 0) (h4 : n ≠ 0)
    (hscan : scan (fun e => decide ((s.fildes_array fd).file = (s.DIR e).head)) 64 0 = some e)
    (hwalk : walk s.FAT ((s.fildes_array fd).offset / BLOCK_SIZE).toNat
      (s.fildes_array fd).offset 0 (s.fildes_array fd).file = some (off, prev, block)) :
    fs_write_with storage s fd buf n
      = write_finish s fd e
          (writeLoop storage s.fs.data_idx buf
            (toInt32 (if (n + toSizeT (s.fildes_array fd).offset) % 2 ^ 64 > toSizeT storage then
              toSizeT (storage - (s.fildes_array fd).offset) else n)).toNat
            ⟨s.FAT, s.disk, fun _ => 255, block, prev, off,
              toInt32 (if (n + toSizeT (s.fildes_array fd).offset) % 2 ^ 64 > toSizeT storage then
                toSizeT (storage - (s.fildes_array fd).offset) else n), 0,
              (s.fildes_array fd).offset⟩) := by
  unfold fs_write_with
  rw [if_neg h1, if_neg (not_not.mpr h2), if_neg h3, if_neg h4]
  simp only [hscan]
  generalize (if (n + toSizeT (s.fildes_array fd).offset) % 2 ^ 64 > toSizeT storage then
      toSizeT (storage - (s.fildes_array fd).offset) else n) = nb
  generalize toInt32 nb = r
  rw [hwalk]

/-! ## One pass of the block loop of `fs_write` -/

/-- A pass of the block loop on a block of the disk: the bytes that fit are copied into
the block; when none is left the loop ends, with the block still to be written,
otherwise the block is written and the loop goes on with the successor. -/
theorem writeLoop_pass (storage data_idx : Int) (buf : Int → UInt8)
    (hst : 2 * BLOCK_SIZE ≤ storage) (n : Nat) (w : WLoop) (hb : inDisk w.block)
    (ho0 : 0 ≤ w.offset) (ho1 : w.offset < BLOCK_SIZE) (hr0 : 0 < w.remaining) :
    writeLoop storage data_idx buf (n + 1) w
      = if w.remaining ≤ BLOCK_SIZE - w.offset then
          some (none,
            { w with
              blocks := (writeBytes storage buf w.offset (BLOCK_SIZE - w.offset).toNat w.offset
                          (w.disk w.block) w.bytes_written w.fdoffset w.remaining).1
              bytes_written := w.bytes_written + w.remaining
              fdoffset := w.fdoffset + w.remaining
              remaining := 0 })
        else
          writeLoop storage data_idx buf n
            { w with
              disk := upd w.disk w.block
                (writeBytes storage buf w.offset (BLOCK_SIZE - w.offset).toNat w.offset
                  (w.disk w.block) w.bytes_written w.fdoffset w.remaining).1
              blocks := (writeBytes storage buf w.offset (BLOCK_SIZE - w.offset).toNat w.offset
                          (w.disk w.block) w.bytes_written w.fdoffset w.remaining).1
              prev := w.block
              block := w.FAT w.block
              offset := 0
              remaining := w.remaining - (BLOCK_SIZE - w.offset)
              bytes_written := w.bytes_written + (BLOCK_SIZE - w.offset)
              fdoffset := w.fdoffset + (BLOCK_SIZE - w.offset) } := by
  have hne : w.block ≠ END_MARKER := fun h => not_inDisk_END (h ▸ hb)
  simp only [BLOCK_SIZE] at ho1 hst
  obtain ⟨a, b, c, d, _⟩ := writeBytes_spec storage buf w.offset (BLOCK_SIZE - w.offset).toNat
    w.offset (w.disk w.block) w.bytes_written w.fdoffset w.remaining hr0
    (by simp only [BLOCK_SIZE]; omega)
  have hn : (((BLOCK_SIZE - w.offset).toNat : Nat) : Int) = BLOCK_SIZE - w.offset := by
    simp only [BLOCK_SIZE]; omega
  rw [hn] at a b c
  rw [writeLoop]
  rw [if_pos hr0, extend_of_ne hne]
  simp only [block_read, if_pos hb]
  rw [if_neg (not_lt.mpr ho0)]
  generalize writeBytes storage buf w.offset (BLOCK_SIZE - w.offset).toNat w.offset
    (w.disk w.block) w.bytes_written w.fdoffset w.remaining = R at a b c d ⊢
  obtain ⟨blocks2, bw2, fo2, rem2, flag⟩ := R
  simp only at a b c d ⊢
  subst d
  simp only [Bool.false_eq_true, if_false]
  by_cases hle : w.remaining ≤ BLOCK_SIZE - w.offset
  · have hmin : min (BLOCK_SIZE - w.offset) w.remaining = w.remaining := min_eq_right hle
    rw [hmin] at a b c
    have hrem : rem2 = 0 := by omega
    rw [if_pos hle, if_neg (not_not.mpr hrem), a, b, hrem]
  · have hmin : min (BLOCK_SIZE - w.offset) w.remaining = BLOCK_SIZE - w.offset :=
      min_eq_left (le_of_lt (not_le.mp hle))
    rw [hmin] at a b c
    have hrem : rem2 ≠ 0 := by
      simp only [BLOCK_SIZE] at hle c
      omega
    rw [if_neg hle, if_pos hrem]
    simp only [block_write, if_pos hb]
    rw [a, b, c]

/-- A pass of the block loop at the end of the chain when no data block is FREE: the
chain is not extended, the read of block `END_MARKER` fails and the loop returns -1. -/
theorem writeLoop_no_space (storage data_idx : Int) (buf : Int → UInt8) (n : Nat) (w : WLoop)
    (hd : 0 ≤ data_idx) (hblock : w.block = END_MARKER) (hr0 : 0 < w.remaining)
    (hs : scan (fun j => decide (w.FAT j = FREE)) (DISK_BLOCKS - data_idx).toNat data_idx = none) :
    writeLoop storage data_idx buf (n + 1) w = some (some (-1), w) := by
  have hext : extend data_idx w = some w := by
    unfold extend
    rw [if_pos hblock, if_neg (not_lt.mpr hd)]
    simp only [hs]
  unfold writeLoop
  rw [if_pos hr0, hext]
  simp only [block_read, hblock, if_neg not_inDisk_END]

/-! ## What every `fs_write` keeps -/

theorem writeBytes_bw_le (storage : Int) (buf : Int → UInt8) (offset : Int) (n : Nat) :
    ∀ (i : Int) (blocks : Block) (bw fo remaining : Int),
      bw ≤ (writeBytes storage buf offset n i blocks bw fo remaining).2.1 := by
  induction n with
  | zero =>
    intro i blocks bw fo remaining
    exact le_refl _
  | succ n ih =>
    intro i blocks bw fo remaining
    unfold writeBytes
    by_cases h1 : remaining - 1 = 0
    · rw [if_pos h1]
      show bw ≤ bw + 1
      omega
    · rw [if_neg h1]
      by_cases h2 : i + offset > storage
      · rw [if_pos h2]
        show bw ≤ bw + 1
        omega
      · rw [if_neg h2]
        have := ih (i + 1) (upd blocks i (buf bw)) (bw + 1) (fo + 1) (remaining - 1)
        omega

theorem extend_bw (data_idx : Int) (w : WLoop) :
    extend data_idx w = none ∨
      ∃ w1, extend data_idx w = some w1 ∧ w1.bytes_written = w.bytes_written
        ∧ w1.disk = w.disk := by
  unfold extend
  by_cases hb : w.block = END_MARKER
  · rw [if_pos hb]
    by_cases hd : data_idx < 0
    · rw [if_pos hd]
      exact Or.inl rfl
    · rw [if_neg hd]
      cases hs : scan (fun j => decide (w.FAT j = FREE)) (DISK_BLOCKS - data_idx).toNat data_idx with
      | none => exact Or.inr ⟨w, rfl, rfl, rfl⟩
      | some j =>
        simp only []
        by_cases hp : inDisk w.prev
        · rw [if_pos hp]
          exact Or.inr ⟨_, rfl, rfl, rfl⟩
        · rw [if_neg hp]
          exact Or.inl rfl
  · rw [if_neg hb]
    exact Or.inr ⟨w, rfl, rfl, rfl⟩

/-- The count of bytes written never goes down in the block loop. -/
theorem writeLoop_bw (storage data_idx : Int) (buf : Int → UInt8) (fuel : Nat) :
    ∀ w : WLoop, writeLoop storage data_idx buf fuel w = none ∨
      ∃ ret w1, writeLoop storage data_idx buf fuel w = some (ret, w1)
        ∧ (ret = none → w.bytes_written ≤ w1.bytes_written) := by
  induction fuel with
  | zero =>
    intro w
    unfold writeLoop
    by_cases hr : w.remaining > 0
    · rw [if_pos hr]
      exact Or.inl rfl
    · rw [if_neg hr]
      exact Or.inr ⟨none, w, rfl, fun _ => le_refl _⟩
  | succ n ih =>
    intro w
    rw [writeLoop]
    by_cases hr : w.remaining > 0
    · rw [if_pos hr]
      rcases extend_bw data_idx w with he | ⟨w1, he, hbw, _⟩
      · rw [he]
        exact Or.inl rfl
      · rw [he]
        simp only []
        cases hrd : block_read w1.disk w1.block with
        | none => exact Or.inr ⟨_, _, rfl, fun h => by cases h⟩
        | some blocks1 =>
          simp only []
          by_cases ho : w1.offset < 0
          · rw [if_pos ho]
            exact Or.inl rfl
          · rw [if_neg ho]
            have hmono := writeBytes_bw_le storage buf w1.offset (BLOCK_SIZE - w1.offset).toNat
              w1.offset blocks1 w1.bytes_written w1.fdoffset w1.remaining
            generalize writeBytes storage buf w1.offset (BLOCK_SIZE - w1.offset).toNat w1.offset
              blocks1 w1.bytes_written w1.fdoffset w1.remaining = R at hmono ⊢
            obtain ⟨blocks2, bw2, fo2, rem2, flag⟩ := R
            simp only at hmono ⊢
            by_cases hf : flag = true
            · rw [if_pos hf]
              exact Or.inr ⟨_, _, rfl, fun h => by cases h⟩
            · rw [if_neg hf]
              by_cases hrem : rem2 ≠ 0
              · rw [if_pos hrem]
                cases hbw2 : block_write w1.disk w1.block blocks2 with
                | none => exact Or.inr ⟨_, _, rfl, fun h => by cases h⟩
                | some disk1 =>
                  simp only []
                  rcases ih { FAT := w1.FAT, disk := disk1, blocks := blocks2,
                              block := w1.FAT w1.block, prev := w1.block, offset := 0,
                              remaining := rem2, bytes_written := bw2, fdoffset := fo2 }
                    with hn | ⟨ret, w2, hsome, hle⟩
                  · exact Or.inl hn
                  · refine Or.inr ⟨ret, w2, hsome, fun h => ?_⟩
                    have := hle h
                    simp only at this
                    omega
              · rw [if_neg hrem]
                refine Or.inr ⟨_, _, rfl, fun _ => ?_⟩
                show w.bytes_written ≤ bw2
                omega
    · rw [if_neg hr]
      exact Or.inr ⟨none, w, rfl, fun _ => le_refl _⟩

/-- The ways through `fs_write`: an early `return -1`, an access outside the descriptor
table or the FAT, `return 0` for an empty request, or the block loop from
`bytes_written = 0` followed by the end of the function. -/
theorem fs_write_with_cases (storage : Int) (s : State) (fd : Int) (buf : Int → UInt8) (n : Nat) :
    fs_write_with storage s fd buf n = some (-1, s) ∨ fs_write_with storage s fd buf n = none ∨
    fs_write_with storage s fd buf n = some (0, s) ∨
    ∃ e fuel w0, w0.bytes_written = 0 ∧ w0.fdoffset = (s.fildes_array fd).offset ∧
      scan (fun e => decide ((s.fildes_array fd).file = (s.DIR e).head)) 64 0 = some e ∧
      (s.fildes_array fd).used ≠ 0 ∧
      fs_write_with storage s fd buf n
        = write_finish s fd e (writeLoop storage s.fs.data_idx buf fuel w0) := by
  by_cases h1 : fd > MAX_FILDES ∨ fd < 0
  · left
    unfold fs_write_with
    rw [if_pos h1]
  by_cases h2 : ¬ fd < MAX_FILDES
  · right; left
    unfold fs_write_with
    rw [if_neg h1, if_pos h2]
  by_cases h3 : (s.fildes_array fd).used = 0
  · left
    unfold fs_write_with
    rw [if_neg h1, if_neg h2, if_pos h3]
  by_cases h4 : n = 0
  · right; right; left
    unfold fs_write_with
    rw [if_neg h1, if_neg h2, if_neg h3, if_pos h4]
  cases hscan : scan (fun e => decide ((s.fildes_array fd).file = (s.DIR e).head)) 64 0 with
  | none =>
    left
    unfold fs_write_with
    rw [if_neg h1, if_neg h2, if_neg h3, if_neg h4]
    simp only [hscan]
  | some e =>
    cases hwalk : walk s.FAT ((s.fildes_array fd).offset / BLOCK_SIZE).toNat
        (s.fildes_array fd).offset 0 (s.fildes_array fd).file with
    | none =>
      right; left
      unfold fs_write_with
      rw [if_neg h1, if_neg h2, if_neg h3, if_neg h4]
      simp only [hscan]
      generalize (if (n + toSizeT (s.fildes_array fd).offset) % 2 ^ 64 > toSizeT storage then
        toSizeT (storage - (s.fildes_array fd).offset) else n) = nb
      generalize toInt32 nb = r
      rw [hwalk]
    | some t =>
      obtain ⟨off, prev, block⟩ := t
      right; right; right
      exact ⟨e, _, _, rfl, rfl, rfl, h3,
        fs_write_with_eq storage s fd buf n e off prev block h1 (not_not.mp h2) h3 h4 hscan hwalk⟩

/-- C26, as the code has it: whenever `fs_write` returns -1, the directory, and with it
the size of every file, is the same as before the call, and so is every descriptor
other than `fd`; `fd` keeps its `used` and `file` fields (its offset, the FAT and the
disk may have moved on by the blocks completed before the failure). -/
theorem fs_write_failure_keeps (s : State) (fd : Int) (buf : Int → UInt8) (n : Nat)
    (s1 : State) (hw : fs_write s fd buf n = some (-1, s1)) :
    s1.DIR = s.DIR ∧ (∀ j, j ≠ fd → s1.fildes_array j = s.fildes_array j) ∧
    (s1.fildes_array fd).used = (s.fildes_array fd).used ∧
    (s1.fildes_array fd).file = (s.fildes_array fd).file ∧
    s1.fs = s.fs ∧ s1.file_counter = s.file_counter := by
  have hw2 : fs_write_with STORAGE s fd buf n = some (-1, s1) := hw
  rcases fs_write_with_cases STORAGE s fd buf n with h | h | h | ⟨e, fuel, w0, hbw, _, _, _, h⟩
  · rw [h] at hw2
    have hs : s = s1 := congrArg Prod.snd (Option.some.inj hw2)
    subst hs
    exact ⟨rfl, fun _ _ => rfl, rfl, rfl, rfl, rfl⟩
  · rw [h] at hw2
    cases hw2
  · rw [h] at hw2
    have : (0 : Int) = -1 := congrArg Prod.fst (Option.some.inj hw2)
    exact absurd this (by decide)
  · rw [h] at hw2
    rcases writeLoop_bw STORAGE s.fs.data_idx buf fuel w0 with hX | ⟨ret, w1, hX, hle⟩
    · rw [hX] at hw2
      cases hw2
    · rw [hX] at hw2
      cases ret with
      | some v =>
        have hs := congrArg Prod.snd (Option.some.inj hw2)
        simp only [write_finish] at hs
        subst hs
        exact ⟨rfl, fun j hj => upd_other _ _ hj,
          by show (upd s.fildes_array fd _ fd).used = _; rw [upd_same],
          by show (upd s.fildes_array fd _ fd).file = _; rw [upd_same], rfl, rfl⟩
      | none =>
        cases hb : block_write w1.disk w1.block w1.blocks with
        | none =>
          simp only [write_finish, hb] at hw2
          have hs := congrArg Prod.snd (Option.some.inj hw2)
          simp only at hs
          subst hs
          exact ⟨rfl, fun j hj => upd_other _ _ hj,
            by show (upd s.fildes_array fd _ fd).used = _; rw [upd_same],
            by show (upd s.fildes_array fd _ fd).file = _; rw [upd_same], rfl, rfl⟩
        | some disk1 =>
          simp only [write_finish, hb] at hw2
          have hk : w1.bytes_written = -1 := congrArg Prod.fst (Option.some.inj hw2)
          have := hle rfl
          omega

/-! ## The cap on the size of a file -/

theorem blocksFor_STORAGE : blocksFor STORAGE = 4096 := by decide

/-- C5, as the primary `fs.c` has it: on a well-formed open file at offset `o < 16 MiB`,
for `n` with `o + n > 16 MiB` (and `n + o < 2^64`), `fs_write` returns `16 MiB - o` when
the FAT has the FREE blocks to extend the chain to 4096 blocks, and then the offset is
16 MiB and the size `max size (16 MiB)`; otherwise it returns `-1` and the directory is
as it was. In both cases a size of at most 16 MiB stays at most 16 MiB. -/
theorem fs_write_cap {s : State} {fd e : Int} {L : Nat} (h : OpenOn s fd e L) (hL : 0 < L)
    (hd : 0 ≤ s.fs.data_idx) (buf : Int → UInt8) (n : Nat)
    (ho : (s.fildes_array fd).offset < STORAGE)
    (hn : (n : Int) + (s.fildes_array fd).offset < 2 ^ 64)
    (hover : STORAGE < (s.fildes_array fd).offset + n) :
    ∃ k s1, fs_write s fd buf n = some (k, s1) ∧
      (blocksFor STORAGE - L ≤ freeData s.FAT s.fs.data_idx →
        k = STORAGE - (s.fildes_array fd).offset) ∧
      (k = STORAGE - (s.fildes_array fd).offset ∨ (k = -1 ∧ s1.DIR = s.DIR)) ∧
      (k = STORAGE - (s.fildes_array fd).offset →
        (s1.fildes_array fd).offset = STORAGE ∧ (s1.DIR e).size = max (s.DIR e).size STORAGE) ∧
      ((s.DIR e).size ≤ STORAGE → (s1.DIR e).size ≤ STORAGE) := by
  have hmin : min (n : Int) (STORAGE - (s.fildes_array fd).offset)
      = STORAGE - (s.fildes_array fd).offset := by
    apply min_eq_right
    omega
  obtain ⟨res, w1, w2, w3, w4⟩ := fs_write_spec STORAGE (by decide) (by decide) h hL hd buf n hn
    (by rw [hmin]; omega)
  rw [hmin] at w2 w3 w4
  obtain ⟨k, s1⟩ := res
  have hsum : (s.fildes_array fd).offset + (STORAGE - (s.fildes_array fd).offset) = STORAGE := by
    omega
  rw [hsum] at w2
  have hpost : k = STORAGE - (s.fildes_array fd).offset →
      (s1.fildes_array fd).offset = STORAGE ∧ (s1.DIR e).size = max (s.DIR e).size STORAGE := by
    intro hk
    obtain ⟨p_fds, p_dir, _⟩ := w4 hk
    rw [hsum] at p_fds p_dir
    refine ⟨by rw [p_fds, upd_same], ?_⟩
    rw [p_dir]
    by_cases hlt : (s.DIR e).size < STORAGE
    · rw [if_pos hlt, upd_same]
      exact (max_eq_right (le_of_lt hlt)).symm
    · rw [if_neg hlt]
      exact (max_eq_left (not_lt.mp hlt)).symm
  refine ⟨k, s1, w1, w2, w3, hpost, ?_⟩
  intro hsz
  rcases w3 with h3 | h3
  · rw [(hpost h3).2]
    exact max_le hsz (le_refl _)
  · have h4 : s1.DIR = s.DIR := h3.2
    rw [h4]
    exact hsz

/-- The draft `src/fs.c` has `STORAGE = 32 MiB`: on a well-formed open file, a write of
`n > 0` bytes that ends at or below 32 MiB returns `n` when the FAT has the FREE blocks
for it, and the size becomes `max size (o + n)`, which may lie above 16 MiB. -/
theorem fs_write_draft_post {s : State} {fd e : Int} {L : Nat} (h : OpenOn s fd e L)
    (hL : 0 < L) (hd : 0 ≤ s.fs.data_idx) (buf : Int → UInt8) (n : Nat) (hn : 0 < n)
    (hmax : (s.fildes_array fd).offset + n ≤ STORAGE_draft)
    (hfree : blocksFor ((s.fildes_array fd).offset + n) - L ≤ freeData s.FAT s.fs.data_idx) :
    ∃ s1, fs_write_draft s fd buf n = some ((n : Int), s1) ∧
      (s1.DIR e).size = max (s.DIR e).size ((s.fildes_array fd).offset + n) := by
  have ho0 := h.off_lo
  have hmin : min (n : Int) (STORAGE_draft - (s.fildes_array fd).offset) = n := by
    apply min_eq_left
    omega
  obtain ⟨res, w1, w2, _, w4⟩ := fs_write_spec STORAGE_draft (by decide) (by decide) h hL hd buf n
    (by simp only [STORAGE_draft] at hmax; omega) (by rw [hmin]; omega)
  rw [hmin] at w2 w4
  obtain ⟨r, s1⟩ := res
  have hr : r = n := w2 hfree
  subst hr
  obtain ⟨_, p_dir, _⟩ := w4 rfl
  refine ⟨s1, w1, ?_⟩
  rw [p_dir]
  by_cases hlt : (s.DIR e).size < (s.fildes_array fd).offset + n
  · rw [if_pos hlt, upd_same]
    exact (max_eq_right (le_of_lt hlt)).symm
  · rw [if_neg hlt]
    exact (max_eq_left (not_lt.mp hlt)).symm

theorem openOn_fullOpen : OpenOn fullOpen 0 2 1 :=
  { fd_lo := le_refl _
    fd_hi := by decide
    used := by decide
    e_lo := by decide
    e_hi := by decide
    head := by decide
    first := fun j h1 h2 => by
      have hj : j = 0 ∨ j = 1 := by omega
      rcases hj with hj | hj <;> subst hj <;> decide
    chain := ⟨by decide, (by decide : fullOpen.FAT 8191 = END_MARKER)⟩
    size_le := by decide
    size_int := by decide
    off_lo := by decide
    off_le := by decide }

theorem fullOpen_no_free (b : Int) (h1 : 6 ≤ b) (h2 : inDisk b) : fullOpen.FAT b ≠ FREE := by
  show (if b = 4101 ∨ b = 8190 ∨ b = 8191 then END_MARKER
    else if 6 ≤ b ∧ b < 8192 then b + 1 else FREE) ≠ FREE
  unfold inDisk at h2
  simp only [DISK_BLOCKS] at h2
  split
  · decide
  · rw [if_pos ⟨h1, h2.2⟩]
    simp only [FREE]
    omega

/-- C5 at a concrete input: on `fullOpen` no data block is FREE and descriptor 0 is in
use at offset 4096, the end of the one-block file `b`. `fs_write` of `n = 16 MiB` bytes
(so that `o + n > 16 MiB`) returns `-1` and not `16 MiB - 4096`, and the size of the
file stays 4096. -/
theorem fs_write_full_volume :
    (fullOpen.fildes_array 0).used = 1 ∧ (fullOpen.fildes_array 0).offset = 4096 ∧
    (∀ b, 6 ≤ b → b < DISK_BLOCKS → fullOpen.FAT b ≠ FREE) ∧
    (fs_write fullOpen 0 (fun _ => 7) 16777216).map (fun r => (r.1, (r.2.DIR 2).size))
      = some (-1, 4096) := by
  refine ⟨by decide, by decide, ?_, ?_⟩
  · intro b h1 h2
    exact fullOpen_no_free b h1 ⟨by omega, h2⟩
  · obtain ⟨res, w1, _, w3, w4⟩ := fs_write_spec STORAGE (by decide) (by decide) openOn_fullOpen
      (by decide) (by decide) (fun _ => 7) 16777216 (by decide) (by decide)
    have hw : fs_write fullOpen 0 (fun _ => 7) 16777216 = some res := w1
    rw [hw]
    obtain ⟨k, s1⟩ := res
    rcases w3 with h3 | h3
    · exfalso
      have R := w4 h3
      have hfr := R.fresh 1 (le_refl _) (by decide)
      have hin := validChain_inDisk R.chain 1 (lt_of_lt_of_le (by decide) (le_max_right _ _))
      exact fullOpen_no_free _ hfr.2 hin hfr.1
    · have h4 : k = -1 := h3.1
      have h5 : s1.DIR = fullOpen.DIR := h3.2
      show some (k, (s1.DIR 2).size) = some (-1, 4096)
      rw [h4, h5]
      rfl

/-! ## A write that fails after its first block -/

theorem fullShort_scan :
    scan (fun j => decide (fullShort.FAT j = FREE)) (DISK_BLOCKS - fullShort.fs.data_idx).toNat
      fullShort.fs.data_idx = none := by
  apply scan_eq_none_of
  intro b h1 h2
  have hb : fullOpen.FAT b ≠ FREE :=
    fullOpen_no_free b h1 ⟨le_trans (by decide) h1, by
      have h3 : b < 6 + ((DISK_BLOCKS - 6).toNat : Int) := h2
      simp only [DISK_BLOCKS] at h3 ⊢
      omega⟩
  exact decide_eq_false hb

/-- The failing write on `fullShort`: the six bytes that fit into block 8191 are copied
and written, no FREE block is found for the rest, and the call returns -1. -/
theorem fs_write_fullShort :
    ∃ s1, fs_write fullShort 0 (fun _ => 7) 10 = some (-1, s1) ∧
      (s1.fildes_array 0).offset = 4096 ∧ s1.DIR = fullShort.DIR ∧ s1.disk 8191 4095 = 7 := by
  have e1 := fs_write_with_eq STORAGE fullShort 0 (fun _ => 7) 10 2 4090 0 8191 (by decide)
    (by decide) (by decide) (by decide) (by decide) (by decide)
  have hr : toInt32 (if (10 + toSizeT (fullShort.fildes_array 0).offset) % 2 ^ 64
      > toSizeT STORAGE then toSizeT (STORAGE - (fullShort.fildes_array 0).offset) else 10)
      = 10 := by decide
  rw [hr] at e1
  have e2 : writeLoop STORAGE fullShort.fs.data_idx (fun _ => 7) (Int.toNat 10)
      ⟨fullShort.FAT, fullShort.disk, fun _ => 255, 8191, 0, 4090, 10, 0,
        (fullShort.fildes_array 0).offset⟩ = _ :=
    writeLoop_pass STORAGE fullShort.fs.data_idx (fun _ => 7) (by decide) 9
      ⟨fullShort.FAT, fullShort.disk, fun _ => 255, 8191, 0, 4090, 10, 0,
        (fullShort.fildes_array 0).offset⟩ (by decide) (by decide) (by decide) (by decide)
  rw [if_neg (by decide)] at e2
  have e3 := writeLoop_no_space STORAGE fullShort.fs.data_idx (fun _ => 7) 8
    { FAT := fullShort.FAT
      disk := upd fullShort.disk 8191
        (writeBytes STORAGE (fun _ => 7) 4090 (BLOCK_SIZE - 4090).toNat 4090 (fullShort.disk 8191)
          0 (fullShort.fildes_array 0).offset 10).1
      blocks := (writeBytes STORAGE (fun _ => 7) 4090 (BLOCK_SIZE - 4090).toNat 4090
          (fullShort.disk 8191) 0 (fullShort.fildes_array 0).offset 10).1
      block := fullShort.FAT 8191
      prev := 8191
      offset := 0
      remaining := 10 - (BLOCK_SIZE - 4090)
      bytes_written := 0 + (BLOCK_SIZE - 4090)
      fdoffset := (fullShort.fildes_array 0).offset + (BLOCK_SIZE - 4090) }
    (by decide) (by decide) (by decide) fullShort_scan
  have e4 : fs_write fullShort 0 (fun _ => 7) 10 = _ := e1.trans
    (congrArg (write_finish fullShort 0 2) (e2.trans e3))
  exact ⟨_, e4, by decide, rfl, by decide⟩

/-- C26 at a concrete input: on `fullShort` no data block is FREE and descriptor 0 is
in use at offset 4090, the size of its one-block file. `fs_write` of 10 bytes copies
the six bytes that fit into block 8191, writes the block, finds no FREE block for the
rest and returns -1: the offset has moved to 4096 while the size is still 4090, and
byte 4095 of block 8191 holds the caller's byte. -/
theorem fs_write_fails_midway :
    (fullShort.fildes_array 0).used = 1 ∧ (fullShort.fildes_array 0).offset = 4090 ∧
    (fullShort.DIR 2).head = (fullShort.fildes_array 0).file ∧ (fullShort.DIR 2).size = 4090 ∧
    (∀ b, 6 ≤ b → b < DISK_BLOCKS → fullShort.FAT b ≠ FREE) ∧
    (fs_write fullShort 0 (fun _ => 7) 10).map
        (fun r => (r.1, (r.2.fildes_array 0).offset, (r.2.DIR 2).size, r.2.disk 8191 4095))
      = some (-1, 4096, 4090, 7) := by
  refine ⟨by decide, by decide, by decide, by decide,
    fun b h1 h2 => fullOpen_no_free b h1 ⟨le_trans (by decide) h1, h2⟩, ?_⟩
  obtain ⟨s1, h, ho, hdir, hdisk⟩ := fs_write_fullShort
  rw [h]
  show some ((-1 : Int), (s1.fildes_array 0).offset, (s1.DIR 2).size, s1.disk 8191 4095) = _
  rw [ho, hdir, hdisk]
  rfl

theorem fs_write_failure_keeps_witness :
    ∃ s1, fs_write fullShort 0 (fun _ => 7) 10 = some (-1, s1) ∧
      s1.DIR = fullShort.DIR ∧
      (∀ j, j ≠ 0 → s1.fildes_array j = fullShort.fildes_array j) ∧
      (s1.fildes_array 0).used = (fullShort.fildes_array 0).used ∧
      (s1.fildes_array 0).file = (fullShort.fildes_array 0).file ∧
      s1.fs = fullShort.fs ∧ s1.file_counter = fullShort.file_counter :=
  fs_write_fullShort.elim fun s1 h =>
    ⟨s1, h.1, fs_write_failure_keeps fullShort 0 (fun _ => 7) 10 s1 h.1⟩

/-! ## The cap on the number of files -/

theorem filled_fresh (image : Int → Block) : Filled (fresh image) [] :=
  { data := rfl
    count := rfl
    used := fun i x h => by simp at h
    unused := fun i _ => fresh_unused image i
    fat_used := fun b h1 h2 => by
      simp only [List.length_nil, Nat.cast_zero] at h2
      omega
    fat_free := fun b _ => rfl }

theorem Filled.slot {s : State} {done : List String} (F : Filled s done) (i : Int) (h0 : 0 ≤ i)
    (h1 : i < done.length) :
    ∃ x, x ∈ done ∧ done[i.toNat]? = some x ∧
      s.DIR i = { used := 1, name := x, size := 0, head := 6 + i, ref_cnt := 0 } := by
  have hi : i.toNat < done.length := by omega
  have hget := List.getElem?_eq_getElem hi
  have hu := F.used i.toNat _ hget
  rw [Int.toNat_of_nonneg h0] at hu
  exact ⟨_, List.getElem?_mem hget, hget, hu⟩

theorem filled_create {s : State} {done : List String} (F : Filled s done) (name : String)
    (hk : done.length < 64) (hlen : name.length ≤ MAX_F_NAME) (hnew : name ∉ done) :
    ∃ s1, fs_create s name = some (0, s1) ∧ Filled s1 (done ++ [name]) := by
  have hfree : s.FAT (6 + (done.length : Int)) = FREE := F.fat_free _ (le_refl _)
  have hunused : (s.DIR (done.length : Int)).used = 0 := F.unused _ (le_refl _)
  have hcreate := fs_create_ok s name (6 + (done.length : Int)) (done.length : Int)
    (by rw [F.count]; simp only [MAX_FILES_ALLOWED]; omega) hlen
    (by
      intro i h0 h1 hu hname
      by_cases hik : i < done.length
      · obtain ⟨x, hx, _, hslot⟩ := F.slot i h0 hik
        rw [hslot] at hname
        have hxn : x = name := hname
        rw [hxn] at hx
        exact hnew hx
      · exact hu (F.unused i (by omega)))
    (by rw [F.data]; decide)
    (by
      rw [F.data]
      apply scan_eq_some_of (by omega) (by simp only [DISK_BLOCKS]; omega)
      · rw [hfree]
        rfl
      · intro b hb1 hb2
        rw [F.fat_used b hb1 hb2]
        rfl)
    (by
      apply scan_eq_some_of (by omega) (by omega)
      · rw [hunused]
        rfl
      · intro i hi1 hi2
        obtain ⟨x, _, _, hslot⟩ := F.slot i hi1 hi2
        rw [hslot]
        rfl)
  refine ⟨_, hcreate, ?_⟩
  constructor
  · exact F.data
  · show s.file_counter + 1 = ((done ++ [name]).length : Int)
    rw [F.count, List.length_append, List.length_singleton]
    push_cast
    rfl
  · intro i x hx
    show upd s.DIR (done.length : Int) _ (i : Int) = _
    by_cases hi : i < done.length
    · rw [List.getElem?_append_left hi] at hx
      rw [upd_other _ _ (by omega)]
      exact F.used i x hx
    · have hlen2 : (done ++ [name]).length = done.length + 1 := by
        rw [List.length_append, List.length_singleton]
      have hi2 : i < (done ++ [name]).length := by
        by_contra hc
        rw [List.getElem?_eq_none (by omega)] at hx
        cases hx
      have hik : i = done.length := by omega
      subst hik
      rw [List.getElem?_append_right (le_refl _), Nat.sub_self, List.getElem?_cons_zero] at hx
      cases hx
      rw [upd_same]
  · intro i hi
    rw [List.length_append, List.length_singleton] at hi
    push_cast at hi
    show (upd s.DIR (done.length : Int) _ i).used = 0
    rw [upd_other _ _ (by omega)]
    exact F.unused i (by omega)
  · intro b hb1 hb2
    rw [List.length_append, List.length_singleton] at hb2
    push_cast at hb2
    show upd s.FAT (6 + (done.length : Int)) END_MARKER b = END_MARKER
    by_cases hb : b = 6 + (done.length : Int)
    · rw [hb, upd_same]
    · rw [upd_other _ _ hb]
      exact F.fat_used b hb1 (by omega)
  · intro b hb1
    rw [List.length_append, List.length_singleton] at hb1
    push_cast at hb1
    show upd s.FAT (6 + (done.length : Int)) END_MARKER b = FREE
    rw [upd_other _ _ (by omega)]
    exact F.fat_free b (by omega)

theorem filled_createAll (names : List String) :
    ∀ (done : List String) (s : State), Filled s done → done.length + names.length ≤ 64 →
      (∀ x ∈ names, x.length ≤ MAX_F_NAME) → (done ++ names).Nodup →
      ∃ s1, createAll s names = some s1 ∧ Filled s1 (done ++ names) := by
  induction names with
  | nil =>
    intro done s F _ _ _
    exact ⟨s, rfl, by rw [List.append_nil]; exact F⟩
  | cons name rest ih =>
    intro done s F hlen hvalid hnd
    have hnew : name ∉ done := by
      intro hmem
      have := (List.nodup_append.mp hnd).2.2 hmem
      exact this (List.mem_cons_self _ _)
    simp only [List.length_cons] at hlen
    obtain ⟨s1, hc, F1⟩ := filled_create F name (by omega)
      (hvalid name (List.mem_cons_self _ _)) hnew
    obtain ⟨s2, hc2, F2⟩ := ih (done ++ [name]) s1 F1
      (by rw [List.length_append, List.length_singleton]; omega)
      (fun x hx => hvalid x (List.mem_cons_of_mem _ hx))
      (by rw [List.append_assoc]; exact hnd)
    refine ⟨s2, ?_, by rw [List.append_assoc] at F2; exact F2⟩
    unfold createAll
    rw [hc]
    simp only [if_true]
    exact hc2

theorem fs_create_full (s : State) (name : String) (h : s.file_counter ≥ MAX_FILES_ALLOWED) :
    fs_create s name = some (-1, s) := by
  unfold fs_create
  rw [if_pos h]

theorem filled_delete_create {s : State} {names : List String} (F : Filled s names)
    (hlen : names.length = 64) (hnd : names.Nodup) (d : String) (hd : d ∈ names)
    (hdv : d.length ≤ MAX_F_NAME) (new : String) (hnewv : new.length ≤ MAX_F_NAME)
    (hnew : ∀ x ∈ names, x ≠ d → x ≠ new) :
    ∃ s65 s66, fs_delete s d = some (0, s65) ∧ fs_create s65 new = some (0, s66) := by
  obtain ⟨i, hi⟩ := List.mem_iff_getElem?.mp hd
  have hi64 : i < names.length := by
    by_contra hc
    rw [List.getElem?_eq_none (by omega)] at hi
    cases hi
  have hslot := F.used i d hi
  have hother : ∀ j : Int, 0 ≤ j → j < 64 → j ≠ i →
      ∃ x, x ∈ names ∧ x ≠ d ∧
        s.DIR j = { used := 1, name := x, size := 0, head := 6 + j, ref_cnt := 0 } := by
    intro j hj0 hj1 hji
    obtain ⟨x, hx, hget, hs⟩ := F.slot j hj0 (by omega)
    refine ⟨x, hx, ?_, hs⟩
    intro hxd
    rw [hxd, ← hi] at hget
    have hne : j.toNat ≠ i := by omega
    rcases Nat.lt_or_gt_of_ne hne with hlt | hgt
    · exact List.nodup_iff_getElem?_ne_getElem?.mp hnd j.toNat i hlt hi64 hget
    · exact List.nodup_iff_getElem?_ne_getElem?.mp hnd i j.toNat hgt (by omega) hget.symm
  have hdel := fs_delete_ok s d (i : Int) hdv
    (by
      apply scan_eq_some_of (by omega) (by omega)
      · rw [hslot]
        simp
      · intro j hj0 hj1
        obtain ⟨x, _, hxd, hs⟩ := hother j hj0 (by omega) (by omega)
        rw [hs]
        simp [hxd])
    (by
      rw [hslot]
      unfold inDisk
      simp only [DISK_BLOCKS]
      omega)
  obtain ⟨h, hh⟩ := @scan_exists (fun b => decide ((if s.FAT (s.DIR i).head = FREE then s.FAT
      else upd s.FAT (s.DIR i).head FREE) b = FREE)) (DISK_BLOCKS - s.fs.data_idx).toNat
    s.fs.data_idx
    ⟨6 + (i : Int), by rw [F.data]; omega, by rw [F.data]; simp only [DISK_BLOCKS]; omega, by
      have hhead : (s.DIR i).head = 6 + (i : Int) := by rw [hslot]
      beta_reduce
      rw [hhead]
      by_cases hf : s.FAT (6 + (i : Int)) = FREE
      · rw [if_pos hf, hf]
        rfl
      · rw [if_neg hf, upd_same]
        rfl⟩
  obtain ⟨j, hj⟩ := @scan_exists
    (fun k => decide ((upd s.DIR (i : Int)
      { s.DIR i with used := 0, size := 0, head := FREE, name := "" } k).used = 0))
    64 0
    ⟨(i : Int), by omega, by omega, by beta_reduce; rw [upd_same]; rfl⟩
  refine ⟨_, ?_, hdel, ?_⟩
  swap
  exact fs_create_ok
    { s with
      FAT := if s.FAT (s.DIR i).head = FREE then s.FAT else upd s.FAT (s.DIR i).head FREE
      DIR := upd s.DIR i { s.DIR i with used := 0, size := 0, head := FREE, name := "" }
      fs := { s.fs with dir_len := s.fs.dir_len - 1 }
      file_counter := s.file_counter - 1 } new h j
    (by
      show s.file_counter - 1 < MAX_FILES_ALLOWED
      rw [F.count]
      simp only [MAX_FILES_ALLOWED]
      omega)
    hnewv
    (by
      intro k hk0 hk1 hu
      by_cases hki : k = (i : Int)
      · exfalso
        apply hu
        show (upd s.DIR (i : Int) _ k).used = 0
        rw [hki, upd_same]
      · show (upd s.DIR (i : Int) _ k).name ≠ new
        rw [upd_other _ _ hki]
        obtain ⟨x, hx, hxd, hs⟩ := hother k hk0 hk1 hki
        rw [hs]
        exact hnew x hx hxd)
    (by
      show (0 : Int) ≤ s.fs.data_idx
      rw [F.data]
      decide)
    hh hj

/-- C12: from a freshly formatted and mounted volume, `fs_create` of 64 pairwise
distinct names of at most 15 characters returns 0 each time; then `fs_create` returns
-1 (for any name, so for a new one) and leaves the volume as it is; after `fs_delete`
of one of the 64 files, which returns 0, `fs_create` of a name that none of the other
63 files bears returns 0. -/
theorem file_count_cap (image : Int → Block) (names : List String) (hlen : names.length = 64)
    (hnd : names.Nodup) (hvalid : ∀ x ∈ names, x.length ≤ MAX_F_NAME) (extra d new : String)
    (hd : d ∈ names) (hnewv : new.length ≤ MAX_F_NAME)
    (hnew : ∀ x ∈ names, x ≠ d → x ≠ new) :
    ∃ s64 s65 s66, createAll (fresh image) names = some s64 ∧
      fs_create s64 extra = some (-1, s64) ∧ fs_delete s64 d = some (0, s65) ∧
      fs_create s65 new = some (0, s66) := by
  obtain ⟨s64, hall, F⟩ := filled_createAll names [] (fresh image) (filled_fresh image)
    (by rw [hlen]; decide) hvalid (by rw [List.nil_append]; exact hnd)
  rw [List.nil_append] at F
  obtain ⟨s65, s66, hdel, hcr⟩ := filled_delete_create F hlen hnd d hd (hvalid d hd) new hnewv hnew
  refine ⟨s64, s65, s66, hall, fs_create_full s64 extra ?_, hdel, hcr⟩
  rw [F.count, hlen]
  decide

theorem file_count_cap_witness :
    ∃ s64 s65 s66, createAll (fresh blank) names64 = some s64 ∧
      fs_create s64 "new" = some (-1, s64) ∧ fs_delete s64 "a" = some (0, s65) ∧
      fs_create s65 "new" = some (0, s66) :=
  file_count_cap blank names64 (by decide) (by decide) (by decide) "new" "a" "new" (by decide)
    (by decide) (by decide)

/-- C3 (the code departs from the claim): after `fs_create`, `fs_open`, an `fs_write`
of 10 bytes and `fs_lseek` to 1, descriptor 0 is in use at offset 1 on a file of size
10, and `fs_read` of 9 bytes returns 9. For `nbyte = 2^64 - 1` the sum
`nbyte + offset` of line 366 wraps to 0, the count is not clamped to 9, and the call
does not return: `calloc` of `2^64 - 1` bytes yields `NULL`, which line 375 writes to. -/
theorem fs_read_count_wraps :
    ((fs_create (fresh (fun _ _ => 0)) "f").bind fun r1 =>
      (fs_open r1.2 "f").bind fun r2 =>
      (fs_write r2.2 r2.1 (fun _ => 97) 10).bind fun r3 =>
      (fs_lseek r3.2 r2.1 1).bind fun r4 =>
      (fs_read r4.2 r2.1 (fun _ => 0) 9).map fun r5 =>
        (r4.1, (r4.2.fildes_array r2.1).used, (r4.2.fildes_array r2.1).offset, (r4.2.DIR 0).size,
          r5.1))
      = some (0, 1, 1, 10, 9)
    ∧ ((fs_create (fresh (fun _ _ => 0)) "f").bind fun r1 =>
      (fs_open r1.2 "f").bind fun r2 =>
      (fs_write r2.2 r2.1 (fun _ => 97) 10).bind fun r3 =>
      (fs_lseek r3.2 r2.1 1).map fun r4 =>
        (fs_read r4.2 r2.1 (fun _ => 0) (2 ^ 64 - 1)).isNone)
      = some true := by
  decide

/-! # Claims settled by running the model -/

/-- C2 (the code departs from the claim): on a fresh volume, after `fs_create`,
`fs_open`, an `fs_write` of 10 bytes and `fs_lseek` to 0, `fs_read` of 4 bytes returns 4
and leaves the descriptor's offset at 0: the offset is not advanced by the bytes
returned, and a second `fs_read` of 4 bytes returns the same 4 bytes again. -/
theorem fs_read_does_not_advance :
    ((fs_create (fresh (fun _ _ => 0)) "f").bind fun r1 =>
      (fs_open r1.2 "f").bind fun r2 =>
      (fs_write r2.2 r2.1 (fun i => if i < 4 then 97 else 98) 10).bind fun r3 =>
      (fs_lseek r3.2 r2.1 0).bind fun r4 =>
      (fs_read r4.2 r2.1 (fun _ => 0) 4).bind fun r5 =>
      (fs_read r5.2.2 r2.1 (fun _ => 0) 4).map fun r6 =>
        (r5.1, (r5.2.2.fildes_array r2.1).offset, r5.2.1 0, r6.1, r6.2.1 0,
          (r6.2.2.fildes_array r2.1).offset))
      = some (4, 0, 97, 4, 97, 0) := by
  decide

/-- C8 (the code departs from the claim): `fs_delete` of a closed file whose chain is
`6 -> 7 -> END` returns 0 and clears the directory entry, but only the head is freed:
`FAT[6]` is FREE and `FAT[7]` still holds END_MARKER. -/
theorem fs_delete_frees_only_head :
    (fs_delete twoBlockFile "f").map (fun r => (r.1, r.2.FAT 6, r.2.FAT 7))
      = some (0, FREE, END_MARKER)
    ∧ (fs_delete twoBlockFile "f").map
        (fun r => ((r.2.DIR 0).used, (r.2.DIR 0).size, (r.2.DIR 0).head, (r.2.DIR 0).name))
      = some (0, 0, FREE, "") := by
  decide

/-- C9 (the code departs from the claim): on a fresh volume no used entry is named by
the empty string, yet `fs_delete("")` returns 0: it takes the unused slot 0, whose name
is empty, and decrements `dir_len` and the file counter, which becomes -1. -/
theorem fs_delete_empty_name_succeeds :
    (fs_delete (fresh (fun _ _ => 0)) "").map
        (fun r => (r.1, r.2.file_counter, r.2.fs.dir_len, (r.2.DIR 0).head))
      = some (0, -1, 0, FREE)
    ∧ ((fresh (fun _ _ => 0)).DIR 0).used = 0
    ∧ (fresh (fun _ _ => 0)).file_counter = 0
    ∧ (fresh (fun _ _ => 0)).fs.dir_len = 1 := by
  decide

/-- C11 (the claim fails): on a fresh volume `fs_create("")` returns 0 and slot 0
becomes a used entry with the empty name. -/
theorem fs_create_empty_name_accepted :
    (fs_create (fresh (fun _ _ => 0)) "").map
        (fun r => (r.1, (r.2.DIR 0).used, (r.2.DIR 0).name, (r.2.DIR 0).head))
      = some (0, 1, "", 6) := by
  decide

/-- C16 (the code departs from the claim): after `fs_create("a")` on a fresh volume no
used entry has the empty name, yet `fs_open("")` returns descriptor 0: it matches the
unused slot 1, claims the descriptor with `file = 0` and increments the `ref_cnt` of
that unused slot. -/
theorem fs_open_empty_name_succeeds :
    ((fs_create (fresh (fun _ _ => 0)) "a").bind fun r1 =>
      (fs_open r1.2 "").map fun r2 =>
        ((r1.2.DIR 0).name, (r1.2.DIR 1).used, r2.1, (r2.2.fildes_array 0).used,
          (r2.2.fildes_array 0).file, (r2.2.DIR 1).ref_cnt))
      = some ("a", 0, 0, 1, 0, 1) := by
  decide

/-- C18 (the code departs from the claim): on a file whose chain is `6 -> 7 -> END`
(size 5000), `fs_truncate(fd, 100)` does not return: the freeing loop moves to
`FAT[7] = END_MARKER` and stores FREE in `FAT[-2]`, outside the array, and block 7 is
never freed. `fs_truncate(fd, 4096)` returns 0 but keeps both blocks in the chain,
although byte 4095 lies in the head block. -/
theorem fs_truncate_tail_not_freed :
    (fs_truncate twoBlockOpen 0 100).isNone = true
    ∧ (fs_truncate twoBlockOpen 0 4096).map
        (fun r => (r.1, r.2.FAT 6, r.2.FAT 7, (r.2.DIR 0).size))
      = some (0, 7, END_MARKER, 4096) := by
  decide

/-- C19 (the code departs from the claim): two descriptors on a file of 20 bytes, the
second at offset 12; `fs_truncate` to 5 bytes through the first returns 0 and keeps the
second offset at 12, `fs_lseek` of the second to 12 returns -1, but `fs_read` of one
byte through the second does not return 0: the byte count becomes `5 - 12` as a
`size_t`, which no allocation can serve. -/
theorem fs_read_after_truncate_faults :
    ((fs_create (fresh (fun _ _ => 0)) "f").bind fun r1 =>
      (fs_open r1.2 "f").bind fun r2 =>
      (fs_open r2.2 "f").bind fun r3 =>
      (fs_write r3.2 r2.1 (fun _ => 97) 20).bind fun r4 =>
      (fs_lseek r4.2 r3.1 12).bind fun r5 =>
      (fs_truncate r5.2 r2.1 5).bind fun r6 =>
      (fs_lseek r6.2 r3.1 12).map fun r7 =>
        (r3.1, r6.1, (r6.2.fildes_array r3.1).offset, r7.1,
          (fs_read r6.2 r3.1 (fun _ => 0) 1).isNone))
      = some (1, 0, 12, -1, true) := by
  decide

/-! # Claims about the directory and the descriptors -/

theorem closeAll_spec (e : Int) (he0 : 0 ≤ e) (he1 : e < MAX_FILES_ALLOWED) :
    ∀ (fds : List Int) (s : State),
      (∀ j, 0 ≤ j → j < e → (s.DIR j).head ≠ (s.DIR e).head) →
      (∀ fd, fd ∈ fds → 0 ≤ fd ∧ fd < MAX_FILDES ∧ (s.fildes_array fd).used ≠ 0
        ∧ (s.fildes_array fd).file = (s.DIR e).head) →
      fds.Nodup →
      ∃ s1, closeAll s fds = some s1 ∧
        s1.DIR e = { s.DIR e with ref_cnt := (s.DIR e).ref_cnt - fds.length } ∧
        (∀ j, j ≠ e → s1.DIR j = s.DIR j) ∧ s1.FAT = s.FAT := by
  intro fds
  induction fds with
  | nil =>
    intro s _ _ _
    refine ⟨s, rfl, ?_, fun _ _ => rfl, rfl⟩
    simp
  | cons fd fds ih =>
    intro s hheads hfds hnd
    obtain ⟨h0, h1, hu, hf⟩ := hfds fd (List.mem_cons_self _ _)
    have hscan : scan (fun i => decide ((s.DIR i).head = (s.fildes_array fd).file
        ∧ (s.fildes_array fd).used ≠ 0)) 64 0 = some e := by
      apply scan_eq_some_of he0 (by simp only [MAX_FILES_ALLOWED] at he1; push_cast; omega)
      · simp [hf, hu]
      · intro k hk1 hk2
        simp only [decide_eq_false_iff_not, not_and]
        intro hk
        exact absurd (hk.trans hf) (hheads k hk1 hk2)
    have hclose := fs_close_ok s fd e h0 h1 hscan
    obtain ⟨hfdnot, hnd2⟩ := List.nodup_cons.mp hnd
    obtain ⟨s1, c1, c2, c3, c4⟩ := ih
      { s with
        DIR := upd s.DIR e { s.DIR e with ref_cnt := (s.DIR e).ref_cnt - 1 }
        fildes_array := upd s.fildes_array fd { used := 0, file := FREE, offset := 0 } }
      (by
        intro j hj0 hj1
        show (upd s.DIR e _ j).head ≠ (upd s.DIR e _ e).head
        rw [upd_same, upd_other _ _ (by omega)]
        exact hheads j hj0 hj1)
      (by
        intro fd2 hfd2
        obtain ⟨a, b, c, d⟩ := hfds fd2 (List.mem_cons_of_mem _ hfd2)
        have hne : fd2 ≠ fd := fun h => hfdnot (h ▸ hfd2)
        show 0 ≤ fd2 ∧ fd2 < MAX_FILDES ∧ (upd s.fildes_array fd _ fd2).used ≠ 0
          ∧ (upd s.fildes_array fd _ fd2).file = (upd s.DIR e _ e).head
        rw [upd_same, upd_other _ _ hne]
        exact ⟨a, b, c, d⟩)
      hnd2
    refine ⟨s1, ?_, ?_, ?_, c4⟩
    · show (match fs_close s fd with
        | some (r, s1) => if r = 0 then closeAll s1 fds else none
        | none => none) = some s1
      rw [hclose]
      simp only [if_true]
      exact c1
    · rw [c2]
      show ({ upd s.DIR e _ e with ref_cnt := (upd s.DIR e _ e).ref_cnt - fds.length } : dir_entry) = _
      rw [upd_same]
      simp only [List.length_cons]
      congr 1
      push_cast
      omega
    · intro j hj
      rw [c3 j hj]
      exact upd_other _ _ hj

/-- C7: an entry in use with a non-empty name and open descriptors `fds` (`ref_cnt` is
their number, which is positive) cannot be deleted, `fs_delete` returns -1 and changes
nothing; once all of them are closed, each `fs_close` returning 0, `fs_delete` returns 0. -/
theorem open_file_cannot_be_deleted (s : State) (e : Int) (fds : List Int)
    (he0 : 0 ≤ e) (he1 : e < MAX_FILES_ALLOWED) (hused : (s.DIR e).used ≠ 0)
    (hname : (s.DIR e).name ≠ "") (hlen : (s.DIR e).name.length ≤ MAX_F_NAME)
    (hnames : DirNames s) (hhead : inDisk (s.DIR e).head)
    (hheads : ∀ j, 0 ≤ j → j < e → (s.DIR j).head ≠ (s.DIR e).head)
    (hfds : ∀ fd, fd ∈ fds → 0 ≤ fd ∧ fd < MAX_FILDES ∧ (s.fildes_array fd).used ≠ 0
      ∧ (s.fildes_array fd).file = (s.DIR e).head)
    (hnd : fds.Nodup) (hP4 : (s.DIR e).ref_cnt = fds.length) (hpos : 0 < fds.length) :
    fs_delete s (s.DIR e).name = some (-1, s) ∧
    ∃ s1 s2, closeAll s fds = some s1 ∧ fs_delete s1 (s.DIR e).name = some (0, s2) := by
  have hother : ∀ k, 0 ≤ k → k < MAX_FILES_ALLOWED → k ≠ e → (s.DIR k).name ≠ (s.DIR e).name := by
    intro k hk0 hk1 hke heq
    by_cases hu : (s.DIR k).used = 0
    · exact hname (heq ▸ hnames.unused_empty k hk0 hk1 hu)
    · exact hke (hnames.unique k e hk0 hk1 he0 he1 hu hused heq)
  constructor
  · apply fs_delete_no_match
    apply scan_eq_none_of
    intro k hk0 hk1
    simp only [decide_eq_false_iff_not, not_and]
    intro hk
    by_cases hke : k = e
    · subst hke
      omega
    · exact absurd hk (hother k hk0 (by simp only [MAX_FILES_ALLOWED]; push_cast at hk1; omega) hke)
  · obtain ⟨s1, c1, c2, c3, _⟩ := closeAll_spec e he0 he1 fds s hheads hfds hnd
    have hscan : scan (fun i => decide ((s1.DIR i).name = (s.DIR e).name ∧ (s1.DIR i).ref_cnt = 0))
        64 0 = some e := by
      apply scan_eq_some_of he0 (by simp only [MAX_FILES_ALLOWED] at he1; push_cast; omega)
      · rw [c2]
        simp only [decide_eq_true_eq, true_and]
        omega
      · intro k hk0 hk1
        simp only [decide_eq_false_iff_not, not_and]
        intro hk
        rw [c3 k (by omega)] at hk
        exact absurd hk (hother k hk0 (by omega) (by omega))
    have hh : inDisk (s1.DIR e).head := by
      rw [c2]
      exact hhead
    exact ⟨s1, _, c1, fs_delete_ok s1 _ e hlen hscan hh⟩

theorem lowest_free_block (s : State)
    (hblock : ∃ b, s.fs.data_idx ≤ b ∧ b < DISK_BLOCKS ∧ s.FAT b = FREE) :
    ∃ h, scan (fun b => decide (s.FAT b = FREE)) (DISK_BLOCKS - s.fs.data_idx).toNat
        s.fs.data_idx = some h := by
  apply scan_exists
  obtain ⟨b, h1, h2, h3⟩ := hblock
  refine ⟨b, h1, ?_, by simp [h3]⟩
  simp only [DISK_BLOCKS] at h2 ⊢
  omega

theorem lowest_unused_slot (s : State)
    (hslot : ∃ j, 0 ≤ j ∧ j < MAX_FILES_ALLOWED ∧ (s.DIR j).used = 0) :
    ∃ j, scan (fun i => decide ((s.DIR i).used = 0)) 64 0 = some j := by
  apply scan_exists
  obtain ⟨j, h1, h2, h3⟩ := hslot
  refine ⟨j, h1, ?_, by simp [h3]⟩
  simp only [MAX_FILES_ALLOWED] at h2
  push_cast
  omega

/-- C10: a name of more than 15 characters is rejected with -1 and the state is
unchanged; a name of exactly 15 characters that no used entry bears, on a volume with
fewer than 64 files, an unused slot and a FREE data block, is accepted with 0 and
stored unmodified in a slot that was unused. -/
theorem name_length_boundary (s : State) (long name : String)
    (hlong : long.length > MAX_F_NAME) (h15 : name.length = 15)
    (hcnt : s.file_counter < MAX_FILES_ALLOWED)
    (hdup : ∀ i, 0 ≤ i → i < 64 → (s.DIR i).used ≠ 0 → (s.DIR i).name ≠ name)
    (hd : 0 ≤ s.fs.data_idx)
    (hblock : ∃ b, s.fs.data_idx ≤ b ∧ b < DISK_BLOCKS ∧ s.FAT b = FREE)
    (hslot : ∃ j, 0 ≤ j ∧ j < MAX_FILES_ALLOWED ∧ (s.DIR j).used = 0) :
    fs_create s long = some (-1, s) ∧
    ∃ s1 j, fs_create s name = some (0, s1) ∧ 0 ≤ j ∧ j < MAX_FILES_ALLOWED ∧
      (s.DIR j).used = 0 ∧ (s1.DIR j).used = 1 ∧ (s1.DIR j).name = name := by
  refine ⟨fs_create_long s long hlong, ?_⟩
  obtain ⟨h, hh⟩ := lowest_free_block s hblock
  obtain ⟨j, hj⟩ := lowest_unused_slot s hslot
  obtain ⟨j0, j1, j2, _⟩ := scan_some hj
  refine ⟨_, j, fs_create_ok s name h j hcnt (by rw [h15]) hdup hd hh hj, j0, ?_, ?_, ?_, ?_⟩
  · simp only [MAX_FILES_ALLOWED]
    push_cast at j1
    omega
  · simpa using j2
  · show (upd s.DIR j _ j).used = 1
    rw [upd_same]
  · show (upd s.DIR j _ j).name = name
    rw [upd_same]

/-- C11 (as amended): `fs_create` does not ask for a non-empty name; the empty name,
when no used entry bears it, on a volume with fewer than 64 files, an unused slot and
a FREE data block, is accepted with 0 and becomes the name of a used entry. -/
theorem fs_create_accepts_empty_name (s : State)
    (hcnt : s.file_counter < MAX_FILES_ALLOWED)
    (hdup : ∀ i, 0 ≤ i → i < 64 → (s.DIR i).used ≠ 0 → (s.DIR i).name ≠ "")
    (hd : 0 ≤ s.fs.data_idx)
    (hblock : ∃ b, s.fs.data_idx ≤ b ∧ b < DISK_BLOCKS ∧ s.FAT b = FREE)
    (hslot : ∃ j, 0 ≤ j ∧ j < MAX_FILES_ALLOWED ∧ (s.DIR j).used = 0) :
    ∃ s1 j, fs_create s "" = some (0, s1) ∧ 0 ≤ j ∧ j < MAX_FILES_ALLOWED ∧
      (s1.DIR j).used = 1 ∧ (s1.DIR j).name = "" := by
  obtain ⟨h, hh⟩ := lowest_free_block s hblock
  obtain ⟨j, hj⟩ := lowest_unused_slot s hslot
  obtain ⟨j0, j1, _, _⟩ := scan_some hj
  refine ⟨_, j, fs_create_ok s "" h j hcnt (by decide) hdup hd hh hj, j0, ?_, ?_, ?_⟩
  · simp only [MAX_FILES_ALLOWED]
    push_cast at j1
    omega
  · show (upd s.DIR j _ j).used = 1
    rw [upd_same]
  · show (upd s.DIR j _ j).name = ""
    rw [upd_same]

/-- C13 (the code departs from the claim): on a volume whose data region has no FREE
entry, `fs_create` of a new valid name returns 0 and slot 2 becomes a used entry whose
head is 8192 = DISK_BLOCKS, the bound of the search. -/
theorem fs_create_on_full_volume :
    (∀ b, 6 ≤ b → b < DISK_BLOCKS → fullVolume.FAT b ≠ FREE) ∧
    (fs_create fullVolume "c").map (fun r => (r.1, (r.2.DIR 2).used, (r.2.DIR 2).head))
      = some (0, 1, 8192) := by
  have hfull : ∀ b, 6 ≤ b → b < DISK_BLOCKS → fullVolume.FAT b ≠ FREE := by
    intro b h1 h2
    show (if b = 4101 ∨ b = 8191 then END_MARKER else if 6 ≤ b ∧ b < 8192 then b + 1 else FREE)
      ≠ FREE
    simp only [DISK_BLOCKS] at h2
    split
    · decide
    · rw [if_pos ⟨h1, h2⟩]
      simp only [FREE]
      omega
  refine ⟨hfull, ?_⟩
  have hcreate := fs_create_no_space fullVolume "c" 2 (by decide) (by decide) (by decide) (by decide)
    hfull (by decide)
  rw [hcreate]
  decide

/-- C14: for a name of at most 15 characters that no used entry bears, on a volume
with fewer than 64 files, an unused slot, `data_idx = 6` and a FREE data block,
`fs_create` returns 0; the lowest FREE block `h ≥ 6` gets END_MARKER and becomes the
head, the lowest unused slot becomes `{used, name, size = 0, head = h, ref_cnt = 0}`,
and every other FAT entry and directory slot is unchanged. -/
theorem fs_create_post (s : State) (name : String)
    (hlen : name.length ≤ MAX_F_NAME)
    (hcnt : s.file_counter < MAX_FILES_ALLOWED)
    (hdup : ∀ i, 0 ≤ i → i < 64 → (s.DIR i).used ≠ 0 → (s.DIR i).name ≠ name)
    (hd : s.fs.data_idx = 6)
    (hblock : ∃ b, 6 ≤ b ∧ b < DISK_BLOCKS ∧ s.FAT b = FREE)
    (hslot : ∃ j, 0 ≤ j ∧ j < MAX_FILES_ALLOWED ∧ (s.DIR j).used = 0) :
    ∃ s1 h j, fs_create s name = some (0, s1) ∧
      (6 ≤ h ∧ h < DISK_BLOCKS ∧ s.FAT h = FREE ∧ ∀ b, 6 ≤ b → b < h → s.FAT b ≠ FREE) ∧
      (0 ≤ j ∧ j < MAX_FILES_ALLOWED ∧ (s.DIR j).used = 0 ∧
        ∀ i, 0 ≤ i → i < j → (s.DIR i).used ≠ 0) ∧
      s1.FAT h = END_MARKER ∧
      s1.DIR j = { used := 1, name := name, size := 0, head := h, ref_cnt := 0 } ∧
      (∀ b, b ≠ h → s1.FAT b = s.FAT b) ∧ (∀ i, i ≠ j → s1.DIR i = s.DIR i) := by
  obtain ⟨h, hh⟩ := lowest_free_block s (by rw [hd]; exact hblock)
  obtain ⟨j, hj⟩ := lowest_unused_slot s hslot
  obtain ⟨j0, j1, j2, j3⟩ := scan_some hj
  obtain ⟨h0, h1, h2, h3⟩ := scan_some hh
  rw [hd] at h0 h1 h3
  refine ⟨_, h, j, fs_create_ok s name h j hcnt hlen hdup (by rw [hd]; decide) hh hj,
    ⟨h0, ?_, by simpa using h2, ?_⟩, ⟨j0, ?_, by simpa using j2, ?_⟩, upd_same _ _ _,
    upd_same _ _ _, fun b hb => upd_other _ _ hb, fun i hi => upd_other _ _ hi⟩
  · simp only [DISK_BLOCKS] at h1 ⊢
    omega
  · intro b hb1 hb2
    simpa using h3 b hb1 hb2
  · simp only [MAX_FILES_ALLOWED]
    push_cast at j1
    omega
  · intro i hi1 hi2
    simpa using j3 i hi1 hi2

/-- Opening by a non-empty name: for the name of a used entry `e` (non-empty, the
directory keeping its names as the data model asks, the file counter not 0), `fs_open`
returns the lowest free
descriptor slot `j`, sets it to `{used, file = e.head, offset = 0}`, adds 1 to
`e.ref_cnt` and changes nothing else; when all 32 slots are used it returns -1 and
changes nothing. -/
theorem fs_open_post (s : State) (e : Int) (he0 : 0 ≤ e) (he1 : e < MAX_FILES_ALLOWED)
    (hused : (s.DIR e).used ≠ 0) (hname : (s.DIR e).name ≠ "") (hnames : DirNames s)
    (hcnt : s.file_counter ≠ 0) :
    (∀ j, 0 ≤ j → j < MAX_FILDES → (s.fildes_array j).used = 0 →
      (∀ k, 0 ≤ k → k < j → (s.fildes_array k).used ≠ 0) →
      fs_open s (s.DIR e).name
        = some (j, { s with
                     fildes_array :=
                       upd s.fildes_array j { used := 1, file := (s.DIR e).head, offset := 0 }
                     DIR := upd s.DIR e { s.DIR e with ref_cnt := (s.DIR e).ref_cnt + 1 } })) ∧
    ((∀ k, 0 ≤ k → k < MAX_FILDES → (s.fildes_array k).used ≠ 0) →
      fs_open s (s.DIR e).name = some (-1, s)) := by
  have hscan : scan (fun i => decide ((s.DIR i).name = (s.DIR e).name)) 64 0 = some e := by
    apply scan_eq_some_of he0 (by simp only [MAX_FILES_ALLOWED] at he1; push_cast; omega)
    · simp
    · intro k hk0 hk1
      simp only [decide_eq_false_iff_not]
      intro heq
      have hk2 : k < MAX_FILES_ALLOWED := by omega
      by_cases hu : (s.DIR k).used = 0
      · exact hname (heq ▸ hnames.unused_empty k hk0 hk2 hu)
      · have := hnames.unique k e hk0 hk2 he0 he1 hu hused heq
        omega
  constructor
  · intro j hj0 hj1 hj2 hj3
    apply fs_open_ok s _ e j hcnt hscan
    apply scan_eq_some_of hj0 (by simp only [MAX_FILDES] at hj1; push_cast; omega)
    · simp [hj2]
    · intro k hk0 hk1
      simpa using hj3 k hk0 hk1
  · intro hall
    apply fs_open_full
    apply scan_eq_none_of
    intro k hk0 hk1
    simpa using hall k hk0 (by simp only [MAX_FILDES]; push_cast at hk1; omega)

theorem fs_get_filesize_of (s : State) (fd e : Int) (h0 : 0 ≤ fd) (h1 : fd < MAX_FILDES)
    (hused : (s.fildes_array fd).used ≠ 0) (he0 : 0 ≤ e) (he1 : e < MAX_FILES_ALLOWED)
    (hhead : (s.DIR e).head = (s.fildes_array fd).file)
    (hfirst : ∀ j, 0 ≤ j → j < e → (s.DIR j).head ≠ (s.fildes_array fd).file) :
    fs_get_filesize s fd = (s.DIR e).size := by
  have hscan : scan (fun i => decide ((s.DIR i).head = (s.fildes_array fd).file)) 64 0 = some e := by
    apply scan_eq_some_of he0 (by simp only [MAX_FILES_ALLOWED] at he1; push_cast; omega)
    · simp [hhead]
    · intro k hk0 hk1
      simpa using hfirst k hk0 hk1
  unfold fs_get_filesize
  rw [if_neg (by omega)]
  simp only [hscan, if_neg hused]

theorem fs_get_filesize_invalid (s : State) (fd : Int)
    (h : fd < 0 ∨ MAX_FILDES ≤ fd ∨ (s.fildes_array fd).used = 0) :
    fs_get_filesize s fd = -1 := by
  unfold fs_get_filesize
  by_cases hr : fd ≥ MAX_FILDES ∨ fd < 0
  · rw [if_pos hr]
  · rw [if_neg hr]
    have hu : (s.fildes_array fd).used = 0 := by
      rcases h with h | h | h
      · exact absurd (Or.inr h) hr
      · exact absurd (Or.inl h) hr
      · exact h
    cases hs : scan (fun i => decide ((s.DIR i).head = (s.fildes_array fd).file)) 64 0 with
    | none => rfl
    | some i => simp only [if_pos hu]

/-- C17: for a descriptor in use on the file of slot `e`, `fs_lseek` returns 0 and sets
the descriptor's offset exactly when `0 ≤ offset ≤ size`, and returns -1 without
changing anything otherwise; for a descriptor outside `[0, 32)` or not in use it
returns -1 without changing anything, whatever the offset. -/
theorem fs_lseek_iff_in_range (s : State) (fd e : Int) (offset : Int)
    (h0 : 0 ≤ fd) (h1 : fd < MAX_FILDES)
    (hused : (s.fildes_array fd).used ≠ 0) (he0 : 0 ≤ e) (he1 : e < MAX_FILES_ALLOWED)
    (hhead : (s.DIR e).head = (s.fildes_array fd).file)
    (hfirst : ∀ j, 0 ≤ j → j < e → (s.DIR j).head ≠ (s.fildes_array fd).file) :
    (0 ≤ offset ∧ offset ≤ (s.DIR e).size →
      fs_lseek s fd offset
        = some (0, { s with
                     fildes_array :=
                       upd s.fildes_array fd { s.fildes_array fd with offset := offset } })) ∧
    (¬ (0 ≤ offset ∧ offset ≤ (s.DIR e).size) → fs_lseek s fd offset = some (-1, s)) ∧
    (∀ fd2 off2, fd2 < 0 ∨ MAX_FILDES ≤ fd2 ∨ (s.fildes_array fd2).used = 0 →
      fs_lseek s fd2 off2 = some (-1, s)) := by
  have hsize := fs_get_filesize_of s fd e h0 h1 hused he0 he1 hhead hfirst
  refine ⟨?_, ?_, ?_⟩
  · intro hin
    unfold fs_lseek
    simp only [hsize]
    rw [if_neg (by omega), if_neg (by omega), if_neg (by omega), if_neg hused]
  · intro hout
    unfold fs_lseek
    simp only [hsize]
    rw [if_pos (by omega)]
  · intro fd2 off2 hbad
    unfold fs_lseek
    simp only [fs_get_filesize_invalid s fd2 hbad]
    rw [if_pos (by omega)]

/-- C20 (the code departs from the claim): each FAT block that `umount_fs` writes
starts `i * BLOCK_SIZE` entries, not `i * 1024` entries, into the array. For the FAT of
a volume with one file of 1019 blocks, entry 1024 of the saved blocks holds `FAT[4096]`
= FREE while `FAT[1024]` = END_MARKER, and entry 2048 is read from outside the array;
only `FAT[0 .. 1023]` and `FAT[4096 .. 5119]` are persisted. -/
theorem umount_fat_misplaced :
    saved_fat_entry bigFileFAT 1024 = some FREE ∧ bigFileFAT 1024 = END_MARKER ∧
    saved_fat_entry bigFileFAT 1024 = some (bigFileFAT 4096) ∧
    saved_fat_entry bigFileFAT 1023 = some (bigFileFAT 1023) ∧
    saved_fat_entry bigFileFAT 2048 = none ∧
    saved_fat_entry (fresh (fun _ _ => 0)).FAT 2048 = none := by
  decide

/-! # The theorems at concrete volumes -/

theorem dirNames_oneOpenFile : DirNames oneOpenFile := by
  constructor
  · intro j _ _ hu
    by_cases hj : j = 0
    · subst hj
      exact absurd hu (by decide)
    · show (upd (fun _ => zero_entry) 0 _ j).name = ""
      rw [upd_other _ _ hj]
      rfl
  · intro i j _ _ _ _ hi hj _
    have hi0 : i = 0 := by
      by_contra hne
      apply hi
      show (upd (fun _ => zero_entry) 0 _ i).used = 0
      rw [upd_other _ _ hne]
      rfl
    have hj0 : j = 0 := by
      by_contra hne
      apply hj
      show (upd (fun _ => zero_entry) 0 _ j).used = 0
      rw [upd_other _ _ hne]
      rfl
    rw [hi0, hj0]

theorem open_file_cannot_be_deleted_witness :
    fs_delete oneOpenFile "x" = some (-1, oneOpenFile) ∧
    ∃ s1 s2, closeAll oneOpenFile [0] = some s1 ∧ fs_delete s1 "x" = some (0, s2) :=
  open_file_cannot_be_deleted oneOpenFile 0 [0] (by decide) (by decide) (by decide) (by decide)
    (by decide) dirNames_oneOpenFile (by decide) (fun j h1 h2 => by omega)
    (by
      intro fd hfd
      rw [List.mem_singleton] at hfd
      subst hfd
      decide)
    (by decide) (by decide) (by decide)

theorem name_length_boundary_witness :
    fs_create (fresh blank) "abcdefghijklmnop" = some (-1, fresh blank) ∧
    ∃ s1 j, fs_create (fresh blank) "abcdefghijklmno" = some (0, s1) ∧ 0 ≤ j ∧
      j < MAX_FILES_ALLOWED ∧ ((fresh blank).DIR j).used = 0 ∧ (s1.DIR j).used = 1 ∧
      (s1.DIR j).name = "abcdefghijklmno" :=
  name_length_boundary (fresh blank) "abcdefghijklmnop" "abcdefghijklmno" (by decide) (by decide)
    (by decide) (fun i _ _ hu => absurd (fresh_unused blank i) hu) (by decide)
    ⟨6, by decide, by decide, by decide⟩ ⟨0, by decide, by decide, by decide⟩

theorem fs_create_accepts_empty_name_witness :
    ∃ s1 j, fs_create (fresh blank) "" = some (0, s1) ∧ 0 ≤ j ∧ j < MAX_FILES_ALLOWED ∧
      (s1.DIR j).used = 1 ∧ (s1.DIR j).name = "" :=
  fs_create_accepts_empty_name (fresh blank) (by decide)
    (fun i _ _ hu => absurd (fresh_unused blank i) hu) (by decide)
    ⟨6, by decide, by decide, by decide⟩ ⟨0, by decide, by decide, by decide⟩

theorem fs_create_post_witness :
    ∃ s1 h j, fs_create (fresh blank) "myfile" = some (0, s1) ∧
      (6 ≤ h ∧ h < DISK_BLOCKS ∧ (fresh blank).FAT h = FREE ∧
        ∀ b, 6 ≤ b → b < h → (fresh blank).FAT b ≠ FREE) ∧
      (0 ≤ j ∧ j < MAX_FILES_ALLOWED ∧ ((fresh blank).DIR j).used = 0 ∧
        ∀ i, 0 ≤ i → i < j → ((fresh blank).DIR i).used ≠ 0) ∧
      s1.FAT h = END_MARKER ∧
      s1.DIR j = { used := 1, name := "myfile", size := 0, head := h, ref_cnt := 0 } ∧
      (∀ b, b ≠ h → s1.FAT b = (fresh blank).FAT b) ∧
      (∀ i, i ≠ j → s1.DIR i = (fresh blank).DIR i) :=
  fs_create_post (fresh blank) "myfile" (by decide) (by decide)
    (fun i _ _ hu => absurd (fresh_unused blank i) hu) (by decide)
    ⟨6, by decide, by decide, by decide⟩ ⟨0, by decide, by decide, by decide⟩

theorem fs_open_post_witness :
    fs_open oneOpenFile "x"
      = some (1, { oneOpenFile with
                   fildes_array :=
                     upd oneOpenFile.fildes_array 1 { used := 1, file := 6, offset := 0 }
                   DIR := upd oneOpenFile.DIR 0
                            { used := 1, name := "x", size := 0, head := 6, ref_cnt := 2 } }) :=
  (fs_open_post oneOpenFile 0 (by decide) (by decide) (by decide) (by decide)
    dirNames_oneOpenFile (by decide)).1 1 (by decide) (by decide) (by decide)
    (fun k h1 h2 => by
      have hk : k = 0 := by omega
      subst hk
      decide)

theorem fs_lseek_iff_in_range_witness :
    fs_lseek oneOpenFile 0 0
      = some (0, { oneOpenFile with
                   fildes_array :=
                     upd oneOpenFile.fildes_array 0 { used := 1, file := 6, offset := 0 } }) :=
  (fs_lseek_iff_in_range oneOpenFile 0 0 0 (by decide) (by decide) (by decide) (by decide)
    (by decide) (by decide) (fun j h1 h2 => by omega)).1 ⟨by decide, by decide⟩

theorem openOn_twoBlockOpen : OpenOn twoBlockOpen 0 0 2 :=
  { fd_lo := le_refl _
    fd_hi := by decide
    used := by decide
    e_lo := le_refl _
    e_hi := by decide
    head := by decide
    first := fun j h1 h2 => by omega
    chain := ⟨by decide, by decide, (by decide : twoBlockOpen.FAT (twoBlockOpen.FAT 6) = END_MARKER)⟩
    size_le := by decide
    size_int := by decide
    off_lo := by decide
    off_le := by decide }

theorem write_read_round_trip_witness :
    ∃ s1 s2 s3 s4 s5 out,
      fs_create (fresh blank) "f" = some (0, s1) ∧ fs_open s1 "f" = some (0, s2) ∧
      fs_write s2 0 (fun _ => 7) 8000 = some (8000, s3) ∧ fs_lseek s3 0 0 = some (0, s4) ∧
      fs_read s4 0 (fun _ => 0) 8000 = some (8000, out, s5) ∧
      ∀ i : Int, 0 ≤ i → i < 8000 → out i = 7 :=
  write_read_round_trip blank "f" (by decide) (fun _ => 7) (fun _ => 0) 8000 (by decide)
    (by decide)

theorem fs_write_post_witness :
    ∃ s1, fs_write twoBlockOpen 0 (fun _ => 7) 3000 = some (3000, s1) ∧
      (s1.fildes_array 0).offset = 8000 ∧ (s1.DIR 0).size = 8000 ∧
      (∀ i, i ≠ 0 → s1.DIR i = twoBlockOpen.DIR i) ∧
      (∀ j, j ≠ 0 → s1.fildes_array j = twoBlockOpen.fildes_array j) :=
  fs_write_post openOn_twoBlockOpen (by decide) (by decide) (fun _ => 7) 3000 (by decide)
    (by decide) (le_of_eq_of_le (by decide) (Nat.zero_le _))

theorem fs_write_preserves_witness :
    ∃ s1, fs_write twoBlockOpen 0 (fun _ => 7) 3000 = some (3000, s1) ∧
      (∀ p, 0 ≤ p → p < 5000 → ¬ (5000 ≤ p ∧ p < 5000 + 3000) →
        fileByte s1 6 p = fileByte twoBlockOpen 6 p) ∧
      (∀ b M, validChain twoBlockOpen.FAT b M →
        (∀ t u, t < M → u < 2 → nthBlock twoBlockOpen.FAT b t ≠ nthBlock twoBlockOpen.FAT 6 u) →
        validChain s1.FAT b M ∧
        ∀ t, t < M → nthBlock s1.FAT b t = nthBlock twoBlockOpen.FAT b t ∧
          s1.disk (nthBlock twoBlockOpen.FAT b t) = twoBlockOpen.disk (nthBlock twoBlockOpen.FAT b t)) := by
  obtain ⟨res, w1, w2, _, _⟩ := fs_write_spec STORAGE (by decide) (by decide) openOn_twoBlockOpen
    (by decide) (by decide) (fun _ => 7) 3000 (by decide) (by decide)
  have hr : res.1 = 3000 := w2 (le_of_eq_of_le (by decide) (Nat.zero_le _))
  obtain ⟨k, s1⟩ := res
  have hk : k = 3000 := hr
  subst hk
  exact ⟨s1, w1, fs_write_preserves openOn_twoBlockOpen (by decide) (by decide) (fun _ => 7) 3000
    (by decide) 3000 s1 (by decide) w1⟩

theorem fs_write_cap_witness :
    ∃ k s1, fs_write twoBlockOpen 0 (fun _ => 7) 16777216 = some (k, s1) ∧
      (blocksFor STORAGE - 2 ≤ freeData twoBlockOpen.FAT twoBlockOpen.fs.data_idx →
        k = STORAGE - (twoBlockOpen.fildes_array 0).offset) ∧
      (k = STORAGE - (twoBlockOpen.fildes_array 0).offset
        ∨ (k = -1 ∧ s1.DIR = twoBlockOpen.DIR)) ∧
      (k = STORAGE - (twoBlockOpen.fildes_array 0).offset →
        (s1.fildes_array 0).offset = STORAGE
          ∧ (s1.DIR 0).size = max (twoBlockOpen.DIR 0).size STORAGE) ∧
      ((twoBlockOpen.DIR 0).size ≤ STORAGE → (s1.DIR 0).size ≤ STORAGE) :=
  fs_write_cap openOn_twoBlockOpen (by decide) (by decide) (fun _ => 7) 16777216 (by decide)
    (by decide) (by decide)

/-! # Invariants that the code does not keep -/

/-- C28 (the code departs from the claim): on a fresh volume `fs_delete("")` returns 0
and the file counter becomes -1 with no used entry; after `fs_create("a")` the counter
is 0 with one used entry, and `fs_open("a")` returns -1 because of it. After
`fs_create("a")`, `umount_fs`, a second `make_fs` and `mount_fs`, all returning 0, the
directory is empty and the counter is still 1. -/
theorem file_counter_off :
    returns (fresh blank) [.fs_delete "", .fs_create "a", .fs_open "a"] = some [0, 0, -1]
    ∧ (run (fresh blank) [.fs_delete ""]).map (fun s => (s.file_counter, usedCount s))
      = some (-1, 0)
    ∧ (run (fresh blank) [.fs_delete "", .fs_create "a"]).map
        (fun s => (s.file_counter, usedCount s, (s.DIR 0).used, (s.DIR 0).name))
      = some (0, 1, 1, "a")
    ∧ returns (fresh blank) [.fs_create "a", .umount_fs blank, .make_fs blank, .mount_fs]
      = some [0, 0, 0, 0]
    ∧ (run (fresh blank) [.fs_create "a", .umount_fs blank, .make_fs blank, .mount_fs]).map
        (fun s => (s.file_counter, usedCount s, s.mounted))
      = some (1, 0, 1) := by
  decide

/-- C27 (the code departs from the claim): after `fs_create("a")` on a fresh volume,
`fs_open("")` returns descriptor 0 on the unused slot 1, whose head is block 0, below
`data_idx = 6`; `fs_write` of 5 bytes through it returns 5 and stores them in block 0,
the superblock, and `fs_read` of 5 bytes after `fs_lseek` to 0 returns them from there. -/
theorem metadata_block_written :
    returns (fresh blank) [.fs_create "a", .fs_open "", .fs_write 0 (fun _ => 97) 5,
        .fs_lseek 0 0, .fs_read 0 (fun _ => 0) 5] = some [0, 0, 5, 0, 5]
    ∧ (run (fresh blank) [.fs_create "a", .fs_open ""]).map
        (fun s => ((s.fildes_array 0).used, (s.fildes_array 0).file, (s.DIR 1).used,
          (s.DIR 1).head, s.fs.data_idx))
      = some (1, 0, 0, 0, 6)
    ∧ (run (fresh blank) [.fs_create "a", .fs_open ""]).map (fun s => (s.disk 0 0, s.disk 0 4))
      = some (0, 0)
    ∧ (run (fresh blank) [.fs_create "a", .fs_open "", .fs_write 0 (fun _ => 97) 5]).map
        (fun s => (s.disk 0 0, s.disk 0 4))
      = some (97, 97)
    ∧ ((run (fresh blank) [.fs_create "a", .fs_open "", .fs_write 0 (fun _ => 97) 5,
          .fs_lseek 0 0]).bind fun s =>
        (fs_read s 0 (fun _ => 0) 5).map fun r => (r.1, r.2.1 0, r.2.1 4))
      = some (5, 97, 97) := by
  decide

/-- C23 (the claim fails): two descriptors on a file of 20 bytes, the second at offset
12; `fs_truncate` to 5 bytes through the first returns 0, sets the size to 5 and leaves
the second descriptor, still in use on the file, at offset 12. -/
theorem stale_offset_after_truncate :
    returns (fresh blank) [.fs_create "f", .fs_open "f", .fs_open "f",
        .fs_write 0 (fun _ => 97) 20, .fs_lseek 1 12, .fs_truncate 0 5]
      = some [0, 0, 1, 20, 0, 0]
    ∧ (run (fresh blank) [.fs_create "f", .fs_open "f", .fs_open "f",
        .fs_write 0 (fun _ => 97) 20, .fs_lseek 1 12, .fs_truncate 0 5]).map
        (fun s => ((s.fildes_array 1).used, (s.fildes_array 1).file, (s.DIR 0).used,
          (s.DIR 0).head, (s.fildes_array 1).offset, (s.DIR 0).size))
      = some (1, 6, 1, 6, 12, 5) := by
  decide

/-! ## The FAT after the block loop of `fs_write` -/

theorem writeLoop_fat_step (storage data_idx : Int) (buf : Int → UInt8)
    (hst : 2 * BLOCK_SIZE ≤ storage) (n : Nat)
    (ih : ∀ (w : WLoop) (L : Nat), 0 ≤ w.offset → w.offset < BLOCK_SIZE → 0 < w.remaining →
      validChain w.FAT w.block L →
      (L = 0 → inDisk w.prev ∧ w.FAT w.prev = END_MARKER) →
      ∀ w1, writeLoop storage data_idx buf n w = some (none, w1) →
        spec_extend_chain data_idx (touched w.offset w.remaining - L) w.FAT
          (if L = 0 then w.prev else nthBlock w.FAT w.block (L - 1)) = some w1.FAT)
    (w : WLoop) (L : Nat) (ho0 : 0 ≤ w.offset) (ho1 : w.offset < BLOCK_SIZE)
    (hr0 : 0 < w.remaining) (hch : validChain w.FAT w.block (L + 1))
    (w1 : WLoop) (hw : writeLoop storage data_idx buf (n + 1) w = some (none, w1)) :
    spec_extend_chain data_idx (touched w.offset w.remaining - (L + 1)) w.FAT
      (nthBlock w.FAT w.block L) = some w1.FAT := by
  have ⟨hb, hch2⟩ : inDisk w.block ∧ validChain w.FAT (w.FAT w.block) L := hch
  rw [writeLoop_pass storage data_idx buf hst n w hb ho0 ho1 hr0] at hw
  by_cases hle : w.remaining ≤ BLOCK_SIZE - w.offset
  · rw [if_pos hle] at hw
    have hT : touched w.offset w.remaining = 1 := touched_one ho0 hr0 (by omega)
    have hw1 := congrArg (fun r => r.2.FAT) (Option.some.inj hw)
    simp only at hw1
    rw [hT, show 1 - (L + 1) = 0 by omega, ← hw1]
    rfl
  · rw [if_neg hle] at hw
    have hT : touched w.offset w.remaining
        = touched 0 (w.remaining - (BLOCK_SIZE - w.offset)) + 1 := touched_succ (by omega)
    have hprev : L = 0 → inDisk w.block ∧ w.FAT w.block = END_MARKER := by
      intro h0
      subst h0
      exact ⟨hb, hch2⟩
    have := ih _ L (le_refl (0 : Int)) (show (0 : Int) < BLOCK_SIZE by decide) (by show 0 < w.remaining - (BLOCK_SIZE - w.offset); omega)
      hch2 hprev w1 hw
    simp only at this
    rw [hT, show touched 0 (w.remaining - (BLOCK_SIZE - w.offset)) + 1 - (L + 1)
      = touched 0 (w.remaining - (BLOCK_SIZE - w.offset)) - L by omega]
    rw [← this]
    congr 1
    cases L with
    | zero => rfl
    | succ L1 => rfl

theorem writeLoop_fat (storage data_idx : Int) (buf : Int → UInt8) (hd : 0 ≤ data_idx)
    (hst : 2 * BLOCK_SIZE ≤ storage) :
    ∀ (fuel : Nat) (w : WLoop) (L : Nat), 0 ≤ w.offset → w.offset < BLOCK_SIZE →
      0 < w.remaining → validChain w.FAT w.block L →
      (L = 0 → inDisk w.prev ∧ w.FAT w.prev = END_MARKER) →
      ∀ w1, writeLoop storage data_idx buf fuel w = some (none, w1) →
        spec_extend_chain data_idx (touched w.offset w.remaining - L) w.FAT
          (if L = 0 then w.prev else nthBlock w.FAT w.block (L - 1)) = some w1.FAT := by
  intro fuel
  induction fuel with
  | zero =>
    intro w L _ _ hr0 _ _ w1 hw
    rw [writeLoop, if_pos hr0] at hw
    cases hw
  | succ n ih =>
    intro w L ho0 ho1 hr0 hch hprev w1 hw
    cases L with
    | succ L => exact writeLoop_fat_step storage data_idx buf hst n ih w L ho0 ho1 hr0 hch w1 hw
    | zero =>
      have hblock : w.block = END_MARKER := hch
      obtain ⟨hp1, hp2⟩ := hprev rfl
      have hT := touched_pos ho0 hr0
      cases hs : scan (fun j => decide (w.FAT j = FREE)) (DISK_BLOCKS - data_idx).toNat data_idx with
      | none =>
        rw [writeLoop_no_space storage data_idx buf n w hd hblock hr0 hs] at hw
        cases hw
      | some j =>
        obtain ⟨j0, j1, j2, _⟩ := scan_some hs
        have hj : w.FAT j = FREE := by simpa using j2
        have hjd : j < DISK_BLOCKS := by simp only [DISK_BLOCKS] at j1 ⊢; omega
        have hjin : inDisk j := ⟨by omega, hjd⟩
        have hpj : w.prev ≠ j := by
          intro h
          rw [h, hj] at hp2
          exact absurd hp2 (by decide)
        have hjE : j ≠ END_MARKER := fun h => not_inDisk_END (h ▸ hjin)
        have hext : extend data_idx w
            = some { w with FAT := upd (upd w.FAT j END_MARKER) w.prev j, block := j } := by
          unfold extend
          rw [if_pos hblock, if_neg (not_lt.mpr hd)]
          simp only [hs, if_pos hp1, upd_same]
        rw [writeLoop_extend storage data_idx buf n hext hjE rfl hr0] at hw
        have hch1 : validChain (upd (upd w.FAT j END_MARKER) w.prev j) j 1 := by
          refine ⟨hjin, ?_⟩
          show upd (upd w.FAT j END_MARKER) w.prev j j = END_MARKER
          rw [upd_other _ _ (Ne.symm hpj), upd_same]
        have := writeLoop_fat_step storage data_idx buf hst n ih
          { w with FAT := upd (upd w.FAT j END_MARKER) w.prev j, block := j } 0 ho0 ho1 hr0 hch1 w1 hw
        simp only at this
        obtain ⟨T1, hT1⟩ : ∃ T1, touched w.offset w.remaining = T1 + 1 :=
          ⟨touched w.offset w.remaining - 1, by omega⟩
        rw [hT1] at this ⊢
        rw [if_pos rfl]
        show spec_extend_chain data_idx (T1 + 1) w.FAT w.prev = some w1.FAT
        rw [spec_extend_chain]
        simp only [spec_extend, hs]
        exact this

/-- The FAT after an `fs_write` that did not return -1: the chain of the file is
extended, behind its last block, by as many extensions as the new end needs. -/
theorem fs_write_fat (storage : Int) (hst : 2 * BLOCK_SIZE ≤ storage) (hst2 : storage < 2 ^ 31)
    {s : State} {fd e : Int} {L : Nat} (h : OpenOn s fd e L) (hL : 0 < L)
    (hd : 0 ≤ s.fs.data_idx) (buf : Int → UInt8) (n : Nat)
    (hn : (n : Int) + (s.fildes_array fd).offset < 2 ^ 64)
    (hpos : 0 < min (n : Int) (storage - (s.fildes_array fd).offset))
    (r : Int) (s1 : State) (hw : fs_write_with storage s fd buf n = some (r, s1))
    (hr : r ≠ -1) :
    spec_extend_chain s.fs.data_idx
      (blocksFor ((s.fildes_array fd).offset + min (n : Int) (storage - (s.fildes_array fd).offset))
        - L) s.FAT (nthBlock s.FAT (s.fildes_array fd).file (L - 1)) = some s1.FAT := by
  have hscan := h.scan_entry
  obtain ⟨hf0, hf1, hused, he0, he1, hhead, hfirst, hchain, hsz, hszi, ho0, ho1⟩ := h
  simp only [MAX_FILDES, BLOCK_SIZE] at hf1 hsz
  have hn0 : n ≠ 0 := by
    intro h0
    subst h0
    have := min_le_left ((0 : Nat) : Int) (storage - (s.fildes_array fd).offset)
    simp at this
    omega
  have hos : (s.fildes_array fd).offset ≤ storage := by
    have := min_le_right (n : Int) (storage - (s.fildes_array fd).offset)
    omega
  have hnb := write_clamp storage n _ ho0 hos hst2 hn
  have hr1 := min_le_right (n : Int) (storage - (s.fildes_array fd).offset)
  have hk1 : (((s.fildes_array fd).offset / BLOCK_SIZE).toNat : Int) * BLOCK_SIZE
      ≤ (s.fildes_array fd).offset := by
    simp only [BLOCK_SIZE]; omega
  rw [fs_write_with_eq storage s fd buf n e _ _ _ (by simp only [MAX_FILDES]; omega)
    (by simp only [MAX_FILDES]; omega) hused hn0 hscan
    (walk_spec s.FAT _ _ 0 _ hk1 (fun t ht => validChain_inDisk hchain t (by
      simp only [BLOCK_SIZE] at ht hk1; omega)))] at hw
  generalize (if (n + toSizeT (s.fildes_array fd).offset) % 2 ^ 64 > toSizeT storage then
    toSizeT (storage - (s.fildes_array fd).offset) else n) = nb at *
  clear hn hn0
  generalize min (n : Int) (storage - (s.fildes_array fd).offset) = m at *
  have hti : toInt32 nb = m := by
    rw [← hnb]; exact toInt32_of_lt (by omega)
  rw [hti] at hw
  clear hti hnb nb
  generalize hoff : (s.fildes_array fd).offset = o at *
  generalize hfile : (s.fildes_array fd).file = file at *
  generalize hk : (o / BLOCK_SIZE).toNat = k at *
  have hk2 : o - (k : Int) * BLOCK_SIZE < BLOCK_SIZE := by
    rw [← hk]; simp only [BLOCK_SIZE]; omega
  have hkL : k ≤ L := by
    simp only [BLOCK_SIZE] at hk1; omega
  have hsplit : blocksFor (o + m) = k + touched (o - (k : Int) * BLOCK_SIZE) m := by
    rw [← hk]; exact blocksFor_split ho0 hpos
  have hprev : L - k = 0 →
      inDisk (if k = 0 then 0 else nthBlock s.FAT file (k - 1)) ∧
      s.FAT (if k = 0 then 0 else nthBlock s.FAT file (k - 1)) = END_MARKER := by
    intro h0
    have hkk : k = L := by omega
    rw [if_neg (by omega)]
    refine ⟨validChain_inDisk hchain _ (by omega), ?_⟩
    rw [← nthBlock_succ s.FAT file (k - 1), show k - 1 + 1 = L by omega]
    exact validChain_end hchain
  obtain ⟨res, l1, _, l3, _⟩ := writeLoop_spec storage s.fs.data_idx buf hd hst m.toNat
    ⟨s.FAT, s.disk, fun _ => 255, nthBlock s.FAT file k,
      (if k = 0 then 0 else nthBlock s.FAT file (k - 1)), o - (k : Int) * BLOCK_SIZE, m, 0, o⟩
    (L - k) (by show 0 ≤ o - (k : Int) * BLOCK_SIZE; omega) hk2 hpos
    (by show m ≤ ((m.toNat : Nat) : Int); omega) (validChain_drop hchain k hkL) hprev
  obtain ⟨ret, w1⟩ := res
  simp only at l1 l3
  have hfat := writeLoop_fat storage s.fs.data_idx buf hd hst m.toNat
    ⟨s.FAT, s.disk, fun _ => 255, nthBlock s.FAT file k,
      (if k = 0 then 0 else nthBlock s.FAT file (k - 1)), o - (k : Int) * BLOCK_SIZE, m, 0, o⟩
    (L - k) (by show 0 ≤ o - (k : Int) * BLOCK_SIZE; omega) hk2 hpos
    (validChain_drop hchain k hkL) hprev
  rw [l1] at hw
  rcases l3 with hnone | hfail
  · subst hnone
    have hfat1 := hfat w1 l1
    simp only at hfat1
    have hs1 : s1.FAT = w1.FAT := by
      cases hbw : block_write w1.disk w1.block w1.blocks with
      | none =>
        simp only [write_finish, hbw] at hw
        exact (congrArg (fun p => p.2.FAT) (Option.some.inj hw)).symm
      | some d1 =>
        simp only [write_finish, hbw] at hw
        exact (congrArg (fun p => p.2.FAT) (Option.some.inj hw)).symm
    rw [hs1, ← hfat1, hsplit, show k + touched (o - (k : Int) * BLOCK_SIZE) m - L
      = touched (o - (k : Int) * BLOCK_SIZE) m - (L - k) by omega]
    congr 1
    by_cases h0 : L - k = 0
    · rw [if_pos h0]
      show nthBlock s.FAT file (L - 1) = if k = 0 then 0 else nthBlock s.FAT file (k - 1)
      rw [if_neg (by omega), show k = L by omega]
    · rw [if_neg h0]
      show nthBlock s.FAT file (L - 1) = nthBlock s.FAT (nthBlock s.FAT file k) (L - k - 1)
      rw [nthBlock_add, show k + (L - k - 1) = L - 1 by omega]
  · subst hfail
    simp only [write_finish] at hw
    exact absurd (congrArg Prod.fst (Option.some.inj hw)).symm hr

/-- C25: a descriptor `fd` open at offset 0 on a freshly created file (slot `e`, size 0,
chain of one block) and `0 < n < 2^64`. When `n ≤ STORAGE` and the data region has
`ceil(n / 4096) - 1` FREE blocks, `fs_write` of `n` bytes returns `n`. Whenever it
returns `n`, the chain from the file's head has exactly `ceil(n / 4096)` blocks, the
new FAT is the old one after `ceil(n / 4096) - 1` extensions in a row behind the head,
each taking the first FREE entry from `data_idx` at that time, the last block holds END,
and `fs_get_filesize` returns `n`. For `n = 5000` the count is 2, for `n = 4096` it
is 1. -/
theorem fs_write_extends_chain {s : State} {fd e : Int} (h : OpenOn s fd e 1)
    (hd : 0 ≤ s.fs.data_idx) (hoff : (s.fildes_array fd).offset = 0)
    (hsize : (s.DIR e).size = 0) (buf : Int → UInt8) (n : Nat) (hn : 0 < n)
    (hn2 : n < 2 ^ 64) :
    ((n : Int) ≤ STORAGE → blocksFor n - 1 ≤ freeData s.FAT s.fs.data_idx →
      ∃ s1, fs_write s fd buf n = some ((n : Int), s1)) ∧
    (∀ s1, fs_write s fd buf n = some ((n : Int), s1) →
      validChain s1.FAT (s.fildes_array fd).file (blocksFor n) ∧
      spec_extend_chain s.fs.data_idx (blocksFor n - 1) s.FAT (s.fildes_array fd).file
        = some s1.FAT ∧
      s1.FAT (nthBlock s1.FAT (s.fildes_array fd).file (blocksFor n - 1)) = END_MARKER ∧
      fs_get_filesize s1 fd = n) ∧
    blocksFor 5000 = 2 ∧ blocksFor 4096 = 1 := by
  have hn64 : (n : Int) + (s.fildes_array fd).offset < 2 ^ 64 := by
    rw [hoff]
    have : (n : Int) < 2 ^ 64 := by exact_mod_cast hn2
    omega
  have hpos : 0 < min (n : Int) (STORAGE - (s.fildes_array fd).offset) := by
    rw [hoff]
    apply lt_min
    · exact_mod_cast hn
    · decide
  have hB : 0 < blocksFor n := by
    unfold blocksFor
    simp only [BLOCK_SIZE]
    omega
  refine ⟨?_, ?_, by decide, by decide⟩
  · intro hmax hfree
    have hmin : min (n : Int) (STORAGE - (s.fildes_array fd).offset) = n := by
      rw [hoff]
      exact min_eq_left (by omega)
    obtain ⟨res, w1, w2, _⟩ := fs_write_spec STORAGE (by decide) (by decide) h (by decide)
      hd buf n hn64 hpos
    rw [hmin, hoff, zero_add] at w2
    obtain ⟨r, s1⟩ := res
    have hr : r = n := w2 hfree
    subst hr
    exact ⟨s1, w1⟩
  · intro s1 hw
    obtain ⟨res, w1, _, w3, w4⟩ := fs_write_spec STORAGE (by decide) (by decide) h (by decide)
      hd buf n hn64 hpos
    have hres : res = ((n : Int), s1) := Option.some.inj (w1.symm.trans hw)
    subst hres
    have hmin : ((n : Int)) = min (n : Int) (STORAGE - (s.fildes_array fd).offset) := by
      rcases w3 with h3 | ⟨h3, _⟩
      · exact h3
      · simp only at h3
        omega
    have hfat := fs_write_fat STORAGE (by decide) (by decide) h (by decide) hd buf n hn64 hpos
      (n : Int) s1 hw (by omega)
    obtain ⟨p_fds, p_dir, _, p_chain, _⟩ := w4 hmin
    rw [← hmin, hoff, zero_add] at p_chain p_fds p_dir hfat
    rw [max_eq_right hB] at p_chain
    have hlast : s1.FAT (nthBlock s1.FAT (s.fildes_array fd).file (blocksFor n - 1))
        = END_MARKER := by
      have hend := validChain_end p_chain
      rw [show blocksFor (n : Int) = blocksFor n - 1 + 1 by omega, nthBlock_succ] at hend
      exact hend
    refine ⟨p_chain, hfat, hlast, ?_⟩
    rw [hsize, if_pos (by exact_mod_cast hn)] at p_dir
    have hfile1 : (s1.fildes_array fd).file = (s.fildes_array fd).file := by
      rw [p_fds, upd_same]
    have hhead1 : ∀ j, (s1.DIR j).head = (s.DIR j).head := by
      intro j
      rw [p_dir]
      by_cases hj : j = e
      · rw [hj, upd_same]
      · rw [upd_other _ _ hj]
    rw [fs_get_filesize_of s1 fd e h.fd_lo h.fd_hi (by rw [p_fds, upd_same]; exact h.used)
      h.e_lo h.e_hi (by rw [hhead1, hfile1]; exact h.head)
      (fun j j0 j1 => by rw [hhead1, hfile1]; exact h.first j j0 j1)]
    rw [p_dir, upd_same]

theorem fs_write_extends_chain_witness :
    ∃ s1, fs_write (opened blank "f") 0 (fun _ => 205) 5000 = some (5000, s1) ∧
      validChain s1.FAT 6 2 ∧
      spec_extend_chain 6 1 (opened blank "f").FAT 6 = some s1.FAT ∧
      s1.FAT (nthBlock s1.FAT 6 1) = END_MARKER ∧
      fs_get_filesize s1 0 = 5000 := by
  have h := @fs_write_extends_chain (opened blank "f") 0 0 (openOn_opened blank "f")
    (by decide) rfl rfl (fun _ => 205) 5000 (by decide) (by decide)
  obtain ⟨s1, h1⟩ := h.1 (by decide)
    (le_of_le_of_eq (by decide : blocksFor 5000 - 1 ≤ 8185) freeData_one_block.symm)
  exact ⟨s1, h1, h.2.1 s1 h1⟩

/-- One extension as the specification words it takes the lowest-indexed FREE entry of
the data region: the entries below it, from `data_idx`, are not FREE. -/
theorem spec_extend_lowest (data_idx : Int) (FAT : Int → Int) (last : Int)
    (r : (Int → Int) × Int) (h : spec_extend data_idx FAT last = some r) :
    data_idx ≤ r.2 ∧ r.2 < data_idx + ((DISK_BLOCKS - data_idx).toNat : Int) ∧ FAT r.2 = FREE ∧
    (∀ j, data_idx ≤ j → j < r.2 → FAT j ≠ FREE) ∧
    r.1 = upd (upd FAT r.2 END_MARKER) last r.2 := by
  unfold spec_extend at h
  cases hs : scan (fun j => decide (FAT j = FREE)) (DISK_BLOCKS - data_idx).toNat data_idx with
  | none =>
    rw [hs] at h
    cases h
  | some n =>
    rw [hs] at h
    have hr : (upd (upd FAT n END_MARKER) last n, n) = r := Option.some.inj h
    subst hr
    obtain ⟨j0, j1, j2, j3⟩ := scan_some hs
    refine ⟨j0, j1, by simpa using j2, ?_, rfl⟩
    intro j h0 h1
    simpa using j3 j h0 h1

/-! ## The offset of the calling descriptor -/

theorem OpenOn.scan_head {s : State} {fd e : Int} {L : Nat} (h : OpenOn s fd e L) :
    scan (fun i => decide ((s.DIR i).head = (s.fildes_array fd).file)) 64 0 = some e := by
  have h2 := h.e_hi
  simp only [MAX_FILES_ALLOWED] at h2
  apply scan_eq_some_of h.e_lo (by push_cast; omega)
  · simp [h.head]
  · intro k hk0 hk1
    simpa using h.first k hk0 hk1

theorem fs_write_nonpos_keeps (storage : Int) {s : State} {fd e : Int} {L : Nat}
    (h : OpenOn s fd e L) (buf : Int → UInt8) (n : Nat)
    (hrem : toInt32 (if (n + toSizeT (s.fildes_array fd).offset) % 2 ^ 64 > toSizeT storage then
      toSizeT (storage - (s.fildes_array fd).offset) else n) ≤ 0)
    (r : Int) (s1 : State) (hw : fs_write_with storage s fd buf n = some (r, s1)) :
    (s1.fildes_array fd).offset = (s.fildes_array fd).offset ∧ s1.DIR = s.DIR := by
  have hscan := h.scan_entry
  obtain ⟨hf0, hf1, hused, he0, he1, hhead, hfirst, hchain, hsz, hszi, ho0, ho1⟩ := h
  simp only [MAX_FILDES, BLOCK_SIZE] at hf1 hsz
  by_cases hn0 : n = 0
  · unfold fs_write_with at hw
    rw [if_neg (by simp only [MAX_FILDES]; omega), if_neg (by simp only [MAX_FILDES]; omega),
      if_neg hused, if_pos hn0] at hw
    have hs : s = s1 := congrArg Prod.snd (Option.some.inj hw)
    subst hs
    exact ⟨rfl, rfl⟩
  · have hk1 : (((s.fildes_array fd).offset / BLOCK_SIZE).toNat : Int) * BLOCK_SIZE
        ≤ (s.fildes_array fd).offset := by
      simp only [BLOCK_SIZE]; omega
    rw [fs_write_with_eq storage s fd buf n e _ _ _ (by simp only [MAX_FILDES]; omega)
      (by simp only [MAX_FILDES]; omega) hused hn0 hscan
      (walk_spec s.FAT _ _ 0 _ hk1 (fun t ht => validChain_inDisk hchain t (by
        simp only [BLOCK_SIZE] at ht hk1; omega)))] at hw
    generalize toInt32 (if (n + toSizeT (s.fildes_array fd).offset) % 2 ^ 64 > toSizeT storage then
      toSizeT (storage - (s.fildes_array fd).offset) else n) = m at hrem hw
    rw [writeLoop_nonpos storage s.fs.data_idx buf m.toNat _ _ _ _ _ _ m _ _ hrem] at hw
    simp only [write_finish] at hw
    cases hb : block_write s.disk
        (nthBlock s.FAT (s.fildes_array fd).file ((s.fildes_array fd).offset / BLOCK_SIZE).toNat)
        (fun _ => 255) with
    | none =>
      rw [hb] at hw
      have hs := congrArg Prod.snd (Option.some.inj hw)
      simp only at hs
      subst hs
      exact ⟨by show (upd s.fildes_array fd _ fd).offset = _; rw [upd_same], rfl⟩
    | some d1 =>
      rw [hb] at hw
      have hs := congrArg Prod.snd (Option.some.inj hw)
      simp only at hs
      subst hs
      refine ⟨by show (upd s.fildes_array fd _ fd).offset = _; rw [upd_same], ?_⟩
      show (if (s.DIR e).size < (s.fildes_array fd).offset then _ else s.DIR) = s.DIR
      rw [if_neg (not_lt.mpr ho1)]

theorem read_tail_cases (s : State) (buf : Int → UInt8) (nb : Nat) (m offset prev block : Int)
    (rl : ℤ → ℤ → Block → (ℤ → UInt8) → ℤ → ℤ → Option (ℤ → UInt8)) :
    (fs_read.match_2 (fun _ => Option (ℤ × (ℤ → UInt8) × State)) (some (offset, prev, block)) (fun _ => none)
      fun offset _ block =>
      fs_read.match_1 (fun _ => Option (ℤ × (ℤ → UInt8) × State))
        (rl block offset (fun _ => 255) (fun _ => 0) 0 m) (fun _ => none) fun buffer =>
        some (m, fun i => if 0 ≤ i ∧ i < ↑nb then buffer i else buf i, s)) =
    none ∨ ∃ r out, (fs_read.match_2 (fun _ => Option (ℤ × (ℤ → UInt8) × State)) (some (offset, prev, block)) (fun _ => none)
      fun offset _ block =>
      fs_read.match_1 (fun _ => Option (ℤ × (ℤ → UInt8) × State))
        (rl block offset (fun _ => 255) (fun _ => 0) 0 m) (fun _ => none) fun buffer =>
        some (m, fun i => if 0 ≤ i ∧ i < ↑nb then buffer i else buf i, s)) = some (r, out, s) := by
  simp only []
  cases hrl : rl block offset (fun _ => 255) (fun _ => 0) 0 m with
  | none => exact Or.inl rfl
  | some buffer => exact Or.inr ⟨_, _, rfl⟩

theorem fs_read_cases (s : State) (fd : Int) (buf : Int → UInt8) (n : Nat) :
    fs_read s fd buf n = none ∨ ∃ r out, fs_read s fd buf n = some (r, out, s) := by
  unfold fs_read
  by_cases h1 : fd > MAX_FILDES ∨ fd < 0
  · rw [if_pos h1]
    exact Or.inr ⟨_, _, rfl⟩
  rw [if_neg h1]
  by_cases h2 : ¬ fd < MAX_FILDES
  · rw [if_pos h2]
    exact Or.inl rfl
  rw [if_neg h2]
  by_cases h3 : (s.fildes_array fd).used = 0
  · rw [if_pos h3]
    exact Or.inr ⟨_, _, rfl⟩
  rw [if_neg h3]
  by_cases h4 : n = 0
  · rw [if_pos h4]
    exact Or.inr ⟨_, _, rfl⟩
  rw [if_neg h4]
  cases hscan : scan (fun e => decide ((s.fildes_array fd).file = (s.DIR e).head)) 64 0 with
  | none => exact Or.inr ⟨_, _, rfl⟩
  | some entry =>
    simp only []
    generalize (if (n + toSizeT (s.fildes_array fd).offset) % 2 ^ 64 > toSizeT (s.DIR entry).size
      then toSizeT ((s.DIR entry).size - (s.fildes_array fd).offset) else n) = nb
    generalize readLoop s.FAT s.disk (toInt32 nb).toNat = rl
    generalize toInt32 nb = m
    by_cases h5 : nb ≥ 2 ^ 63
    · rw [if_pos h5]
      exact Or.inl rfl
    rw [if_neg h5]
    cases hwalk : walk s.FAT ((s.fildes_array fd).offset / BLOCK_SIZE).toNat
        (s.fildes_array fd).offset 0 (s.fildes_array fd).file with
    | none => exact Or.inl rfl
    | some t =>
      obtain ⟨offset, prev, block⟩ := t
      exact read_tail_cases s buf nb m offset prev block rl

theorem fs_read_state (s : State) (fd : Int) (buf : Int → UInt8) (n : Nat) (r : Int)
    (out : Int → UInt8) (s1 : State) (hr : fs_read s fd buf n = some (r, out, s1)) : s1 = s := by
  rcases fs_read_cases s fd buf n with h | ⟨r2, out2, h⟩
  · rw [h] at hr
    cases hr
  · rw [h] at hr
    exact (congrArg (fun p => p.2.2) (Option.some.inj hr)).symm

theorem fs_truncate_cases (s : State) (fd : Int) (len : Int) :
    fs_truncate s fd len = none ∨ (∃ r, fs_truncate s fd len = some (r, s)) ∨
    ∃ i FAT1, scan (fun i => decide ((s.DIR i).head = (s.fildes_array fd).file)) 64 0 = some i ∧
      0 ≤ len ∧ len < (s.DIR i).size ∧
      fs_truncate s fd len
        = some (0, { s with
                     fildes_array :=
                       if (s.fildes_array fd).offset > len then
                         upd s.fildes_array fd { s.fildes_array fd with offset := len }
                       else s.fildes_array
                     FAT := FAT1
                     DIR := upd s.DIR i { s.DIR i with size := len } }) := by
  unfold fs_truncate
  by_cases h1 : fd ≥ MAX_FILDES ∨ fd < 0 ∨ len > STORAGE ∨ len < 0
  · rw [if_pos h1]
    exact Or.inr (Or.inl ⟨_, rfl⟩)
  rw [if_neg h1]
  by_cases h2 : (s.fildes_array fd).used = 0
  · rw [if_pos h2]
    exact Or.inr (Or.inl ⟨_, rfl⟩)
  rw [if_neg h2]
  cases hscan : scan (fun i => decide ((s.DIR i).head = (s.fildes_array fd).file)) 64 0 with
  | none => exact Or.inr (Or.inl ⟨_, rfl⟩)
  | some i =>
    simp only []
    by_cases h3 : (s.DIR i).size < len
    · rw [if_pos h3]
      exact Or.inr (Or.inl ⟨_, rfl⟩)
    rw [if_neg h3]
    by_cases h4 : (s.DIR i).size = len
    · rw [if_pos h4]
      exact Or.inr (Or.inl ⟨_, rfl⟩)
    rw [if_neg h4]
    generalize freeTail 8192 s.FAT = ft
    cases hb : boundary s.FAT (len / BLOCK_SIZE).toNat (s.DIR i).head with
    | none => exact Or.inl rfl
    | some last =>
      simp only []
      by_cases h5 : inDisk last
      · rw [if_pos h5]
        cases hf : ft (s.FAT last) with
        | none => exact Or.inl rfl
        | some FAT1 =>
          refine Or.inr (Or.inr ⟨i, upd FAT1 last END_MARKER, rfl, ?_, ?_, rfl⟩)
          · omega
          · omega
      · rw [if_neg h5]
        exact Or.inl rfl

theorem fs_lseek_out (s : State) (fd e : Int) (offset : Int) (h0 : 0 ≤ fd) (h1 : fd < MAX_FILDES)
    (hused : (s.fildes_array fd).used ≠ 0) (he0 : 0 ≤ e) (he1 : e < MAX_FILES_ALLOWED)
    (hhead : (s.DIR e).head = (s.fildes_array fd).file)
    (hfirst : ∀ j, 0 ≤ j → j < e → (s.DIR j).head ≠ (s.fildes_array fd).file)
    (hout : offset > (s.DIR e).size ∨ offset < 0) :
    fs_lseek s fd offset = some (-1, s) := by
  have hsize := fs_get_filesize_of s fd e h0 h1 hused he0 he1 hhead hfirst
  unfold fs_lseek
  simp only [hsize]
  rw [if_pos hout]

/-- One call through a descriptor `fd` in use on a well-formed file (slot `e`,
chain of `L > 0` blocks, `0 ≤ offset ≤ size`): it still has `0 ≤ offset ≤ size` after
its own call of `fs_lseek` that returns 0, of `fs_write` (a `size_t` count) that does not
return -1, and of `fs_truncate` that returns 0; `fs_read` leaves all globals as they
were. `fs_truncate` leaves every other descriptor as it was, also one whose offset
lies beyond the new size. -/
theorem caller_offset_in_file {s : State} {fd e : Int} {L : Nat} (h : OpenOn s fd e L)
    (hL : 0 < L) (hd : 0 ≤ s.fs.data_idx) :
    (∀ off s1, fs_lseek s fd off = some (0, s1) →
      0 ≤ (s1.fildes_array fd).offset ∧ (s1.fildes_array fd).offset ≤ (s1.DIR e).size) ∧
    (∀ buf n r out s1, fs_read s fd buf n = some (r, out, s1) → s1 = s) ∧
    (∀ buf n r s1, n < 2 ^ 64 → fs_write s fd buf n = some (r, s1) → r ≠ -1 →
      0 ≤ (s1.fildes_array fd).offset ∧ (s1.fildes_array fd).offset ≤ (s1.DIR e).size) ∧
    (∀ len s1, fs_truncate s fd len = some (0, s1) →
      0 ≤ (s1.fildes_array fd).offset ∧ (s1.fildes_array fd).offset ≤ (s1.DIR e).size ∧
      ∀ j, j ≠ fd → s1.fildes_array j = s.fildes_array j) := by
  refine ⟨?_, ?_, ?_, ?_⟩
  · intro off s1 hl
    by_cases hin : 0 ≤ off ∧ off ≤ (s.DIR e).size
    · rw [fs_lseek_ok s fd e off h.fd_lo h.fd_hi h.used h.e_lo h.e_hi h.head h.first hin] at hl
      have hs := congrArg Prod.snd (Option.some.inj hl)
      simp only at hs
      subst hs
      show 0 ≤ (upd s.fildes_array fd _ fd).offset ∧ (upd s.fildes_array fd _ fd).offset ≤ _
      rw [upd_same]
      exact hin
    · rw [fs_lseek_out s fd e off h.fd_lo h.fd_hi h.used h.e_lo h.e_hi h.head h.first
        (by omega)] at hl
      have h0 : (-1 : Int) = 0 := congrArg Prod.fst (Option.some.inj hl)
      exact absurd h0 (by decide)
  · intro buf n r out s1 hr
    exact fs_read_state s fd buf n r out s1 hr
  · intro buf n r s1 hn hw hr
    have ho0 := h.off_lo
    have ho1 := h.off_le
    have hszi := h.size_int
    by_cases hcase : (n : Int) + (s.fildes_array fd).offset < 2 ^ 64
        ∧ 0 < min (n : Int) (STORAGE - (s.fildes_array fd).offset)
    · obtain ⟨res, w1, _, w3, w4⟩ := fs_write_spec STORAGE (by decide) (by decide) h hL hd buf n
        hcase.1 hcase.2
      have hres : res = (r, s1) := Option.some.inj (w1.symm.trans hw)
      subst hres
      have hmin : r = min (n : Int) (STORAGE - (s.fildes_array fd).offset) := by
        rcases w3 with h3 | ⟨h3, _⟩
        · exact h3
        · exact absurd h3 hr
      obtain ⟨p_fds, p_dir, _⟩ := w4 hmin
      have hpos := hcase.2
      rw [← hmin] at p_fds p_dir hpos
      simp only at p_fds p_dir
      rw [p_fds, p_dir, upd_same]
      show 0 ≤ (s.fildes_array fd).offset + r ∧ (s.fildes_array fd).offset + r ≤ _
      refine ⟨by omega, ?_⟩
      by_cases hlt : (s.DIR e).size < (s.fildes_array fd).offset + r
      · rw [if_pos hlt, upd_same]
      · rw [if_neg hlt]
        omega
    · have hrem := write_clamp_nonpos STORAGE n (s.fildes_array fd).offset ho0 (by omega)
        (by decide) (by decide) hn hcase
      obtain ⟨k1, k2⟩ := fs_write_nonpos_keeps STORAGE h buf n hrem r s1 hw
      rw [k1, k2]
      exact ⟨ho0, ho1⟩
  · intro len s1 ht
    rcases fs_truncate_cases s fd len with hc | ⟨r, hc⟩ | ⟨i, FAT1, hscan, hl0, hl1, hc⟩
    · rw [hc] at ht
      cases ht
    · rw [hc] at ht
      have hs : s = s1 := congrArg Prod.snd (Option.some.inj ht)
      subst hs
      exact ⟨h.off_lo, h.off_le, fun _ _ => rfl⟩
    · have hi : i = e := Option.some.inj (hscan.symm.trans h.scan_head)
      subst hi
      rw [hc] at ht
      have hs := congrArg Prod.snd (Option.some.inj ht)
      simp only at hs
      subst hs
      have ho0 := h.off_lo
      by_cases hgt : (s.fildes_array fd).offset > len
      · refine ⟨?_, ?_, ?_⟩
        · show 0 ≤ ((if (s.fildes_array fd).offset > len then _ else s.fildes_array) fd).offset
          rw [if_pos hgt, upd_same]
          exact hl0
        · show ((if (s.fildes_array fd).offset > len then _ else s.fildes_array) fd).offset
            ≤ (upd s.DIR i _ i).size
          rw [if_pos hgt, upd_same, upd_same]
        · intro j hj
          show (if (s.fildes_array fd).offset > len then _ else s.fildes_array) j = _
          rw [if_pos hgt, upd_other _ _ hj]
      · refine ⟨?_, ?_, ?_⟩
        · show 0 ≤ ((if (s.fildes_array fd).offset > len then _ else s.fildes_array) fd).offset
          rw [if_neg hgt]
          exact ho0
        · show ((if (s.fildes_array fd).offset > len then _ else s.fildes_array) fd).offset
            ≤ (upd s.DIR i _ i).size
          rw [if_neg hgt, upd_same]
          show (s.fildes_array fd).offset ≤ len
          omega
        · intro j hj
          show (if (s.fildes_array fd).offset > len then _ else s.fildes_array) j = _
          rw [if_neg hgt]

theorem caller_offset_in_file_witness :
    ∃ s1, fs_truncate twoBlockOpen 0 4500 = some (0, s1) ∧
      0 ≤ (s1.fildes_array 0).offset ∧ (s1.fildes_array 0).offset ≤ (s1.DIR 0).size ∧
      ∀ j, j ≠ 0 → s1.fildes_array j = twoBlockOpen.fildes_array j := by
  have hr : (fs_truncate twoBlockOpen 0 4500).map Prod.fst = some 0 := by decide
  cases hft : fs_truncate twoBlockOpen 0 4500 with
  | none =>
    rw [hft] at hr
    cases hr
  | some p =>
    obtain ⟨r, s1⟩ := p
    rw [hft] at hr
    have h0 : r = 0 := Option.some.inj hr
    subst h0
    exact ⟨s1, rfl,
      (caller_offset_in_file openOn_twoBlockOpen (by decide) (by decide)).2.2.2 4500 s1 hft⟩

/-! ## The names of the directory along a sequence of calls -/

theorem dirNames_of_same {s s1 : State} (h : DirNames s)
    (hsame : ∀ j, (s1.DIR j).used = (s.DIR j).used ∧ (s1.DIR j).name = (s.DIR j).name) :
    DirNames s1 := by
  refine ⟨?_, ?_⟩
  · intro j j0 j1 hu
    rw [(hsame j).2]
    exact h.unused_empty j j0 j1 (by rw [← (hsame j).1]; exact hu)
  · intro i j i0 i1 j0 j1 hi hj hn
    rw [(hsame i).1] at hi
    rw [(hsame j).1] at hj
    rw [(hsame i).2, (hsame j).2] at hn
    exact h.unique i j i0 i1 j0 j1 hi hj hn

theorem dirNames_make_fs (s : State) (image : Int → Block) : DirNames (make_fs s image).2 :=
  ⟨fun _ _ _ _ => rfl, fun _ _ _ _ _ _ hi _ _ => absurd rfl hi⟩

theorem mount_fs_same (s : State) (j : Int) :
    ((mount_fs s).2.DIR j).used = (s.DIR j).used ∧ ((mount_fs s).2.DIR j).name = (s.DIR j).name := by
  unfold mount_fs
  by_cases h : s.mounted ≠ 0 ∨ s.validfs = 0
  · rw [if_pos h]
    exact ⟨rfl, rfl⟩
  · rw [if_neg h]
    show ((if 0 ≤ j ∧ j < MAX_FILES_ALLOWED then { s.DIR j with ref_cnt := 0 } else s.DIR j).used
        = _) ∧
      ((if 0 ≤ j ∧ j < MAX_FILES_ALLOWED then { s.DIR j with ref_cnt := 0 } else s.DIR j).name = _)
    split <;> exact ⟨rfl, rfl⟩

theorem dirNames_fresh (image : Int → Block) : DirNames (fresh image) :=
  dirNames_of_same (dirNames_make_fs boot image) (fun j => mount_fs_same _ j)

theorem umount_fs_same (s : State) (image : Int → Block) : (umount_fs s image).2.DIR = s.DIR := by
  unfold umount_fs
  by_cases h : s.mounted = 0
  · rw [if_pos h]
  · rw [if_neg h]

theorem fs_open_same (s : State) (name : String) (r : Int) (s1 : State)
    (h : fs_open s name = some (r, s1)) (j : Int) :
    (s1.DIR j).used = (s.DIR j).used ∧ (s1.DIR j).name = (s.DIR j).name := by
  have hc : fs_open s name = some (-1, s) ∨ ∃ i k, fs_open s name
      = some (k, { s with
                   fildes_array :=
                     upd s.fildes_array k { used := 1, file := (s.DIR i).head, offset := 0 }
                   DIR := upd s.DIR i { s.DIR i with ref_cnt := (s.DIR i).ref_cnt + 1 } }) := by
    unfold fs_open
    by_cases h0 : s.file_counter = 0
    · rw [if_pos h0]
      exact Or.inl rfl
    rw [if_neg h0]
    cases h1 : scan (fun i => decide ((s.DIR i).name = name)) 64 0 with
    | none => exact Or.inl rfl
    | some i =>
      simp only []
      cases h2 : scan (fun j => decide ((s.fildes_array j).used = 0)) 32 0 with
      | none => exact Or.inl rfl
      | some k => exact Or.inr ⟨i, k, rfl⟩
  rcases hc with hc | ⟨i, k, hc⟩
  · rw [hc] at h
    have hs : s = s1 := congrArg Prod.snd (Option.some.inj h)
    subst hs
    exact ⟨rfl, rfl⟩
  · rw [hc] at h
    have hs := congrArg Prod.snd (Option.some.inj h)
    simp only at hs
    subst hs
    show (upd s.DIR i _ j).used = _ ∧ (upd s.DIR i _ j).name = _
    by_cases hj : j = i
    · subst hj
      rw [upd_same]
      exact ⟨rfl, rfl⟩
    · rw [upd_other _ _ hj]
      exact ⟨rfl, rfl⟩

theorem fs_close_same (s : State) (fd : Int) (r : Int) (s1 : State)
    (h : fs_close s fd = some (r, s1)) (j : Int) :
    (s1.DIR j).used = (s.DIR j).used ∧ (s1.DIR j).name = (s.DIR j).name := by
  have hc : fs_close s fd = some (-1, s) ∨ ∃ i, fs_close s fd
      = some (0, { s with
                   DIR := upd s.DIR i { s.DIR i with ref_cnt := (s.DIR i).ref_cnt - 1 }
                   fildes_array := upd s.fildes_array fd { used := 0, file := FREE, offset := 0 } }) := by
    unfold fs_close
    by_cases h0 : fd ≥ MAX_FILDES ∨ fd < 0
    · rw [if_pos h0]
      exact Or.inl rfl
    rw [if_neg h0]
    cases h1 : scan (fun i => decide ((s.DIR i).head = (s.fildes_array fd).file
        ∧ (s.fildes_array fd).used ≠ 0)) 64 0 with
    | none => exact Or.inl rfl
    | some i => exact Or.inr ⟨i, rfl⟩
  rcases hc with hc | ⟨i, hc⟩
  · rw [hc] at h
    have hs : s = s1 := congrArg Prod.snd (Option.some.inj h)
    subst hs
    exact ⟨rfl, rfl⟩
  · rw [hc] at h
    have hs := congrArg Prod.snd (Option.some.inj h)
    simp only at hs
    subst hs
    show (upd s.DIR i _ j).used = _ ∧ (upd s.DIR i _ j).name = _
    by_cases hj : j = i
    · subst hj
      rw [upd_same]
      exact ⟨rfl, rfl⟩
    · rw [upd_other _ _ hj]
      exact ⟨rfl, rfl⟩

theorem fs_lseek_same (s : State) (fd off : Int) (r : Int) (s1 : State)
    (h : fs_lseek s fd off = some (r, s1)) : s1.DIR = s.DIR := by
  have hc : fs_lseek s fd off = none ∨ fs_lseek s fd off = some (-1, s) ∨ fs_lseek s fd off
      = some (0, { s with fildes_array :=
                            upd s.fildes_array fd { s.fildes_array fd with offset := off } }) := by
    unfold fs_lseek
    simp only []
    by_cases h0 : off > fs_get_filesize s fd ∨ off < 0
    · rw [if_pos h0]
      exact Or.inr (Or.inl rfl)
    rw [if_neg h0]
    by_cases h1 : fd > MAX_FILDES ∨ fd < 0
    · rw [if_pos h1]
      exact Or.inr (Or.inl rfl)
    rw [if_neg h1]
    by_cases h2 : ¬ fd < MAX_FILDES
    · rw [if_pos h2]
      exact Or.inl rfl
    rw [if_neg h2]
    by_cases h3 : (s.fildes_array fd).used = 0
    · rw [if_pos h3]
      exact Or.inr (Or.inl rfl)
    rw [if_neg h3]
    exact Or.inr (Or.inr rfl)
  rcases hc with hc | hc | hc
  · rw [hc] at h
    cases h
  · rw [hc] at h
    have hs : s = s1 := congrArg Prod.snd (Option.some.inj h)
    subst hs
    rfl
  · rw [hc] at h
    have hs := congrArg Prod.snd (Option.some.inj h)
    simp only at hs
    subst hs
    rfl

theorem fs_truncate_same (s : State) (fd len : Int) (r : Int) (s1 : State)
    (h : fs_truncate s fd len = some (r, s1)) (j : Int) :
    (s1.DIR j).used = (s.DIR j).used ∧ (s1.DIR j).name = (s.DIR j).name := by
  rcases fs_truncate_cases s fd len with hc | ⟨r2, hc⟩ | ⟨i, FAT1, _, _, _, hc⟩
  · rw [hc] at h
    cases h
  · rw [hc] at h
    have hs : s = s1 := congrArg Prod.snd (Option.some.inj h)
    subst hs
    exact ⟨rfl, rfl⟩
  · rw [hc] at h
    have hs := congrArg Prod.snd (Option.some.inj h)
    simp only at hs
    subst hs
    show (upd s.DIR i _ j).used = _ ∧ (upd s.DIR i _ j).name = _
    by_cases hj : j = i
    · subst hj
      rw [upd_same]
      exact ⟨rfl, rfl⟩
    · rw [upd_other _ _ hj]
      exact ⟨rfl, rfl⟩

theorem write_finish_same (s : State) (fd e : Int) (x : Option (Option Int × WLoop)) (r : Int)
    (s1 : State) (h : write_finish s fd e x = some (r, s1)) (j : Int) :
    (s1.DIR j).used = (s.DIR j).used ∧ (s1.DIR j).name = (s.DIR j).name := by
  cases x with
  | none =>
    simp only [write_finish] at h
    cases h
  | some p =>
    obtain ⟨ret, w⟩ := p
    cases ret with
    | some v =>
      simp only [write_finish] at h
      have hs := congrArg Prod.snd (Option.some.inj h)
      simp only at hs
      subst hs
      exact ⟨rfl, rfl⟩
    | none =>
      simp only [write_finish] at h
      cases hb : block_write w.disk w.block w.blocks with
      | none =>
        rw [hb] at h
        have hs := congrArg Prod.snd (Option.some.inj h)
        simp only at hs
        subst hs
        exact ⟨rfl, rfl⟩
      | some d1 =>
        rw [hb] at h
        have hs := congrArg Prod.snd (Option.some.inj h)
        simp only at hs
        subst hs
        show ((if (s.DIR e).size < w.fdoffset then upd s.DIR e _ else s.DIR) j).used = _ ∧
          ((if (s.DIR e).size < w.fdoffset then upd s.DIR e _ else s.DIR) j).name = _
        by_cases hlt : (s.DIR e).size < w.fdoffset
        · rw [if_pos hlt]
          by_cases hj : j = e
          · subst hj
            rw [upd_same]
            exact ⟨rfl, rfl⟩
          · rw [upd_other _ _ hj]
            exact ⟨rfl, rfl⟩
        · rw [if_neg hlt]
          exact ⟨rfl, rfl⟩

theorem fs_write_same (s : State) (fd : Int) (buf : Int → UInt8) (n : Nat) (r : Int) (s1 : State)
    (h : fs_write s fd buf n = some (r, s1)) (j : Int) :
    (s1.DIR j).used = (s.DIR j).used ∧ (s1.DIR j).name = (s.DIR j).name := by
  have h2 : fs_write_with STORAGE s fd buf n = some (r, s1) := h
  rcases fs_write_with_cases STORAGE s fd buf n with hc | hc | hc | ⟨e, fuel, w0, _, _, _, _, hc⟩
  · rw [hc] at h2
    have hs : s = s1 := congrArg Prod.snd (Option.some.inj h2)
    subst hs
    exact ⟨rfl, rfl⟩
  · rw [hc] at h2
    cases h2
  · rw [hc] at h2
    have hs : s = s1 := congrArg Prod.snd (Option.some.inj h2)
    subst hs
    exact ⟨rfl, rfl⟩
  · rw [hc] at h2
    exact write_finish_same s fd e _ r s1 h2 j

theorem fs_create_cases (s : State) (name : String) :
    fs_create s name = none ∨ (∃ r FAT1, fs_create s name = some (r, { s with FAT := FAT1 })) ∨
    ∃ j i FAT1,
      (∀ k, 0 ≤ k → k < MAX_FILES_ALLOWED → ¬ ((s.DIR k).used ≠ 0 ∧ (s.DIR k).name = name)) ∧
      (s.DIR j).used = 0 ∧
      fs_create s name
        = some (0, { s with
                     FAT := FAT1
                     file_counter := s.file_counter + 1
                     DIR := upd s.DIR j
                       { used := 1, name := name, size := 0, head := i, ref_cnt := 0 }
                     fs := { s.fs with dir_len := s.fs.dir_len + 1 } }) := by
  unfold fs_create
  by_cases h1 : s.file_counter ≥ MAX_FILES_ALLOWED
  · rw [if_pos h1]
    exact Or.inr (Or.inl ⟨-1, s.FAT, rfl⟩)
  rw [if_neg h1]
  by_cases h2 : name.length > MAX_F_NAME
  · rw [if_pos h2]
    exact Or.inr (Or.inl ⟨-1, s.FAT, rfl⟩)
  rw [if_neg h2]
  by_cases h3 : (scan (fun i => decide ((s.DIR i).used ≠ 0 ∧ (s.DIR i).name = name)) 64 0).isSome
  · rw [if_pos h3]
    exact Or.inr (Or.inl ⟨-1, s.FAT, rfl⟩)
  rw [if_neg h3]
  by_cases h4 : s.fs.data_idx < 0
  · rw [if_pos h4]
    exact Or.inl rfl
  rw [if_neg h4]
  simp only []
  generalize scan (fun j => decide (s.FAT j = FREE)) (DISK_BLOCKS - s.fs.data_idx).toNat
    s.fs.data_idx = found
  have hnodup : ∀ k, 0 ≤ k → k < MAX_FILES_ALLOWED →
      ¬ ((s.DIR k).used ≠ 0 ∧ (s.DIR k).name = name) := by
    intro k k0 k1 hk
    cases hs : scan (fun i => decide ((s.DIR i).used ≠ 0 ∧ (s.DIR i).name = name)) 64 0 with
    | some m =>
      rw [hs] at h3
      exact h3 rfl
    | none =>
      have := scan_none hs k k0 (by simp only [MAX_FILES_ALLOWED] at k1; push_cast; omega)
      simp only [decide_eq_false_iff_not] at this
      exact this hk
  cases h5 : scan (fun j => decide ((s.DIR j).used = 0)) 64 0 with
  | none => exact Or.inr (Or.inl ⟨-1, _, rfl⟩)
  | some j =>
    have hj : (s.DIR j).used = 0 := by
      have := (scan_some h5).2.2.1
      simpa using this
    exact Or.inr (Or.inr ⟨j, _, _, hnodup, hj, rfl⟩)

theorem fs_create_dirNames (s : State) (name : String) (r : Int) (s1 : State) (hN : DirNames s)
    (h : fs_create s name = some (r, s1)) : DirNames s1 := by
  rcases fs_create_cases s name with hc | ⟨r2, FAT1, hc⟩ | ⟨j, i, FAT1, hnodup, hj, hc⟩
  · rw [hc] at h
    cases h
  · rw [hc] at h
    have hs := congrArg Prod.snd (Option.some.inj h)
    simp only at hs
    subst hs
    exact dirNames_of_same hN (fun _ => ⟨rfl, rfl⟩)
  · rw [hc] at h
    have hs := congrArg Prod.snd (Option.some.inj h)
    simp only at hs
    subst hs
    refine ⟨?_, ?_⟩
    · intro k k0 k1 hu
      have hu2 : (upd s.DIR j { used := 1, name := name, size := 0, head := i, ref_cnt := 0 } k).used
          = 0 := hu
      show (upd s.DIR j { used := 1, name := name, size := 0, head := i, ref_cnt := 0 } k).name = ""
      by_cases hk : k = j
      · subst hk
        rw [upd_same] at hu2
        have h10 : (1 : Int) = 0 := hu2
        exact absurd h10 (by decide)
      · rw [upd_other _ _ hk] at hu2 ⊢
        exact hN.unused_empty k k0 k1 hu2
    · intro a b a0 a1 b0 b1 ha hb hn
      have ha2 : (upd s.DIR j { used := 1, name := name, size := 0, head := i, ref_cnt := 0 } a).used
          ≠ 0 := ha
      have hb2 : (upd s.DIR j { used := 1, name := name, size := 0, head := i, ref_cnt := 0 } b).used
          ≠ 0 := hb
      have hn2 : (upd s.DIR j { used := 1, name := name, size := 0, head := i, ref_cnt := 0 } a).name
          = (upd s.DIR j { used := 1, name := name, size := 0, head := i, ref_cnt := 0 } b).name := hn
      by_cases haj : a = j
      · by_cases hbj : b = j
        · rw [haj, hbj]
        · rw [upd_other _ _ hbj] at hb2 hn2
          rw [haj, upd_same] at hn2
          exact absurd ⟨hb2, hn2.symm⟩ (hnodup b b0 b1)
      · by_cases hbj : b = j
        · rw [upd_other _ _ haj] at ha2 hn2
          rw [hbj, upd_same] at hn2
          exact absurd ⟨ha2, hn2⟩ (hnodup a a0 a1)
        · rw [upd_other _ _ haj] at ha2 hn2
          rw [upd_other _ _ hbj] at hb2 hn2
          exact hN.unique a b a0 a1 b0 b1 ha2 hb2 hn2

theorem fs_delete_cases (s : State) (name : String) :
    fs_delete s name = none ∨ fs_delete s name = some (-1, s) ∨
    ∃ i FAT1, fs_delete s name
      = some (0, { s with
                   FAT := FAT1
                   DIR := upd s.DIR i { s.DIR i with used := 0, size := 0, head := FREE, name := "" }
                   fs := { s.fs with dir_len := s.fs.dir_len - 1 }
                   file_counter := s.file_counter - 1 }) := by
  unfold fs_delete
  by_cases h1 : name.length > MAX_F_NAME
  · rw [if_pos h1]
    exact Or.inr (Or.inl rfl)
  rw [if_neg h1]
  cases h2 : scan (fun i => decide ((s.DIR i).name = name ∧ (s.DIR i).ref_cnt = 0)) 64 0 with
  | none => exact Or.inr (Or.inl rfl)
  | some i =>
    simp only []
    by_cases h3 : inDisk (s.DIR i).head
    · rw [if_pos h3]
      cases h4 : deleteLoop (s.DIR i).head 8192 s.FAT (s.DIR i).head with
      | none => exact Or.inl rfl
      | some FAT1 => exact Or.inr (Or.inr ⟨i, FAT1, rfl⟩)
    · rw [if_neg h3]
      exact Or.inl rfl

theorem fs_delete_dirNames (s : State) (name : String) (r : Int) (s1 : State) (hN : DirNames s)
    (h : fs_delete s name = some (r, s1)) : DirNames s1 := by
  rcases fs_delete_cases s name with hc | hc | ⟨i, FAT1, hc⟩
  · rw [hc] at h
    cases h
  · rw [hc] at h
    have hs : s = s1 := congrArg Prod.snd (Option.some.inj h)
    subst hs
    exact hN
  · rw [hc] at h
    have hs := congrArg Prod.snd (Option.some.inj h)
    simp only at hs
    subst hs
    refine ⟨?_, ?_⟩
    · intro k k0 k1 hu
      have hu2 : (upd s.DIR i { s.DIR i with used := 0, size := 0, head := FREE, name := "" } k).used
          = 0 := hu
      show (upd s.DIR i { s.DIR i with used := 0, size := 0, head := FREE, name := "" } k).name = ""
      by_cases hk : k = i
      · subst hk
        rw [upd_same]
      · rw [upd_other _ _ hk] at hu2 ⊢
        exact hN.unused_empty k k0 k1 hu2
    · intro a b a0 a1 b0 b1 ha hb hn
      have ha2 : (upd s.DIR i { s.DIR i with used := 0, size := 0, head := FREE, name := "" } a).used
          ≠ 0 := ha
      have hb2 : (upd s.DIR i { s.DIR i with used := 0, size := 0, head := FREE, name := "" } b).used
          ≠ 0 := hb
      have hn2 : (upd s.DIR i { s.DIR i with used := 0, size := 0, head := FREE, name := "" } a).name
          = (upd s.DIR i { s.DIR i with used := 0, size := 0, head := FREE, name := "" } b).name := hn
      by_cases hai : a = i
      · rw [hai, upd_same] at ha2
        exact absurd rfl ha2
      · by_cases hbi : b = i
        · rw [hbi, upd_same] at hb2
          exact absurd rfl hb2
        · rw [upd_other _ _ hai] at ha2 hn2
          rw [upd_other _ _ hbi] at hb2 hn2
          exact hN.unique a b a0 a1 b0 b1 ha2 hb2 hn2

theorem step_dirNames (s : State) (c : Call) (r : Int) (s1 : State) (hN : DirNames s)
    (h : step s c = some (r, s1)) : DirNames s1 := by
  cases c with
  | make_fs image =>
    have hs : (make_fs s image).2 = s1 := congrArg Prod.snd (Option.some.inj h)
    rw [← hs]
    exact dirNames_make_fs s image
  | mount_fs =>
    have hs : (mount_fs s).2 = s1 := congrArg Prod.snd (Option.some.inj h)
    rw [← hs]
    exact dirNames_of_same hN (fun j => mount_fs_same s j)
  | umount_fs image =>
    have hs : (umount_fs s image).2 = s1 := congrArg Prod.snd (Option.some.inj h)
    rw [← hs]
    exact dirNames_of_same hN (fun j => by rw [umount_fs_same]; exact ⟨rfl, rfl⟩)
  | fs_create name => exact fs_create_dirNames s name r s1 hN h
  | fs_delete name => exact fs_delete_dirNames s name r s1 hN h
  | fs_open name => exact dirNames_of_same hN (fs_open_same s name r s1 h)
  | fs_close fildes => exact dirNames_of_same hN (fs_close_same s fildes r s1 h)
  | fs_read fildes buf nbyte =>
    have h2 : (fs_read s fildes buf nbyte).map (fun r => (r.1, r.2.2)) = some (r, s1) := h
    cases hr : fs_read s fildes buf nbyte with
    | none =>
      rw [hr] at h2
      cases h2
    | some p =>
      obtain ⟨r2, out, s2⟩ := p
      rw [hr] at h2
      have hs : s2 = s1 := congrArg Prod.snd (Option.some.inj h2)
      rw [← hs, fs_read_state s fildes buf nbyte r2 out s2 hr]
      exact hN
  | fs_write fildes buf nbyte => exact dirNames_of_same hN (fs_write_same s fildes buf nbyte r s1 h)
  | fs_lseek fildes offset =>
    exact dirNames_of_same hN (fun j => by
      rw [fs_lseek_same s fildes offset r s1 h]; exact ⟨rfl, rfl⟩)
  | fs_truncate fildes length =>
    exact dirNames_of_same hN (fs_truncate_same s fildes length r s1 h)

theorem run_dirNames (calls : List Call) : ∀ (s s1 : State), DirNames s →
    run s calls = some s1 → DirNames s1 := by
  induction calls with
  | nil =>
    intro s s1 hN h
    have hs : s = s1 := Option.some.inj h
    rw [← hs]
    exact hN
  | cons c cs ih =>
    intro s s1 hN h
    cases hst : step s c with
    | none =>
      rw [run, hst] at h
      cases h
    | some p =>
      rw [run, hst] at h
      exact ih p.2 s1 (step_dirNames s c p.1 p.2 hN hst) h

theorem fs_create_dup (s : State) (name : String) (i : Int) (i0 : 0 ≤ i)
    (i1 : i < MAX_FILES_ALLOWED) (hu : (s.DIR i).used ≠ 0) (hn : (s.DIR i).name = name) :
    fs_create s name = some (-1, s) := by
  unfold fs_create
  by_cases h1 : s.file_counter ≥ MAX_FILES_ALLOWED
  · rw [if_pos h1]
  rw [if_neg h1]
  by_cases h2 : name.length > MAX_F_NAME
  · rw [if_pos h2]
  rw [if_neg h2]
  obtain ⟨m, hm⟩ := @scan_exists (fun i => decide ((s.DIR i).used ≠ 0 ∧ (s.DIR i).name = name)) 64 0
    ⟨i, i0, by simp only [MAX_FILES_ALLOWED] at i1; push_cast; omega, by simp [hu, hn]⟩
  rw [if_pos (by rw [hm]; rfl)]

/-! ## Writing into the last file of a packed data region -/

theorem freeCount_ge_of_free {FAT : Int → Int} (n : Nat) (lo a : Int) (ha : lo ≤ a)
    (hfree : ∀ b, a ≤ b → b < lo + n → FAT b = FREE) :
    (lo + n - a).toNat ≤ freeCount FAT n lo := by
  induction n generalizing lo a with
  | zero =>
    simp only [Nat.cast_zero, add_zero, freeCount]
    omega
  | succ n ih =>
    unfold freeCount
    by_cases hlo : lo = a
    · subst hlo
      have h1 := ih (lo + 1) (lo + 1) (le_refl _) (fun b b0 b1 => hfree b (by omega) (by
        push_cast; omega))
      rw [if_pos (hfree lo (le_refl _) (by push_cast; omega))]
      push_cast at h1 ⊢
      omega
    · have h1 := ih (lo + 1) a (by omega) (fun b b0 b1 => hfree b b0 (by push_cast; omega))
      push_cast at h1 ⊢
      omega

/-- In a data region whose blocks up to `l` are allocated and whose blocks after `l`
are FREE, `k` extensions in a row behind `l` take the blocks `l + 1, ..., l + k`. -/
theorem spec_extend_chain_packed (k : Nat) : ∀ (FAT : Int → Int) (l : Int), 6 ≤ l →
    l + k < DISK_BLOCKS → FAT l = END_MARKER → (∀ b, 6 ≤ b → b ≤ l → FAT b ≠ FREE) →
    (∀ b, l < b → b < DISK_BLOCKS → FAT b = FREE) →
    spec_extend_chain 6 k FAT l
      = some (fun b => if l ≤ b ∧ b < l + k then b + 1
                       else if b = l + k then END_MARKER else FAT b) := by
  induction k with
  | zero =>
    intro FAT l _ _ hl _ _
    show some FAT = _
    congr 1
    funext b
    by_cases hb : b = l
    · subst hb
      rw [if_neg (by simp), if_pos (by simp), hl]
    · rw [if_neg (by simp only [Nat.cast_zero, add_zero]; omega),
        if_neg (by simp only [Nat.cast_zero, add_zero]; exact hb)]
  | succ k ih =>
    intro FAT l hl0 hlk hl hused hfree
    simp only [DISK_BLOCKS] at hlk
    push_cast at hlk
    have hscan : scan (fun j => decide (FAT j = FREE)) (DISK_BLOCKS - 6).toNat 6 = some (l + 1) := by
      apply scan_eq_some_of (by omega)
      · have : (((DISK_BLOCKS - 6).toNat : Nat) : Int) = 8186 := by decide
        rw [this]
        omega
      · simp only [decide_eq_true_eq]
        exact hfree (l + 1) (by omega) (by simp only [DISK_BLOCKS]; omega)
      · intro j j0 j1
        simp only [decide_eq_false_iff_not]
        exact hused j j0 (by omega)
    rw [spec_extend_chain]
    simp only [spec_extend, hscan]
    have hne : l ≠ l + 1 := by omega
    rw [ih (upd (upd FAT (l + 1) END_MARKER) l (l + 1)) (l + 1) (by omega)
      (by simp only [DISK_BLOCKS]; omega)
      (by rw [upd_other _ _ (by omega : l + 1 ≠ l), upd_same])
      (by
        intro b b0 b1
        by_cases hbl : b = l
        · rw [hbl, upd_same]
          simp only [FREE]
          omega
        · rw [upd_other _ _ hbl]
          by_cases hbl1 : b = l + 1
          · rw [hbl1, upd_same]
            decide
          · rw [upd_other _ _ hbl1]
            exact hused b b0 (by omega))
      (by
        intro b b0 b1
        rw [upd_other _ _ (by omega : b ≠ l), upd_other _ _ (by omega : b ≠ l + 1)]
        exact hfree b (by omega) b1)]
    congr 1
    funext b
    push_cast
    by_cases h1 : l + 1 ≤ b ∧ b < l + 1 + k
    · rw [if_pos h1, if_pos (by omega)]
    · rw [if_neg h1]
      by_cases h2 : b = l + 1 + k
      · rw [if_pos h2, if_neg (by omega), if_pos (by omega)]
      · rw [if_neg h2]
        by_cases h3 : b = l
        · rw [h3, upd_same, if_pos (by omega)]
        · rw [upd_other _ _ h3, upd_other _ _ (by omega : b ≠ l + 1), if_neg (by omega),
            if_neg (by omega)]

theorem fs_write_packed {s : State} {fd e : Int} (h : OpenOn s fd e 1) (hd : s.fs.data_idx = 6)
    (hoff : (s.fildes_array fd).offset = 0) (hsize : (s.DIR e).size = 0)
    (hl0 : 6 ≤ (s.fildes_array fd).file)
    (hused : ∀ b, 6 ≤ b → b ≤ (s.fildes_array fd).file → s.FAT b ≠ FREE)
    (hfree : ∀ b, (s.fildes_array fd).file < b → b < DISK_BLOCKS → s.FAT b = FREE)
    (buf : Int → UInt8) (n : Nat) (hn : 0 < n) (hmax : (n : Int) ≤ STORAGE)
    (hfit : (s.fildes_array fd).file + ((blocksFor n - 1 : Nat) : Int) < DISK_BLOCKS) :
    ∃ s1, fs_write s fd buf n = some ((n : Int), s1) ∧
      s1 = { s with
             FAT := fun b =>
               if (s.fildes_array fd).file ≤ b
                   ∧ b < (s.fildes_array fd).file + ((blocksFor n - 1 : Nat) : Int) then b + 1
               else if b = (s.fildes_array fd).file + ((blocksFor n - 1 : Nat) : Int) then END_MARKER
               else s.FAT b
             DIR := upd s.DIR e { s.DIR e with size := n }
             fildes_array := upd s.fildes_array fd { s.fildes_array fd with offset := n }
             disk := s1.disk } := by
  have hd0 : 0 ≤ s.fs.data_idx := by rw [hd]; decide
  have hn64 : (n : Int) + (s.fildes_array fd).offset < 2 ^ 64 := by
    rw [hoff]
    simp only [STORAGE] at hmax
    omega
  have hmin : min (n : Int) (STORAGE - (s.fildes_array fd).offset) = n := by
    rw [hoff]
    exact min_eq_left (by omega)
  have hpos : 0 < min (n : Int) (STORAGE - (s.fildes_array fd).offset) := by
    rw [hmin]
    exact_mod_cast hn
  have hend : s.FAT (s.fildes_array fd).file = END_MARKER := h.chain.2
  have hspace : blocksFor n - 1 ≤ freeData s.FAT s.fs.data_idx := by
    rw [hd]
    have := @freeCount_ge_of_free s.FAT (DISK_BLOCKS - 6).toNat 6 ((s.fildes_array fd).file + 1)
      (by omega) (fun b b0 b1 => hfree b (by omega) (by
        have : (((DISK_BLOCKS - 6).toNat : Nat) : Int) = 8186 := by decide
        rw [this] at b1
        simp only [DISK_BLOCKS]
        omega))
    have h8 : (((DISK_BLOCKS - 6).toNat : Nat) : Int) = 8186 := by decide
    rw [h8] at this
    unfold freeData
    simp only [DISK_BLOCKS] at hfit
    omega
  obtain ⟨res, w1, w2, _, w4⟩ := fs_write_spec STORAGE (by decide) (by decide) h (by decide)
    hd0 buf n hn64 hpos
  rw [hmin, hoff, zero_add] at w2
  obtain ⟨r, s1⟩ := res
  have hr : r = n := w2 hspace
  subst hr
  have hfat := fs_write_fat STORAGE (by decide) (by decide) h (by decide) hd0 buf n hn64 hpos
    (n : Int) s1 w1 (by omega)
  rw [hmin, hoff, zero_add, hd] at hfat
  have hpk := spec_extend_chain_packed (blocksFor n - 1) s.FAT (s.fildes_array fd).file hl0 hfit
    hend hused hfree
  have hF : s1.FAT = _ := (Option.some.inj (hfat.symm.trans hpk))
  obtain ⟨p_fds, p_dir, ⟨p1, p2, p3, p4⟩, _⟩ := w4 hmin.symm
  rw [hmin, hoff, zero_add] at p_fds p_dir
  rw [hsize, if_pos (by exact_mod_cast hn)] at p_dir
  refine ⟨s1, w1, ?_⟩
  obtain ⟨fs1, fds1, FAT1, DIR1, fc1, m1, v1, d1⟩ := s1
  simp only at hF p_fds p_dir p1 p2 p3 p4
  subst hF p_fds p_dir p1 p2 p3 p4
  rfl

/-! ## The full volume is reached through the API -/

theorem State.eq_of_fields (a b : State) (h1 : a.fs = b.fs)
    (h2 : a.fildes_array = b.fildes_array) (h3 : a.FAT = b.FAT) (h4 : a.DIR = b.DIR)
    (h5 : a.file_counter = b.file_counter) (h6 : a.mounted = b.mounted)
    (h7 : a.validfs = b.validfs) (h8 : a.disk = b.disk) : a = b := by
  obtain ⟨a1, a2, a3, a4, a5, a6, a7, a8⟩ := a
  obtain ⟨b1, b2, b3, b4, b5, b6, b7, b8⟩ := b
  simp only at h1 h2 h3 h4 h5 h6 h7 h8
  subst h1 h2 h3 h4 h5 h6 h7 h8
  rfl

theorem fs_write_openedA (buf : Int → UInt8) :
    ∃ d, fs_write (opened blank "a") 0 buf 16777216 = some (16777216, writtenA d) := by
  obtain ⟨s1, h1, h2⟩ := fs_write_packed (openOn_opened blank "a") rfl rfl rfl (by decide)
    (fun b b0 b1 => by
      have hb : b = 6 := le_antisymm b1 b0
      rw [hb]
      decide)
    (fun b b0 _ => by
      show upd (fun _ => FREE) 6 END_MARKER b = FREE
      have hb : (6 : Int) < b := b0
      rw [upd_other _ _ (ne_of_gt hb)])
    buf 16777216 (by decide) (by decide) (by decide)
  refine ⟨s1.disk, ?_⟩
  rw [h1]
  exact congrArg (fun x => some ((16777216 : Int), x)) h2

theorem fs_close_writtenA (d : Int → Block) : fs_close (writtenA d) 0 = some (0, closedA d) :=
  fs_close_ok (writtenA d) 0 0 (le_refl _) (by decide)
    (scan_eq_some_of (le_refl _) (by decide)
      (by decide : decide (((writtenA blank).DIR 0).head = ((writtenA blank).fildes_array 0).file
        ∧ ((writtenA blank).fildes_array 0).used ≠ 0) = true)
      (fun k h1 h2 => absurd h1 (not_le.mpr h2)))

theorem writtenA_FAT (b : Int) (h0 : 6 ≤ b) (h1 : b < 4102) : (writtenA blank).FAT b ≠ FREE := by
  show (if 6 ≤ b ∧ b < 6 + 4095 then b + 1
    else if b = 6 + 4095 then END_MARKER else (opened blank "a").FAT b) ≠ FREE
  by_cases hb : 6 ≤ b ∧ b < 6 + 4095
  · rw [if_pos hb]
    simp only [FREE]
    omega
  · rw [if_neg hb, if_pos (by omega)]
    decide

theorem writtenA_FAT_free (b : Int) (h0 : 4102 ≤ b) : (writtenA blank).FAT b = FREE := by
  show (if 6 ≤ b ∧ b < 6 + 4095 then b + 1
    else if b = 6 + 4095 then END_MARKER else upd (fun _ => FREE) 6 END_MARKER b) = FREE
  rw [if_neg (by omega), if_neg (by omega), upd_other _ _ (by omega)]

theorem closedA_unused (i : Int) (hi : i ≠ 0) : ((closedA blank).DIR i).used = 0 := by
  show (upd (upd (upd (upd (fresh blank).DIR 0 _) 0 _) 0 _) 0 _ i).used = 0
  rw [upd_other _ _ hi, upd_other _ _ hi, upd_other _ _ hi, upd_other _ _ hi]
  exact fresh_unused blank i

theorem fs_create_closedA (d : Int → Block) : fs_create (closedA d) "b" = some (0, createdB d) :=
  fs_create_ok (closedA d) "b" 4102 1 (by decide : (closedA blank).file_counter < 64) (by decide)
    (fun i _ _ hu => by
      by_cases hi : i = 0
      · rw [hi]
        exact (by decide : ((closedA blank).DIR 0).name ≠ "b")
      · exact absurd (closedA_unused i hi) hu)
    (by decide : 0 ≤ (closedA blank).fs.data_idx)
    (scan_eq_some_of (by decide : (closedA blank).fs.data_idx ≤ 4102)
      (by decide : (4102 : Int)
        < (closedA blank).fs.data_idx + ((DISK_BLOCKS - (closedA blank).fs.data_idx).toNat : Int))
      (decide_eq_true (writtenA_FAT_free 4102 (le_refl _)))
      (fun k h1 h2 => decide_eq_false (writtenA_FAT k h1 h2)))
    (scan_eq_some_of (by decide) (by decide)
      (decide_eq_true (closedA_unused 1 (by decide)))
      (fun k h1 h2 => by
        have hk : k = 0 := by omega
        rw [hk]
        exact (by decide : decide (((closedA blank).DIR 0).used = 0) = false)))

theorem fs_open_createdB (d : Int → Block) : fs_open (createdB d) "b" = some (0, openedB d) :=
  fs_open_ok (createdB d) "b" 1 0 (by decide : (createdB blank).file_counter ≠ 0)
    (scan_eq_some_of (by decide) (by decide)
      (by decide : decide (((createdB blank).DIR 1).name = "b") = true)
      (fun k h1 h2 => by
        have hk : k = 0 := by omega
        rw [hk]
        exact (by decide : decide (((createdB blank).DIR 0).name = "b") = false)))
    (scan_eq_some_of (le_refl _) (by decide)
      (by decide : decide (((createdB blank).fildes_array 0).used = 0) = true)
      (fun k h1 h2 => absurd h1 (not_le.mpr h2)))

theorem openOn_openedB (d : Int → Block) : OpenOn (openedB d) 0 1 1 :=
  { fd_lo := le_refl _
    fd_hi := by decide
    used := (by decide : ((openedB blank).fildes_array 0).used ≠ 0)
    e_lo := by decide
    e_hi := by decide
    head := (by decide : ((openedB blank).DIR 1).head = ((openedB blank).fildes_array 0).file)
    first := fun j j0 j1 => by
      have hj : j = 0 := by omega
      rw [hj]
      exact (by decide : ((openedB blank).DIR 0).head ≠ ((openedB blank).fildes_array 0).file)
    chain := ⟨(by decide : inDisk 4102), (by decide : (openedB blank).FAT 4102 = END_MARKER)⟩
    size_le := (by decide : ((openedB blank).DIR 1).size ≤ BLOCK_SIZE * (1 : Nat))
    size_int := (by decide : ((openedB blank).DIR 1).size < 2 ^ 31)
    off_lo := (by decide : 0 ≤ ((openedB blank).fildes_array 0).offset)
    off_le := (by decide : ((openedB blank).fildes_array 0).offset ≤ ((openedB blank).DIR 1).size) }

theorem fs_write_openedB (d : Int → Block) (buf : Int → UInt8) :
    ∃ d1, fs_write (openedB d) 0 buf 16752640 = some (16752640, writtenB d1) := by
  obtain ⟨s1, h1, h2⟩ := fs_write_packed (openOn_openedB d) rfl rfl rfl
    (by decide : (6 : Int) ≤ 4102)
    (fun b b0 b1 => by
      have hb : b ≤ 4102 := b1
      show upd (writtenA blank).FAT 4102 END_MARKER b ≠ FREE
      by_cases h4 : b = 4102
      · rw [h4, upd_same]
        decide
      · rw [upd_other _ _ h4]
        exact writtenA_FAT b b0 (by omega))
    (fun b b0 _ => by
      have hb : (4102 : Int) < b := b0
      show upd (writtenA blank).FAT 4102 END_MARKER b = FREE
      rw [upd_other _ _ (ne_of_gt hb)]
      exact writtenA_FAT_free b (le_of_lt hb))
    buf 16752640 (by decide) (by decide)
    (by decide : (4102 : Int) + ((blocksFor ((16752640 : Nat) : Int) - 1 : Nat) : Int) < DISK_BLOCKS)
  refine ⟨s1.disk, ?_⟩
  rw [h1]
  exact congrArg (fun x => some ((16752640 : Int), x)) h2

theorem fresh_DIR (image : Int → Block) (i : Int) : (fresh image).DIR i = zero_entry := by
  show (if 0 ≤ i ∧ i < MAX_FILES_ALLOWED then { zero_entry with ref_cnt := 0 } else zero_entry)
    = zero_entry
  split <;> rfl

theorem fs_close_writtenB (d : Int → Block) :
    fs_close (writtenB d) 0 = some (0, { fullVolume with disk := d }) := by
  rw [fs_close_ok (writtenB d) 0 1 (le_refl _) (by decide)
    (scan_eq_some_of (by decide) (by decide)
      (by decide : decide (((writtenB blank).DIR 1).head = ((writtenB blank).fildes_array 0).file
        ∧ ((writtenB blank).fildes_array 0).used ≠ 0) = true)
      (fun k h1 h2 => by
        have hk : k = 0 := by omega
        rw [hk]
        exact (by decide : decide (((writtenB blank).DIR 0).head
          = ((writtenB blank).fildes_array 0).file
          ∧ ((writtenB blank).fildes_array 0).used ≠ 0) = false)))]
  congr 2
  apply State.eq_of_fields
  · rfl
  · funext j
    show upd (writtenB blank).fildes_array 0 { used := 0, file := FREE, offset := 0 } j
      = (fresh blank).fildes_array j
    by_cases hj : j = 0
    · rw [hj, upd_same]
      rfl
    · rw [upd_other _ _ hj]
      show upd (upd (upd (upd (upd (fresh blank).fildes_array 0 _) 0 _) 0 _) 0 _) 0 _ j = _
      rw [upd_other _ _ hj, upd_other _ _ hj, upd_other _ _ hj, upd_other _ _ hj,
        upd_other _ _ hj]
  · funext b
    show (if 4102 ≤ b ∧ b < 4102 + 4089 then b + 1
        else if b = 4102 + 4089 then END_MARKER
        else upd (fun b => if 6 ≤ b ∧ b < 6 + 4095 then b + 1
          else if b = 6 + 4095 then END_MARKER
          else upd (fun _ => FREE) 6 END_MARKER b) 4102 END_MARKER b)
      = (if b = 4101 ∨ b = 8191 then END_MARKER else if 6 ≤ b ∧ b < 8192 then b + 1 else FREE)
    unfold upd
    simp only [END_MARKER, FREE]
    split_ifs <;> omega
  · funext i
    show upd (writtenB blank).DIR 1 _ i = upd (upd (fun _ => zero_entry) 0 _) 1 _ i
    by_cases h1 : i = 1
    · rw [h1, upd_same, upd_same]
      rfl
    · rw [upd_other _ _ h1, upd_other _ _ h1]
      show upd (upd (upd (closedA blank).DIR 1 _) 1 _) 1 _ i = _
      rw [upd_other _ _ h1, upd_other _ _ h1, upd_other _ _ h1]
      by_cases h0 : i = 0
      · rw [h0, upd_same]
        rfl
      · rw [upd_other _ _ h0]
        show upd (upd (upd (upd (fresh blank).DIR 0 _) 0 _) 0 _) 0 _ i = _
        rw [upd_other _ _ h0, upd_other _ _ h0, upd_other _ _ h0, upd_other _ _ h0]
        exact fresh_DIR blank i
  · rfl
  · rfl
  · rfl
  · rfl

theorem run_append (l1 l2 : List Call) : ∀ s, run s (l1 ++ l2) = (run s l1).bind (fun s1 => run s1 l2) := by
  induction l1 with
  | nil => intro s; rfl
  | cons c cs ih =>
    intro s
    show run s (c :: (cs ++ l2)) = (run s (c :: cs)).bind _
    rw [run, run]
    cases step s c with
    | none => rfl
    | some r => exact ih r.2

theorem returns_append (l1 l2 : List Call) : ∀ s s1 r1, run s l1 = some s1 →
    returns s l1 = some r1 → returns s (l1 ++ l2) = (returns s1 l2).map (fun r2 => r1 ++ r2) := by
  induction l1 with
  | nil =>
    intro s s1 r1 h1 h2
    have hs : s = s1 := Option.some.inj h1
    have hr : [] = r1 := Option.some.inj h2
    subst hs hr
    show returns s l2 = (returns s l2).map (fun r2 => [] ++ r2)
    simp
  | cons c cs ih =>
    intro s s1 r1 h1 h2
    show returns s (c :: (cs ++ l2)) = _
    rw [returns]
    rw [run] at h1
    rw [returns] at h2
    cases hst : step s c with
    | none =>
      rw [hst] at h1
      cases h1
    | some r =>
      rw [hst] at h1 h2
      simp only at h1 h2 ⊢
      cases hrs : returns r.2 cs with
      | none =>
        rw [hrs] at h2
        cases h2
      | some rs =>
        rw [hrs] at h2
        have hr1 : r.1 :: rs = r1 := Option.some.inj h2
        subst hr1
        rw [ih r.2 s1 rs h1 hrs]
        cases returns s1 l2 with
        | none => rfl
        | some r2 => rfl

theorem run_cons_of {s s1 : State} {c : Call} {r : Int} (cs : List Call)
    (h : step s c = some (r, s1)) : run s (c :: cs) = run s1 cs := by
  rw [run, h]

theorem returns_cons_of {s s1 : State} {c : Call} {r : Int} (cs : List Call)
    (h : step s c = some (r, s1)) :
    returns s (c :: cs) = (returns s1 cs).map (fun l => r :: l) := by
  rw [returns, h]

/-- The calls of `fillCalls` lead from the fresh volume to `fullVolume`, each returning
0 or the number of bytes asked for; `d` is the content the disk then has. -/
theorem fullVolume_reached (buf : Int → UInt8) :
    ∃ d, run (fresh blank) (fillCalls buf) = some { fullVolume with disk := d } ∧
      returns (fresh blank) (fillCalls buf) = some [0, 0, 16777216, 0, 0, 0, 16752640, 0] := by
  obtain ⟨d1, h3⟩ := fs_write_openedA buf
  obtain ⟨d2, h7⟩ := fs_write_openedB d1 buf
  have h1 : step (fresh blank) (.fs_create "a") = some (0, created blank "a") :=
    fs_create_fresh blank "a" (by decide)
  have h2 : step (created blank "a") (.fs_open "a") = some (0, opened blank "a") :=
    fs_open_created blank "a"
  have h3a : step (opened blank "a") (.fs_write 0 buf 16777216) = some (16777216, writtenA d1) := h3
  have h4 : step (writtenA d1) (.fs_close 0) = some (0, closedA d1) := fs_close_writtenA d1
  have h5 : step (closedA d1) (.fs_create "b") = some (0, createdB d1) := fs_create_closedA d1
  have h6 : step (createdB d1) (.fs_open "b") = some (0, openedB d1) := fs_open_createdB d1
  have h7a : step (openedB d1) (.fs_write 0 buf 16752640) = some (16752640, writtenB d2) := h7
  have h8 : step (writtenB d2) (.fs_close 0) = some (0, { fullVolume with disk := d2 }) :=
    fs_close_writtenB d2
  refine ⟨d2, ?_, ?_⟩
  · unfold fillCalls
    rw [run_cons_of _ h1, run_cons_of _ h2, run_cons_of _ h3a, run_cons_of _ h4,
      run_cons_of _ h5, run_cons_of _ h6, run_cons_of _ h7a, run_cons_of _ h8]
    rfl
  · unfold fillCalls
    rw [returns_cons_of _ h1, returns_cons_of _ h2, returns_cons_of _ h3a, returns_cons_of _ h4,
      returns_cons_of _ h5, returns_cons_of _ h6, returns_cons_of _ h7a, returns_cons_of _ h8]
    rfl

/-! ## Two files created on a full volume -/

theorem fullVolume_no_free (b : Int) (h1 : 6 ≤ b) (h2 : b < DISK_BLOCKS) :
    fullVolume.FAT b ≠ FREE := by
  show (if b = 4101 ∨ b = 8191 then END_MARKER else if 6 ≤ b ∧ b < 8192 then b + 1 else FREE)
    ≠ FREE
  simp only [DISK_BLOCKS] at h2
  split
  · decide
  · rw [if_pos ⟨h1, h2⟩]
    simp only [FREE]
    omega

theorem fs_create_fullVolume (d : Int → Block) :
    fs_create { fullVolume with disk := d } "c" = some (0, { fullVolumeC with disk := d }) :=
  fs_create_no_space { fullVolume with disk := d } "c" 2
    (by decide : fullVolume.file_counter < MAX_FILES_ALLOWED) (by decide)
    (by decide : ∀ i, 0 ≤ i → i < 64 → (fullVolume.DIR i).used ≠ 0 → (fullVolume.DIR i).name ≠ "c")
    (by decide : 0 ≤ fullVolume.fs.data_idx) fullVolume_no_free
    (by decide : scan (fun i => decide ((fullVolume.DIR i).used = 0)) 64 0 = some 2)

theorem fs_create_fullVolumeC (d : Int → Block) :
    fs_create { fullVolumeC with disk := d } "e" = some (0, { fullVolumeCE with disk := d }) :=
  fs_create_no_space { fullVolumeC with disk := d } "e" 3
    (by decide : fullVolumeC.file_counter < MAX_FILES_ALLOWED) (by decide)
    (by decide : ∀ i, 0 ≤ i → i < 64 → (fullVolumeC.DIR i).used ≠ 0 → (fullVolumeC.DIR i).name ≠ "e")
    (by decide : 0 ≤ fullVolumeC.fs.data_idx) fullVolume_no_free
    (by decide : scan (fun i => decide ((fullVolumeC.DIR i).used = 0)) 64 0 = some 3)

theorem fs_open_fullVolumeCE (d : Int → Block) :
    ∃ s3, fs_open { fullVolumeCE with disk := d } "c" = some (0, s3) ∧
      s3.fildes_array 0 = { used := 1, file := 8192, offset := 0 } ∧
      (∀ j, j ≠ 0 → s3.fildes_array j = fullVolumeCE.fildes_array j) ∧
      s3.DIR 3 = fullVolumeCE.DIR 3 :=
  ⟨_, fs_open_ok { fullVolumeCE with disk := d } "c" 2 0
      (by decide : fullVolumeCE.file_counter ≠ 0)
      (by decide : scan (fun i => decide ((fullVolumeCE.DIR i).name = "c")) 64 0 = some 2)
      (by decide : scan (fun j => decide ((fullVolumeCE.fildes_array j).used = 0)) 32 0 = some 0),
    rfl, fun j hj => upd_other _ _ hj, rfl⟩

/-- C21 (the code departs from the claim): the calls of `fillCalls` on the fresh volume
(`a` written to 16 MiB, `b` to the 4090 blocks left, every call returning 0 or its byte
count) leave no data block FREE; `fs_create("c")` and `fs_create("e")` then both return
0 and leave two used entries whose head is 8192 = DISK_BLOCKS, the bound of the search:
the head is no block of the data region, `FAT[8192]` lies outside the FAT, and the two
files share their head. -/
theorem fat_closure_broken (buf : Int → UInt8) :
    ∃ s, run (fresh blank) (fillCalls buf ++ [.fs_create "c", .fs_create "e"]) = some s ∧
      returns (fresh blank) (fillCalls buf ++ [.fs_create "c", .fs_create "e"])
        = some [0, 0, 16777216, 0, 0, 0, 16752640, 0, 0, 0] ∧
      (s.DIR 2).used = 1 ∧ (s.DIR 2).name = "c" ∧ (s.DIR 2).head = 8192 ∧
      (s.DIR 3).used = 1 ∧ (s.DIR 3).name = "e" ∧ (s.DIR 3).head = 8192 ∧
      s.fs.data_idx = 6 ∧ DISK_BLOCKS = 8192 ∧ ¬ inDisk 8192 := by
  obtain ⟨d, hrun, hret⟩ := fullVolume_reached buf
  have h1 : step { fullVolume with disk := d } (.fs_create "c")
      = some (0, { fullVolumeC with disk := d }) := fs_create_fullVolume d
  have h2 : step { fullVolumeC with disk := d } (.fs_create "e")
      = some (0, { fullVolumeCE with disk := d }) := fs_create_fullVolumeC d
  refine ⟨{ fullVolumeCE with disk := d }, ?_, ?_,
    (by decide : (fullVolumeCE.DIR 2).used = 1), (by decide : (fullVolumeCE.DIR 2).name = "c"),
    (by decide : (fullVolumeCE.DIR 2).head = 8192), (by decide : (fullVolumeCE.DIR 3).used = 1),
    (by decide : (fullVolumeCE.DIR 3).name = "e"), (by decide : (fullVolumeCE.DIR 3).head = 8192),
    (by decide : fullVolumeCE.fs.data_idx = 6), by decide, by decide⟩
  · rw [run_append, hrun, Option.some_bind, run_cons_of _ h1, run_cons_of _ h2]
    rfl
  · rw [returns_append _ _ _ _ _ hrun hret, returns_cons_of _ h1, returns_cons_of _ h2]
    rfl

/-- C22 (the code departs from the claim): after the calls of `fillCalls` on the fresh
volume, `fs_create("c")`, `fs_create("e")` and `fs_open("c")`, all returning 0 or their
byte count, descriptor 0 is the only descriptor in use and its `file` is 8192; the
used entry of `e` in slot 3 has head 8192 as well and `ref_cnt` 0, so one descriptor in
use has `file = e.head` where `ref_cnt` counts none. -/
theorem ref_count_off (buf : Int → UInt8) :
    ∃ s, run (fresh blank) (fillCalls buf ++ [.fs_create "c", .fs_create "e", .fs_open "c"])
        = some s ∧
      returns (fresh blank) (fillCalls buf ++ [.fs_create "c", .fs_create "e", .fs_open "c"])
        = some [0, 0, 16777216, 0, 0, 0, 16752640, 0, 0, 0, 0] ∧
      (s.fildes_array 0).used = 1 ∧ (s.fildes_array 0).file = 8192 ∧
      (∀ j, 0 ≤ j → j < MAX_FILDES → j ≠ 0 → (s.fildes_array j).used = 0) ∧
      (s.DIR 3).used = 1 ∧ (s.DIR 3).name = "e" ∧ (s.DIR 3).head = 8192 ∧
      (s.DIR 3).ref_cnt = 0 := by
  obtain ⟨d, hrun, hret⟩ := fullVolume_reached buf
  obtain ⟨s3, h3, hfd, hother, hdir⟩ := fs_open_fullVolumeCE d
  have h1 : step { fullVolume with disk := d } (.fs_create "c")
      = some (0, { fullVolumeC with disk := d }) := fs_create_fullVolume d
  have h2 : step { fullVolumeC with disk := d } (.fs_create "e")
      = some (0, { fullVolumeCE with disk := d }) := fs_create_fullVolumeC d
  have h3a : step { fullVolumeCE with disk := d } (.fs_open "c") = some (0, s3) := h3
  refine ⟨s3, ?_, ?_, by rw [hfd], by rw [hfd], ?_, by rw [hdir]; decide, by rw [hdir]; decide,
    by rw [hdir]; decide, by rw [hdir]; decide⟩
  · rw [run_append, hrun, Option.some_bind, run_cons_of _ h1, run_cons_of _ h2,
      run_cons_of _ h3a]
    rfl
  · rw [returns_append _ _ _ _ _ hrun hret, returns_cons_of _ h1, returns_cons_of _ h2,
      returns_cons_of _ h3a]
    rfl
  · intro j h0 h1 hj
    rw [hother j hj]
    show ((fresh (fun _ _ => 0)).fildes_array j).used = 0
    exact fresh_descriptor_unused _ j h0 h1

/-- A second `fs_close` of a descriptor returns -1 and changes nothing (L4). -/
theorem fs_close_twice (s s1 : State) (fd : Int) (h : fs_close s fd = some (0, s1)) :
    fs_close s1 fd = some (-1, s1) := by
  unfold fs_close at h ⊢
  by_cases hr : fd ≥ MAX_FILDES ∨ fd < 0
  · rw [if_pos hr] at h
    have h0 : (-1 : Int) = 0 := congrArg Prod.fst (Option.some.inj h)
    exact absurd h0 (by decide)
  · rw [if_neg hr] at h
    rw [if_neg hr]
    cases hs : scan (fun i => decide ((s.DIR i).head = (s.fildes_array fd).file
        ∧ (s.fildes_array fd).used ≠ 0)) 64 0 with
    | none =>
      rw [hs] at h
      have h0 : (-1 : Int) = 0 := congrArg Prod.fst (Option.some.inj h)
      exact absurd h0 (by decide)
    | some i =>
      rw [hs] at h
      have hs1 := congrArg Prod.snd (Option.some.inj h)
      simp only at hs1
      subst hs1
      have hnone : scan (fun i_1 => decide ((upd s.DIR i
          { s.DIR i with ref_cnt := (s.DIR i).ref_cnt - 1 } i_1).head
            = (upd s.fildes_array fd { used := 0, file := FREE, offset := 0 } fd).file
          ∧ (upd s.fildes_array fd { used := 0, file := FREE, offset := 0 } fd).used ≠ 0)) 64 0
          = none := by
        apply scan_eq_none_of
        intro k _ _
        rw [upd_same]
        simp
      simp only [hnone]

/-- C6 (the code departs from the claim): on a file of 10 bytes `a`, with the descriptor
moved to offset 1, `fs_write` of `2^64 - 1` bytes returns 0: the sum of
`src/src/fs.c:443` wraps, the count is not clamped and becomes -1 as an `int`, the loop
is skipped and line 507 writes the buffer as `memset` has left it (bytes 255) over the
block of the file. Bytes 0 and 5 of the file, outside `[1, 1 + 0)` and below the size
10, were 97 and read back as 255. -/
theorem fs_write_count_wraps :
    returns (fresh blank) [.fs_create "f", .fs_open "f", .fs_write 0 (fun _ => 97) 10,
        .fs_lseek 0 1, .fs_write 0 (fun _ => 98) 18446744073709551615]
      = some [0, 0, 10, 0, 0]
    ∧ (run (fresh blank) [.fs_create "f", .fs_open "f", .fs_write 0 (fun _ => 97) 10,
        .fs_lseek 0 1]).map
        (fun s => ((s.DIR 0).size, (s.fildes_array 0).offset, fileByte s 6 0, fileByte s 6 5))
      = some (10, 1, 97, 97)
    ∧ (run (fresh blank) [.fs_create "f", .fs_open "f", .fs_write 0 (fun _ => 97) 10,
        .fs_lseek 0 1, .fs_write 0 (fun _ => 98) 18446744073709551615]).map
        (fun s => ((s.DIR 0).size, (s.fildes_array 0).offset, fileByte s 6 0, fileByte s 6 5))
      = some (10, 1, 255, 255)
    ∧ ((run (fresh blank) [.fs_create "f", .fs_open "f", .fs_write 0 (fun _ => 97) 10,
          .fs_lseek 0 1, .fs_write 0 (fun _ => 98) 18446744073709551615, .fs_lseek 0 0]).bind
        fun s => (fs_read s 0 (fun _ => 0) 10).map fun r => (r.1, r.2.1 0, r.2.1 5))
      = some (10, 255, 255) := by
  decide

/-- C15 (the code departs from the claim): after `fs_create("a")`, `fs_create("")` and
`fs_delete("a")`, all returning 0, slot 1 is a used entry named `""` with head 7 and
slot 0 is unused with head -1. `fs_open("")` returns descriptor 0 with `file = -1`, not
the head 7 of the used entry, and increments the `ref_cnt` of the unused slot 0; the
used entry keeps `ref_cnt = 0`. -/
theorem fs_open_misses_used_entry :
    returns (fresh blank) [.fs_create "a", .fs_create "", .fs_delete "a", .fs_open ""]
      = some [0, 0, 0, 0]
    ∧ (run (fresh blank) [.fs_create "a", .fs_create "", .fs_delete "a"]).map
        (fun s => ((s.DIR 1).used, (s.DIR 1).head, (s.DIR 1).ref_cnt))
      = some (1, 7, 0)
    ∧ (run (fresh blank) [.fs_create "a", .fs_create "", .fs_delete "a"]).map
        (fun s => (s.DIR 1).name) = some ""
    ∧ (run (fresh blank) [.fs_create "a", .fs_create "", .fs_delete "a"]).map
        (fun s => ((s.DIR 0).used, (s.DIR 0).head, (s.DIR 0).ref_cnt, (s.fildes_array 0).used))
      = some (0, -1, 0, 0)
    ∧ (run (fresh blank) [.fs_create "a", .fs_create "", .fs_delete "a", .fs_open ""]).map
        (fun s => ((s.fildes_array 0).used, (s.fildes_array 0).file,
          (s.fildes_array 0).offset))
      = some (1, -1, 0)
    ∧ (run (fresh blank) [.fs_create "a", .fs_create "", .fs_delete "a", .fs_open ""]).map
        (fun s => ((s.DIR 1).used, (s.DIR 1).head, (s.DIR 1).ref_cnt))
      = some (1, 7, 0)
    ∧ (run (fresh blank) [.fs_create "a", .fs_create "", .fs_delete "a", .fs_open ""]).map
        (fun s => ((s.DIR 0).used, (s.DIR 0).ref_cnt))
      = some (0, 1) := by
  decide

/-! ## Well-formed volumes: chains, descriptor counts -/

theorem validChain_congr {FAT FAT2 : Int → Int} {b : Int} {L : Nat} (h : validChain FAT b L)
    (hsame : ∀ t, t < L → FAT2 (nthBlock FAT b t) = FAT (nthBlock FAT b t)) :
    validChain FAT2 b L ∧ ∀ t, t ≤ L → nthBlock FAT2 b t = nthBlock FAT b t := by
  have hn := nthBlock_congr hsame
  refine ⟨validChain_of (fun t ht => ?_) ?_, hn⟩
  · rw [hn t (by omega)]
    exact validChain_inDisk h t ht
  · rw [hn L (le_refl _)]
    exact validChain_end h

theorem validChain_cut {FAT FAT2 : Int → Int} {b : Int} {L n : Nat} (h : validChain FAT b L)
    (hn : n < L)
    (hsame : ∀ t, t < n → FAT2 (nthBlock FAT b t) = FAT (nthBlock FAT b t))
    (hend : FAT2 (nthBlock FAT b n) = END_MARKER) :
    validChain FAT2 b (n + 1) ∧ ∀ t, t ≤ n → nthBlock FAT2 b t = nthBlock FAT b t := by
  have hc := nthBlock_congr hsame
  refine ⟨validChain_of (fun t ht => ?_) ?_, hc⟩
  · rw [hc t (by omega)]
    exact validChain_inDisk h t (by omega)
  · rw [nthBlock_succ, hc n (le_refl _), hend]

theorem openCount_congr {f g : Int → file_descriptor} (h : Int) (n : Nat)
    (hfg : ∀ j : Nat, j < n →
      (((f j).used ≠ 0 ∧ (f j).file = h) ↔ ((g j).used ≠ 0 ∧ (g j).file = h))) :
    openCount f h n = openCount g h n := by
  induction n with
  | zero => rfl
  | succ n ih =>
    unfold openCount
    rw [ih (fun j hj => hfg j (by omega)), if_congr (hfg n (by omega)) rfl rfl]

theorem openCount_nonneg (f : Int → file_descriptor) (h : Int) (n : Nat) :
    0 ≤ openCount f h n := by
  induction n with
  | zero => exact le_refl _
  | succ n ih =>
    unfold openCount
    split <;> omega

theorem openCount_pos {f : Int → file_descriptor} {h : Int} {n : Nat} {j : Int} (j0 : 0 ≤ j)
    (j1 : j < n) (hu : (f j).used ≠ 0) (hf : (f j).file = h) : 0 < openCount f h n := by
  induction n with
  | zero => simp at j1; omega
  | succ n ih =>
    unfold openCount
    have hnn := openCount_nonneg f h n
    by_cases hj : j = n
    · subst hj
      rw [if_pos ⟨hu, hf⟩]
      omega
    · have := ih (by push_cast at j1; omega)
      split <;> omega

theorem openCount_zero {f : Int → file_descriptor} {h : Int} {n : Nat}
    (hnone : ∀ j : Int, 0 ≤ j → j < n → ¬ ((f j).used ≠ 0 ∧ (f j).file = h)) :
    openCount f h n = 0 := by
  induction n with
  | zero => rfl
  | succ n ih =>
    unfold openCount
    rw [ih (fun j j0 j1 => hnone j j0 (by push_cast; omega)),
      if_neg (hnone n (by omega) (by push_cast; omega))]
    rfl

theorem openCount_upd (f : Int → file_descriptor) (h : Int) (j : Int) (d : file_descriptor)
    (n : Nat) :
    openCount (upd f j d) h n = openCount f h n
      + (if 0 ≤ j ∧ j < n then
          (if d.used ≠ 0 ∧ d.file = h then 1 else 0)
            - (if (f j).used ≠ 0 ∧ (f j).file = h then 1 else 0)
        else 0) := by
  induction n with
  | zero =>
    rw [if_neg (by push_cast; omega)]
    rfl
  | succ n ih =>
    unfold openCount
    rw [ih]
    by_cases hj : (n : Int) = j
    · subst hj
      have c1 : ¬ ((0 : Int) ≤ (n : Int) ∧ (n : Int) < (n : Int)) := by omega
      have c2 : (0 : Int) ≤ (n : Int) ∧ (n : Int) < ((n + 1 : Nat) : Int) := by
        push_cast
        omega
      rw [upd_same, if_neg c1, if_pos c2]
      omega
    · rw [upd_other _ _ hj]
      by_cases hlt : 0 ≤ j ∧ j < (n : Int)
      · have c2 : 0 ≤ j ∧ j < ((n + 1 : Nat) : Int) := by
          push_cast
          omega
        rw [if_pos hlt, if_pos c2]
        omega
      · have c2 : ¬ (0 ≤ j ∧ j < ((n + 1 : Nat) : Int)) := by
          push_cast
          omega
        rw [if_neg hlt, if_neg c2]
        omega

/-- The slot that `fs_get_filesize`, `fs_write`, `fs_close` and `fs_truncate` find for
a descriptor in use on a well-formed volume is a used slot, and the offset lies inside
its file. -/
theorem Sound.first {s : State} {len : Int → Nat} (h : Sound s len) {fd : Int} (h0 : 0 ≤ fd)
    (h1 : fd < MAX_FILDES) (hu : (s.fildes_array fd).used ≠ 0) :
    ∃ e, 0 ≤ e ∧ e < MAX_FILES_ALLOWED ∧ (s.DIR e).used ≠ 0 ∧
      (s.DIR e).head = (s.fildes_array fd).file ∧
      (∀ j, 0 ≤ j → j < e → (s.DIR j).head ≠ (s.fildes_array fd).file) ∧
      0 ≤ (s.fildes_array fd).offset ∧ (s.fildes_array fd).offset ≤ (s.DIR e).size := by
  obtain ⟨e, e0, e1, eu, eh, o0, o1⟩ := h.descr fd h0 h1 hu
  simp only [MAX_FILES_ALLOWED] at e1
  obtain ⟨m, hm⟩ := @scan_exists
    (fun i => decide ((s.DIR i).head = (s.fildes_array fd).file)) 64 0
    ⟨e, e0, by push_cast; omega, by simp [eh]⟩
  obtain ⟨m0, m1, mp, mfirst⟩ := scan_some hm
  have mh : (s.DIR m).head = (s.fildes_array fd).file := by simpa using mp
  have m1b : m < MAX_FILES_ALLOWED := by simp only [MAX_FILES_ALLOWED]; push_cast at m1; omega
  have e1b : e < MAX_FILES_ALLOWED := by simp only [MAX_FILES_ALLOWED]; omega
  have hhead : (s.DIR m).head = (s.DIR e).head := mh.trans eh.symm
  have ehead : (len e = 0 → (s.DIR e).head = 8192) ∧ (0 < len e → 6 ≤ (s.DIR e).head ∧
      (s.DIR e).head < 8192) := by
    refine ⟨fun hl => h.ghost e e0 e1b eu hl, fun hl => ⟨h.blocks e e0 e1b eu 0 hl, ?_⟩⟩
    have := validChain_inDisk (h.chain e e0 e1b eu hl) 0 hl
    exact this.2
  have mu : (s.DIR m).used ≠ 0 := by
    intro hmu
    have hm2 := h.unused m m0 m1b hmu
    simp only [FREE] at hm2
    rcases Nat.eq_zero_or_pos (len e) with hl | hl
    · have := ehead.1 hl
      omega
    · have := ehead.2 hl
      omega
  refine ⟨m, m0, m1b, mu, mh, ?_, o0, ?_⟩
  · intro j j0 j1
    have := mfirst j j0 j1
    simpa using this
  · by_cases hme : m = e
    · rw [hme]
      exact o1
    · rcases Nat.eq_zero_or_pos (len e) with hl | hl
      · have hs := (h.size_hi e e0 e1b eu).1
        rw [hl] at hs
        have := h.size_lo m m0 m1b mu
        simp only [BLOCK_SIZE] at hs
        push_cast at hs
        omega
      · rcases Nat.eq_zero_or_pos (len m) with hlm | hlm
        · have := h.ghost m m0 m1b mu hlm
          have := ehead.2 hl
          simp only [DISK_BLOCKS] at *
          omega
        · exact absurd hhead (h.apart m e m0 m1b e0 e1b mu eu hme 0 0 hlm hl)

/-- Descriptor safety on a well-formed volume: the offset of every descriptor in use
lies between 0 and the size that `fs_get_filesize` returns for it. -/
theorem Sound.safe {s : State} {len : Int → Nat} (h : Sound s len) {fd : Int} (h0 : 0 ≤ fd)
    (h1 : fd < MAX_FILDES) (hu : (s.fildes_array fd).used ≠ 0) :
    0 ≤ (s.fildes_array fd).offset ∧ (s.fildes_array fd).offset ≤ fs_get_filesize s fd := by
  obtain ⟨e, e0, e1, _, eh, ef, o0, o1⟩ := h.first h0 h1 hu
  rw [fs_get_filesize_of s fd e h0 h1 hu e0 e1 eh ef]
  exact ⟨o0, o1⟩

/-- A slot with a chain on a well-formed volume: its head is a data block, the first
slot with that head. -/
theorem Sound.head_first {s : State} {len : Int → Nat} (h : Sound s len) {e : Int} (e0 : 0 ≤ e)
    (e1 : e < MAX_FILES_ALLOWED) (eu : (s.DIR e).used ≠ 0) (hl : 0 < len e) :
    6 ≤ (s.DIR e).head ∧ (s.DIR e).head < 8192 ∧
    ∀ j, 0 ≤ j → j < MAX_FILES_ALLOWED → j ≠ e → (s.DIR j).head ≠ (s.DIR e).head := by
  have hin := validChain_inDisk (h.chain e e0 e1 eu hl) 0 hl
  have h6 := h.blocks e e0 e1 eu 0 hl
  refine ⟨h6, hin.2, ?_⟩
  intro j j0 j1 hje hh
  have h6b : 6 ≤ (s.DIR e).head := h6
  have h8 : (s.DIR e).head < 8192 := hin.2
  by_cases ju : (s.DIR j).used = 0
  · have := h.unused j j0 j1 ju
    simp only [FREE] at this
    omega
  · rcases Nat.eq_zero_or_pos (len j) with hlj | hlj
    · have := h.ghost j j0 j1 ju hlj
      simp only [DISK_BLOCKS] at this
      omega
    · exact h.apart j e j0 j1 e0 e1 ju eu hje 0 0 hlj hl hh

theorem refSum_congr {D E : Int → dir_entry} (h : Int) (n : Nat)
    (hDE : ∀ e : Nat, e < n → (D e).used = (E e).used ∧ (D e).head = (E e).head
      ∧ (D e).ref_cnt = (E e).ref_cnt) :
    refSum D h n = refSum E h n := by
  induction n with
  | zero => rfl
  | succ n ih =>
    unfold refSum
    obtain ⟨a, b, c⟩ := hDE n (by omega)
    rw [ih (fun e he => hDE e (by omega)), a, b, c]

theorem refSum_zero {D : Int → dir_entry} {h : Int} {n : Nat}
    (hz : ∀ e : Int, 0 ≤ e → e < n → (D e).used ≠ 0 → (D e).head = h → (D e).ref_cnt = 0) :
    refSum D h n = 0 := by
  induction n with
  | zero => rfl
  | succ n ih =>
    unfold refSum
    rw [ih (fun e e0 e1 => hz e e0 (by push_cast; omega))]
    by_cases hc : (D n).used ≠ 0 ∧ (D n).head = h
    · rw [if_pos hc, hz n (by omega) (by push_cast; omega) hc.1 hc.2]
      rfl
    · rw [if_neg hc]
      rfl

theorem refSum_upd (D : Int → dir_entry) (h : Int) (i : Int) (d : dir_entry) (n : Nat) :
    refSum (upd D i d) h n = refSum D h n
      + (if 0 ≤ i ∧ i < n then
          (if d.used ≠ 0 ∧ d.head = h then d.ref_cnt else 0)
            - (if (D i).used ≠ 0 ∧ (D i).head = h then (D i).ref_cnt else 0)
        else 0) := by
  induction n with
  | zero =>
    rw [if_neg (by push_cast; omega)]
    rfl
  | succ n ih =>
    unfold refSum
    rw [ih]
    by_cases hj : (n : Int) = i
    · subst hj
      have c1 : ¬ ((0 : Int) ≤ (n : Int) ∧ (n : Int) < (n : Int)) := by omega
      have c2 : (0 : Int) ≤ (n : Int) ∧ (n : Int) < ((n + 1 : Nat) : Int) := by
        push_cast
        omega
      rw [upd_same, if_neg c1, if_pos c2]
      omega
    · rw [upd_other _ _ hj]
      by_cases hlt : 0 ≤ i ∧ i < (n : Int)
      · have c2 : 0 ≤ i ∧ i < ((n + 1 : Nat) : Int) := by
          push_cast
          omega
        rw [if_pos hlt, if_pos c2]
        omega
      · have c2 : ¬ (0 ≤ i ∧ i < ((n + 1 : Nat) : Int)) := by
          push_cast
          omega
        rw [if_neg hlt, if_neg c2]
        omega

/-- A sum of reference counts that is not 0 has a used slot with that head whose
`ref_cnt` is not 0. -/
theorem refSum_exists {D : Int → dir_entry} {h : Int} {n : Nat} (hne : refSum D h n ≠ 0) :
    ∃ e : Int, 0 ≤ e ∧ e < n ∧ (D e).used ≠ 0 ∧ (D e).head = h ∧ (D e).ref_cnt ≠ 0 := by
  by_contra hno
  apply hne
  apply refSum_zero
  intro e e0 e1 eu eh
  by_contra hr
  exact hno ⟨e, e0, e1, eu, eh, hr⟩

/-- The sums of reference counts and the counts of descriptors after a call that changes
neither `used`, `head` nor `ref_cnt` of a slot, nor `used` nor `file` of a descriptor. -/
theorem ghosts_same {s s1 : State} (h : Int)
    (hg : s.mounted ≠ 0 → refSum s.DIR h 64 = openCount s.fildes_array h 32)
    (hm : s1.mounted = s.mounted)
    (hdir : ∀ e, (s1.DIR e).used = (s.DIR e).used ∧ (s1.DIR e).head = (s.DIR e).head
      ∧ (s1.DIR e).ref_cnt = (s.DIR e).ref_cnt)
    (hfds : ∀ j, (s1.fildes_array j).used = (s.fildes_array j).used
      ∧ (s1.fildes_array j).file = (s.fildes_array j).file) :
    s1.mounted ≠ 0 → refSum s1.DIR h 64 = openCount s1.fildes_array h 32 := by
  intro hm1
  rw [hm] at hm1
  rw [refSum_congr h 64 (fun e _ => hdir e), hg hm1]
  apply openCount_congr
  intro j _
  rw [(hfds j).1, (hfds j).2]

/-- Well-formedness after a call that rebuilds at most the chain of slot `e0`: the
other used slots keep their head, size and chain, no FAT entry of their chains is
changed, and the blocks of the new chain of `e0` are none of theirs. -/
theorem Sound.build {s s1 : State} {len len1 : Int → Nat} (h : Sound s len) (e0 : Int)
    (hd : s1.fs.data_idx = 6)
    (hunused : ∀ e, 0 ≤ e → e < MAX_FILES_ALLOWED → (s1.DIR e).used = 0 →
      (s1.DIR e).head = 0 ∨ (s1.DIR e).head = FREE)
    (hkeep : ∀ e, 0 ≤ e → e < MAX_FILES_ALLOWED → e ≠ e0 → (s1.DIR e).used ≠ 0 →
      (s.DIR e).used ≠ 0 ∧ (s1.DIR e).head = (s.DIR e).head ∧ (s1.DIR e).size = (s.DIR e).size
        ∧ len1 e = len e)
    (hfat : ∀ e, 0 ≤ e → e < MAX_FILES_ALLOWED → e ≠ e0 → (s.DIR e).used ≠ 0 → ∀ k, k < len e →
      s1.FAT (nthBlock s.FAT (s.DIR e).head k) = s.FAT (nthBlock s.FAT (s.DIR e).head k))
    (hnew : 0 ≤ e0 → e0 < MAX_FILES_ALLOWED → (s1.DIR e0).used ≠ 0 →
      (len1 e0 = 0 → (s1.DIR e0).head = DISK_BLOCKS) ∧
      (0 < len1 e0 → validChain s1.FAT (s1.DIR e0).head (len1 e0)) ∧
      (∀ k, k < len1 e0 → 6 ≤ nthBlock s1.FAT (s1.DIR e0).head k) ∧
      0 ≤ (s1.DIR e0).size ∧ (s1.DIR e0).size ≤ BLOCK_SIZE * len1 e0 ∧
      (s1.DIR e0).size ≤ STORAGE ∧
      (∀ k, k < len1 e0 → ∀ e, 0 ≤ e → e < MAX_FILES_ALLOWED → e ≠ e0 → (s.DIR e).used ≠ 0 →
        ∀ k2, k2 < len e →
          nthBlock s1.FAT (s1.DIR e0).head k ≠ nthBlock s.FAT (s.DIR e).head k2))
    (hdescr : ∀ fd, 0 ≤ fd → fd < MAX_FILDES → (s1.fildes_array fd).used ≠ 0 →
      ∃ e, 0 ≤ e ∧ e < MAX_FILES_ALLOWED ∧ (s1.DIR e).used ≠ 0 ∧
        (s1.DIR e).head = (s1.fildes_array fd).file ∧
        0 ≤ (s1.fildes_array fd).offset ∧ (s1.fildes_array fd).offset ≤ (s1.DIR e).size)
    (hrefs : s1.mounted ≠ 0 → ∀ e, 0 ≤ e → e < MAX_FILES_ALLOWED → (s1.DIR e).used ≠ 0 →
      0 < len1 e → (s1.DIR e).ref_cnt = openCount s1.fildes_array (s1.DIR e).head 32)
    (hghosts : s1.mounted ≠ 0 →
      refSum s1.DIR DISK_BLOCKS 64 = openCount s1.fildes_array DISK_BLOCKS 32)
    (hclosed : s1.mounted = 0 → ∀ fd, 0 ≤ fd → fd < MAX_FILDES → (s1.fildes_array fd).used = 0) :
    Sound s1 len1 := by
  have kept : ∀ e, 0 ≤ e → e < MAX_FILES_ALLOWED → e ≠ e0 → (s1.DIR e).used ≠ 0 →
      ∀ k, k ≤ len e → nthBlock s1.FAT (s1.DIR e).head k = nthBlock s.FAT (s.DIR e).head k := by
    intro e e0' e1 hne eu k hk
    obtain ⟨ou, oh, _, _⟩ := hkeep e e0' e1 hne eu
    rw [oh]
    exact nthBlock_congr (hfat e e0' e1 hne ou) k hk
  refine ⟨hd, hunused, ?_, ?_, ?_, ?_, ?_, ?_, hdescr, hrefs, hghosts, hclosed⟩
  · intro e e0' e1 eu hl
    by_cases hne : e = e0
    · subst hne
      exact (hnew e0' e1 eu).1 hl
    · obtain ⟨ou, oh, _, ol⟩ := hkeep e e0' e1 hne eu
      rw [oh]
      exact h.ghost e e0' e1 ou (by omega)
  · intro e e0' e1 eu hl
    by_cases hne : e = e0
    · subst hne
      exact (hnew e0' e1 eu).2.1 hl
    · obtain ⟨ou, oh, _, ol⟩ := hkeep e e0' e1 hne eu
      rw [oh, ol]
      exact (validChain_congr (h.chain e e0' e1 ou (by omega)) (hfat e e0' e1 hne ou)).1
  · intro e e0' e1 eu k hk
    by_cases hne : e = e0
    · subst hne
      exact (hnew e0' e1 eu).2.2.1 k hk
    · obtain ⟨ou, oh, _, ol⟩ := hkeep e e0' e1 hne eu
      rw [kept e e0' e1 hne eu k (by omega)]
      exact h.blocks e e0' e1 ou k (by omega)
  · intro e e0' e1 eu
    by_cases hne : e = e0
    · subst hne
      exact (hnew e0' e1 eu).2.2.2.1
    · obtain ⟨ou, _, os, _⟩ := hkeep e e0' e1 hne eu
      rw [os]
      exact h.size_lo e e0' e1 ou
  · intro e e0' e1 eu
    by_cases hne : e = e0
    · subst hne
      exact ⟨(hnew e0' e1 eu).2.2.2.2.1, (hnew e0' e1 eu).2.2.2.2.2.1⟩
    · obtain ⟨ou, _, os, ol⟩ := hkeep e e0' e1 hne eu
      rw [os, ol]
      exact h.size_hi e e0' e1 ou
  · intro e e2 e0' e1 e20 e21 eu e2u hne k k2 hk hk2
    by_cases he : e = e0
    · subst he
      have hne2 : e2 ≠ e := fun hh => hne hh.symm
      obtain ⟨ou2, _, _, ol2⟩ := hkeep e2 e20 e21 hne2 e2u
      rw [kept e2 e20 e21 hne2 e2u k2 (by omega)]
      exact (hnew e0' e1 eu).2.2.2.2.2.2 k hk e2 e20 e21 hne2 ou2 k2 (by omega)
    · obtain ⟨ou, _, _, ol⟩ := hkeep e e0' e1 he eu
      rw [kept e e0' e1 he eu k (by omega)]
      by_cases he2 : e2 = e0
      · subst he2
        exact fun hh => (hnew e20 e21 e2u).2.2.2.2.2.2 k2 hk2 e e0' e1 he ou k (by omega) hh.symm
      · obtain ⟨ou2, _, _, ol2⟩ := hkeep e2 e20 e21 he2 e2u
        rw [kept e2 e20 e21 he2 e2u k2 (by omega)]
        exact h.apart e e2 e0' e1 e20 e21 ou ou2 hne k k2 (by omega) (by omega)

/-! ## The descriptor table on a well-formed volume -/

theorem fs_lseek_cases (s : State) (fd : Int) (offset : Int) :
    fs_lseek s fd offset = none ∨ fs_lseek s fd offset = some (-1, s) ∨
    (0 ≤ fd ∧ fd < MAX_FILDES ∧ (s.fildes_array fd).used ≠ 0 ∧ 0 ≤ offset ∧
      offset ≤ fs_get_filesize s fd ∧
      fs_lseek s fd offset
        = some (0, { s with
                     fildes_array :=
                       upd s.fildes_array fd { s.fildes_array fd with offset := offset } })) := by
  unfold fs_lseek
  simp only []
  by_cases h1 : offset > fs_get_filesize s fd ∨ offset < 0
  · rw [if_pos h1]
    exact Or.inr (Or.inl rfl)
  rw [if_neg h1]
  by_cases h2 : fd > MAX_FILDES ∨ fd < 0
  · rw [if_pos h2]
    exact Or.inr (Or.inl rfl)
  rw [if_neg h2]
  by_cases h3 : ¬ fd < MAX_FILDES
  · rw [if_pos h3]
    exact Or.inl rfl
  rw [if_neg h3]
  by_cases h4 : (s.fildes_array fd).used = 0
  · rw [if_pos h4]
    exact Or.inr (Or.inl rfl)
  rw [if_neg h4]
  exact Or.inr (Or.inr ⟨by omega, by omega, h4, by omega, by omega, rfl⟩)

theorem fs_lseek_sound {s : State} {len : Int → Nat} (h : Sound s len) (fd offset r : Int)
    (s1 : State) (hc : fs_lseek s fd offset = some (r, s1)) : Sound s1 len := by
  rcases fs_lseek_cases s fd offset with h1 | h1 | ⟨f0, f1, fu, o0, o1, h1⟩
  · rw [h1] at hc
    cases hc
  · rw [h1] at hc
    have hs : s = s1 := congrArg Prod.snd (Option.some.inj hc)
    rw [← hs]
    exact h
  · rw [h1] at hc
    have hs := congrArg Prod.snd (Option.some.inj hc)
    simp only at hs
    subst hs
    obtain ⟨e, e0, e1, eu, eh, ef, _, _⟩ := h.first f0 f1 fu
    rw [fs_get_filesize_of s fd e f0 f1 fu e0 e1 eh ef] at o1
    refine h.build (-1) h.data_idx h.unused (fun e e0 e1 _ eu => ⟨eu, rfl, rfl, rfl⟩)
      (fun _ _ _ _ _ _ _ => rfl) (fun hh => absurd hh (by decide)) ?_ ?_ ?_ ?_
    · intro j j0 j1 ju
      by_cases hj : j = fd
      · subst hj
        refine ⟨e, e0, e1, eu, ?_, ?_, ?_⟩
        · show (s.DIR e).head = (upd s.fildes_array j _ j).file
          rw [upd_same]
          exact eh
        · show 0 ≤ (upd s.fildes_array j _ j).offset
          rw [upd_same]
          exact o0
        · show (upd s.fildes_array j _ j).offset ≤ _
          rw [upd_same]
          exact o1
      · have hsame : (upd s.fildes_array fd { s.fildes_array fd with offset := offset }) j
            = s.fildes_array j := upd_other _ _ hj
        have ju2 : (s.fildes_array j).used ≠ 0 := by
          rw [← hsame]
          exact ju
        obtain ⟨e2, a, b, c, d, f, g⟩ := h.descr j j0 j1 ju2
        refine ⟨e2, a, b, c, ?_, ?_, ?_⟩
        · show (s.DIR e2).head = (upd s.fildes_array fd _ j).file
          rw [hsame]
          exact d
        · show 0 ≤ (upd s.fildes_array fd _ j).offset
          rw [hsame]
          exact f
        · show (upd s.fildes_array fd _ j).offset ≤ _
          rw [hsame]
          exact g
    · intro hm e e0 e1 eu hl
      show (s.DIR e).ref_cnt = openCount (upd s.fildes_array fd _) (s.DIR e).head 32
      rw [h.refs hm e e0 e1 eu hl]
      apply openCount_congr
      intro j _
      by_cases hj : (j : Int) = fd
      · rw [hj, upd_same]
      · rw [upd_other _ _ hj]
    · refine ghosts_same DISK_BLOCKS h.ghosts rfl (fun _ => ⟨rfl, rfl, rfl⟩) ?_
      intro j
      show (upd s.fildes_array fd _ j).used = _ ∧ (upd s.fildes_array fd _ j).file = _
      by_cases hj : j = fd
      · rw [hj, upd_same]
        exact ⟨rfl, rfl⟩
      · rw [upd_other _ _ hj]
        exact ⟨rfl, rfl⟩
    · intro hm j j0 j1
      show (upd s.fildes_array fd _ j).used = 0
      by_cases hj : j = fd
      · rw [hj, upd_same]
        exact h.closed hm fd f0 f1
      · rw [upd_other _ _ hj]
        exact h.closed hm j j0 j1

theorem fs_open_cases (s : State) (name : String) :
    fs_open s name = some (-1, s) ∨
    ∃ i j, scan (fun i => decide ((s.DIR i).name = name)) 64 0 = some i ∧
      scan (fun j => decide ((s.fildes_array j).used = 0)) 32 0 = some j ∧
      fs_open s name
        = some (j, { s with
                     fildes_array :=
                       upd s.fildes_array j { used := 1, file := (s.DIR i).head, offset := 0 }
                     DIR := upd s.DIR i { s.DIR i with ref_cnt := (s.DIR i).ref_cnt + 1 } }) := by
  by_cases hcnt : s.file_counter = 0
  · left
    unfold fs_open
    rw [if_pos hcnt]
  cases hi : scan (fun i => decide ((s.DIR i).name = name)) 64 0 with
  | none =>
    left
    unfold fs_open
    rw [if_neg hcnt]
    simp only [hi]
  | some i =>
    cases hj : scan (fun j => decide ((s.fildes_array j).used = 0)) 32 0 with
    | none => exact Or.inl (fs_open_full s name hj)
    | some j => exact Or.inr ⟨i, j, rfl, rfl, fs_open_ok s name i j hcnt hi hj⟩

theorem fs_open_sound {s : State} {len : Int → Nat} (h : Sound s len) (hm : s.mounted ≠ 0)
    (name : String) (r : Int) (s1 : State) (hc : fs_open s name = some (r, s1))
    (hadm : admitted s (.fs_open name) r = true) : Sound s1 len := by
  rcases fs_open_cases s name with h1 | ⟨i, j, hi, hj, h1⟩
  · rw [h1] at hc
    have hs : s = s1 := congrArg Prod.snd (Option.some.inj hc)
    rw [← hs]
    exact h
  · rw [h1] at hc
    have hr : j = r := congrArg Prod.fst (Option.some.inj hc)
    have hs := congrArg Prod.snd (Option.some.inj hc)
    simp only at hs
    subst hs
    obtain ⟨j0, j1, jp, _⟩ := scan_some hj
    obtain ⟨i0, i1, _, _⟩ := scan_some hi
    have ju : (s.fildes_array j).used = 0 := by simpa using jp
    have j1b : j < MAX_FILDES := by simp only [MAX_FILDES]; push_cast at j1; omega
    have i1b : i < MAX_FILES_ALLOWED := by simp only [MAX_FILES_ALLOWED]; push_cast at i1; omega
    have iu : (s.DIR i).used ≠ 0 := by
      unfold admitted at hadm
      simp only [hi] at hadm
      have hr1 : r ≠ -1 := by omega
      simpa [hr1] using hadm
    have hdir : ∀ e, (upd s.DIR i { s.DIR i with ref_cnt := (s.DIR i).ref_cnt + 1 } e).used
          = (s.DIR e).used ∧
        (upd s.DIR i { s.DIR i with ref_cnt := (s.DIR i).ref_cnt + 1 } e).head = (s.DIR e).head ∧
        (upd s.DIR i { s.DIR i with ref_cnt := (s.DIR i).ref_cnt + 1 } e).size
          = (s.DIR e).size := by
      intro e
      by_cases he : e = i
      · rw [he, upd_same]
        exact ⟨rfl, rfl, rfl⟩
      · rw [upd_other _ _ he]
        exact ⟨rfl, rfl, rfl⟩
    refine h.build (-1) h.data_idx ?_ ?_ (fun _ _ _ _ _ _ _ => rfl)
      (fun hh => absurd hh (by decide)) ?_ ?_ ?_ ?_
    · intro e e0 e1 eu
      show (upd s.DIR i _ e).head = 0 ∨ (upd s.DIR i _ e).head = FREE
      rw [(hdir e).2.1]
      exact h.unused e e0 e1 (by rw [← (hdir e).1]; exact eu)
    · intro e e0 e1 _ eu
      exact ⟨by rw [← (hdir e).1]; exact eu, (hdir e).2.1, (hdir e).2.2, rfl⟩
    · intro fd f0 f1 fu
      by_cases hfd : fd = j
      · subst hfd
        refine ⟨i, i0, i1b, by rw [(hdir i).1]; exact iu, ?_, ?_, ?_⟩
        · show (upd s.DIR i _ i).head = (upd s.fildes_array fd _ fd).file
          rw [(hdir i).2.1, upd_same]
        · show 0 ≤ (upd s.fildes_array fd _ fd).offset
          rw [upd_same]
        · show (upd s.fildes_array fd _ fd).offset ≤ (upd s.DIR i _ i).size
          rw [upd_same, (hdir i).2.2]
          exact h.size_lo i i0 i1b iu
      · have hsame : (upd s.fildes_array j { used := 1, file := (s.DIR i).head, offset := 0 }) fd
            = s.fildes_array fd := upd_other _ _ hfd
        have fu2 : (s.fildes_array fd).used ≠ 0 := by
          rw [← hsame]
          exact fu
        obtain ⟨e2, a, b, c, d, f, g⟩ := h.descr fd f0 f1 fu2
        refine ⟨e2, a, b, by rw [(hdir e2).1]; exact c, ?_, ?_, ?_⟩
        · show (upd s.DIR i _ e2).head = (upd s.fildes_array j _ fd).file
          rw [hsame, (hdir e2).2.1]
          exact d
        · show 0 ≤ (upd s.fildes_array j _ fd).offset
          rw [hsame]
          exact f
        · show (upd s.fildes_array j _ fd).offset ≤ (upd s.DIR i _ e2).size
          rw [hsame, (hdir e2).2.2]
          exact g
    · intro _ e e0 e1 eu hl
      have eu2 : (s.DIR e).used ≠ 0 := by rw [← (hdir e).1]; exact eu
      show (upd s.DIR i _ e).ref_cnt = openCount (upd s.fildes_array j _) (upd s.DIR i _ e).head 32
      rw [(hdir e).2.1, openCount_upd, if_pos ⟨j0, by push_cast at j1 ⊢; omega⟩,
        if_neg (fun hh : (s.fildes_array j).used ≠ 0 ∧ _ => hh.1 ju), ← h.refs hm e e0 e1 eu2 hl]
      by_cases he : e = i
      · subst he
        rw [upd_same, if_pos ⟨(show (1 : Int) ≠ 0 by decide), rfl⟩]
        show (s.DIR e).ref_cnt + 1 = (s.DIR e).ref_cnt + (1 - 0)
        omega
      · rw [upd_other _ _ he, if_neg]
        · omega
        · intro hh
          exact (h.head_first e0 e1 eu2 hl).2.2 i i0 i1b (fun x => he x.symm) hh.2
    · intro _
      show refSum (upd s.DIR i _) DISK_BLOCKS 64 = openCount (upd s.fildes_array j _) DISK_BLOCKS 32
      have ci : 0 ≤ i ∧ i < ((64 : Nat) : Int) := ⟨i0, by push_cast at i1 ⊢; omega⟩
      have cj : 0 ≤ j ∧ j < ((32 : Nat) : Int) := ⟨j0, by push_cast at j1 ⊢; omega⟩
      have cu : ¬ ((s.fildes_array j).used ≠ 0 ∧ (s.fildes_array j).file = DISK_BLOCKS) :=
        fun hh => hh.1 ju
      rw [refSum_upd, openCount_upd, if_pos ci, if_pos cj, h.ghosts hm, if_neg cu]
      by_cases hh : (s.DIR i).head = DISK_BLOCKS
      · have c1 : (s.DIR i).used ≠ 0 ∧ (s.DIR i).head = DISK_BLOCKS := ⟨iu, hh⟩
        have c2 : (1 : Int) ≠ 0 ∧ (s.DIR i).head = DISK_BLOCKS := ⟨by decide, hh⟩
        simp only [if_pos c1, if_pos c2]
        omega
      · have c1 : ¬ ((s.DIR i).used ≠ 0 ∧ (s.DIR i).head = DISK_BLOCKS) := fun x => hh x.2
        have c2 : ¬ ((1 : Int) ≠ 0 ∧ (s.DIR i).head = DISK_BLOCKS) := fun x => hh x.2
        simp only [if_neg c1, if_neg c2]
    · intro hm0
      exact absurd hm0 hm

theorem fs_close_cases (s : State) (fd : Int) :
    fs_close s fd = some (-1, s) ∨
    ∃ i, 0 ≤ fd ∧ fd < MAX_FILDES ∧
      scan (fun i => decide ((s.DIR i).head = (s.fildes_array fd).file
                              ∧ (s.fildes_array fd).used ≠ 0)) 64 0 = some i ∧
      fs_close s fd
        = some (0, { s with
                     DIR := upd s.DIR i { s.DIR i with ref_cnt := (s.DIR i).ref_cnt - 1 }
                     fildes_array :=
                       upd s.fildes_array fd { used := 0, file := FREE, offset := 0 } }) := by
  by_cases h1 : fd ≥ MAX_FILDES ∨ fd < 0
  · left
    unfold fs_close
    rw [if_pos h1]
  cases hi : scan (fun i => decide ((s.DIR i).head = (s.fildes_array fd).file
                              ∧ (s.fildes_array fd).used ≠ 0)) 64 0 with
  | none =>
    left
    unfold fs_close
    rw [if_neg h1]
    simp only [hi]
  | some i => exact Or.inr ⟨i, by omega, by omega, rfl, fs_close_ok s fd i (by omega) (by omega) hi⟩

theorem fs_close_sound {s : State} {len : Int → Nat} (h : Sound s len) (hm : s.mounted ≠ 0)
    (fd r : Int) (s1 : State) (hc : fs_close s fd = some (r, s1)) : Sound s1 len := by
  rcases fs_close_cases s fd with h1 | ⟨i, f0, f1, hi, h1⟩
  · rw [h1] at hc
    have hs : s = s1 := congrArg Prod.snd (Option.some.inj hc)
    rw [← hs]
    exact h
  · rw [h1] at hc
    have hs := congrArg Prod.snd (Option.some.inj hc)
    simp only at hs
    subst hs
    obtain ⟨i0, i1, ip, _⟩ := scan_some hi
    have ip2 : (s.DIR i).head = (s.fildes_array fd).file ∧ (s.fildes_array fd).used ≠ 0 := by
      simpa using ip
    have i1b : i < MAX_FILES_ALLOWED := by simp only [MAX_FILES_ALLOWED]; push_cast at i1; omega
    have hdir : ∀ e, (upd s.DIR i { s.DIR i with ref_cnt := (s.DIR i).ref_cnt - 1 } e).used
          = (s.DIR e).used ∧
        (upd s.DIR i { s.DIR i with ref_cnt := (s.DIR i).ref_cnt - 1 } e).head = (s.DIR e).head ∧
        (upd s.DIR i { s.DIR i with ref_cnt := (s.DIR i).ref_cnt - 1 } e).size
          = (s.DIR e).size := by
      intro e
      by_cases he : e = i
      · rw [he, upd_same]
        exact ⟨rfl, rfl, rfl⟩
      · rw [upd_other _ _ he]
        exact ⟨rfl, rfl, rfl⟩
    refine h.build (-1) h.data_idx ?_ ?_ (fun _ _ _ _ _ _ _ => rfl)
      (fun hh => absurd hh (by decide)) ?_ ?_ ?_ ?_
    · intro e e0 e1 eu
      show (upd s.DIR i _ e).head = 0 ∨ (upd s.DIR i _ e).head = FREE
      rw [(hdir e).2.1]
      exact h.unused e e0 e1 (by rw [← (hdir e).1]; exact eu)
    · intro e e0 e1 _ eu
      exact ⟨by rw [← (hdir e).1]; exact eu, (hdir e).2.1, (hdir e).2.2, rfl⟩
    · intro j j0 j1 ju
      have hj : j ≠ fd := by
        intro hh
        subst hh
        have : (upd s.fildes_array j { used := 0, file := FREE, offset := 0 } j).used ≠ 0 := ju
        rw [upd_same] at this
        exact this rfl
      have hsame : (upd s.fildes_array fd { used := 0, file := FREE, offset := 0 }) j
          = s.fildes_array j := upd_other _ _ hj
      have ju2 : (s.fildes_array j).used ≠ 0 := by
        rw [← hsame]
        exact ju
      obtain ⟨e2, a, b, c, d, f, g⟩ := h.descr j j0 j1 ju2
      refine ⟨e2, a, b, by rw [(hdir e2).1]; exact c, ?_, ?_, ?_⟩
      · show (upd s.DIR i _ e2).head = (upd s.fildes_array fd _ j).file
        rw [hsame, (hdir e2).2.1]
        exact d
      · show 0 ≤ (upd s.fildes_array fd _ j).offset
        rw [hsame]
        exact f
      · show (upd s.fildes_array fd _ j).offset ≤ (upd s.DIR i _ e2).size
        rw [hsame, (hdir e2).2.2]
        exact g
    · intro _ e e0 e1 eu hl
      have eu2 : (s.DIR e).used ≠ 0 := by rw [← (hdir e).1]; exact eu
      show (upd s.DIR i _ e).ref_cnt = openCount (upd s.fildes_array fd _) (upd s.DIR i _ e).head 32
      rw [(hdir e).2.1, openCount_upd, if_pos ⟨f0, by simp only [MAX_FILDES] at f1; push_cast; omega⟩,
        if_neg (fun hh : (0 : Int) ≠ 0 ∧ _ => hh.1 rfl), ← h.refs hm e e0 e1 eu2 hl]
      by_cases he : e = i
      · subst he
        rw [upd_same, if_pos ⟨ip2.2, ip2.1.symm⟩]
        show (s.DIR e).ref_cnt - 1 = (s.DIR e).ref_cnt + (0 - 1)
        omega
      · rw [upd_other _ _ he, if_neg]
        · omega
        · intro hh
          exact (h.head_first e0 e1 eu2 hl).2.2 i i0 i1b (fun x => he x.symm)
            (ip2.1.trans hh.2)
    · intro _
      show refSum (upd s.DIR i _) DISK_BLOCKS 64 = openCount (upd s.fildes_array fd _) DISK_BLOCKS 32
      have ci : 0 ≤ i ∧ i < ((64 : Nat) : Int) := ⟨i0, by push_cast at i1 ⊢; omega⟩
      have cj : 0 ≤ fd ∧ fd < ((32 : Nat) : Int) :=
        ⟨f0, by simp only [MAX_FILDES] at f1; push_cast; omega⟩
      have cu : ¬ ((0 : Int) ≠ 0 ∧ FREE = DISK_BLOCKS) := fun hh => hh.1 rfl
      rw [refSum_upd, openCount_upd, if_pos ci, if_pos cj, h.ghosts hm]
      simp only [if_neg cu]
      by_cases hh : (s.DIR i).head = DISK_BLOCKS
      · have iu : (s.DIR i).used ≠ 0 := by
          intro hu
          rcases h.unused i i0 i1b hu with h0 | h0
          · rw [h0] at hh
            exact absurd hh (by decide)
          · rw [h0] at hh
            exact absurd hh (by decide)
        have c1 : (s.DIR i).used ≠ 0 ∧ (s.DIR i).head = DISK_BLOCKS := ⟨iu, hh⟩
        have c2 : (s.fildes_array fd).used ≠ 0 ∧ (s.fildes_array fd).file = DISK_BLOCKS :=
          ⟨ip2.2, ip2.1.symm.trans hh⟩
        simp only [if_pos c1, if_pos c2]
        omega
      · have c1 : ¬ ((s.DIR i).used ≠ 0 ∧ (s.DIR i).head = DISK_BLOCKS) := fun x => hh x.2
        have c2 : ¬ ((s.fildes_array fd).used ≠ 0 ∧ (s.fildes_array fd).file = DISK_BLOCKS) :=
          fun x => hh (ip2.1.trans x.2)
        simp only [if_neg c1, if_neg c2]
    · intro hm0
      exact absurd hm0 hm

/-! ## The directory on a well-formed volume -/

theorem fs_create_cases2 (s : State) (name : String) (hd : 0 ≤ s.fs.data_idx) :
    fs_create s name = some (-1, s) ∨
    ∃ i FAT1, (∀ b, s.FAT b ≠ FREE → FAT1 b = s.FAT b) ∧
      ((s.fs.data_idx ≤ i ∧ i < DISK_BLOCKS ∧ s.FAT i = FREE ∧ FAT1 i = END_MARKER) ∨
        i = s.fs.data_idx + (DISK_BLOCKS - s.fs.data_idx).toNat) ∧
      (fs_create s name = some (-1, { s with FAT := FAT1 }) ∨
        ∃ j, scan (fun j => decide ((s.DIR j).used = 0)) 64 0 = some j ∧
          fs_create s name
            = some (0, { s with
                         FAT := FAT1
                         file_counter := s.file_counter + 1
                         DIR := upd s.DIR j
                           { used := 1, name := name, size := 0, head := i, ref_cnt := 0 }
                         fs := { s.fs with dir_len := s.fs.dir_len + 1 } })) := by
  unfold fs_create
  by_cases h1 : s.file_counter ≥ MAX_FILES_ALLOWED
  · rw [if_pos h1]
    exact Or.inl rfl
  rw [if_neg h1]
  by_cases h2 : name.length > MAX_F_NAME
  · rw [if_pos h2]
    exact Or.inl rfl
  rw [if_neg h2]
  by_cases h3 : (scan (fun i => decide ((s.DIR i).used ≠ 0 ∧ (s.DIR i).name = name)) 64 0).isSome
  · rw [if_pos h3]
    exact Or.inl rfl
  rw [if_neg h3, if_neg (not_lt.mpr hd)]
  simp only []
  right
  cases hfound : scan (fun j => decide (s.FAT j = FREE)) (DISK_BLOCKS - s.fs.data_idx).toNat
      s.fs.data_idx with
  | none =>
    simp only [Option.getD_none, Option.isSome_none, Bool.false_eq_true, if_false]
    refine ⟨_, s.FAT, fun _ _ => rfl, Or.inr rfl, ?_⟩
    cases h5 : scan (fun j => decide ((s.DIR j).used = 0)) 64 0 with
    | none => exact Or.inl rfl
    | some j => exact Or.inr ⟨j, rfl, rfl⟩
  | some i =>
    simp only [Option.getD_some, Option.isSome_some, if_true]
    obtain ⟨i0, i1, ip, _⟩ := scan_some hfound
    have ifree : s.FAT i = FREE := by simpa using ip
    refine ⟨i, upd s.FAT i END_MARKER, ?_, Or.inl ⟨i0, ?_, ifree, upd_same _ _ _⟩, ?_⟩
    · intro b hb
      exact upd_other _ _ (fun hh => hb (hh ▸ ifree))
    · simp only [DISK_BLOCKS] at i1 ⊢
      omega
    · cases h5 : scan (fun j => decide ((s.DIR j).used = 0)) 64 0 with
      | none => exact Or.inl rfl
      | some j => exact Or.inr ⟨j, rfl, rfl⟩

/-- No chain block of a used slot is FREE. -/
theorem Sound.not_free {s : State} {len : Int → Nat} (h : Sound s len) {e : Int} (e0 : 0 ≤ e)
    (e1 : e < MAX_FILES_ALLOWED) (eu : (s.DIR e).used ≠ 0) {k : Nat} (hk : k < len e) :
    s.FAT (nthBlock s.FAT (s.DIR e).head k) ≠ FREE :=
  validChain_not_free (h.chain e e0 e1 eu (by omega)) hk

/-- The file of a descriptor in use is not a FREE data block. -/
theorem Sound.file_not_free {s : State} {len : Int → Nat} (h : Sound s len) {fd : Int}
    (f0 : 0 ≤ fd) (f1 : fd < MAX_FILDES) (fu : (s.fildes_array fd).used ≠ 0) {i : Int}
    (i1 : i < DISK_BLOCKS) (ifree : s.FAT i = FREE) : (s.fildes_array fd).file ≠ i := by
  obtain ⟨e, e0, e1, eu, eh, _, _⟩ := h.descr fd f0 f1 fu
  intro hh
  rcases Nat.eq_zero_or_pos (len e) with hl | hl
  · have := h.ghost e e0 e1 eu hl
    simp only [DISK_BLOCKS] at this i1
    omega
  · have := h.not_free e0 e1 eu hl
    rw [show nthBlock s.FAT (s.DIR e).head 0 = (s.DIR e).head from rfl, eh, hh] at this
    exact this ifree

theorem fs_create_sound {s : State} {len : Int → Nat} (h : Sound s len)
    (name : String) (r : Int) (s1 : State) (hc : fs_create s name = some (r, s1)) :
    ∃ len1, Sound s1 len1 := by
  have hd6 := h.data_idx
  rcases fs_create_cases2 s name (by rw [hd6]; decide) with h1 | ⟨i, FAT1, hF, hi, h1 | ⟨j, hj, h1⟩⟩
  · rw [h1] at hc
    have hs : s = s1 := congrArg Prod.snd (Option.some.inj hc)
    rw [← hs]
    exact ⟨len, h⟩
  · rw [h1] at hc
    have hs := congrArg Prod.snd (Option.some.inj hc)
    simp only at hs
    subst hs
    exact ⟨len, h.build (-1) hd6 h.unused (fun e e0 e1 _ eu => ⟨eu, rfl, rfl, rfl⟩)
      (fun e e0 e1 _ eu k hk => hF _ (h.not_free e0 e1 eu hk))
      (fun hh => absurd hh (by decide)) h.descr h.refs h.ghosts h.closed⟩
  · rw [h1] at hc
    have hs := congrArg Prod.snd (Option.some.inj hc)
    simp only at hs
    subst hs
    obtain ⟨j0, j1, jp, _⟩ := scan_some hj
    have ju : (s.DIR j).used = 0 := by simpa using jp
    have j1b : j < MAX_FILES_ALLOWED := by simp only [MAX_FILES_ALLOWED]; push_cast at j1; omega
    have hother : ∀ e, (s.DIR e).used ≠ 0 →
        upd s.DIR j { used := 1, name := name, size := 0, head := i, ref_cnt := 0 } e = s.DIR e := by
      intro e eu
      exact upd_other _ _ (fun hh => eu (hh ▸ ju))
    have hne : ∀ e, e ≠ j →
        upd s.DIR j { used := 1, name := name, size := 0, head := i, ref_cnt := 0 } e = s.DIR e :=
      fun e he => upd_other _ _ he
    have hi8 : i ≤ 8192 := by
      rcases hi with ⟨_, a, _, _⟩ | a
      · simp only [DISK_BLOCKS] at a
        omega
      · rw [a, hd6]
        decide
    refine ⟨fun e => if e = j then (if i < DISK_BLOCKS then 1 else 0) else len e, ?_⟩
    refine h.build j hd6 ?_ ?_ ?_ ?_ ?_ ?_ ?_ ?_
    · intro e e0 e1 eu
      by_cases he : e = j
      · subst he
        have : (upd s.DIR e { used := 1, name := name, size := 0, head := i, ref_cnt := 0 } e).used
            = 0 := eu
        rw [upd_same] at this
        exact absurd (show (1 : Int) = 0 from this) (by decide)
      · show (upd s.DIR j _ e).head = 0 ∨ (upd s.DIR j _ e).head = FREE
        rw [hne e he]
        exact h.unused e e0 e1 (by rw [← hne e he]; exact eu)
    · intro e e0 e1 he eu
      have eu2 : (s.DIR e).used ≠ 0 := by rw [← hne e he]; exact eu
      refine ⟨eu2, ?_, ?_, if_neg he⟩
      · show (upd s.DIR j _ e).head = _
        rw [hne e he]
      · show (upd s.DIR j _ e).size = _
        rw [hne e he]
    · intro e e0 e1 _ eu k hk
      exact hF _ (h.not_free e0 e1 eu hk)
    · intro _ _ _
      have hh : (upd s.DIR j { used := 1, name := name, size := 0, head := i, ref_cnt := 0 } j).head
          = i := by rw [upd_same]
      have hz : (upd s.DIR j { used := 1, name := name, size := 0, head := i, ref_cnt := 0 } j).size
          = 0 := by rw [upd_same]
      show ((if j = j then (if i < DISK_BLOCKS then 1 else 0) else len j) = 0 →
          (upd s.DIR j _ j).head = DISK_BLOCKS) ∧
        (0 < (if j = j then (if i < DISK_BLOCKS then 1 else 0) else len j) →
          validChain FAT1 (upd s.DIR j _ j).head
            (if j = j then (if i < DISK_BLOCKS then 1 else 0) else len j)) ∧
        (∀ k, k < (if j = j then (if i < DISK_BLOCKS then 1 else 0) else len j) →
          6 ≤ nthBlock FAT1 (upd s.DIR j _ j).head k) ∧
        0 ≤ (upd s.DIR j _ j).size ∧
        (upd s.DIR j _ j).size
          ≤ BLOCK_SIZE * ((if j = j then (if i < DISK_BLOCKS then 1 else 0) else len j : Nat) : Int) ∧
        (upd s.DIR j _ j).size ≤ STORAGE ∧
        (∀ k, k < (if j = j then (if i < DISK_BLOCKS then 1 else 0) else len j) →
          ∀ e, 0 ≤ e → e < MAX_FILES_ALLOWED → e ≠ j → (s.DIR e).used ≠ 0 → ∀ k2, k2 < len e →
            nthBlock FAT1 (upd s.DIR j _ j).head k ≠ nthBlock s.FAT (s.DIR e).head k2)
      rw [hh, hz, if_pos rfl]
      rcases hi with ⟨a, b, c, d⟩ | a
      · rw [if_pos b]
        refine ⟨fun x => absurd x (by decide), fun _ => ⟨⟨by omega, b⟩, d⟩, ?_, le_refl _,
          by decide, by decide, ?_⟩
        · intro k hk
          have : k = 0 := by omega
          subst this
          show 6 ≤ i
          omega
        · intro k hk e e0 e1 _ eu k2 hk2
          have : k = 0 := by omega
          subst this
          show i ≠ _
          intro hx
          exact h.not_free e0 e1 eu hk2 (hx ▸ c)
      · have hi2 : ¬ i < DISK_BLOCKS := by
          rw [a, hd6]
          decide
        rw [if_neg hi2]
        refine ⟨fun _ => ?_, fun x => absurd x (by decide), fun k hk => absurd hk (by omega),
          le_refl _, by decide, by decide, fun k hk => absurd hk (by omega)⟩
        rw [a, hd6]
        decide
    · intro fd f0 f1 fu
      obtain ⟨e, a, b, c, d, f, g⟩ := h.descr fd f0 f1 fu
      refine ⟨e, a, b, ?_, ?_, f, ?_⟩
      · show (upd s.DIR j _ e).used ≠ 0
        rw [hother e c]
        exact c
      · show (upd s.DIR j _ e).head = _
        rw [hother e c]
        exact d
      · show _ ≤ (upd s.DIR j _ e).size
        rw [hother e c]
        exact g
    · intro hm e e0 e1 eu hl
      show (upd s.DIR j _ e).ref_cnt = openCount s.fildes_array (upd s.DIR j _ e).head 32
      by_cases he : e = j
      · subst he
        rw [upd_same]
        show (0 : Int) = openCount s.fildes_array i 32
        have hl2 : 0 < (if e = e then (if i < DISK_BLOCKS then 1 else 0) else len e) := hl
        rw [if_pos rfl] at hl2
        have hlt : i < DISK_BLOCKS := by
          by_contra hx
          rw [if_neg hx] at hl2
          omega
        have ifree : s.FAT i = FREE := by
          rcases hi with ⟨_, _, c, _⟩ | a
          · exact c
          · rw [a, hd6] at hlt
            exact absurd hlt (by decide)
        rw [openCount_zero]
        intro fd f0 f1 hx
        exact h.file_not_free f0 (by simp only [MAX_FILDES]; push_cast at f1; omega) hx.1 hlt ifree
          hx.2
      · have hl2 : 0 < (if e = j then (if i < DISK_BLOCKS then 1 else 0) else len e) := hl
        rw [if_neg he] at hl2
        rw [hne e he]
        exact h.refs hm e e0 e1 (by rw [← hne e he]; exact eu) hl2
    · intro hm
      show refSum (upd s.DIR j _) DISK_BLOCKS 64 = openCount s.fildes_array DISK_BLOCKS 32
      have cj : 0 ≤ j ∧ j < ((64 : Nat) : Int) := ⟨j0, by push_cast at j1 ⊢; omega⟩
      have c1 : ¬ ((s.DIR j).used ≠ 0 ∧ (s.DIR j).head = DISK_BLOCKS) := fun x => x.1 ju
      rw [refSum_upd, if_pos cj, if_neg c1, h.ghosts hm]
      simp only [ite_self]
      omega
    · exact h.closed

/-! ## Deleting on a well-formed volume -/

theorem fs_delete_lax_of {s : State} {name : String} {r : Int × State}
    (h : fs_delete s name = some r) : fs_delete_lax s name = some r := by
  unfold fs_delete at h
  unfold fs_delete_lax
  by_cases hlen : name.length > MAX_F_NAME
  · rw [if_pos hlen] at h ⊢
    exact h
  · rw [if_neg hlen] at h ⊢
    cases he : scan (fun i => decide ((s.DIR i).name = name ∧ (s.DIR i).ref_cnt = 0)) 64 0 with
    | none =>
      simp only [he] at h ⊢
      exact h
    | some i =>
      simp only [he] at h ⊢
      by_cases hh : inDisk (s.DIR i).head
      · simp only [if_pos hh] at h ⊢
        exact h
      · simp only [if_neg hh] at h
        cases h

theorem fs_delete_lax_cases (s : State) (name : String) :
    fs_delete_lax s name = some (-1, s) ∨
    ∃ i, scan (fun i => decide ((s.DIR i).name = name ∧ (s.DIR i).ref_cnt = 0)) 64 0 = some i ∧
      fs_delete_lax s name
        = some (0, { s with
                     FAT := if inDisk (s.DIR i).head then
                              (if s.FAT (s.DIR i).head = FREE then s.FAT
                               else upd s.FAT (s.DIR i).head FREE)
                            else s.FAT
                     DIR := upd s.DIR i
                       { s.DIR i with used := 0, size := 0, head := FREE, name := "" }
                     fs := { s.fs with dir_len := s.fs.dir_len - 1 }
                     file_counter := s.file_counter - 1 }) := by
  unfold fs_delete_lax
  by_cases hlen : name.length > MAX_F_NAME
  · left
    rw [if_pos hlen]
  rw [if_neg hlen]
  cases he : scan (fun i => decide ((s.DIR i).name = name ∧ (s.DIR i).ref_cnt = 0)) 64 0 with
  | none =>
    left
    rfl
  | some i =>
    right
    refine ⟨i, rfl, ?_⟩
    by_cases hh : inDisk (s.DIR i).head
    · simp only [if_pos hh, deleteLoop_eq _ _ _ hh]
    · simp only [if_neg hh]

theorem fs_delete_lax_sound {s : State} {len : Int → Nat} (h : Sound s len)
    (hm : s.mounted ≠ 0) (name : String) (r : Int) (s1 : State)
    (hc : fs_delete_lax s name = some (r, s1)) : Sound s1 len := by
  rcases fs_delete_lax_cases s name with h1 | ⟨i, hi, h1⟩
  · rw [h1] at hc
    have hs : s = s1 := congrArg Prod.snd (Option.some.inj hc)
    rw [← hs]
    exact h
  · rw [h1] at hc
    have hs := congrArg Prod.snd (Option.some.inj hc)
    simp only at hs
    subst hs
    obtain ⟨i0, i1, ip, _⟩ := scan_some hi
    have iref : (s.DIR i).ref_cnt = 0 := by
      have : (s.DIR i).name = name ∧ (s.DIR i).ref_cnt = 0 := by simpa using ip
      exact this.2
    have i1b : i < MAX_FILES_ALLOWED := by simp only [MAX_FILES_ALLOWED]; push_cast at i1; omega
    have hne : ∀ e, e ≠ i →
        upd s.DIR i { s.DIR i with used := 0, size := 0, head := FREE, name := "" } e = s.DIR e :=
      fun e he => upd_other _ _ he
    have hused1 : ∀ e,
        (upd s.DIR i { s.DIR i with used := 0, size := 0, head := FREE, name := "" } e).used ≠ 0 →
        e ≠ i := by
      intro e eu he
      rw [he, upd_same] at eu
      exact eu rfl
    -- a used slot that is deleted has a chain and no descriptor
    have ilen : inDisk (s.DIR i).head → (s.DIR i).used ≠ 0 → 0 < len i := by
      intro hin iu
      rcases Nat.eq_zero_or_pos (len i) with hl | hl
      · have := h.ghost i i0 i1b iu hl
        unfold inDisk at hin
        omega
      · exact hl
    refine h.build i h.data_idx ?_ ?_ ?_ ?_ ?_ ?_ ?_ ?_
    · intro e e0 e1 eu
      by_cases he : e = i
      · right
        rw [he]
        show (upd s.DIR i _ i).head = FREE
        rw [upd_same]
      · show (upd s.DIR i _ e).head = 0 ∨ (upd s.DIR i _ e).head = FREE
        rw [hne e he]
        exact h.unused e e0 e1 (by rw [← hne e he]; exact eu)
    · intro e e0 e1 he eu
      have eu2 : (s.DIR e).used ≠ 0 := by rw [← hne e he]; exact eu
      refine ⟨eu2, ?_, ?_, rfl⟩
      · show (upd s.DIR i _ e).head = _
        rw [hne e he]
      · show (upd s.DIR i _ e).size = _
        rw [hne e he]
    · intro e e0 e1 he eu k hk
      show (if inDisk (s.DIR i).head then
          (if s.FAT (s.DIR i).head = FREE then s.FAT else upd s.FAT (s.DIR i).head FREE)
        else s.FAT) _ = _
      by_cases hin : inDisk (s.DIR i).head
      · rw [if_pos hin]
        by_cases hf : s.FAT (s.DIR i).head = FREE
        · rw [if_pos hf]
        · rw [if_neg hf]
          apply upd_other
          by_cases iu : (s.DIR i).used = 0
          · have := h.unused i i0 i1b iu
            have h6 := h.blocks e e0 e1 eu k hk
            simp only [FREE] at this
            omega
          · exact h.apart e i e0 e1 i0 i1b eu iu he k 0 hk (ilen hin iu)
      · rw [if_neg hin]
    · intro _ _ iu
      exact absurd rfl (hused1 i iu)
    · intro fd f0 f1 fu
      have hsome : ∃ e, 0 ≤ e ∧ e < MAX_FILES_ALLOWED ∧ (s.DIR e).used ≠ 0 ∧
          (s.DIR e).head = (s.fildes_array fd).file ∧ 0 ≤ (s.fildes_array fd).offset ∧
          (s.fildes_array fd).offset ≤ (s.DIR e).size ∧ e ≠ i := by
        obtain ⟨e, a, b, c, d, f, g⟩ := h.descr fd f0 f1 fu
        by_cases he : e = i
        · subst he
          have hp := @openCount_pos s.fildes_array (s.DIR e).head 32 fd f0
            (by simp only [MAX_FILDES] at f1; push_cast; omega) fu d.symm
          rcases Nat.eq_zero_or_pos (len e) with hl | hl
          · have hg := h.ghost e a b c hl
            have hz := (h.size_hi e a b c).1
            rw [hl] at hz
            rw [hg, ← h.ghosts hm] at hp
            have hne0 : refSum s.DIR DISK_BLOCKS 64 ≠ 0 := by omega
            obtain ⟨e2, a2, b2, c2, d2, r2⟩ := refSum_exists hne0
            refine ⟨e2, a2, by simp only [MAX_FILES_ALLOWED]; push_cast at b2; omega, c2,
              by rw [d2, ← hg, d], f, ?_, fun hx => r2 (by rw [hx]; exact iref)⟩
            have := h.size_lo e2 a2 (by simp only [MAX_FILES_ALLOWED]; push_cast at b2; omega) c2
            simp only [BLOCK_SIZE] at hz
            push_cast at hz
            omega
          · have hr := h.refs hm e a b c hl
            omega
        · exact ⟨e, a, b, c, d, f, g, he⟩
      obtain ⟨e, a, b, c, d, f, g, he⟩ := hsome
      refine ⟨e, a, b, ?_, ?_, f, ?_⟩
      · show (upd s.DIR i _ e).used ≠ 0
        rw [hne e he]
        exact c
      · show (upd s.DIR i _ e).head = _
        rw [hne e he]
        exact d
      · show _ ≤ (upd s.DIR i _ e).size
        rw [hne e he]
        exact g
    · intro hm2 e e0 e1 eu hl
      have he := hused1 e eu
      show (upd s.DIR i _ e).ref_cnt = openCount s.fildes_array (upd s.DIR i _ e).head 32
      rw [hne e he]
      exact h.refs hm e e0 e1 (by rw [← hne e he]; exact eu) hl
    · intro _
      show refSum (upd s.DIR i _) DISK_BLOCKS 64 = openCount s.fildes_array DISK_BLOCKS 32
      have ci : 0 ≤ i ∧ i < ((64 : Nat) : Int) := ⟨i0, by push_cast at i1 ⊢; omega⟩
      have c1 : ¬ ((0 : Int) ≠ 0 ∧ FREE = DISK_BLOCKS) := fun x => x.1 rfl
      rw [refSum_upd, if_pos ci, h.ghosts hm]
      simp only [if_neg c1, iref, ite_self]
      omega
    · exact h.closed

/-! ## Truncation on a well-formed volume -/

theorem boundary_eq (FAT : Int → Int) : ∀ (n : Nat) (b : Int),
    (∀ t, t < n → inDisk (nthBlock FAT b t)) → boundary FAT n b = some (nthBlock FAT b n) := by
  intro n
  induction n with
  | zero => intro b _; rfl
  | succ n ih =>
    intro b hin
    unfold boundary
    have hb0 : inDisk b := hin 0 (by omega)
    rw [if_pos hb0]
    exact ih (FAT b) (fun t ht => hin (t + 1) (by omega))

/-- The freeing loop of `fs_truncate` sets at most one entry of the FAT to FREE, the one
of the second block behind `last`: the pass after that store reads the FREE it has just
written. -/
theorem freeTail_lax_cases (FAT : Int → Int) (t : Int) (n : Nat) :
    freeTail_lax (n + 3) FAT t = none ∨ freeTail_lax (n + 3) FAT t = some FAT ∨
    (0 < t ∧ inDisk t ∧ inDisk (FAT t) ∧
      freeTail_lax (n + 3) FAT t = some (upd FAT (FAT t) FREE)) := by
  unfold freeTail_lax
  by_cases h1 : t > 0
  · rw [if_pos h1]
    by_cases h2 : inDisk t
    · rw [if_pos h2]
      by_cases h3 : inDisk (FAT t)
      · rw [if_pos h3]
        right; right
        refine ⟨h1, h2, h3, ?_⟩
        unfold freeTail_lax
        by_cases h4 : FAT t > 0
        · rw [if_pos h4, if_pos h3, upd_same, if_neg (by decide)]
          unfold freeTail_lax
          rw [if_neg (by decide)]
        · rw [if_neg h4]
      · rw [if_neg h3]
        unfold freeTail_lax
        by_cases h4 : FAT t > 0
        · rw [if_pos h4, if_neg h3]
          exact Or.inl rfl
        · rw [if_neg h4]
          exact Or.inr (Or.inl rfl)
    · rw [if_neg h2]
      exact Or.inl rfl
  · rw [if_neg h1]
    exact Or.inr (Or.inl rfl)

/-- Where the freeing loop makes no store outside the FAT, `freeTail_lax` is `freeTail`. -/
theorem freeTail_lax_of : ∀ (n : Nat) (FAT : Int → Int) (t : Int) (F : Int → Int),
    freeTail n FAT t = some F → freeTail_lax n FAT t = some F := by
  intro n
  induction n with
  | zero =>
    intro FAT t F h
    exact h
  | succ n ih =>
    intro FAT t F h
    unfold freeTail at h
    unfold freeTail_lax
    by_cases h1 : t > 0
    · rw [if_pos h1] at h ⊢
      by_cases h2 : inDisk t
      · rw [if_pos h2] at h ⊢
        by_cases h3 : inDisk (FAT t)
        · rw [if_pos h3] at h ⊢
          exact ih _ _ _ h
        · rw [if_neg h3] at h
          cases h
      · rw [if_neg h2] at h
        cases h
    · rw [if_neg h1] at h ⊢
      exact h

theorem fs_truncate_lax_of (s : State) (fd len : Int) (p : Int × State)
    (h : fs_truncate s fd len = some p) : fs_truncate_lax s fd len = some p := by
  unfold fs_truncate at h
  unfold fs_truncate_lax
  by_cases h1 : fd ≥ MAX_FILDES ∨ fd < 0 ∨ len > STORAGE ∨ len < 0
  · rw [if_pos h1] at h ⊢
    exact h
  rw [if_neg h1] at h ⊢
  by_cases h2 : (s.fildes_array fd).used = 0
  · rw [if_pos h2] at h ⊢
    exact h
  rw [if_neg h2] at h ⊢
  cases hscan : scan (fun i => decide ((s.DIR i).head = (s.fildes_array fd).file)) 64 0 with
  | none =>
    rw [hscan] at h
    exact h
  | some i =>
    rw [hscan] at h
    simp only [] at h ⊢
    by_cases h3 : (s.DIR i).size < len
    · rw [if_pos h3] at h ⊢
      exact h
    rw [if_neg h3] at h ⊢
    by_cases h4 : (s.DIR i).size = len
    · rw [if_pos h4] at h ⊢
      exact h
    rw [if_neg h4] at h ⊢
    cases hb : boundary s.FAT (len / BLOCK_SIZE).toNat (s.DIR i).head with
    | none =>
      rw [hb] at h
      cases h
    | some last =>
      rw [hb] at h
      simp only [] at h ⊢
      by_cases h5 : inDisk last
      · rw [if_pos h5] at h ⊢
        cases hf : freeTail 8192 s.FAT (s.FAT last) with
        | none =>
          rw [hf] at h
          cases h
        | some FAT1 =>
          rw [hf] at h
          rw [freeTail_lax_of _ _ _ _ hf]
          exact h
      · rw [if_neg h5] at h
        cases h

theorem step_lax_of (s : State) (c : Call) (p : Int × State) (h : step s c = some p) :
    step_lax s c = some p := by
  cases c with
  | fs_truncate fd len => exact fs_truncate_lax_of s fd len p h
  | fs_delete name => exact fs_delete_lax_of h
  | _ => exact h

theorem run_lax_of (calls : List Call) : ∀ (s s1 : State), run s calls = some s1 →
    run_lax s calls = some s1 := by
  induction calls with
  | nil => intro s s1 h; exact h
  | cons c cs ih =>
    intro s s1 h
    cases hst : step s c with
    | none =>
      rw [run, hst] at h
      cases h
    | some p =>
      rw [run, hst] at h
      rw [run_lax, step_lax_of s c p hst]
      exact ih p.2 s1 h

theorem fs_truncate_lax_cases (s : State) (fd : Int) (len : Int) :
    fs_truncate_lax s fd len = none ∨ (∃ r, fs_truncate_lax s fd len = some (r, s)) ∨
    ∃ i last FAT1, 0 ≤ fd ∧ fd < MAX_FILDES ∧ (s.fildes_array fd).used ≠ 0 ∧
      scan (fun i => decide ((s.DIR i).head = (s.fildes_array fd).file)) 64 0 = some i ∧
      0 ≤ len ∧ len < (s.DIR i).size ∧ len ≤ STORAGE ∧
      boundary s.FAT (len / BLOCK_SIZE).toNat (s.DIR i).head = some last ∧ inDisk last ∧
      freeTail_lax 8192 s.FAT (s.FAT last) = some FAT1 ∧
      fs_truncate_lax s fd len
        = some (0, { s with
                     fildes_array :=
                       if (s.fildes_array fd).offset > len then
                         upd s.fildes_array fd { s.fildes_array fd with offset := len }
                       else s.fildes_array
                     FAT := upd FAT1 last END_MARKER
                     DIR := upd s.DIR i { s.DIR i with size := len } }) := by
  unfold fs_truncate_lax
  by_cases h1 : fd ≥ MAX_FILDES ∨ fd < 0 ∨ len > STORAGE ∨ len < 0
  · rw [if_pos h1]
    exact Or.inr (Or.inl ⟨_, rfl⟩)
  rw [if_neg h1]
  by_cases h2 : (s.fildes_array fd).used = 0
  · rw [if_pos h2]
    exact Or.inr (Or.inl ⟨_, rfl⟩)
  rw [if_neg h2]
  cases hscan : scan (fun i => decide ((s.DIR i).head = (s.fildes_array fd).file)) 64 0 with
  | none => exact Or.inr (Or.inl ⟨_, rfl⟩)
  | some i =>
    simp only []
    by_cases h3 : (s.DIR i).size < len
    · rw [if_pos h3]
      exact Or.inr (Or.inl ⟨_, rfl⟩)
    rw [if_neg h3]
    by_cases h4 : (s.DIR i).size = len
    · rw [if_pos h4]
      exact Or.inr (Or.inl ⟨_, rfl⟩)
    rw [if_neg h4]
    cases hb : boundary s.FAT (len / BLOCK_SIZE).toNat (s.DIR i).head with
    | none => exact Or.inl rfl
    | some last =>
      simp only []
      by_cases h5 : inDisk last
      · rw [if_pos h5]
        cases hf : freeTail_lax 8192 s.FAT (s.FAT last) with
        | none => exact Or.inl rfl
        | some FAT1 =>
          refine Or.inr (Or.inr ⟨i, last, FAT1, ?_, ?_, h2, rfl, ?_, ?_, ?_, hb, h5, hf, rfl⟩)
          all_goals omega
      · rw [if_neg h5]
        exact Or.inl rfl

theorem Sound.scan_first {s : State} {len : Int → Nat} (h : Sound s len) {fd : Int} (h0 : 0 ≤ fd)
    (h1 : fd < MAX_FILDES) (hu : (s.fildes_array fd).used ≠ 0) :
    ∃ e, 0 ≤ e ∧ e < MAX_FILES_ALLOWED ∧ (s.DIR e).used ≠ 0 ∧
      (s.DIR e).head = (s.fildes_array fd).file ∧
      (∀ j, 0 ≤ j → j < e → (s.DIR j).head ≠ (s.fildes_array fd).file) ∧
      0 ≤ (s.fildes_array fd).offset ∧ (s.fildes_array fd).offset ≤ (s.DIR e).size ∧
      scan (fun i => decide ((s.DIR i).head = (s.fildes_array fd).file)) 64 0 = some e ∧
      scan (fun i => decide ((s.fildes_array fd).file = (s.DIR i).head)) 64 0 = some e := by
  obtain ⟨e, e0, e1, eu, eh, ef, o0, o1⟩ := h.first h0 h1 hu
  have e1b : e < 64 := e1
  refine ⟨e, e0, e1, eu, eh, ef, o0, o1, ?_, ?_⟩
  · apply scan_eq_some_of e0 (by push_cast; omega)
    · simp [eh]
    · intro k k0 k1
      simpa using ef k k0 k1
  · apply scan_eq_some_of e0 (by push_cast; omega)
    · simp [eh]
    · intro k k0 k1
      have := ef k k0 k1
      simpa using fun hh => this hh.symm

theorem admitted_truncate {s : State} {fd len : Int}
    (hadm : admitted s (.fs_truncate fd len) 0 = true) (j : Int) (j0 : 0 ≤ j)
    (j1 : j < MAX_FILDES) (hj : j ≠ fd) (ju : (s.fildes_array j).used ≠ 0)
    (jf : (s.fildes_array j).file = (s.fildes_array fd).file) :
    (s.fildes_array j).offset ≤ len := by
  unfold admitted at hadm
  simp only [ne_eq, not_true_eq_false, decide_False, Bool.false_or, List.all_eq_true,
    List.mem_range, decide_eq_true_eq] at hadm
  have := hadm j.toNat (by simp only [MAX_FILDES] at j1; omega)
  rw [show ((j.toNat : Nat) : Int) = j by omega] at this
  rcases this with a | a | a | a
  · exact absurd a hj
  · exact absurd a ju
  · exact absurd jf a
  · exact a

theorem fs_truncate_lax_sound {s : State} {len : Int → Nat} (h : Sound s len)
    (fd length r : Int) (s1 : State) (hc : fs_truncate_lax s fd length = some (r, s1))
    (hadm : admitted s (.fs_truncate fd length) r = true) : ∃ len1, Sound s1 len1 := by
  rcases fs_truncate_lax_cases s fd length with h1 | ⟨r2, h1⟩ |
    ⟨i, last, FAT1, f0, f1, fu, hscan, l0, l1, l2, hb, hlast, hfree, h1⟩
  · rw [h1] at hc
    cases hc
  · rw [h1] at hc
    have hs : s = s1 := congrArg Prod.snd (Option.some.inj hc)
    rw [← hs]
    exact ⟨len, h⟩
  · rw [h1] at hc
    have hr : (0 : Int) = r := congrArg Prod.fst (Option.some.inj hc)
    have hs := congrArg Prod.snd (Option.some.inj hc)
    simp only at hs
    subst hs
    subst hr
    obtain ⟨e, i0, i1, iu, ih, ifirst, o0, o1, hsc, _⟩ := h.scan_first f0 f1 fu
    have hie : i = e := Option.some.inj (hscan.symm.trans hsc)
    subst hie
    -- the chain of the file and the boundary block
    have hsz := (h.size_hi i i0 i1 iu).1
    simp only [BLOCK_SIZE] at hsz
    have hL : 0 < len i := by
      rcases Nat.eq_zero_or_pos (len i) with hl | hl
      · rw [hl] at hsz
        push_cast at hsz
        omega
      · exact hl
    have hch := h.chain i i0 i1 iu hL
    have hn : (length / BLOCK_SIZE).toNat < len i := by
      simp only [BLOCK_SIZE]
      omega
    generalize hnd : (length / BLOCK_SIZE).toNat = n at hn hb
    have hlen_n : length < 4096 * ((n : Int) + 1) := by
      rw [← hnd]
      simp only [BLOCK_SIZE]
      omega
    rw [boundary_eq s.FAT n _ (fun t ht => validChain_inDisk hch t (by omega))] at hb
    have hlast_eq : last = nthBlock s.FAT (s.DIR i).head n := (Option.some.inj hb).symm
    subst hlast_eq
    -- the FAT after the call: at most the entries of two blocks of the chain change
    have hframe : ∀ b, b ≠ nthBlock s.FAT (s.DIR i).head n →
        (n + 2 < len i → b ≠ nthBlock s.FAT (s.DIR i).head (n + 2)) →
        upd FAT1 (nthBlock s.FAT (s.DIR i).head n) END_MARKER b = s.FAT b := by
      intro b hb1 hb2
      rw [upd_other _ _ hb1]
      rcases freeTail_lax_cases s.FAT (s.FAT (nthBlock s.FAT (s.DIR i).head n)) 8189 with
        hx | hx | ⟨t0, t1, t2, hx⟩
      · rw [hx] at hfree
        cases hfree
      · rw [hx] at hfree
        rw [← Option.some.inj hfree]
      · rw [hx] at hfree
        rw [← Option.some.inj hfree]
        apply upd_other
        have q1 : s.FAT (nthBlock s.FAT (s.DIR i).head n) = nthBlock s.FAT (s.DIR i).head (n + 1) :=
          (nthBlock_succ _ _ _).symm
        have q2 : s.FAT (nthBlock s.FAT (s.DIR i).head (n + 1))
            = nthBlock s.FAT (s.DIR i).head (n + 1 + 1) := (nthBlock_succ _ _ _).symm
        rw [q1] at t1 t2 ⊢
        rw [q2] at t2 ⊢
        have hend := validChain_end hch
        have k1 : n + 1 < len i := by
          rcases Nat.lt_or_ge (n + 1) (len i) with hh | hh
          · exact hh
          · have : n + 1 = len i := by omega
            rw [this, hend] at t1
            exact absurd t1 not_inDisk_END
        have k2 : n + 1 + 1 < len i := by
          rcases Nat.lt_or_ge (n + 1 + 1) (len i) with hh | hh
          · exact hh
          · have : n + 1 + 1 = len i := by omega
            rw [this, hend] at t2
            exact absurd t2 not_inDisk_END
        exact hb2 k2
    have hdir_other : ∀ e, e ≠ i → upd s.DIR i { s.DIR i with size := length } e = s.DIR e :=
      fun e he => upd_other _ _ he
    have hdir : ∀ e, (upd s.DIR i { s.DIR i with size := length } e).used = (s.DIR e).used ∧
        (upd s.DIR i { s.DIR i with size := length } e).head = (s.DIR e).head ∧
        (upd s.DIR i { s.DIR i with size := length } e).ref_cnt = (s.DIR e).ref_cnt := by
      intro e
      by_cases he : e = i
      · rw [he, upd_same]
        exact ⟨rfl, rfl, rfl⟩
      · rw [upd_other _ _ he]
        exact ⟨rfl, rfl, rfl⟩
    have hfds : ∀ j,
        ((if (s.fildes_array fd).offset > length then
            upd s.fildes_array fd { s.fildes_array fd with offset := length }
          else s.fildes_array) j).used = (s.fildes_array j).used ∧
        ((if (s.fildes_array fd).offset > length then
            upd s.fildes_array fd { s.fildes_array fd with offset := length }
          else s.fildes_array) j).file = (s.fildes_array j).file ∧
        (j ≠ fd → ((if (s.fildes_array fd).offset > length then
            upd s.fildes_array fd { s.fildes_array fd with offset := length }
          else s.fildes_array) j).offset = (s.fildes_array j).offset) ∧
        (j = fd → 0 ≤ ((if (s.fildes_array fd).offset > length then
            upd s.fildes_array fd { s.fildes_array fd with offset := length }
          else s.fildes_array) j).offset ∧ ((if (s.fildes_array fd).offset > length then
            upd s.fildes_array fd { s.fildes_array fd with offset := length }
          else s.fildes_array) j).offset ≤ length) := by
      intro j
      by_cases hgt : (s.fildes_array fd).offset > length
      · rw [if_pos hgt]
        by_cases hj : j = fd
        · rw [hj, upd_same]
          exact ⟨rfl, rfl, fun hh => absurd rfl hh, fun _ => ⟨l0, le_refl _⟩⟩
        · rw [upd_other _ _ hj]
          exact ⟨rfl, rfl, fun _ => rfl, fun hh => absurd hh hj⟩
      · rw [if_neg hgt]
        refine ⟨rfl, rfl, fun _ => rfl, fun hh => ?_⟩
        rw [hh]
        exact ⟨o0, by omega⟩
    have hcut := validChain_cut hch hn
      (fun t ht => hframe _ (validChain_distinct hch ht hn)
        (fun hk => validChain_distinct hch (show t < n + 2 by omega) hk))
      (upd_same _ _ _)
    refine ⟨fun e => if e = i then n + 1 else len e, ?_⟩
    refine h.build i h.data_idx ?_ ?_ ?_ ?_ ?_ ?_ ?_ ?_
    · intro e e0 e1 eu
      show (upd s.DIR i _ e).head = 0 ∨ (upd s.DIR i _ e).head = FREE
      rw [(hdir e).2.1]
      exact h.unused e e0 e1 (by rw [← (hdir e).1]; exact eu)
    · intro e e0 e1 he eu
      refine ⟨by rw [← (hdir e).1]; exact eu, (hdir e).2.1, ?_, if_neg he⟩
      show (upd s.DIR i _ e).size = _
      rw [hdir_other e he]
    · intro e e0 e1 he eu k hk
      exact hframe _ (h.apart e i e0 e1 i0 i1 eu iu he k n hk (by omega))
        (fun hk2 => h.apart e i e0 e1 i0 i1 eu iu he k (n + 2) hk hk2)
    · intro _ _ _
      show ((if i = i then n + 1 else len i) = 0 → (upd s.DIR i _ i).head = DISK_BLOCKS) ∧
        (0 < (if i = i then n + 1 else len i) →
          validChain (upd FAT1 (nthBlock s.FAT (s.DIR i).head n) END_MARKER)
            (upd s.DIR i _ i).head (if i = i then n + 1 else len i)) ∧
        (∀ k, k < (if i = i then n + 1 else len i) →
          6 ≤ nthBlock (upd FAT1 (nthBlock s.FAT (s.DIR i).head n) END_MARKER)
            (upd s.DIR i _ i).head k) ∧
        0 ≤ (upd s.DIR i _ i).size ∧
        (upd s.DIR i _ i).size ≤ BLOCK_SIZE * ((if i = i then n + 1 else len i : Nat) : Int) ∧
        (upd s.DIR i _ i).size ≤ STORAGE ∧
        (∀ k, k < (if i = i then n + 1 else len i) →
          ∀ e, 0 ≤ e → e < MAX_FILES_ALLOWED → e ≠ i → (s.DIR e).used ≠ 0 → ∀ k2, k2 < len e →
            nthBlock (upd FAT1 (nthBlock s.FAT (s.DIR i).head n) END_MARKER)
              (upd s.DIR i _ i).head k ≠ nthBlock s.FAT (s.DIR e).head k2)
      rw [(hdir i).2.1, if_pos rfl, upd_same]
      refine ⟨fun x => absurd x (by omega), fun _ => hcut.1, ?_, l0, ?_, l2, ?_⟩
      · intro k hk
        rw [hcut.2 k (by omega)]
        exact h.blocks i i0 i1 iu k (by omega)
      · show length ≤ BLOCK_SIZE * ((n + 1 : Nat) : Int)
        simp only [BLOCK_SIZE]
        push_cast
        omega
      · intro k hk e e0 e1 he eu k2 hk2
        rw [hcut.2 k (by omega)]
        exact h.apart i e i0 i1 e0 e1 iu eu (fun x => he x.symm) k k2 (by omega) hk2
    · intro j j0 j1 ju
      have ju2 : (s.fildes_array j).used ≠ 0 := by rw [← (hfds j).1]; exact ju
      obtain ⟨e, a, b, c, d, f, g⟩ := h.descr j j0 j1 ju2
      by_cases hj : j = fd
      · refine ⟨i, i0, i1, by rw [(hdir i).1]; exact iu, ?_, ((hfds j).2.2.2 hj).1, ?_⟩
        · rw [(hdir i).2.1, (hfds j).2.1, hj]
          exact ih
        · show _ ≤ (upd s.DIR i _ i).size
          rw [upd_same]
          exact ((hfds j).2.2.2 hj).2
      · by_cases he : e = i
        · refine ⟨e, a, b, by rw [(hdir e).1]; exact c, ?_, ?_, ?_⟩
          · rw [(hdir e).2.1, (hfds j).2.1]
            exact d
          · rw [(hfds j).2.2.1 hj]
            exact f
          · rw [(hfds j).2.2.1 hj]
            show _ ≤ (upd s.DIR i _ e).size
            rw [he, upd_same]
            show (s.fildes_array j).offset ≤ length
            exact admitted_truncate hadm j j0 j1 hj ju2 (by rw [← d, he, ih])
        · refine ⟨e, a, b, by rw [(hdir e).1]; exact c, ?_, ?_, ?_⟩
          · rw [(hdir e).2.1, (hfds j).2.1]
            exact d
          · rw [(hfds j).2.2.1 hj]
            exact f
          · rw [(hfds j).2.2.1 hj]
            show _ ≤ (upd s.DIR i _ e).size
            rw [hdir_other e he]
            exact g
    · intro hm e e0 e1 eu hl
      have eu2 : (s.DIR e).used ≠ 0 := by rw [← (hdir e).1]; exact eu
      have hl2 : 0 < len e := by
        by_cases he : e = i
        · rw [he]
          exact hL
        · have hl3 : 0 < (if e = i then n + 1 else len e) := hl
          rw [if_neg he] at hl3
          exact hl3
      show (upd s.DIR i _ e).ref_cnt = openCount _ (upd s.DIR i _ e).head 32
      rw [(hdir e).2.2, (hdir e).2.1, h.refs hm e e0 e1 eu2 hl2]
      apply openCount_congr
      intro j _
      rw [(hfds j).1, (hfds j).2.1]
    · exact ghosts_same DISK_BLOCKS h.ghosts rfl hdir (fun j => ⟨(hfds j).1, (hfds j).2.1⟩)
    · intro hm j j0 j1
      show (_ : file_descriptor).used = 0
      rw [(hfds j).1]
      exact h.closed hm j j0 j1

/-! ## Writing on a well-formed volume -/

theorem Sound.of_same {s s1 : State} {len : Int → Nat} (h : Sound s len) (hfs : s1.fs = s.fs)
    (hFAT : s1.FAT = s.FAT) (hDIR : s1.DIR = s.DIR) (hm : s1.mounted = s.mounted)
    (hfds : ∀ j, (s1.fildes_array j).used = (s.fildes_array j).used ∧
      (s1.fildes_array j).file = (s.fildes_array j).file ∧
      (s1.fildes_array j).offset = (s.fildes_array j).offset) : Sound s1 len := by
  refine h.build (-1) (by rw [hfs]; exact h.data_idx) (by rw [hDIR]; exact h.unused)
    (fun e e0 e1 _ eu => by rw [hDIR] at eu ⊢; exact ⟨eu, rfl, rfl, rfl⟩)
    (fun _ _ _ _ _ _ _ => by rw [hFAT]) (fun hh => absurd hh (by decide)) ?_ ?_ ?_ ?_
  · intro fd f0 f1 fu
    rw [(hfds fd).1] at fu
    obtain ⟨e, a, b, c, d, f, g⟩ := h.descr fd f0 f1 fu
    rw [hDIR, (hfds fd).2.1, (hfds fd).2.2]
    exact ⟨e, a, b, c, d, f, g⟩
  · intro hm1 e e0 e1 eu hl
    rw [hDIR] at eu ⊢
    rw [hm] at hm1
    rw [h.refs hm1 e e0 e1 eu hl]
    apply openCount_congr
    intro j _
    rw [(hfds j).1, (hfds j).2.1]
  · exact ghosts_same DISK_BLOCKS h.ghosts hm (fun e => by rw [hDIR]; exact ⟨rfl, rfl, rfl⟩)
      (fun j => ⟨(hfds j).1, (hfds j).2.1⟩)
  · intro hm1 fd f0 f1
    rw [hm] at hm1
    rw [(hfds fd).1]
    exact h.closed hm1 fd f0 f1

/-- The descriptors after `write_finish`: only the offset of the calling one changes. -/
theorem upd_offset_same (fds : Int → file_descriptor) (fd : Int) (o : Int) (j : Int) :
    (upd fds fd { fds fd with offset := o } j).used = (fds j).used ∧
    (upd fds fd { fds fd with offset := o } j).file = (fds j).file ∧
    (j ≠ fd → (upd fds fd { fds fd with offset := o } j).offset = (fds j).offset) ∧
    (j = fd → (upd fds fd { fds fd with offset := o } j).offset = o) := by
  by_cases hj : j = fd
  · rw [hj, upd_same]
    exact ⟨rfl, rfl, fun hh => absurd rfl hh, fun _ => rfl⟩
  · rw [upd_other _ _ hj]
    exact ⟨rfl, rfl, fun _ => rfl, fun hh => absurd hh hj⟩

theorem fs_write_nonpos_state (storage : Int) {s : State} {fd e : Int} {L : Nat}
    (h : OpenOn s fd e L) (buf : Int → UInt8) (n : Nat)
    (hrem : toInt32 (if (n + toSizeT (s.fildes_array fd).offset) % 2 ^ 64 > toSizeT storage then
      toSizeT (storage - (s.fildes_array fd).offset) else n) ≤ 0)
    (r : Int) (s1 : State) (hw : fs_write_with storage s fd buf n = some (r, s1)) :
    s1.fs = s.fs ∧ s1.FAT = s.FAT ∧ s1.DIR = s.DIR ∧ s1.mounted = s.mounted ∧
    ∀ j, (s1.fildes_array j).used = (s.fildes_array j).used ∧
      (s1.fildes_array j).file = (s.fildes_array j).file ∧
      (s1.fildes_array j).offset = (s.fildes_array j).offset := by
  have hscan := h.scan_entry
  obtain ⟨hf0, hf1, hused, he0, he1, hhead, hfirst, hchain, hsz, hszi, ho0, ho1⟩ := h
  simp only [MAX_FILDES, BLOCK_SIZE] at hf1 hsz
  have hfd : ∀ j, (upd s.fildes_array fd
        { s.fildes_array fd with offset := (s.fildes_array fd).offset } j).used
        = (s.fildes_array j).used ∧
      (upd s.fildes_array fd
        { s.fildes_array fd with offset := (s.fildes_array fd).offset } j).file
        = (s.fildes_array j).file ∧
      (upd s.fildes_array fd
        { s.fildes_array fd with offset := (s.fildes_array fd).offset } j).offset
        = (s.fildes_array j).offset := by
    intro j
    obtain ⟨a, b, c, d⟩ := upd_offset_same s.fildes_array fd (s.fildes_array fd).offset j
    refine ⟨a, b, ?_⟩
    by_cases hj : j = fd
    · rw [d hj, hj]
    · exact c hj
  by_cases hn0 : n = 0
  · unfold fs_write_with at hw
    rw [if_neg (by simp only [MAX_FILDES]; omega), if_neg (by simp only [MAX_FILDES]; omega),
      if_neg hused, if_pos hn0] at hw
    have hs : s = s1 := congrArg Prod.snd (Option.some.inj hw)
    subst hs
    exact ⟨rfl, rfl, rfl, rfl, fun _ => ⟨rfl, rfl, rfl⟩⟩
  · have hk1 : (((s.fildes_array fd).offset / BLOCK_SIZE).toNat : Int) * BLOCK_SIZE
        ≤ (s.fildes_array fd).offset := by
      simp only [BLOCK_SIZE]; omega
    rw [fs_write_with_eq storage s fd buf n e _ _ _ (by simp only [MAX_FILDES]; omega)
      (by simp only [MAX_FILDES]; omega) hused hn0 hscan
      (walk_spec s.FAT _ _ 0 _ hk1 (fun t ht => validChain_inDisk hchain t (by
        simp only [BLOCK_SIZE] at ht hk1; omega)))] at hw
    generalize toInt32 (if (n + toSizeT (s.fildes_array fd).offset) % 2 ^ 64 > toSizeT storage then
      toSizeT (storage - (s.fildes_array fd).offset) else n) = m at hrem hw
    rw [writeLoop_nonpos storage s.fs.data_idx buf m.toNat _ _ _ _ _ _ m _ _ hrem] at hw
    simp only [write_finish] at hw
    cases hb : block_write s.disk
        (nthBlock s.FAT (s.fildes_array fd).file ((s.fildes_array fd).offset / BLOCK_SIZE).toNat)
        (fun _ => 255) with
    | none =>
      rw [hb] at hw
      have hs := congrArg Prod.snd (Option.some.inj hw)
      simp only at hs
      subst hs
      exact ⟨rfl, rfl, rfl, rfl, hfd⟩
    | some d1 =>
      rw [hb] at hw
      have hs := congrArg Prod.snd (Option.some.inj hw)
      simp only at hs
      subst hs
      refine ⟨rfl, rfl, ?_, rfl, hfd⟩
      show (if (s.DIR e).size < (s.fildes_array fd).offset then _ else s.DIR) = s.DIR
      rw [if_neg (not_lt.mpr ho1)]

/-- Through a descriptor whose file is not a block of the disk, at offset 0, `fs_write`
of a count that is not 0 returns -1 or reads outside the FAT. -/
theorem fs_write_off_disk (storage : Int) (s : State) (fd : Int) (buf : Int → UInt8) (n : Nat)
    (e : Int) (h1 : ¬ (fd > MAX_FILDES ∨ fd < 0)) (h2 : fd < MAX_FILDES)
    (h3 : (s.fildes_array fd).used ≠ 0) (h4 : n ≠ 0)
    (hscan : scan (fun e => decide ((s.fildes_array fd).file = (s.DIR e).head)) 64 0 = some e)
    (hoff : (s.fildes_array fd).offset = 0) (hfile : ¬ inDisk (s.fildes_array fd).file)
    (hend : (s.fildes_array fd).file ≠ END_MARKER) :
    fs_write_with storage s fd buf n = none ∨ ∃ s1, fs_write_with storage s fd buf n = some (-1, s1) := by
  have hwalk : walk s.FAT ((s.fildes_array fd).offset / BLOCK_SIZE).toNat
      (s.fildes_array fd).offset 0 (s.fildes_array fd).file
      = some ((s.fildes_array fd).offset, 0, (s.fildes_array fd).file) := by
    rw [hoff]
    rfl
  rw [fs_write_with_eq storage s fd buf n e _ _ _ h1 h2 h3 h4 hscan hwalk]
  generalize toInt32 (if (n + toSizeT (s.fildes_array fd).offset) % 2 ^ 64 > toSizeT storage then
    toSizeT (storage - (s.fildes_array fd).offset) else n) = m
  by_cases hm : m ≤ 0
  · rw [writeLoop_nonpos storage s.fs.data_idx buf m.toNat _ _ _ _ _ _ m _ _ hm]
    right
    simp only [write_finish, block_write, if_neg hfile]
    exact ⟨_, rfl⟩
  · have hm0 : 0 < m := by omega
    obtain ⟨k, hk⟩ : ∃ k, m.toNat = k + 1 := ⟨m.toNat - 1, by omega⟩
    rw [hk]
    right
    unfold writeLoop
    simp only []
    rw [if_pos hm0, extend_of_ne (by exact hend)]
    simp only [block_read, if_neg hfile, write_finish]
    exact ⟨_, rfl⟩

theorem Sound.openOn {s : State} {len : Int → Nat} (h : Sound s len) {fd e : Int} (f0 : 0 ≤ fd)
    (f1 : fd < MAX_FILDES) (fu : (s.fildes_array fd).used ≠ 0) (e0 : 0 ≤ e)
    (e1 : e < MAX_FILES_ALLOWED) (eu : (s.DIR e).used ≠ 0)
    (eh : (s.DIR e).head = (s.fildes_array fd).file)
    (ef : ∀ j, 0 ≤ j → j < e → (s.DIR j).head ≠ (s.fildes_array fd).file)
    (o0 : 0 ≤ (s.fildes_array fd).offset) (o1 : (s.fildes_array fd).offset ≤ (s.DIR e).size)
    (hl : 0 < len e) : OpenOn s fd e (len e) := by
  have hs := h.size_hi e e0 e1 eu
  refine ⟨f0, f1, fu, e0, e1, eh, ef, ?_, hs.1, ?_, o0, o1⟩
  · rw [← eh]
    exact h.chain e e0 e1 eu hl
  · have := hs.2
    simp only [STORAGE] at this
    omega

theorem fs_write_sound {s : State} {len : Int → Nat} (h : Sound s len) (fd : Int)
    (buf : Int → UInt8) (n : Nat) (hn : n < 2 ^ 64) (r : Int) (s1 : State)
    (hc : fs_write s fd buf n = some (r, s1))
    (hadm : admitted s (.fs_write fd buf n) r = true) : ∃ len1, Sound s1 len1 := by
  unfold fs_write at hc
  by_cases h1 : fd > MAX_FILDES ∨ fd < 0
  · unfold fs_write_with at hc
    rw [if_pos h1] at hc
    have hs : s = s1 := congrArg Prod.snd (Option.some.inj hc)
    rw [← hs]
    exact ⟨len, h⟩
  by_cases h2 : ¬ fd < MAX_FILDES
  · unfold fs_write_with at hc
    rw [if_neg h1, if_pos h2] at hc
    cases hc
  by_cases h3 : (s.fildes_array fd).used = 0
  · unfold fs_write_with at hc
    rw [if_neg h1, if_neg h2, if_pos h3] at hc
    have hs : s = s1 := congrArg Prod.snd (Option.some.inj hc)
    rw [← hs]
    exact ⟨len, h⟩
  by_cases h4 : n = 0
  · unfold fs_write_with at hc
    rw [if_neg h1, if_neg h2, if_neg h3, if_pos h4] at hc
    have hs : s = s1 := congrArg Prod.snd (Option.some.inj hc)
    rw [← hs]
    exact ⟨len, h⟩
  have f0 : 0 ≤ fd := by omega
  have f1 : fd < MAX_FILDES := by omega
  have hr : r ≠ -1 := by
    unfold admitted at hadm
    simp only [decide_eq_true_eq] at hadm
    rcases hadm with a | a | a | a
    · exact a
    · omega
    · omega
    · exact absurd a h3
  obtain ⟨e, e0, e1, eu, eh, ef, o0, o1, _, hscan⟩ := h.scan_first f0 f1 h3
  have hsz := h.size_hi e e0 e1 eu
  rcases Nat.eq_zero_or_pos (len e) with hl | hl
  · -- a file created on a full volume: no block to write to
    exfalso
    have hhead := h.ghost e e0 e1 eu hl
    have hoff : (s.fildes_array fd).offset = 0 := by
      have := hsz.1
      rw [hl] at this
      simp only [BLOCK_SIZE] at this
      push_cast at this
      omega
    rw [eh] at hhead
    rcases fs_write_off_disk STORAGE s fd buf n e h1 (by omega) h3 h4 hscan hoff
      (by rw [hhead]; decide) (by rw [hhead]; decide) with hx | ⟨s2, hx⟩
    · rw [hx] at hc
      cases hc
    · rw [hx] at hc
      exact hr (congrArg Prod.fst (Option.some.inj hc)).symm
  · have hopen := h.openOn f0 f1 h3 e0 e1 eu eh ef o0 o1 hl
    have hd6 := h.data_idx
    have hszS : (s.DIR e).size ≤ 16777216 := hsz.2
    by_cases hcase : (n : Int) + (s.fildes_array fd).offset < 2 ^ 64
        ∧ 0 < min (n : Int) (STORAGE - (s.fildes_array fd).offset)
    · obtain ⟨res, w1, _, w3, w4⟩ := fs_write_spec STORAGE (by decide) (by decide) hopen hl
        (by rw [hd6]; decide) buf n hcase.1 hcase.2
      have hres : res = (r, s1) := Option.some.inj (w1.symm.trans hc)
      subst hres
      have hmin : r = min (n : Int) (STORAGE - (s.fildes_array fd).offset) := by
        rcases w3 with h3' | ⟨h3', _⟩
        · exact h3'
        · exact absurd h3' hr
      have hW := w4 hmin
      have hpos := hcase.2
      rw [← hmin] at hW hpos
      simp only at hW
      obtain ⟨p_fds, p_dir, p_rest, p_chain, p_old, p_fresh, p_frame, _, _⟩ := hW
      have hrS : (s.fildes_array fd).offset + r ≤ 16777216 := by
        have := min_le_right (n : Int) (STORAGE - (s.fildes_array fd).offset)
        rw [← hmin] at this
        simp only [STORAGE] at this
        omega
      generalize hB : blocksFor ((s.fildes_array fd).offset + r) = B at p_chain p_fresh
      have hBc : (s.fildes_array fd).offset + r ≤ 4096 * (B : Int) := by
        have := blocksFor_covers ((s.fildes_array fd).offset + r)
        rw [hB] at this
        exact this
      have hdir : ∀ x, (s1.DIR x).used = (s.DIR x).used ∧ (s1.DIR x).head = (s.DIR x).head ∧
          (s1.DIR x).ref_cnt = (s.DIR x).ref_cnt ∧ (x ≠ e → (s1.DIR x).size = (s.DIR x).size) ∧
          (s.DIR x).size ≤ (s1.DIR x).size ∧
          (x = e → (s1.DIR x).size = max (s.DIR e).size ((s.fildes_array fd).offset + r)) := by
        intro x
        rw [p_dir]
        by_cases hlt : (s.DIR e).size < (s.fildes_array fd).offset + r
        · rw [if_pos hlt]
          by_cases hx : x = e
          · rw [hx, upd_same]
            refine ⟨rfl, rfl, rfl, fun hh => absurd rfl hh, le_of_lt hlt, fun _ => ?_⟩
            show (s.fildes_array fd).offset + r = _
            rw [max_eq_right (le_of_lt hlt)]
          · rw [upd_other _ _ hx]
            exact ⟨rfl, rfl, rfl, fun _ => rfl, le_refl _, fun hh => absurd hh hx⟩
        · rw [if_neg hlt]
          refine ⟨rfl, rfl, rfl, fun _ => rfl, le_refl _, fun hh => ?_⟩
          rw [hh, max_eq_left (not_lt.mp hlt)]
      have hfds : ∀ j, (s1.fildes_array j).used = (s.fildes_array j).used ∧
          (s1.fildes_array j).file = (s.fildes_array j).file ∧
          (j ≠ fd → (s1.fildes_array j).offset = (s.fildes_array j).offset) ∧
          (j = fd → (s1.fildes_array j).offset = (s.fildes_array fd).offset + r) := by
        intro j
        rw [p_fds]
        exact upd_offset_same s.fildes_array fd _ j
      refine ⟨fun x => if x = e then max (len e) B else len x, ?_⟩
      refine h.build e (by rw [p_rest.1]; exact hd6) ?_ ?_ ?_ ?_ ?_ ?_ ?_ ?_
      · intro x x0 x1 xu
        rw [(hdir x).2.1]
        exact h.unused x x0 x1 (by rw [← (hdir x).1]; exact xu)
      · intro x x0 x1 hx xu
        exact ⟨by rw [← (hdir x).1]; exact xu, (hdir x).2.1, (hdir x).2.2.2.1 hx, if_neg hx⟩
      · intro x x0 x1 hx xu k hk
        apply p_frame _ (h.not_free x0 x1 xu hk)
        rw [← eh]
        exact h.apart x e x0 x1 e0 e1 xu eu hx k (len e - 1) hk (by omega)
      · intro _ _ _
        rw [(hdir e).2.1, (hdir e).2.2.2.2.2 rfl, if_pos rfl, eh]
        refine ⟨fun x => ?_, fun _ => p_chain, ?_, ?_, ?_, ?_, ?_⟩
        · have := le_max_left (len e) B
          omega
        · intro k hk
          by_cases hkl : k < len e
          · rw [p_old k hkl, ← eh]
            exact h.blocks e e0 e1 eu k hkl
          · have := (p_fresh k (by omega) (by
              rcases le_total (len e) B with hh | hh
              · rw [max_eq_right hh] at hk
                exact hk
              · rw [max_eq_left hh] at hk
                omega)).2
            rw [hd6] at this
            exact this
        · have := h.size_lo e e0 e1 eu
          exact le_trans this (le_max_left _ _)
        · have hs1 := hsz.1
          simp only [BLOCK_SIZE] at hs1 ⊢
          have := le_max_left (len e) B
          have := le_max_right (len e) B
          apply max_le
          · have : ((len e : Nat) : Int) ≤ ((max (len e) B : Nat) : Int) := by
              exact_mod_cast le_max_left (len e) B
            omega
          · have : ((B : Nat) : Int) ≤ ((max (len e) B : Nat) : Int) := by
              exact_mod_cast le_max_right (len e) B
            omega
        · simp only [STORAGE]
          exact max_le hszS hrS
        · intro k hk x x0 x1 hx xu k2 hk2
          by_cases hkl : k < len e
          · rw [p_old k hkl, ← eh]
            exact h.apart e x e0 e1 x0 x1 eu xu (fun hh => hx hh.symm) k k2 hkl hk2
          · have := (p_fresh k (by omega) (by
              rcases le_total (len e) B with hh | hh
              · rw [max_eq_right hh] at hk
                exact hk
              · rw [max_eq_left hh] at hk
                omega)).1
            intro hh
            rw [hh] at this
            exact h.not_free x0 x1 xu hk2 this
      · intro j j0 j1 ju
        have ju2 : (s.fildes_array j).used ≠ 0 := by rw [← (hfds j).1]; exact ju
        by_cases hj : j = fd
        · refine ⟨e, e0, e1, by rw [(hdir e).1]; exact eu, ?_, ?_, ?_⟩
          · rw [(hdir e).2.1, (hfds j).2.1, hj]
            exact eh
          · rw [(hfds j).2.2.2 hj]
            omega
          · rw [(hfds j).2.2.2 hj, (hdir e).2.2.2.2.2 rfl]
            exact le_max_right _ _
        · obtain ⟨x, a, b, c, d, f, g⟩ := h.descr j j0 j1 ju2
          refine ⟨x, a, b, by rw [(hdir x).1]; exact c, ?_, ?_, ?_⟩
          · rw [(hdir x).2.1, (hfds j).2.1]
            exact d
          · rw [(hfds j).2.2.1 hj]
            exact f
          · rw [(hfds j).2.2.1 hj]
            exact le_trans g (hdir x).2.2.2.2.1
      · intro hm x x0 x1 xu hlx
        have xu2 : (s.DIR x).used ≠ 0 := by rw [← (hdir x).1]; exact xu
        have hlx2 : 0 < len x := by
          by_cases hx : x = e
          · rw [hx]
            exact hl
          · have hl3 : 0 < (if x = e then max (len e) B else len x) := hlx
            rw [if_neg hx] at hl3
            exact hl3
        rw [p_rest.2.2.1] at hm
        rw [(hdir x).2.2.1, (hdir x).2.1, h.refs hm x x0 x1 xu2 hlx2]
        apply openCount_congr
        intro j _
        rw [(hfds j).1, (hfds j).2.1]
      · exact ghosts_same DISK_BLOCKS h.ghosts p_rest.2.2.1
          (fun x => ⟨(hdir x).1, (hdir x).2.1, (hdir x).2.2.1⟩)
          (fun j => ⟨(hfds j).1, (hfds j).2.1⟩)
      · intro hm j j0 j1
        rw [p_rest.2.2.1] at hm
        rw [(hfds j).1]
        exact h.closed hm j j0 j1
    · have hrem := write_clamp_nonpos STORAGE n (s.fildes_array fd).offset o0 (by omega)
        (by decide) (by decide) hn hcase
      obtain ⟨k1, k2, k3, k4, k5⟩ := fs_write_nonpos_state STORAGE hopen buf n hrem r s1 hc
      exact ⟨len, h.of_same k1 k2 k3 k4 k5⟩

/-! ## Format, mount and unmount on a well-formed volume -/

theorem make_fs_sound (s : State) (image : Int → Block)
    (hclosed : ∀ fd, 0 ≤ fd → fd < MAX_FILDES → (s.fildes_array fd).used = 0) :
    Sound (make_fs s image).2 (fun _ => 0) :=
  ⟨rfl, fun _ _ _ _ => Or.inl rfl, fun _ _ _ eu _ => absurd rfl eu,
    fun _ _ _ eu _ => absurd rfl eu, fun _ _ _ eu => absurd rfl eu,
    fun _ _ _ eu => absurd rfl eu, fun _ _ _ eu => absurd rfl eu,
    fun _ _ _ _ _ _ eu _ _ _ _ _ _ => absurd rfl eu,
    fun fd f0 f1 fu => absurd (hclosed fd f0 f1) fu,
    fun hm => absurd rfl hm, fun hm => absurd rfl hm, fun _ => hclosed⟩

theorem mount_fs_sound {s : State} {len : Int → Nat} (h : Sound s len) :
    Sound (mount_fs s).2 len := by
  unfold mount_fs
  by_cases hc : s.mounted ≠ 0 ∨ s.validfs = 0
  · rw [if_pos hc]
    exact h
  · rw [if_neg hc]
    have hdir : ∀ e, ((fun i => if 0 ≤ i ∧ i < MAX_FILES_ALLOWED then { s.DIR i with ref_cnt := 0 }
          else s.DIR i) e).used = (s.DIR e).used ∧
        ((fun i => if 0 ≤ i ∧ i < MAX_FILES_ALLOWED then { s.DIR i with ref_cnt := 0 }
          else s.DIR i) e).head = (s.DIR e).head ∧
        ((fun i => if 0 ≤ i ∧ i < MAX_FILES_ALLOWED then { s.DIR i with ref_cnt := 0 }
          else s.DIR i) e).size = (s.DIR e).size := by
      intro e
      simp only []
      split <;> exact ⟨rfl, rfl, rfl⟩
    have hfds : ∀ fd, 0 ≤ fd → fd < MAX_FILDES →
        ((fun i => if 0 ≤ i ∧ i < MAX_FILDES then
            ({ used := 0, file := FREE, offset := 0 } : file_descriptor)
          else s.fildes_array i) fd).used = 0 := by
      intro fd f0 f1
      simp only []
      rw [if_pos ⟨f0, f1⟩]
    refine h.build (-1) h.data_idx ?_ ?_ (fun _ _ _ _ _ _ _ => rfl)
      (fun hh => absurd hh (by decide)) ?_ ?_ ?_ ?_
    · intro e e0 e1 eu
      show (_ : dir_entry).head = 0 ∨ (_ : dir_entry).head = FREE
      rw [(hdir e).2.1]
      exact h.unused e e0 e1 (by rw [← (hdir e).1]; exact eu)
    · intro e e0 e1 _ eu
      exact ⟨by rw [← (hdir e).1]; exact eu, (hdir e).2.1, (hdir e).2.2, rfl⟩
    · intro fd f0 f1 fu
      exact absurd (hfds fd f0 f1) fu
    · intro _ e e0 e1 eu hl
      show (if 0 ≤ e ∧ e < MAX_FILES_ALLOWED then { s.DIR e with ref_cnt := 0 }
          else s.DIR e).ref_cnt = openCount _ _ 32
      rw [if_pos ⟨e0, e1⟩, openCount_zero]
      intro j j0 j1 hx
      exact hx.1 (hfds j j0 (by simp only [MAX_FILDES]; push_cast at j1; omega))
    · intro _
      refine Eq.trans (refSum_zero ?_) (Eq.symm (openCount_zero ?_))
      · intro e e0 e1 _ _
        show (if 0 ≤ e ∧ e < MAX_FILES_ALLOWED then { s.DIR e with ref_cnt := 0 }
          else s.DIR e).ref_cnt = 0
        rw [if_pos ⟨e0, by simp only [MAX_FILES_ALLOWED]; push_cast at e1; omega⟩]
      · intro j j0 j1 hx
        exact hx.1 (hfds j j0 (by simp only [MAX_FILDES]; push_cast at j1; omega))
    · intro hm
      exact absurd (show (1 : Int) = 0 from hm) (by decide)

theorem umount_fs_sound {s : State} {len : Int → Nat} (h : Sound s len) (image : Int → Block) :
    Sound (umount_fs s image).2 len := by
  unfold umount_fs
  by_cases hc : s.mounted = 0
  · rw [if_pos hc]
    exact h
  · rw [if_neg hc]
    have hfds : ∀ fd, 0 ≤ fd → fd < MAX_FILDES →
        ((fun i => if 0 ≤ i ∧ i < MAX_FILDES then
            ({ used := 0, file := FREE, offset := 0 } : file_descriptor)
          else s.fildes_array i) fd).used = 0 := by
      intro fd f0 f1
      simp only []
      rw [if_pos ⟨f0, f1⟩]
    exact h.build (-1) h.data_idx h.unused (fun e e0 e1 _ eu => ⟨eu, rfl, rfl, rfl⟩)
      (fun _ _ _ _ _ _ _ => rfl) (fun hh => absurd hh (by decide))
      (fun fd f0 f1 fu => absurd (hfds fd f0 f1) fu) (fun hm => absurd rfl hm)
      (fun hm => absurd rfl hm) (fun _ => hfds)

theorem sound_fresh (image : Int → Block) : Sound (fresh image) (fun _ => 0) :=
  mount_fs_sound (make_fs_sound boot image (fun _ _ _ => rfl))

/-! ## Descriptor safety along the admitted calls -/

theorem step_lax_sound {s : State} {len : Int → Nat} (h : Sound s len) (c : Call) (r : Int)
    (s1 : State) (hstep : step_lax s c = some (r, s1)) (hex : exact_at s c = true)
    (hadm : admitted s c r = true) : ∃ len1, Sound s1 len1 := by
  cases c with
  | make_fs image =>
    have hs : (make_fs s image).2 = s1 := congrArg Prod.snd (Option.some.inj hstep)
    have hm : s.mounted = 0 := by simpa [exact_at] using hex
    rw [← hs]
    exact ⟨_, make_fs_sound s image (h.closed hm)⟩
  | mount_fs =>
    have hs : (mount_fs s).2 = s1 := congrArg Prod.snd (Option.some.inj hstep)
    rw [← hs]
    exact ⟨len, mount_fs_sound h⟩
  | umount_fs image =>
    have hs : (umount_fs s image).2 = s1 := congrArg Prod.snd (Option.some.inj hstep)
    rw [← hs]
    exact ⟨len, umount_fs_sound h image⟩
  | fs_create name => exact fs_create_sound h name r s1 hstep
  | fs_delete name =>
    have hm : s.mounted ≠ 0 := by simpa [exact_at] using hex
    exact ⟨len, fs_delete_lax_sound h hm name r s1 hstep⟩
  | fs_open name =>
    have hm : s.mounted ≠ 0 := by simpa [exact_at] using hex
    exact ⟨len, fs_open_sound h hm name r s1 hstep hadm⟩
  | fs_close fd =>
    have hm : s.mounted ≠ 0 := by simpa [exact_at] using hex
    exact ⟨len, fs_close_sound h hm fd r s1 hstep⟩
  | fs_read fd buf n =>
    have hstep2 : (fs_read s fd buf n).map (fun r => (r.1, r.2.2)) = some (r, s1) := hstep
    rcases fs_read_cases s fd buf n with hc | ⟨r2, out, hc⟩
    · rw [hc] at hstep2
      cases hstep2
    · rw [hc] at hstep2
      have hs : s = s1 := congrArg Prod.snd (Option.some.inj hstep2)
      rw [← hs]
      exact ⟨len, h⟩
  | fs_write fd buf n =>
    have hn : n < 2 ^ 64 := by
      have : s.mounted ≠ 0 ∧ n < 2 ^ 64 := by simpa [exact_at] using hex
      exact this.2
    exact fs_write_sound h fd buf n hn r s1 hstep hadm
  | fs_lseek fd off => exact ⟨len, fs_lseek_sound h fd off r s1 hstep⟩
  | fs_truncate fd length => exact fs_truncate_lax_sound h fd length r s1 hstep hadm

theorem admitted_run_sound (calls : List Call) : ∀ (s s1 : State) (len : Int → Nat), Sound s len →
    admitted_run s calls = true → run_lax s calls = some s1 → ∃ len1, Sound s1 len1 := by
  induction calls with
  | nil =>
    intro s s1 len h _ hrun
    have hs : s = s1 := Option.some.inj hrun
    rw [← hs]
    exact ⟨len, h⟩
  | cons c cs ih =>
    intro s s1 len h hadm hrun
    cases hst : step_lax s c with
    | none =>
      rw [run_lax, hst] at hrun
      cases hrun
    | some p =>
      rw [run_lax, hst] at hrun
      rw [admitted_run, hst] at hadm
      simp only [Bool.and_eq_true] at hadm
      obtain ⟨len1, h1⟩ := step_lax_sound h c p.1 p.2 hst hadm.1.1 hadm.1.2
      exact ih p.2 s1 len1 h1 hadm.2 hrun

/-- C23, as the code has it: in every state that a sequence of admitted calls of the
public API reaches from a freshly formatted and mounted volume, every used descriptor
has `0 ≤ offset ≤ size` of the file it references, the size that `fs_get_filesize`
returns for it. The calls are those of `admitted_run`: made where the model is the
code (`exact_at`), and none of them an `fs_open` that claims a descriptor for an unused
directory slot, an `fs_write` that returns -1 through a descriptor in use, or an
`fs_truncate` that returns 0 while another descriptor of the file lies beyond the new
length; a truncation that frees blocks and the deletion of a slot whose head is no
block of the disk are included (`fs_truncate_lax`, `fs_delete_lax`). -/
theorem descriptor_safety (image : Int → Block) (calls : List Call) (s : State)
    (hadm : admitted_run (fresh image) calls = true)
    (hrun : run_lax (fresh image) calls = some s) :
    ∀ fd, 0 ≤ fd → fd < MAX_FILDES → (s.fildes_array fd).used ≠ 0 →
      0 ≤ (s.fildes_array fd).offset ∧ (s.fildes_array fd).offset ≤ fs_get_filesize s fd := by
  obtain ⟨len1, h1⟩ := admitted_run_sound calls (fresh image) s _ (sound_fresh image) hadm hrun
  intro fd f0 f1 fu
  exact h1.safe f0 f1 fu

/-! ## Truncation returns on a well-formed volume -/

theorem freeTail_lax_some (FAT : Int → Int) (t : Int) (n : Nat)
    (h : 0 < t → inDisk t ∧ (0 < FAT t → inDisk (FAT t))) :
    ∃ F, freeTail_lax (n + 3) FAT t = some F := by
  rcases freeTail_lax_cases FAT t n with hx | hx | ⟨_, _, _, hx⟩
  · exfalso
    unfold freeTail_lax at hx
    by_cases h1 : t > 0
    · obtain ⟨h2, h3⟩ := h h1
      rw [if_pos h1, if_pos h2] at hx
      by_cases h4 : inDisk (FAT t)
      · rw [if_pos h4] at hx
        unfold freeTail_lax at hx
        by_cases h5 : FAT t > 0
        · rw [if_pos h5, if_pos h4, upd_same, if_neg (by decide)] at hx
          unfold freeTail_lax at hx
          rw [if_neg (by decide)] at hx
          cases hx
        · rw [if_neg h5] at hx
          cases hx
      · rw [if_neg h4] at hx
        unfold freeTail_lax at hx
        by_cases h5 : FAT t > 0
        · exact h4 (h3 h5)
        · rw [if_neg h5] at hx
          cases hx
    · rw [if_neg h1] at hx
      cases hx
  · exact ⟨_, hx⟩
  · exact ⟨_, hx⟩

/-- On a well-formed volume `fs_truncate_lax` returns through every descriptor in use,
and it returns 0 for every length from 0 to the size of the file: no read leaves the
FAT, whether blocks are freed or not. -/
theorem fs_truncate_lax_returns {s : State} {len : Int → Nat} (h : Sound s len) (fd length : Int)
    (f0 : 0 ≤ fd) (f1 : fd < MAX_FILDES) (fu : (s.fildes_array fd).used ≠ 0) :
    ∃ r s1, fs_truncate_lax s fd length = some (r, s1) ∧
      (0 ≤ length → length ≤ fs_get_filesize s fd → r = 0) ∧
      ∀ j, (s1.fildes_array j).used = (s.fildes_array j).used := by
  obtain ⟨e, e0, e1, eu, eh, ef, o0, o1, hsc, _⟩ := h.scan_first f0 f1 fu
  have hsize := fs_get_filesize_of s fd e f0 f1 fu e0 e1 eh ef
  have hsz := h.size_hi e e0 e1 eu
  unfold fs_truncate_lax
  by_cases h1 : fd ≥ MAX_FILDES ∨ fd < 0 ∨ length > STORAGE ∨ length < 0
  · rw [if_pos h1]
    refine ⟨_, _, rfl, fun l0 l1 => ?_, fun _ => rfl⟩
    rw [hsize] at l1
    have := hsz.2
    omega
  rw [if_neg h1, if_neg fu]
  simp only [hsc]
  by_cases h3 : (s.DIR e).size < length
  · rw [if_pos h3]
    refine ⟨_, _, rfl, fun l0 l1 => ?_, fun _ => rfl⟩
    rw [hsize] at l1
    omega
  rw [if_neg h3]
  by_cases h4 : (s.DIR e).size = length
  · rw [if_pos h4]
    exact ⟨_, _, rfl, fun _ _ => rfl, fun _ => rfl⟩
  rw [if_neg h4]
  have hs1 := hsz.1
  simp only [BLOCK_SIZE] at hs1
  have hL : 0 < len e := by
    rcases Nat.eq_zero_or_pos (len e) with hl | hl
    · rw [hl] at hs1
      push_cast at hs1
      omega
    · exact hl
  have hch := h.chain e e0 e1 eu hL
  have hn : (length / BLOCK_SIZE).toNat < len e := by
    simp only [BLOCK_SIZE]
    omega
  generalize (length / BLOCK_SIZE).toNat = n at hn
  rw [boundary_eq s.FAT n _ (fun t ht => validChain_inDisk hch t (by omega))]
  simp only []
  rw [if_pos (validChain_inDisk hch n hn)]
  have hend := validChain_end hch
  have hnext : ∀ k, k < len e → 0 < nthBlock s.FAT (s.DIR e).head (k + 1) →
      inDisk (nthBlock s.FAT (s.DIR e).head (k + 1)) := by
    intro k hk hpos
    rcases Nat.lt_or_ge (k + 1) (len e) with hh | hh
    · exact validChain_inDisk hch (k + 1) hh
    · have : k + 1 = len e := by omega
      rw [this, hend] at hpos
      exact absurd hpos (by decide)
  have q1 : s.FAT (nthBlock s.FAT (s.DIR e).head n) = nthBlock s.FAT (s.DIR e).head (n + 1) :=
    (nthBlock_succ _ _ _).symm
  have q2 : s.FAT (nthBlock s.FAT (s.DIR e).head (n + 1))
      = nthBlock s.FAT (s.DIR e).head (n + 1 + 1) := (nthBlock_succ _ _ _).symm
  obtain ⟨F, hF⟩ := freeTail_lax_some s.FAT (s.FAT (nthBlock s.FAT (s.DIR e).head n)) 8189 (by
    rw [q1, q2]
    intro hpos
    have hin := hnext n hn hpos
    refine ⟨hin, ?_⟩
    intro hpos2
    have hn1 : n + 1 < len e := by
      rcases Nat.lt_or_ge (n + 1) (len e) with hh | hh
      · exact hh
      · have : n + 1 = len e := by omega
        rw [this, hend] at hin
        exact absurd hin not_inDisk_END
    exact hnext (n + 1) hn1 hpos2)
  rw [hF]
  refine ⟨_, _, rfl, fun _ _ => rfl, fun j => ?_⟩
  show ((if (s.fildes_array fd).offset > length then
      upd s.fildes_array fd { s.fildes_array fd with offset := length }
    else s.fildes_array) j).used = _
  by_cases hgt : (s.fildes_array fd).offset > length
  · rw [if_pos hgt]
    exact (upd_offset_same s.fildes_array fd length j).1
  · rw [if_neg hgt]

/-! ## Runs at concrete inputs -/

theorem run_lax_cons_of {s : State} {c : Call} {r : Int} {s1 : State} (cs : List Call)
    (h : step_lax s c = some (r, s1)) : run_lax s (c :: cs) = run_lax s1 cs := by
  rw [run_lax, h]

theorem exact_run_cons_of {s : State} {c : Call} {r : Int} {s1 : State} (cs : List Call)
    (h : step_lax s c = some (r, s1)) :
    exact_run s (c :: cs) = (exact_at s c && exact_run s1 cs) := by
  rw [exact_run, h]

theorem admitted_run_cons_of {s : State} {c : Call} {r : Int} {s1 : State} (cs : List Call)
    (h : step_lax s c = some (r, s1)) :
    admitted_run s (c :: cs) = (exact_at s c && admitted s c r && admitted_run s1 cs) := by
  rw [admitted_run, h]

theorem admitted_run_cons {s : State} {c : Call} {r : Int} {s1 : State} (cs : List Call)
    (h : step_lax s c = some (r, s1)) (hx : exact_at s c = true) (ha : admitted s c r = true)
    (hrest : admitted_run s1 cs = true) : admitted_run s (c :: cs) = true := by
  rw [admitted_run, h]
  simp only [hx, ha, hrest, Bool.and_self]

theorem admitted_run_exact (calls : List Call) : ∀ s, admitted_run s calls = true →
    exact_run s calls = true := by
  induction calls with
  | nil => intro s _; rfl
  | cons c cs ih =>
    intro s h
    cases hst : step_lax s c with
    | none =>
      rw [admitted_run, hst] at h
      cases h
    | some p =>
      rw [admitted_run, hst] at h
      rw [exact_run, hst]
      simp only [Bool.and_eq_true] at h ⊢
      exact ⟨h.1.1, ih p.2 h.2⟩

/-- A run that frees blocks: on a fresh volume a file of three blocks (6, 7, 8) is
written through descriptor 0 and truncated to 10 bytes. Every call is admitted, the
truncation returns 0, and the descriptor stays in use. -/
theorem truncation_run :
    ∃ s, run_lax (fresh blank) [.fs_create "f", .fs_open "f", .fs_write 0 (fun _ => 97) 12288,
        .fs_truncate 0 10] = some s ∧
      admitted_run (fresh blank) [.fs_create "f", .fs_open "f", .fs_write 0 (fun _ => 97) 12288,
        .fs_truncate 0 10] = true ∧
      (s.fildes_array 0).used ≠ 0 := by
  have h1 : step_lax (fresh blank) (.fs_create "f") = some (0, created blank "f") :=
    fs_create_fresh blank "f" (by decide)
  have h2 : step_lax (created blank "f") (.fs_open "f") = some (0, opened blank "f") :=
    fs_open_created blank "f"
  obtain ⟨s3, h3, hs3⟩ := fs_write_packed (openOn_opened blank "f") rfl rfl rfl (by decide)
    (fun b b0 b1 => by
      have hb : b = 6 := le_antisymm b1 b0
      rw [hb]
      decide)
    (fun b b0 _ => by
      show upd (fun _ => FREE) 6 END_MARKER b = FREE
      have hb : (6 : Int) < b := b0
      rw [upd_other _ _ (ne_of_gt hb)])
    (fun _ => 97) 12288 (by decide) (by decide) (by decide)
  have h3' : step_lax (opened blank "f") (.fs_write 0 (fun _ => 97) 12288)
      = some (12288, s3) := h3
  have hfds : s3.fildes_array
      = upd (opened blank "f").fildes_array 0
          { (opened blank "f").fildes_array 0 with offset := 12288 } :=
    congrArg State.fildes_array hs3
  have hdir : s3.DIR = upd (opened blank "f").DIR 0 { (opened blank "f").DIR 0 with size := 12288 } :=
    congrArg State.DIR hs3
  have hmnt : s3.mounted = 1 := congrArg State.mounted hs3
  have hpre : admitted_run (fresh blank) [.fs_create "f", .fs_open "f",
      .fs_write 0 (fun _ => 97) 12288] = true := by
    exact admitted_run_cons _ h1 (by decide) (by decide)
      (admitted_run_cons _ h2 (by decide) (by decide)
        (admitted_run_cons _ h3' (by decide) (by decide) rfl))
  have hrun3 : run_lax (fresh blank) [.fs_create "f", .fs_open "f",
      .fs_write 0 (fun _ => 97) 12288] = some s3 := by
    rw [run_lax_cons_of _ h1, run_lax_cons_of _ h2, run_lax_cons_of _ h3']
    rfl
  obtain ⟨len3, hsound⟩ := admitted_run_sound _ (fresh blank) s3 _ (sound_fresh blank) hpre hrun3
  have hu3 : (s3.fildes_array 0).used ≠ 0 := by
    rw [hfds, upd_same]
    decide
  have hsize : fs_get_filesize s3 0 = 12288 := by
    rw [fs_get_filesize_of s3 0 0 (le_refl _) (by decide) hu3 (le_refl _) (by decide)
      (by rw [hdir, hfds, upd_same, upd_same]; rfl) (fun j j0 j1 => absurd j0 (not_le.mpr j1)),
      hdir, upd_same]
  obtain ⟨r, s4, h4, hr, hused⟩ := fs_truncate_lax_returns hsound 0 10 (le_refl _) (by decide) hu3
  have hr0 : r = 0 := hr (by decide) (by rw [hsize]; decide)
  subst hr0
  have h4' : step_lax s3 (.fs_truncate 0 10) = some (0, s4) := h4
  have hadm4 : admitted s3 (.fs_truncate 0 10) 0 = true := by
    show (decide ((0 : Int) ≠ 0) ||
      (List.range 32).all fun j =>
        decide ((j : Int) = 0 ∨ (s3.fildes_array j).used = 0
          ∨ (s3.fildes_array j).file ≠ (s3.fildes_array 0).file
          ∨ (s3.fildes_array j).offset ≤ 10)) = true
    rw [hfds]
    decide
  have hex4 : exact_at s3 (.fs_truncate 0 10) = true := by
    show decide (s3.mounted ≠ 0) = true
    rw [hmnt]
    decide
  refine ⟨s4, ?_, ?_, ?_⟩
  · rw [run_lax_cons_of _ h1, run_lax_cons_of _ h2, run_lax_cons_of _ h3', run_lax_cons_of _ h4']
    rfl
  · exact admitted_run_cons _ h1 (by decide) (by decide)
      (admitted_run_cons _ h2 (by decide) (by decide)
        (admitted_run_cons _ h3' (by decide) (by decide)
          (admitted_run_cons _ h4' hex4 hadm4 rfl)))
  · rw [hused 0]
    exact hu3

theorem descriptor_safety_witness :
    (∃ s, run_lax (fresh blank) [.fs_create "f", .fs_open "f", .fs_write 0 (fun _ => 97) 12288,
        .fs_truncate 0 10] = some s ∧ (s.fildes_array 0).used ≠ 0 ∧
      0 ≤ (s.fildes_array 0).offset ∧ (s.fildes_array 0).offset ≤ fs_get_filesize s 0) ∧
    (∃ s, run_lax (fresh blank) [.fs_create "f", .fs_open "f", .fs_open "f",
        .fs_write 0 (fun _ => 97) 20, .fs_lseek 1 12, .fs_truncate 0 12, .fs_lseek 0 3,
        .fs_truncate 1 5, .umount_fs blank, .mount_fs, .fs_open "f",
        .fs_write 0 (fun _ => 98) 7, .fs_lseek 0 2, .fs_create "g", .fs_delete "g",
        .fs_delete ""] = some s ∧ (s.fildes_array 0).used ≠ 0 ∧
      0 ≤ (s.fildes_array 0).offset ∧ (s.fildes_array 0).offset ≤ fs_get_filesize s 0) := by
  refine ⟨?_, ?_⟩
  · obtain ⟨s, hrun, hadm, hu⟩ := truncation_run
    exact ⟨s, hrun, hu, descriptor_safety blank _ s hadm hrun 0 (le_refl _) (by decide) hu⟩
  · have hsome : (run_lax (fresh blank) [.fs_create "f", .fs_open "f", .fs_open "f",
        .fs_write 0 (fun _ => 97) 20, .fs_lseek 1 12, .fs_truncate 0 12, .fs_lseek 0 3,
        .fs_truncate 1 5, .umount_fs blank, .mount_fs, .fs_open "f",
        .fs_write 0 (fun _ => 98) 7, .fs_lseek 0 2, .fs_create "g", .fs_delete "g",
        .fs_delete ""]).isSome = true := by decide
    obtain ⟨s, hs⟩ := Option.isSome_iff_exists.mp hsome
    have hused : (run_lax (fresh blank) [.fs_create "f", .fs_open "f", .fs_open "f",
        .fs_write 0 (fun _ => 97) 20, .fs_lseek 1 12, .fs_truncate 0 12, .fs_lseek 0 3,
        .fs_truncate 1 5, .umount_fs blank, .mount_fs, .fs_open "f",
        .fs_write 0 (fun _ => 98) 7, .fs_lseek 0 2, .fs_create "g", .fs_delete "g",
        .fs_delete ""]).map (fun s => (s.fildes_array 0).used)
        = some 1 := by decide
    rw [hs] at hused
    have hu : (s.fildes_array 0).used ≠ 0 := by
      have : (s.fildes_array 0).used = 1 := Option.some.inj hused
      rw [this]
      decide
    exact ⟨s, hs, hu, descriptor_safety blank _ s (by decide) hs 0 (le_refl _) (by decide) hu⟩

/-- An `fs_open` that claims a descriptor for an unused slot breaks descriptor safety,
which is why `admitted` leaves it out: after `fs_create("a")` the call `fs_open("")`
matches the unused slot 1, whose `head` is 0, and returns
descriptor 0 with `file = 0`. `fs_write` of 5 bytes through it returns 5 (it writes to
block 0) and moves the offset to 5; `fs_create("b")` then takes slot 1, and the first
slot whose head is 0 is the unused slot 2, of size 0: descriptor 0 is in use at offset
5 and `fs_get_filesize` returns 0 for it. The `fs_open` is the only call of the four
that is not `admitted`. -/
theorem descriptor_on_unused_slot :
    returns_lax (fresh blank) [.fs_create "a", .fs_open "", .fs_write 0 (fun _ => 7) 5,
      .fs_create "b"] = some [0, 0, 5, 0]
    ∧ (run_lax (fresh blank) [.fs_create "a", .fs_open "", .fs_write 0 (fun _ => 7) 5,
      .fs_create "b"]).map (fun s => ((s.fildes_array 0).used, (s.fildes_array 0).file,
        (s.fildes_array 0).offset, fs_get_filesize s 0)) = some (1, 0, 5, 0)
    ∧ admitted_run (fresh blank) [.fs_create "a"] = true
    ∧ (run_lax (fresh blank) [.fs_create "a"]).map (fun s => admitted s (.fs_open "") 0)
      = some false
    ∧ (run_lax (fresh blank) [.fs_create "a", .fs_open ""]).map
        (fun s => admitted_run s [.fs_write 0 (fun _ => 7) 5, .fs_create "b"]) = some true := by
  decide

/-! ## Name uniqueness along the calls -/

theorem fs_truncate_lax_same (s : State) (fd len : Int) (r : Int) (s1 : State)
    (h : fs_truncate_lax s fd len = some (r, s1)) (j : Int) :
    (s1.DIR j).used = (s.DIR j).used ∧ (s1.DIR j).name = (s.DIR j).name := by
  rcases fs_truncate_lax_cases s fd len with hc | ⟨r2, hc⟩ |
    ⟨i, last, FAT1, _, _, _, _, _, _, _, _, _, _, hc⟩
  · rw [hc] at h
    cases h
  · rw [hc] at h
    have hs : s = s1 := congrArg Prod.snd (Option.some.inj h)
    subst hs
    exact ⟨rfl, rfl⟩
  · rw [hc] at h
    have hs := congrArg Prod.snd (Option.some.inj h)
    simp only at hs
    subst hs
    show (upd s.DIR i _ j).used = _ ∧ (upd s.DIR i _ j).name = _
    by_cases hj : j = i
    · subst hj
      rw [upd_same]
      exact ⟨rfl, rfl⟩
    · rw [upd_other _ _ hj]
      exact ⟨rfl, rfl⟩

theorem fs_delete_lax_dirNames (s : State) (name : String) (r : Int) (s1 : State)
    (hN : DirNames s) (h : fs_delete_lax s name = some (r, s1)) : DirNames s1 := by
  rcases fs_delete_lax_cases s name with hc | ⟨i, _, hc⟩
  · rw [hc] at h
    have hs : s = s1 := congrArg Prod.snd (Option.some.inj h)
    subst hs
    exact hN
  · rw [hc] at h
    have hs := congrArg Prod.snd (Option.some.inj h)
    simp only at hs
    subst hs
    refine ⟨?_, ?_⟩
    · intro k k0 k1 hu
      have hu2 : (upd s.DIR i { s.DIR i with used := 0, size := 0, head := FREE, name := "" } k).used
          = 0 := hu
      show (upd s.DIR i { s.DIR i with used := 0, size := 0, head := FREE, name := "" } k).name = ""
      by_cases hk : k = i
      · subst hk
        rw [upd_same]
      · rw [upd_other _ _ hk] at hu2 ⊢
        exact hN.unused_empty k k0 k1 hu2
    · intro a b a0 a1 b0 b1 ha hb hn
      have ha2 : (upd s.DIR i { s.DIR i with used := 0, size := 0, head := FREE, name := "" } a).used
          ≠ 0 := ha
      have hb2 : (upd s.DIR i { s.DIR i with used := 0, size := 0, head := FREE, name := "" } b).used
          ≠ 0 := hb
      have hn2 : (upd s.DIR i { s.DIR i with used := 0, size := 0, head := FREE, name := "" } a).name
          = (upd s.DIR i { s.DIR i with used := 0, size := 0, head := FREE, name := "" } b).name := hn
      by_cases hai : a = i
      · rw [hai, upd_same] at ha2
        exact absurd rfl ha2
      · by_cases hbi : b = i
        · rw [hbi, upd_same] at hb2
          exact absurd rfl hb2
        · rw [upd_other _ _ hai] at ha2 hn2
          rw [upd_other _ _ hbi] at hb2 hn2
          exact hN.unique a b a0 a1 b0 b1 ha2 hb2 hn2

theorem step_lax_dirNames (s : State) (c : Call) (r : Int) (s1 : State) (hN : DirNames s)
    (h : step_lax s c = some (r, s1)) : DirNames s1 := by
  cases c with
  | fs_truncate fildes length =>
    exact dirNames_of_same hN (fs_truncate_lax_same s fildes length r s1 h)
  | make_fs image => exact step_dirNames s (.make_fs image) r s1 hN h
  | mount_fs => exact step_dirNames s .mount_fs r s1 hN h
  | umount_fs image => exact step_dirNames s (.umount_fs image) r s1 hN h
  | fs_create name => exact step_dirNames s (.fs_create name) r s1 hN h
  | fs_delete name => exact fs_delete_lax_dirNames s name r s1 hN h
  | fs_open name => exact step_dirNames s (.fs_open name) r s1 hN h
  | fs_close fildes => exact step_dirNames s (.fs_close fildes) r s1 hN h
  | fs_read fildes buf nbyte => exact step_dirNames s (.fs_read fildes buf nbyte) r s1 hN h
  | fs_write fildes buf nbyte => exact step_dirNames s (.fs_write fildes buf nbyte) r s1 hN h
  | fs_lseek fildes offset => exact step_dirNames s (.fs_lseek fildes offset) r s1 hN h

theorem exact_run_dirNames (calls : List Call) : ∀ (s s1 : State), DirNames s →
    exact_run s calls = true → run_lax s calls = some s1 → DirNames s1 := by
  induction calls with
  | nil =>
    intro s s1 hN _ h
    have hs : s = s1 := Option.some.inj h
    rw [← hs]
    exact hN
  | cons c cs ih =>
    intro s s1 hN hx h
    cases hst : step_lax s c with
    | none =>
      rw [run_lax, hst] at h
      cases h
    | some p =>
      rw [run_lax, hst] at h
      rw [exact_run, hst] at hx
      simp only [Bool.and_eq_true] at hx
      exact ih p.2 s1 (step_lax_dirNames s c p.1 p.2 hN hst) hx.2 h

/-- C24: in every state that a sequence of calls of the public API reaches from a
freshly formatted and mounted volume, no two used directory entries have the same
name, and `fs_create` of the name of a used entry returns -1 and changes nothing. The
calls are made where the model is the code (`exact_run`: the file operations on the
mounted volume, `make_fs` on the unmounted one, `mount_fs` and `umount_fs` anywhere),
and a truncation that frees blocks and the deletion of a slot whose head is no block
of the disk are included (`fs_truncate_lax`, `fs_delete_lax`). -/
theorem names_unique (image : Int → Block) (calls : List Call) (s : State)
    (hexact : exact_run (fresh image) calls = true)
    (hrun : run_lax (fresh image) calls = some s) :
    (∀ i j, 0 ≤ i → i < MAX_FILES_ALLOWED → 0 ≤ j → j < MAX_FILES_ALLOWED →
      (s.DIR i).used ≠ 0 → (s.DIR j).used ≠ 0 → (s.DIR i).name = (s.DIR j).name → i = j) ∧
    (∀ i, 0 ≤ i → i < MAX_FILES_ALLOWED → (s.DIR i).used ≠ 0 →
      fs_create s (s.DIR i).name = some (-1, s)) :=
  ⟨(exact_run_dirNames calls (fresh image) s (dirNames_fresh image) hexact hrun).unique,
    fun i i0 i1 hu => fs_create_dup s (s.DIR i).name i i0 i1 hu rfl⟩

theorem names_unique_witness :
    (∃ s, run_lax (fresh blank) [.fs_create "f", .fs_open "f", .fs_write 0 (fun _ => 97) 12288,
        .fs_truncate 0 10] = some s ∧
      (∀ i j, 0 ≤ i → i < MAX_FILES_ALLOWED → 0 ≤ j → j < MAX_FILES_ALLOWED →
        (s.DIR i).used ≠ 0 → (s.DIR j).used ≠ 0 → (s.DIR i).name = (s.DIR j).name → i = j) ∧
      (∀ i, 0 ≤ i → i < MAX_FILES_ALLOWED → (s.DIR i).used ≠ 0 →
        fs_create s (s.DIR i).name = some (-1, s))) ∧
    (∃ s, run_lax (fresh blank) [.fs_create "a", .fs_create "b", .fs_create "a", .fs_open "a",
        .fs_write 0 (fun _ => 7) 10, .fs_truncate 0 4, .fs_close 0, .fs_delete "a",
        .fs_delete "", .umount_fs blank, .mount_fs, .fs_create "b", .fs_create "c"] = some s ∧
      (∀ i j, 0 ≤ i → i < MAX_FILES_ALLOWED → 0 ≤ j → j < MAX_FILES_ALLOWED →
        (s.DIR i).used ≠ 0 → (s.DIR j).used ≠ 0 → (s.DIR i).name = (s.DIR j).name → i = j) ∧
      (∀ i, 0 ≤ i → i < MAX_FILES_ALLOWED → (s.DIR i).used ≠ 0 →
        fs_create s (s.DIR i).name = some (-1, s))) := by
  refine ⟨?_, ?_⟩
  · obtain ⟨s, hrun, hadm, _⟩ := truncation_run
    exact ⟨s, hrun, names_unique blank _ s (admitted_run_exact _ _ hadm) hrun⟩
  · have hsome : (run_lax (fresh blank) [.fs_create "a", .fs_create "b", .fs_create "a",
        .fs_open "a", .fs_write 0 (fun _ => 7) 10, .fs_truncate 0 4, .fs_close 0, .fs_delete "a",
        .fs_delete "", .umount_fs blank, .mount_fs, .fs_create "b", .fs_create "c"]).isSome = true := by
      decide
    obtain ⟨s, hs⟩ := Option.isSome_iff_exists.mp hsome
    exact ⟨s, hs, names_unique blank _ s (by decide) hs⟩

end VFS
